import Mathlib

/-!
# PranaDB shard state machine: a shallow embedding

The definitions below follow `cluster/dragon/shard_odsm.go`.  Byte slices are lists of
natural numbers (a byte is a number below 256), machine integers are natural numbers
reduced explicitly modulo `2 ^ 32` or `2 ^ 64` where the Go code can wrap, and the
mutable receiver of the Go methods is threaded through as a value.  A Go `panic` and a
returned `error` are kept apart in `Outcome`.
-/

namespace Pranadb

/-- Byte slices: every element stands for one byte. -/
abbrev Bytes := List Nat

/-- All elements of a byte slice are real bytes. -/
def IsBytes (b : Bytes) : Prop := ∀ x ∈ b, x < 256

/-! ## Integer codecs (package `common`) -/

/-- The `n` low-order bytes of `v`, most significant first. -/
def beBytes : Nat → Nat → Bytes
  | 0, _ => []
  | n + 1, v => beBytes n (v / 256) ++ [v % 256]

/-- The `n` low-order bytes of `v`, least significant first. -/
def leBytes : Nat → Nat → Bytes
  | 0, _ => []
  | n + 1, v => (v % 256) :: leBytes n (v / 256)

/-- Value of a big-endian byte string. -/
def beVal (b : Bytes) : Nat := b.foldl (fun acc x => acc * 256 + x) 0

/-- Value of a little-endian byte string. -/
def leVal : Bytes → Nat
  | [] => 0
  | x :: xs => x + 256 * leVal xs

/-- Modelled from the spec: `common.AppendUint32ToBufferBE` is not part of the sources at
hand; the spec fixes the encoding as a big-endian `u32` appended to the buffer. -/
def AppendUint32ToBufferBE (buffer : Bytes) (v : Nat) : Bytes := buffer ++ beBytes 4 v

/-- Modelled from the spec: `common.AppendUint64ToBufferBE` is not part of the sources at
hand; the spec fixes the encoding as a big-endian `u64` appended to the buffer. -/
def AppendUint64ToBufferBE (buffer : Bytes) (v : Nat) : Bytes := buffer ++ beBytes 8 v

/-- Modelled from the spec: `common.AppendUint32ToBufferLE` is not part of the sources at
hand; the spec fixes the encoding as a little-endian `u32` appended to the buffer. -/
def AppendUint32ToBufferLE (buffer : Bytes) (v : Nat) : Bytes := buffer ++ leBytes 4 v

/-- Modelled from the spec: `common.AppendUint64ToBufferLE` is not part of the sources at
hand; the spec fixes the encoding as a little-endian `u64` appended to the buffer. -/
def AppendUint64ToBufferLE (buffer : Bytes) (v : Nat) : Bytes := buffer ++ leBytes 8 v

/-- Modelled from the spec: `common.ReadUint32FromBufferLE` is not part of the sources at
hand.  It reads a little-endian `u32` at `offset` and returns it with the offset behind
it; `none` stands for the out-of-range panic. -/
def ReadUint32FromBufferLE (buffer : Bytes) (offset : Nat) : Option (Nat × Nat) :=
  if offset + 4 ≤ buffer.length then some (leVal ((buffer.drop offset).take 4), offset + 4)
  else none

/-- Modelled from the spec: `common.ReadUint64FromBufferLE` is not part of the sources at
hand.  It reads a little-endian `u64` at `offset`; `none` stands for the out-of-range
panic. -/
def ReadUint64FromBufferLE (buffer : Bytes) (offset : Nat) : Option (Nat × Nat) :=
  if offset + 8 ≤ buffer.length then some (leVal ((buffer.drop offset).take 8), offset + 8)
  else none

/-- Modelled from the spec: `common.ReadUint64FromBufferBE` is not part of the sources at
hand.  It reads a big-endian `u64` at `offset`; `none` stands for the out-of-range
panic. -/
def ReadUint64FromBufferBE (buffer : Bytes) (offset : Nat) : Option (Nat × Nat) :=
  if offset + 8 ≤ buffer.length then some (beVal ((buffer.drop offset).take 8), offset + 8)
  else none

/-! ## Table ids and key prefixes (packages `common` and `table`) -/

/-- The reserved table ids of package `common` that the state machine uses.  Their
numeric values are not part of the sources at hand, so they are parameters. -/
structure TableIDs where
  ReceiverTableID : Nat
  ForwardDedupTableID : Nat
  LastLogIndexReceivedTableID : Nat

/-- The table ids are distinct `u64` values. -/
def TableIDs.Distinct (ids : TableIDs) : Prop :=
  ids.ReceiverTableID < 2 ^ 64 ∧ ids.ForwardDedupTableID < 2 ^ 64 ∧
  ids.LastLogIndexReceivedTableID < 2 ^ 64 ∧
  ids.ReceiverTableID ≠ ids.ForwardDedupTableID ∧
  ids.ReceiverTableID ≠ ids.LastLogIndexReceivedTableID ∧
  ids.ForwardDedupTableID ≠ ids.LastLogIndexReceivedTableID

/-- Modelled from the spec: `table.EncodeTableKeyPrefix` is not part of the sources at
hand.  By the spec all keys begin with the shard id (big-endian, 8 bytes) followed by the
table id (big-endian, 8 bytes); the third argument is only a capacity hint. -/
def EncodeTableKeyPrefix (tableID shardID _capac : Nat) : Bytes :=
  AppendUint64ToBufferBE (AppendUint64ToBufferBE [] shardID) tableID

/-! ## The key/value store (pebble) -/

/-- Lookup in an association list. -/
def kvGet {α : Type} (k : Bytes) : List (Bytes × α) → Option α
  | [] => none
  | (k1, v) :: rest => if k1 = k then some v else kvGet k rest

/-- Removal of a key from an association list. -/
def kvDelete {α : Type} (k : Bytes) (m : List (Bytes × α)) : List (Bytes × α) :=
  m.filter (fun p => decide (p.1 ≠ k))

/-- Insertion into an association list, replacing an earlier binding. -/
def kvSet {α : Type} (k : Bytes) (v : α) (m : List (Bytes × α)) : List (Bytes × α) :=
  (k, v) :: kvDelete k m

/-- Contents of the pebble store: at most one value per key. -/
abbrev Store := List (Bytes × Bytes)

/-- One operation recorded in a pebble batch. -/
inductive BatchOp where
  | set (key value : Bytes)
  | delete (key : Bytes)
  deriving DecidableEq, Repr

/-- A pebble batch: its operations in the order in which they were added. -/
abbrev Batch := List BatchOp

/-- Effect of one batch operation on the store. -/
def BatchOp.apply (peb : Store) : BatchOp → Store
  | .set k v => kvSet k v peb
  | .delete k => kvDelete k peb

/-- Effect of committing a batch: its operations take effect in order. -/
def applyBatch (peb : Store) (batch : Batch) : Store := batch.foldl BatchOp.apply peb

/-- Failures of the key/value engine, which the state machine cannot control: adding the
operation at a given position of a batch may fail, and so may a commit, a point read or
a scan. -/
structure KVFaults where
  opFails : Nat → Bool
  applyFails : Bool
  getFails : Bool
  scanFails : Bool

/-- The engine never fails. -/
def noFaults : KVFaults := ⟨fun _ => false, false, false, false⟩

/-- How a call ends: normally, with a returned error, or with a Go panic. -/
inductive Outcome where
  | ok
  | err
  | fatal
  deriving DecidableEq, Repr

/-! ## The shard state machine -/

/-- A key/value pair of a write batch (`cluster.KVPair`). -/
structure KVPair where
  Key : Bytes
  Value : Bytes
  deriving DecidableEq, Repr

/-- A log entry handed over by the replication layer (`statemachine.Entry`). -/
structure Entry where
  Index : Nat
  Cmd : Bytes
  deriving DecidableEq, Repr

/-- The in-memory state of `ShardOnDiskStateMachine`.  `TestServer` is the flag
`dragon.cnf.TestServer`; the store `dragon.pebble` is passed separately. -/
structure ShardOnDiskStateMachine where
  nodeID : Int
  shardID : Nat
  nodeIDs : List Int
  processor : Bool
  dedupSequences : List (Bytes × Nat)
  receiverSequence : Nat
  batchSequence : Nat
  TestServer : Bool
  deriving DecidableEq, Repr

def shardStateMachineCommandWrite : Nat := 1

def shardStateMachineCommandForwardWrite : Nat := 2

/-- The replica that processes a shard: `nodeIDs[shardID % len(nodeIDs)]`.  `none` stands
for the panic on an empty list. -/
def calcProcessingNode (nodeIDs : List Int) (shardID : Nat) (nodeID : Int) : Option Bool :=
  match nodeIDs[shardID % nodeIDs.length]? with
  | none => none
  | some leaderNode => some (decide (nodeID = leaderNode))

/-- Modelled from the spec: `cluster.DoDedup` is not part of the sources at hand.  By the
spec the cache holds the largest sequence seen per originator, a message is dropped iff
`seq ≤ cache[originator]`, and on acceptance the cache entry becomes `seq`.  The key is
the 16-byte originator id followed by the sequence as 8 big-endian bytes (the byte order
in which `loadDedupCache` reads the persisted sequence back). -/
def DoDedup (_shardID : Nat) (dedupKey : Bytes) (dedupMap : List (Bytes × Nat)) :
    Bool × List (Bytes × Nat) :=
  let oid := dedupKey.take 16
  let sequence := beVal ((dedupKey.drop 16).take 8)
  match kvGet oid dedupMap with
  | some prevSequence =>
    if sequence ≤ prevSequence then (true, dedupMap) else (false, kvSet oid sequence dedupMap)
  | none => (false, kvSet oid sequence dedupMap)

/-- The first loop of `deserializeWriteBatch`: reads `n` puts starting at `offset`.  For a
forward write the receiver sequence is appended to a copy of every key.  `none` stands
for a slice-bounds panic. -/
def readPuts (s : ShardOnDiskStateMachine) (buff : Bytes) (forward : Bool) :
    Nat → Nat → Option (List KVPair × Nat)
  | 0, offset => some ([], offset)
  | n + 1, offset =>
    match ReadUint32FromBufferLE buff offset with
    | none => none
    | some (kLen, offset1) =>
      if buff.length < offset1 + kLen then none
      else
        let k := (buff.drop offset1).take kLen
        match ReadUint32FromBufferLE buff (offset1 + kLen) with
        | none => none
        | some (vLen, offset2) =>
          if buff.length < offset2 + vLen then none
          else
            let v := (buff.drop offset2).take vLen
            let kToUse := if forward then AppendUint64ToBufferBE k s.receiverSequence else k
            match readPuts s buff forward n (offset2 + vLen) with
            | none => none
            | some (puts, offset3) => some (⟨kToUse, v⟩ :: puts, offset3)

/-- The second loop of `deserializeWriteBatch`: reads `n` delete keys starting at
`offset`. -/
def readDeletes (buff : Bytes) : Nat → Nat → Option (List Bytes)
  | 0, _ => some []
  | n + 1, offset =>
    match ReadUint32FromBufferLE buff offset with
    | none => none
    | some (kLen, offset1) =>
      if buff.length < offset1 + kLen then none
      else
        let k := (buff.drop offset1).take kLen
        match readDeletes buff n (offset1 + kLen) with
        | none => none
        | some deletes => some (k :: deletes)

/-- The puts and deletes of a serialized write batch. -/
def deserializeWriteBatch (s : ShardOnDiskStateMachine) (buff : Bytes) (offset : Nat)
    (forward : Bool) : Option (List KVPair × List Bytes) :=
  match ReadUint32FromBufferLE buff offset with
  | none => none
  | some (numPuts, offset1) =>
    match readPuts s buff forward numPuts offset1 with
    | none => none
    | some (puts, offset2) =>
      match ReadUint32FromBufferLE buff offset2 with
      | none => none
      | some (numDeletes, offset3) =>
        match readDeletes buff numDeletes offset3 with
        | none => none
        | some deletes => some (puts, deletes)

/-- State threaded through the write path: how the call ended so far, the state machine,
the batch under construction, and (bookkeeping for the statements below, not present in
the Go code) the Receiver keys that the forward path has put into the batch, oldest
first. -/
structure WriteState where
  outcome : Outcome
  sm : ShardOnDiskStateMachine
  batch : Batch
  stamped : List Bytes
  deriving DecidableEq, Repr

/-- A Go `for ... range` loop whose body may return or panic: the body runs on the
elements in order, and the first outcome other than `ok` ends the loop. -/
def loopOk {σ α : Type} (outcome : σ → Outcome) (body : σ → α → σ) : σ → List α → σ
  | st, [] => st
  | st, x :: xs =>
    let r := body st x
    if outcome r = .ok then loopOk outcome body r xs else r

/-- What `checkDedup` returns (`ignore` and the error, here the outcome), with the state
machine and the batch as it leaves them. -/
structure DedupResult where
  ignore : Bool
  outcome : Outcome
  sm : ShardOnDiskStateMachine
  batch : Batch
  deriving DecidableEq, Repr

/-- Duplicate check of one forwarded put; on acceptance the ForwardDedup row is added to
the batch. -/
def checkDedup (faults : KVFaults) (ids : TableIDs) (s : ShardOnDiskStateMachine)
    (key : Bytes) (batch : Batch) : DedupResult :=
  let d := DoDedup s.shardID key s.dedupSequences
  let s1 := { s with dedupSequences := d.2 }
  if d.1 then ⟨true, .ok, s1, batch⟩
  else
    let dupID := EncodeTableKeyPrefix ids.ForwardDedupTableID s.shardID (16 + 8) ++ key.take 16
    if faults.opFails batch.length then ⟨false, .err, s1, batch⟩
    else ⟨false, .ok, s1, batch ++ [.set dupID (key.drop 16)]⟩

/-- The sanity check of a key of a local write: `false` stands for the panic. -/
def checkKey (s : ShardOnDiskStateMachine) (key : Bytes) : Bool :=
  if s.TestServer then true
  else
    match ReadUint64FromBufferBE key 0 with
    | none => false
    | some (sid, _) => decide (s.shardID = sid)

/-- Lines 177-192 of `handleWrite`: builds the Receiver key of an accepted forwarded put,
advances the receiver sequence and adds the row to the batch. -/
def writeReceiverRow (faults : KVFaults) (ids : TableIDs) (s : ShardOnDiskStateMachine)
    (batch : Batch) (stamped : List Bytes) (remoteConsumerBytes value : Bytes) : WriteState :=
  let key := EncodeTableKeyPrefix ids.ReceiverTableID s.shardID 40
  let key := AppendUint32ToBufferBE key s.batchSequence
  let key := AppendUint64ToBufferBE key s.receiverSequence
  let key := key ++ remoteConsumerBytes
  let s1 := { s with receiverSequence := (s.receiverSequence + 1) % 2 ^ 64 }
  if faults.opFails batch.length then ⟨.err, s1, batch, stamped⟩
  else ⟨.ok, s1, batch ++ [.set key value], stamped ++ [key]⟩

/-- Body of the loop over the puts in `handleWrite` (lines 159-193).  A forwarded key
shorter than 25 bytes makes the slice expression `Key[1:25]` panic; a skipped duplicate
leaves everything as it is (`continue`). -/
def handlePut (faults : KVFaults) (ids : TableIDs) (forward : Bool) (w : WriteState)
    (kvPair : KVPair) : WriteState :=
  if forward then
    if kvPair.Key.length < 25 then { w with outcome := .fatal }
    else
      let dedupKey := (kvPair.Key.drop 1).take 24
      let remoteConsumerBytes := kvPair.Key.drop 25
      if kvPair.Key.head? = some 1 then
        let c := checkDedup faults ids w.sm dedupKey w.batch
        if c.outcome ≠ .ok then ⟨c.outcome, c.sm, c.batch, w.stamped⟩
        else if c.ignore then ⟨.ok, c.sm, c.batch, w.stamped⟩
        else writeReceiverRow faults ids c.sm c.batch w.stamped remoteConsumerBytes kvPair.Value
      else writeReceiverRow faults ids w.sm w.batch w.stamped remoteConsumerBytes kvPair.Value
  else
    if checkKey w.sm kvPair.Key then
      if faults.opFails w.batch.length then { w with outcome := .err }
      else { w with outcome := .ok, batch := w.batch ++ [.set kvPair.Key kvPair.Value] }
    else { w with outcome := .fatal }

/-- Body of the loop over the deletes in `handleWrite` (lines 206-212). -/
def handleDelete (faults : KVFaults) (w : WriteState) (k : Bytes) : WriteState :=
  if checkKey w.sm k then
    if faults.opFails w.batch.length then { w with outcome := .err }
    else { w with outcome := .ok, batch := w.batch ++ [.delete k] }
  else { w with outcome := .fatal }

/-- The statement `s.batchSequence++` on a `uint32`. -/
def bumpBatchSequence (s : ShardOnDiskStateMachine) : ShardOnDiskStateMachine :=
  { s with batchSequence := (s.batchSequence + 1) % 2 ^ 32 }

/-- Lines 202-213 of `handleWrite`, reached when the loop over the puts ended normally:
the batch sequence is incremented, a forward write with deletes panics, and the deletes
are added to the batch. -/
def finishWrite (faults : KVFaults) (forward : Bool) (deletes : List Bytes) (r : WriteState) :
    WriteState :=
  if r.outcome = .ok then
    if forward = true ∧ deletes ≠ [] then ⟨.fatal, bumpBatchSequence r.sm, r.batch, r.stamped⟩
    else
      loopOk WriteState.outcome (handleDelete faults)
        ⟨.ok, bumpBatchSequence r.sm, r.batch, r.stamped⟩ deletes
  else r

/-- Applies one serialized write batch to the batch under construction: the puts, then
the increment of the batch sequence, then the deletes. -/
def handleWrite (faults : KVFaults) (ids : TableIDs) (w : WriteState) (bytes : Bytes)
    (forward : Bool) : WriteState :=
  match deserializeWriteBatch w.sm bytes 1 forward with
  | none => { w with outcome := .fatal }
  | some (puts, deletes) =>
    finishWrite faults forward deletes
      (loopOk WriteState.outcome (handlePut faults ids forward) { w with outcome := .ok } puts)

/-- Body of the loop over the entries in `Update` (lines 105-122); the Boolean is
`hasForward`. -/
def handleEntry (faults : KVFaults) (ids : TableIDs) (st : WriteState × Bool) (entry : Entry) :
    WriteState × Bool :=
  match entry.Cmd.head? with
  | none => ({ st.1 with outcome := .fatal }, st.2)
  | some command =>
    if command = shardStateMachineCommandForwardWrite then
      let r := handleWrite faults ids st.1 entry.Cmd true
      if r.outcome = .ok then (r, true) else (r, st.2)
    else if command = shardStateMachineCommandWrite then
      (handleWrite faults ids st.1 entry.Cmd false, st.2)
    else ({ st.1 with outcome := .fatal }, st.2)

/-- The loop over the entries in `Update`, started on an empty batch. -/
def updateEntries (faults : KVFaults) (ids : TableIDs) (s : ShardOnDiskStateMachine)
    (entries : List Entry) : WriteState × Bool :=
  loopOk (fun st => st.1.outcome) (handleEntry faults ids) (⟨.ok, s, [], []⟩, false) entries

/-- Adds the LastLogIndexReceived row with the three sequences to the batch; `none`
stands for a failing `batch.Set`. -/
def writeSequences (faults : KVFaults) (ids : TableIDs) (batch : Batch)
    (lastRaftIndex receiverSequence batchSequence shardID : Nat) : Option Batch :=
  let key := EncodeTableKeyPrefix ids.LastLogIndexReceivedTableID shardID 16
  let vb : Bytes := []
  let vb := AppendUint64ToBufferLE vb lastRaftIndex
  let vb := AppendUint64ToBufferLE vb receiverSequence
  let vb := AppendUint32ToBufferLE vb batchSequence
  if faults.opFails batch.length then none else some (batch ++ [.set key vb])

/-- Reads the LastLogIndexReceived row: the last log index, the receiver sequence and the
batch sequence; all zero when the row is absent.  The outcome is `err` when the read
fails and `fatal` for the out-of-range panic on a row that is too short. -/
def loadSequences (faults : KVFaults) (ids : TableIDs) (peb : Store) (shardID : Nat) :
    Outcome × Nat × Nat × Nat :=
  let key := EncodeTableKeyPrefix ids.LastLogIndexReceivedTableID shardID 16
  if faults.getFails then (.err, 0, 0, 0)
  else
    match kvGet key peb with
    | none => (.ok, 0, 0, 0)
    | some vb =>
      match ReadUint64FromBufferLE vb 0, ReadUint64FromBufferLE vb 8,
          ReadUint32FromBufferLE vb 16 with
      | some (lastRaftIndex, _), some (receiverSequence, _), some (batchSequence, _) =>
        (.ok, lastRaftIndex, receiverSequence, batchSequence)
      | _, _, _ => (.fatal, 0, 0, 0)

/-- Result of `Update`: the outcome, the state machine and the store afterwards, whether
`RemoteWriteOccurred` was signalled to the shard listener, the batch that was built, and
the Receiver keys stamped by the forward path. -/
structure UpdateResult where
  outcome : Outcome
  sm : ShardOnDiskStateMachine
  peb : Store
  signalled : Bool
  batch : Batch
  stamped : List Bytes
  deriving DecidableEq, Repr

/-- Whether `maybeTriggerRemoteWriteOccurred` signals the shard listener. -/
def maybeTriggerRemoteWriteOccurred (s : ShardOnDiskStateMachine) : Bool := s.processor

/-- Applies a block of log entries: builds one batch, commits it, and signals the shard
listener when a forward write was applied.  The results stored into the entries (always
`shardStateMachineResponseOK`) are left out; indexing the last entry of an empty list is
the panic `fatal`. -/
def Update (faults : KVFaults) (ids : TableIDs) (s : ShardOnDiskStateMachine) (peb : Store)
    (entries : List Entry) : UpdateResult :=
  match updateEntries faults ids s entries with
  | (⟨.ok, s1, batch, stamped⟩, hasForward) =>
    match entries.getLast? with
    | none => ⟨.fatal, s1, peb, false, batch, stamped⟩
    | some last =>
      let lastLogIndex := last.Index
      let key := EncodeTableKeyPrefix ids.LastLogIndexReceivedTableID s1.shardID 16
      let vb : Bytes := []
      if faults.opFails batch.length then ⟨.err, s1, peb, false, batch, stamped⟩
      else
        let batch1 := batch ++ [.set key vb]
        match writeSequences faults ids batch1 lastLogIndex s1.receiverSequence s1.batchSequence
            s1.shardID with
        | none => ⟨.err, s1, peb, false, batch1, stamped⟩
        | some batch2 =>
          if faults.applyFails then ⟨.err, s1, peb, false, batch2, stamped⟩
          else
            ⟨.ok, s1, applyBatch peb batch2,
              if hasForward then maybeTriggerRemoteWriteOccurred s1 else false, batch2, stamped⟩
  | (r, _) => ⟨r.outcome, r.sm, peb, false, r.batch, r.stamped⟩

/-- Lexicographic order on byte strings, the key order of the store. -/
def bytesLt : Bytes → Bytes → Bool
  | _, [] => false
  | [], _ :: _ => true
  | a :: as, b :: bs => decide (a < b) || (decide (a = b) && bytesLt as bs)

/-- Insertion of a pair into a list of pairs sorted by key. -/
def insertByKey (p : Bytes × Bytes) : List (Bytes × Bytes) → List (Bytes × Bytes)
  | [] => [p]
  | q :: rest => if bytesLt q.1 p.1 then q :: insertByKey p rest else p :: q :: rest

/-- Modelled from the spec: `Dragon.LocalScan` is not part of the sources at hand.  By the
spec the engine offers an ordered `range(lo, hi)`: the pairs whose key lies in
`[startKey, endKey)`, in key order.  `none` stands for a failing scan. -/
def LocalScan (faults : KVFaults) (peb : Store) (startKey endKey : Bytes) : Option (List KVPair) :=
  if faults.scanFails then none
  else
    let inRange := peb.filter (fun p => !bytesLt p.1 startKey && bytesLt p.1 endKey)
    some ((inRange.foldr insertByKey []).map (fun p => ⟨p.1, p.2⟩))

/-- The loop of `loadDedupCache` over the scanned ForwardDedup rows; `none` stands for a
slice-bounds panic on a short key or value. -/
def loadDedupPairs : List (Bytes × Nat) → List KVPair → Option (List (Bytes × Nat))
  | m, [] => some m
  | m, kvPair :: rest =>
    if kvPair.Key.length < 32 then none
    else
      match ReadUint64FromBufferBE kvPair.Value 0 with
      | none => none
      | some (sequence, _) =>
        loadDedupPairs (kvSet ((kvPair.Key.drop 16).take 16) sequence m) rest

/-- Rebuilds the dedup cache from the ForwardDedup rows of the shard. -/
def loadDedupCache (faults : KVFaults) (ids : TableIDs) (s : ShardOnDiskStateMachine)
    (peb : Store) : Outcome × ShardOnDiskStateMachine :=
  let s0 := { s with dedupSequences := [] }
  let startKey := EncodeTableKeyPrefix ids.ForwardDedupTableID s.shardID 16
  let endKey := EncodeTableKeyPrefix (ids.ForwardDedupTableID + 1) s.shardID 16
  match LocalScan faults peb startKey endKey with
  | none => (.err, s0)
  | some pairs =>
    match loadDedupPairs [] pairs with
    | none => (.fatal, s0)
    | some m => (.ok, { s with dedupSequences := m })

/-- Opens the state machine: rebuilds the dedup cache, loads the sequences and returns
the last applied log index. -/
def Open (faults : KVFaults) (ids : TableIDs) (s : ShardOnDiskStateMachine) (peb : Store) :
    Outcome × ShardOnDiskStateMachine × Nat :=
  let c := loadDedupCache faults ids s peb
  if c.1 = .ok then
    let q := loadSequences faults ids peb c.2.shardID
    if q.1 = .ok then
      (.ok, { c.2 with receiverSequence := q.2.2.1, batchSequence := q.2.2.2 }, q.2.1)
    else (q.1, c.2, 0)
  else (c.1, c.2, 0)

/-- Result of `RecoverFromSnapshot`: the outcome, the state machine and the store
afterwards, and whether `RemoteWriteOccurred` was signalled. -/
structure RecoverResult where
  outcome : Outcome
  sm : ShardOnDiskStateMachine
  peb : Store
  signalled : Bool
  deriving DecidableEq, Repr

/-- Restores the shard from a snapshot.  `restoreSnapshotDataFromReader` is not part of
the sources at hand; its effect on the store is the parameter `restore`, which returns
whether it succeeded and the store it leaves behind. -/
def RecoverFromSnapshot (faults : KVFaults) (ids : TableIDs) (restore : Store → Bool × Store)
    (s : ShardOnDiskStateMachine) (peb : Store) : RecoverResult :=
  let s0 := { s with dedupSequences := [] }
  let r := restore peb
  if r.1 = true then
    let c := loadDedupCache faults ids s0 r.2
    if c.1 = .ok then ⟨.ok, c.2, r.2, maybeTriggerRemoteWriteOccurred c.2⟩
    else ⟨c.1, c.2, r.2, false⟩
  else ⟨.err, s0, r.2, false⟩

/-! ## Vocabulary of the statements and concrete inputs -/

/-- The fields of the state machine that no write path modifies. -/
def SameShard (s s1 : ShardOnDiskStateMachine) : Prop :=
  s1.shardID = s.shardID ∧ s1.processor = s.processor ∧ s1.TestServer = s.TestServer ∧
  s1.nodeID = s.nodeID ∧ s1.nodeIDs = s.nodeIDs

/-- The value of the LastLogIndexReceived row: 20 bytes. -/
def encodeSequences (lastRaftIndex receiverSequence batchSequence : Nat) : Bytes :=
  leBytes 8 lastRaftIndex ++ leBytes 8 receiverSequence ++ leBytes 4 batchSequence

/-- What `deserializeWriteBatch` does to the key of a forwarded put: the receiver sequence
is appended to it. -/
def withReceiverSequence (receiverSequence : Nat) (kvPair : KVPair) : KVPair :=
  ⟨AppendUint64ToBufferBE kvPair.Key receiverSequence, kvPair.Value⟩

/-- The dedup cache holds an entry for the originator that is at least the sequence. -/
def seenBefore (dedupMap : List (Bytes × Nat)) (originator : Bytes) (sequence : Nat) : Prop :=
  ∃ prev, kvGet originator dedupMap = some prev ∧ sequence ≤ prev

/-- A forwarded put as `handleWrite` meets it: the supplied key is the duplicate-detection
byte, the originator id, the sequence and the remote consumer id, and
`deserializeWriteBatch` has appended the receiver sequence `rs0` that the state machine had
when the entry was deserialized. -/
def forwardedPut (enableDedup : Nat) (originator sequence remoteConsumer value : Bytes)
    (rs0 : Nat) : KVPair :=
  withReceiverSequence rs0 ⟨enableDedup :: (originator ++ sequence ++ remoteConsumer), value⟩

/-- The Receiver key as the comments in `handleWrite` describe it: table prefix, batch
sequence, receiver sequence, remote consumer id. -/
def receiverKey (ids : TableIDs) (shardID batchSequence receiverSequence : Nat)
    (remoteConsumer : Bytes) : Bytes :=
  EncodeTableKeyPrefix ids.ReceiverTableID shardID 40 ++ beBytes 4 batchSequence ++
    beBytes 8 receiverSequence ++ remoteConsumer

/-- Whether a log entry carries the `FORWARD_WRITE` command byte. -/
def isForwardWrite (entry : Entry) : Bool :=
  decide (entry.Cmd.head? = some shardStateMachineCommandForwardWrite)

/-- Table ids used in the concrete examples. -/
def demoIds : TableIDs := ⟨1, 11, 4⟩

/-- A processor replica of shard 13 on node 5 of `[2, 5, 7]`, freshly opened on an empty
store. -/
def demoShard : ShardOnDiskStateMachine := ⟨5, 13, [2, 5, 7], true, [], 0, 0, false⟩

/-- A `WRITE` command with no puts and no deletes. -/
def emptyWriteCmd : Bytes := [1, 0, 0, 0, 0, 0, 0, 0, 0]

/-- A forwarded key: the duplicate-detection byte, originator `0x01 × 16`, sequence 7 and
the one-byte remote consumer id 9. -/
def demoForwardKey (enableDedup : Nat) : Bytes :=
  [enableDedup, 1, 1, 1, 1, 1, 1, 1, 1, 1, 1, 1, 1, 1, 1, 1, 1, 0, 0, 0, 0, 0, 0, 0, 7, 9]

/-- A `FORWARD_WRITE` command with the single put `demoForwardKey enableDedup → [42, 43]`
and no deletes. -/
def demoForwardCmd (enableDedup : Nat) : Bytes :=
  [2, 1, 0, 0, 0, 26, 0, 0, 0] ++ demoForwardKey enableDedup ++ [2, 0, 0, 0, 42, 43, 0, 0, 0, 0]

/-- A `FORWARD_WRITE` command with the put of `demoForwardCmd 1` and one delete of the key
`[5]`. -/
def demoForwardDeleteCmd : Bytes :=
  [2, 1, 0, 0, 0, 26, 0, 0, 0] ++ demoForwardKey 1 ++
    [2, 0, 0, 0, 42, 43, 1, 0, 0, 0, 1, 0, 0, 0, 5]

/-- The originator id `0x01 × 16` of the examples. -/
def demoOriginator : Bytes := [1, 1, 1, 1, 1, 1, 1, 1, 1, 1, 1, 1, 1, 1, 1, 1]

/-- The replica of `demoShard` after 258 forwarded rows in 3 batches. -/
def demoShardLater : ShardOnDiskStateMachine := ⟨5, 13, [2, 5, 7], true, [], 258, 3, false⟩

/-- The key of a batch operation. -/
def BatchOp.key : BatchOp → Bytes
  | .set k _ => k
  | .delete k => k

/-- The pair `(batch_seq, receiver_seq)` stamped into a Receiver key: the 4 bytes at
offset 16 and the 8 bytes at offset 20, both big-endian. -/
def stampPair (key : Bytes) : Nat × Nat :=
  (beVal ((key.drop 16).take 4), beVal ((key.drop 20).take 8))

/-- Strict lexicographic order on pairs. -/
def pairLt (p1 p2 : Nat × Nat) : Prop := p1.1 < p2.1 ∨ (p1.1 = p2.1 ∧ p1.2 < p2.2)

/-- The pair as it fits into a `u32` and a `u64`. -/
def modPair (p : Nat × Nat) : Nat × Nat := (p.1 % 2 ^ 32, p.2 % 2 ^ 64)

/-- A sequence of calls of `Update` on one shard, each on the state and the store that the
call before left behind.  The result is `none` when one of the calls does not succeed;
otherwise it is the final state and store together with the Receiver keys that the
forward path wrote, in the order in which they were written. -/
def runUpdates (ids : TableIDs) :
    ShardOnDiskStateMachine → Store → List (KVFaults × List Entry) →
      Option (ShardOnDiskStateMachine × Store × List Bytes)
  | s, peb, [] => some (s, peb, [])
  | s, peb, call :: rest =>
    if (Update call.1 ids s peb call.2).outcome = .ok then
      match runUpdates ids (Update call.1 ids s peb call.2).sm (Update call.1 ids s peb call.2).peb
          rest with
      | none => none
      | some (s2, peb2, keys) => some (s2, peb2, (Update call.1 ids s peb call.2).stamped ++ keys)
    else none

/-- Bookkeeping for the stamps of one call of `Update` that started with batch sequence
`bs0` and receiver sequence `rs0`, after `n` entries: the counters of the state machine
are the start values plus the number of entries and of stamped keys, and the stamped pairs
are, before reduction to `u32` and `u64`, strictly increasing and within these counters. -/
def StampInv (bs0 rs0 n : Nat) (w : WriteState) : Prop :=
  w.sm.batchSequence = (bs0 + n) % 2 ^ 32 ∧
  w.sm.receiverSequence = (rs0 + w.stamped.length) % 2 ^ 64 ∧
  ∃ ps : List (Nat × Nat), w.stamped.map stampPair = ps.map modPair ∧
    ps.Pairwise pairLt ∧
    ∀ p ∈ ps, bs0 ≤ p.1 ∧ p.1 ≤ bs0 + n ∧ rs0 ≤ p.2 ∧ p.2 < rs0 + w.stamped.length

/-- The Receiver keys written by a sequence of successful calls of `Update`; empty when
a call does not succeed. -/
def runKeys (ids : TableIDs) (s : ShardOnDiskStateMachine) (peb : Store)
    (calls : List (KVFaults × List Entry)) : List Bytes :=
  match runUpdates ids s peb calls with
  | some r => r.2.2
  | none => []

/-- The rows of one table of one shard: the pairs of the store whose key begins with the
prefix of the table. -/
def tableRows (tableID shardID : Nat) (peb : Store) : Store :=
  peb.filter (fun p => (EncodeTableKeyPrefix tableID shardID 16).isPrefixOf p.1)

/-- A forwarded key with duplicate detection enabled: the byte 1, a 16-byte originator
id, an 8-byte sequence and the remote consumer id. -/
def DedupKey (key : Bytes) : Prop :=
  ∃ o q rc : Bytes, o.length = 16 ∧ q.length = 8 ∧ key = 1 :: (o ++ q ++ rc)

/-! ## Lookups on the shard state machine -/

def shardStateMachineLookupPing : Nat := 1

def shardStateMachineLookupQuery : Nat := 2

/-- How the remote query callback `ExecuteRemotePullQuery` ends: with rows, with a
returned error (kept as the bytes of its message) or with a panic. -/
inductive RemoteQueryResult (ρ : Type) where
  | rows (r : ρ)
  | error (message : Bytes)
  | panics

/-- How `Lookup` ends: with a reply (`none` is the Go `nil`), with a returned error (the
lookup fails) or with a panic. -/
inductive LookupResult where
  | reply (b : Option Bytes)
  | failure
  | fatal
  deriving DecidableEq, Repr

/-- The method `Lookup` of the state machine.  `QueryExecutionInfo.Deserialize`, the
callback `remoteQueryExecutionCallback.ExecuteRemotePullQuery` (which works on a state of
its own, `σ`) and `Rows.Serialize` are parameters; an empty buffer makes `buff[0]`
panic. -/
def Lookup {σ ι ρ : Type} (Deserialize : Bytes → Option ι)
    (ExecuteRemotePullQuery : σ → ι → σ × RemoteQueryResult ρ) (Serialize : ρ → Bytes)
    (st : σ) (buff : Bytes) : σ × LookupResult :=
  match buff with
  | [] => (st, .fatal)
  | typ :: payload =>
    if typ = shardStateMachineLookupPing then (st, .reply none)
    else if typ = shardStateMachineLookupQuery then
      match Deserialize payload with
      | none => (st, .failure)
      | some queryInfo =>
        match ExecuteRemotePullQuery st queryInfo with
        | (st1, .error message) => (st1, .reply (some (0 :: message)))
        | (st1, .rows rows) => (st1, .reply (some (1 :: Serialize rows)))
        | (st1, .panics) => (st1, .fatal)
    else (st, .fatal)

/-- A remote query callback of the examples: it counts its calls, fails with the message
`[101]` on the query `[7]` and returns the query itself as rows otherwise. -/
def demoRemoteQuery (st : Nat) (q : Bytes) : Nat × RemoteQueryResult Bytes :=
  (st + 1, if q = [7] then .error [101] else .rows q)

/-! ## The partial aggregator (package `push/exec`) -/

/-- The dedup sequence that `Aggregator.HandleRows` computes for the state holder at
index `i` (line 104): `uint64(ctx.BatchSequence)<<32 | uint64(i)`.  The batch sequence is
a `uint32`, the index a non-negative `int`. -/
def dupSeq (batchSequence i : Nat) : Nat :=
  (((batchSequence % 2 ^ 32) <<< 32) % 2 ^ 64) ||| (i % 2 ^ 64)

/-! ## The pull engine (package `pull`) -/

/-- Go strings, as lists of characters. -/
abbrev Str := List Char

/-- Lookup in a `sync.Map` with string keys (`Load`). -/
def mapLoad {α : Type} (key : Str) : List (Str × α) → Option α
  | [] => none
  | (k, v) :: rest => if k = key then some v else mapLoad key rest

/-- Removal of a key from a `sync.Map` (`Delete`). -/
def mapDelete {α : Type} (key : Str) (m : List (Str × α)) : List (Str × α) :=
  m.filter (fun e => decide (e.1 ≠ key))

/-- Insertion into a `sync.Map`, replacing an earlier value (`Store`). -/
def mapStore {α : Type} (key : Str) (v : α) (m : List (Str × α)) : List (Str × α) :=
  (key, v) :: mapDelete key m

/-- The fields of `cluster.QueryExecutionInfo` that the pull engine reads. -/
structure QueryExecutionInfo where
  ExecutionID : Str
  SchemaName : Str
  Query : Str
  Limit : Nat
  SystemQuery : Bool
  deriving DecidableEq, Repr

/-- Modelled from the spec: `exec.PullExecutor` is not part of the sources at hand.  By
the spec a pull operator offers `get_rows(limit) -> Rows`; a DAG that yields `N` rows in
total is the list of the rows it has still to deliver (a row is a number here), and
`failing` marks a DAG whose `GetRows` returns an error. -/
structure PullExecutor where
  pending : List Nat
  failing : Bool
  deriving DecidableEq, Repr

/-- Modelled from the spec: `PullExecutor.GetRows` hands out the next rows, at most
`limit` of them; `none` stands for a returned error. -/
def PullExecutor.GetRows (ex : PullExecutor) (limit : Nat) : Option (List Nat × PullExecutor) :=
  if ex.failing then none
  else some (ex.pending.take limit, { ex with pending := ex.pending.drop limit })

/-- The fields of `execctx.ExecutionContext` that the pull engine uses; `CurrentQuery` is
`none` for the Go `nil`. -/
structure ExecutionContext where
  ID : Str
  QueryInfo : QueryExecutionInfo
  CurrentQuery : Option PullExecutor
  deriving DecidableEq, Repr

/-- The state of the pull `Engine`: the flags and the execution-context cache. -/
structure Engine where
  started : Bool
  queryExecCtxCache : List (Str × ExecutionContext)
  nodeID : Int
  available : Bool
  deriving DecidableEq, Repr

def NewPullEngine (nodeID : Int) : Engine := ⟨false, [], nodeID, false⟩

def Engine.Start (p : Engine) : Engine :=
  if p.started then p else { p with started := true }

def Engine.Stop (p : Engine) : Engine :=
  if !p.started then p
  else { p with queryExecCtxCache := [], available := false, started := false }

def Engine.SetAvailable (p : Engine) : Engine := { p with available := true }

/-- The errors that `ExecuteRemotePullQuery` returns. -/
inductive PullError where
  | notAvailable
  | planFailed
  | getRowsFailed
  deriving DecidableEq, Repr

/-- How a call into the pull engine ends. -/
inductive PullResult where
  | rows (r : List Nat)
  | error (e : PullError)
  | panics
  deriving DecidableEq, Repr

/-- The rows of the current query of an execution context, with the context as the call
leaves it; `CurrentQuery` is cleared when fewer rows than the limit came back.  Calling
`GetRows` on the `nil` executor of a context without current query panics. -/
def getRowsFromCurrentQuery (execCtx : ExecutionContext) (limit : Nat) :
    ExecutionContext × PullResult :=
  match execCtx.CurrentQuery with
  | none => (execCtx, .panics)
  | some cq =>
    match cq.GetRows limit with
    | none => (execCtx, .error .getRowsFailed)
    | some (rows, cq1) =>
      if rows.length < limit then ({ execCtx with CurrentQuery := none }, .rows rows)
      else ({ execCtx with CurrentQuery := some cq1 }, .rows rows)

/-- The cache after a change of the context `s`: a context that came out of the cache is
the very object the cache holds, so the cache sees the change; a new context is not in
the cache yet. -/
def seenByCache (p : Engine) (newExecution : Bool) (id : Str) (s : ExecutionContext) : Engine :=
  if newExecution then p
  else { p with queryExecCtxCache := mapStore id s p.queryExecCtxCache }

/-- Lines 131-144 of `ExecuteRemotePullQuery`: fetches the rows and stores or deletes the
execution context. -/
def fetchAndCache (p : Engine) (queryInfo : QueryExecutionInfo) (s : ExecutionContext)
    (newExecution : Bool) : Engine × PullResult :=
  match getRowsFromCurrentQuery s queryInfo.Limit with
  | (s1, .panics) => (seenByCache p newExecution queryInfo.ExecutionID s1, .panics)
  | (s1, .error e) =>
    (seenByCache p newExecution queryInfo.ExecutionID { s1 with CurrentQuery := none }, .error e)
  | (s1, .rows rows) =>
    let p1 := seenByCache p newExecution queryInfo.ExecutionID s1
    if newExecution = true ∧ s1.CurrentQuery ≠ none then
      ({ p1 with queryExecCtxCache := mapStore queryInfo.ExecutionID s1 p1.queryExecCtxCache },
        .rows rows)
    else if s1.CurrentQuery = none then
      ({ p1 with queryExecCtxCache := mapDelete queryInfo.ExecutionID p1.queryExecCtxCache },
        .rows rows)
    else (p1, .rows rows)

/-- Executes a pull query received from another node.  Parsing, planning, building the
DAG and finding its remote executor (lines 102-126) are the parameter `buildRemoteDag`,
which gives the remote DAG or `none` when one of these steps returns an error. -/
def ExecuteRemotePullQuery (buildRemoteDag : QueryExecutionInfo → Option PullExecutor)
    (p : Engine) (queryInfo : QueryExecutionInfo) : Engine × PullResult :=
  if queryInfo.SystemQuery = false ∧ p.available = false then (p, .error .notAvailable)
  else if queryInfo.ExecutionID = [] then (p, .panics)
  else
    match mapLoad queryInfo.ExecutionID p.queryExecCtxCache with
    | none =>
      match buildRemoteDag queryInfo with
      | none => (p, .error .planFailed)
      | some remoteDag =>
        fetchAndCache p queryInfo ⟨queryInfo.ExecutionID, queryInfo, some remoteDag⟩ true
    | some s =>
      if s.QueryInfo.Query ≠ queryInfo.Query then (p, .panics)
      else fetchAndCache p queryInfo s false

/-- The caller of a remote query, by the spec: it asks for the next page with the same
query info until a page with fewer rows than the limit arrives (or the call does not
return rows).  The result lists, call by call, the page and whether the cache holds an
entry for the execution id after the call. -/
def remotePages (buildRemoteDag : QueryExecutionInfo → Option PullExecutor)
    (queryInfo : QueryExecutionInfo) : Nat → Engine → List (List Nat × Bool)
  | 0, _ => []
  | fuel + 1, p =>
    match ExecuteRemotePullQuery buildRemoteDag p queryInfo with
    | (p1, .rows rows) =>
      (rows, (mapLoad queryInfo.ExecutionID p1.queryExecCtxCache).isSome) ::
        (if rows.length < queryInfo.Limit then [] else remotePages buildRemoteDag queryInfo fuel p1)
    | (_, .error _) => []
    | (_, .panics) => []

/-- The index of the first occurrence of a character (`strings.Index` with a one-letter
pattern); `none` for the Go result -1. -/
def strIndex (c : Char) : Str → Option Nat
  | [] => none
  | x :: rest => if x = c then some 0 else (strIndex c rest).map (· + 1)

/-- The text `fmt.Sprintf("%d", n)`. -/
def fmtInt : Int → Str
  | .ofNat m => Nat.toDigits 10 m
  | .negSucc m => '-' :: Nat.toDigits 10 (m + 1)

/-- The `Range` loop of `clearExecCtxsForNode`: the ids whose text before the first `-`
is `sNodeID`; `none` stands for the panic on an id without `-`. -/
def idsOfNode (sNodeID : Str) : List (Str × ExecutionContext) → Option (List Str)
  | [] => some []
  | (ctxID, _) :: rest =>
    match strIndex '-' ctxID with
    | none => none
    | some i =>
      match idsOfNode sNodeID rest with
      | none => none
      | some ids => if ctxID.take i = sNodeID then some (ctxID :: ids) else some ids

/-- Removes the execution contexts of a node; `none` stands for the panic. -/
def clearExecCtxsForNode (p : Engine) (nodeID : Int) : Option Engine :=
  match idsOfNode (fmtInt nodeID) p.queryExecCtxCache with
  | none => none
  | some idsToRemove =>
    some { p with queryExecCtxCache :=
      idsToRemove.foldl (fun cache ctxID => mapDelete ctxID cache) p.queryExecCtxCache }

def Engine.NodeLeft (p : Engine) (nodeID : Int) : Option Engine := clearExecCtxsForNode p nodeID

/-- The node-id part of an execution id: the text before the first `-`. -/
def nodePart (ctxID : Str) : Str := ctxID.takeWhile (fun x => decide (x ≠ '-'))

/-- The rows `0, 1, ..., n - 1`. -/
def demoRows (n : Nat) : List Nat := List.range n

/-- A query info of the examples: execution id `5-ab`, page limit `limit`. -/
def demoQuery (limit : Nat) (systemQuery : Bool) : QueryExecutionInfo :=
  ⟨['5', '-', 'a', 'b'], ['t'], ['q'], limit, systemQuery⟩

/-- Every query of the examples has a remote DAG that yields `n` rows. -/
def demoDag (n : Nat) (_ : QueryExecutionInfo) : Option PullExecutor := some ⟨demoRows n, false⟩

/-- A cache with contexts of the nodes 5, 15 and 5 again. -/
def demoCache : List (Str × ExecutionContext) :=
  [(['5', '-', 'a', 'b'], ⟨['5', '-', 'a', 'b'], demoQuery 10 false, none⟩),
   (['1', '5', '-', 'c'], ⟨['1', '5', '-', 'c'], demoQuery 10 false, none⟩),
   (['5', '-', '-', 'd'], ⟨['5', '-', '-', 'd'], demoQuery 10 false, none⟩)]

/-! ## The SQL streaming endpoint (package `api`) -/

/-- The column types of package `common` that `ExecuteSQLStatement` tells apart;
`unknown` stands for every other value. -/
inductive ColType where
  | tinyInt | int | bigInt | double | varchar | decimal | timestamp | unknown
  deriving DecidableEq, Repr

/-- The fields of `common.ColumnType`; `Typ` is the Go field `Type`. -/
structure ColumnType where
  Typ : ColType
  DecPrecision : Int
  DecScale : Int
  deriving DecidableEq, Repr

/-- A column of the `Columns` message; decimal columns carry precision and scale as
`uint32`. -/
structure Column where
  Name : Str
  Typ : ColType
  DecimalParams : Option (Nat × Nat)
  deriving DecidableEq, Repr

/-- A value of a transcoded row; floating-point values are kept as their bits. -/
inductive ColValue where
  | isNull
  | intValue (v : Int)
  | floatValue (bits : Nat)
  | stringValue (v : Str)
  deriving DecidableEq, Repr

/-- The messages that the server sends on the stream. -/
inductive Response where
  | columns (cols : List Column)
  | page (count : Nat) (rows : List (List ColValue))
  deriving DecidableEq, Repr

/-- The accessors of `common.Row`, which are not part of the sources at hand: a row is a
number here and the reader gives its cells.  `GetTimestampMicros` is `none` when
`GoTime` returns an error. -/
structure RowReader where
  IsNull : Nat → Nat → Bool
  GetInt64 : Nat → Nat → Int
  GetFloat64 : Nat → Nat → Nat
  GetString : Nat → Nat → Str
  GetDecimalString : Nat → Nat → Str
  GetTimestampMicros : Nat → Nat → Option Int

/-- The executor that `command.Executor.ExecuteSQLStatement` returns: column names,
column types and the rows still to deliver. -/
structure SQLExecutor where
  ColNames : List Str
  ColTypes : List ColumnType
  dag : PullExecutor
  deriving DecidableEq, Repr

/-- How `command.Executor.ExecuteSQLStatement` ends: with an executor, with a
`PranaError` or with another error. -/
inductive Executed where
  | executor (ex : SQLExecutor)
  | pranaError (code : Nat)
  | otherError

/-- The column definitions of the `Columns` message (lines 117-132); `none` stands for
the panic of `names[i]` out of range. -/
def buildColumns : List Str → List ColumnType → Option (List Column)
  | _, [] => some []
  | [], _ :: _ => none
  | name :: names, typ :: types =>
    match buildColumns names types with
    | none => none
    | some cols =>
      some (⟨name, typ.Typ,
        if typ.Typ = .decimal then
          some ((typ.DecPrecision % 2 ^ 32).toNat, (typ.DecScale % 2 ^ 32).toNat)
        else none⟩ :: cols)

/-- One value of a row (lines 150-178): `err` when the timestamp cannot be converted,
`fatal` for the panic on an unexpected column type. -/
def transcodeValue (rd : RowReader) (row colNum : Nat) (colType : ColumnType) :
    Except Outcome ColValue :=
  if rd.IsNull row colNum then .ok .isNull
  else
    match colType.Typ with
    | .tinyInt => .ok (.intValue (rd.GetInt64 row colNum))
    | .int => .ok (.intValue (rd.GetInt64 row colNum))
    | .bigInt => .ok (.intValue (rd.GetInt64 row colNum))
    | .double => .ok (.floatValue (rd.GetFloat64 row colNum))
    | .varchar => .ok (.stringValue (rd.GetString row colNum))
    | .decimal => .ok (.stringValue (rd.GetDecimalString row colNum))
    | .timestamp =>
      match rd.GetTimestampMicros row colNum with
      | none => .error .err
      | some unixTime => .ok (.intValue unixTime)
    | .unknown => .error .fatal

/-- The values of one row: the loop over the column types, from column `colNum` on. -/
def transcodeRow (rd : RowReader) (row : Nat) : Nat → List ColumnType → Except Outcome (List ColValue)
  | _, [] => .ok []
  | colNum, colType :: rest =>
    match transcodeValue rd row colNum colType with
    | .error o => .error o
    | .ok v =>
      match transcodeRow rd row (colNum + 1) rest with
      | .error o => .error o
      | .ok vs => .ok (v :: vs)

/-- The rows of one page: the loop over the rows (lines 146-182). -/
def transcodeRows (rd : RowReader) (types : List ColumnType) :
    List Nat → Except Outcome (List (List ColValue))
  | [] => .ok []
  | row :: rest =>
    match transcodeRow rd row 0 types with
    | .error o => .error o
    | .ok vs =>
      match transcodeRows rd types rest with
      | .error o => .error o
      | .ok prows => .ok (vs :: prows)

/-- How `ExecuteSQLStatement` ends (`running`: the loop has not ended within the number of
rounds that were allowed), with the messages sent, oldest first. -/
structure StreamResult where
  outcome : Option Outcome
  sent : List Response
  deriving DecidableEq, Repr

/-- The loop that sends the pages (lines 139-194), for at most `fuel` rounds.
`sendFails n` tells whether `stream.Send` fails when `n` messages have been sent. -/
def sendPages (rd : RowReader) (sendFails : Nat → Bool) (types : List ColumnType)
    (pageSize : Nat) : Nat → PullExecutor → List Response → StreamResult
  | 0, _, sent => ⟨none, sent⟩
  | fuel + 1, dag, sent =>
    match dag.GetRows pageSize with
    | none => ⟨some .err, sent⟩
    | some (rows, dag1) =>
      match transcodeRows rd types rows with
      | .error o => ⟨some o, sent⟩
      | .ok prows =>
        let numRows := rows.length
        if sendFails sent.length then ⟨some .err, sent⟩
        else if numRows < pageSize then ⟨some .ok, sent ++ [.page numRows prows]⟩
        else sendPages rd sendFails types pageSize fuel dag1 (sent ++ [.page numRows prows])

/-- The streaming method `ExecuteSQLStatement`, for at most `fuel` pages: the error
sequence of the server afterwards and the result.  An error of the statement that is not
a `PranaError` is answered with an internal error that carries the next error
sequence. -/
def ExecuteSQLStatement (rd : RowReader) (sendFails : Nat → Bool) (errorSequence : Int)
    (executed : Executed) (pageSize fuel : Nat) : Int × StreamResult :=
  match executed with
  | .pranaError _ => (errorSequence, ⟨some .err, []⟩)
  | .otherError => (errorSequence + 1, ⟨some .err, []⟩)
  | .executor executor =>
    match buildColumns executor.ColNames executor.ColTypes with
    | none => (errorSequence, ⟨some .fatal, []⟩)
    | some columns =>
      if sendFails 0 then (errorSequence, ⟨some .err, []⟩)
      else
        (errorSequence,
          sendPages rd sendFails executor.ColTypes pageSize fuel executor.dag [.columns columns])

/-- Count field and number of rows of a `Page` message. -/
def pageShape : Response → Option (Nat × Nat)
  | .columns _ => none
  | .page count rows => some (count, rows.length)

/-- A row reader of the examples: no nulls, every cell is the number of its row. -/
def demoReader : RowReader :=
  ⟨fun _ _ => false, fun row _ => row, fun row _ => row, fun _ _ => [], fun _ _ => [],
    fun row _ => some row⟩

/-- An executor of the examples with one `bigint` column and `n` rows. -/
def demoExecutor (n : Nat) : SQLExecutor := ⟨[['c']], [⟨.bigInt, 0, 0⟩], ⟨demoRows n, false⟩⟩

/-! ## The create-source command (package `command`) -/

/-- A column definition of the statement.  `ToColumnType` is not part of the sources at
hand; its result is kept with the column (`none` when it returns an error). -/
structure ColumnDef where
  Name : Str
  ToColumnType : Option ColumnType
  deriving DecidableEq, Repr

/-- One entry of `ast.Options`: a column definition (`Column` is not `nil`) or the names
of the primary-key columns. -/
structure TableOption where
  Column : Option ColumnDef
  PrimaryKey : List Str
  deriving DecidableEq, Repr

/-- The fields of `common.KafkaEncoding`. -/
structure KafkaEncoding where
  Encoding : Nat
  SchemaName : Str
  deriving DecidableEq, Repr

/-- What package `common` provides for topic encodings and is not part of the sources at
hand: the decoder of an encoding name, the encoding value `EncodingUnknown` and the
variable `KafkaEncodingUnknown`. -/
structure EncodingEnv where
  KafkaEncodingFromString : Str → KafkaEncoding
  EncodingUnknown : Nat
  KafkaEncodingUnknown : KafkaEncoding

/-- One entry of `ast.TopicInformation`; `none` stands for a `nil` slice. -/
structure TopicInfoOption where
  HeaderEncoding : Str
  KeyEncoding : Str
  ValueEncoding : Str
  Properties : Option (List (Str × Str))
  ColSelectors : Option (List Str)
  BrokerName : Str
  TopicName : Str
  deriving DecidableEq, Repr

/-- The statement `parser.CreateSource`. -/
structure CreateSource where
  Name : Str
  Options : List TableOption
  TopicInformation : List TopicInfoOption
  deriving DecidableEq, Repr

/-- The ways in which `getSourceInfo` does not return a source info. -/
inductive SourceInfoError where
  | columnType
  | invalidPrimaryKey
  | unknownTopicEncoding
  | invalidStatement (missing : Str)
  | wrongNumberColumnSelectors
  | panics
  deriving DecidableEq, Repr

/-- The variables of the first loop of `getSourceInfo`. -/
structure OptionsState where
  colNames : List Str
  colTypes : List ColumnType
  colIndex : List (Str × Nat)
  pkCols : List Nat
  deriving DecidableEq, Repr

/-- The inner loop over the names of a primary-key option (lines 210-216). -/
def resolvePrimaryKey (colIndex : List (Str × Nat)) : List Nat → List Str → Option (List Nat)
  | pkCols, [] => some pkCols
  | pkCols, pk :: rest =>
    match mapLoad pk colIndex with
    | none => none
    | some index => resolvePrimaryKey colIndex (pkCols ++ [index]) rest

/-- The loop over `ast.Options` (lines 196-221), from the option with index `i` on. -/
def readOptions : Nat → OptionsState → List TableOption → Except SourceInfoError OptionsState
  | _, st, [] => .ok st
  | i, st, option :: rest =>
    match option.Column with
    | some col =>
      match col.ToColumnType with
      | none => .error .columnType
      | some colType =>
        readOptions (i + 1)
          { st with colIndex := mapStore col.Name i st.colIndex,
                    colNames := st.colNames ++ [col.Name],
                    colTypes := st.colTypes ++ [colType] } rest
    | none =>
      if 0 < option.PrimaryKey.length then
        match resolvePrimaryKey st.colIndex st.pkCols option.PrimaryKey with
        | none => .error .invalidPrimaryKey
        | some pkCols => readOptions (i + 1) { st with pkCols := pkCols } rest
      else .error .panics

/-- The variables of the second loop of `getSourceInfo`. -/
structure TopicState where
  headerEncoding : KafkaEncoding
  keyEncoding : KafkaEncoding
  valueEncoding : KafkaEncoding
  propsMap : Option (List (Str × Str))
  colSelectors : List Str
  brokerName : Str
  topicName : Str
  deriving DecidableEq, Repr

/-- The map built from the properties of an option (lines 247-250). -/
def buildPropsMap (props : List (Str × Str)) : List (Str × Str) :=
  props.foldl (fun m prop => mapStore prop.1 prop.2 m) []

/-- The loop over `ast.TopicInformation` (lines 229-262).  `ToSelector`, which is not part
of the sources at hand, is a parameter. -/
def readTopicInformation (env : EncodingEnv) (ToSelector : Str → Str) :
    TopicState → List TopicInfoOption → Except SourceInfoError TopicState
  | st, [] => .ok st
  | st, opt :: rest =>
    if opt.HeaderEncoding ≠ [] then
      if (env.KafkaEncodingFromString opt.HeaderEncoding).Encoding = env.EncodingUnknown then
        .error .unknownTopicEncoding
      else
        readTopicInformation env ToSelector
          { st with headerEncoding := env.KafkaEncodingFromString opt.HeaderEncoding } rest
    else if opt.KeyEncoding ≠ [] then
      if (env.KafkaEncodingFromString opt.KeyEncoding).Encoding = env.EncodingUnknown then
        .error .unknownTopicEncoding
      else
        readTopicInformation env ToSelector
          { st with keyEncoding := env.KafkaEncodingFromString opt.KeyEncoding } rest
    else if opt.ValueEncoding ≠ [] then
      if (env.KafkaEncodingFromString opt.ValueEncoding).Encoding = env.EncodingUnknown then
        .error .unknownTopicEncoding
      else
        readTopicInformation env ToSelector
          { st with valueEncoding := env.KafkaEncodingFromString opt.ValueEncoding } rest
    else
      match opt.Properties with
      | some props =>
        readTopicInformation env ToSelector { st with propsMap := some (buildPropsMap props) } rest
      | none =>
        match opt.ColSelectors with
        | some cs =>
          readTopicInformation env ToSelector { st with colSelectors := cs.map ToSelector } rest
        | none =>
          if opt.BrokerName ≠ [] then
            readTopicInformation env ToSelector { st with brokerName := opt.BrokerName } rest
          else if opt.TopicName ≠ [] then
            readTopicInformation env ToSelector { st with topicName := opt.TopicName } rest
          else readTopicInformation env ToSelector st rest

/-- The fields of `common.IndexInfo` that the planner schema reads. -/
structure IndexInfo where
  ID : Nat
  Name : Str
  IndexCols : List Nat
  deriving DecidableEq, Repr

/-- The fields of `common.TableInfo` that `getSourceInfo` fills and that
`schemaToInfoSchema` reads; `none` stands for a `nil` slice. -/
structure TableInfo where
  ID : Nat
  SchemaName : Str
  Name : Str
  PrimaryKeyCols : List Nat
  ColumnNames : List Str
  ColumnTypes : List ColumnType
  IndexInfos : Option (List IndexInfo)
  ColsVisible : Option (List Bool)
  Internal : Bool
  deriving DecidableEq, Repr

/-- The fields of `common.TopicInfo`. -/
structure TopicInfo where
  BrokerName : Str
  TopicName : Str
  HeaderEncoding : KafkaEncoding
  KeyEncoding : KafkaEncoding
  ValueEncoding : KafkaEncoding
  ColSelectors : List Str
  Properties : Option (List (Str × Str))
  deriving DecidableEq, Repr

/-- The result `common.SourceInfo`. -/
structure SourceInfo where
  TableInfo : TableInfo
  TopicInfo : TopicInfo
  deriving DecidableEq, Repr

/-- Lines 263-305 of `getSourceInfo`: the checks after the two loops and the result. -/
def checkAndBuild (env : EncodingEnv) (schemaName : Str) (tableSequences : List Nat)
    (name : Str) (o : OptionsState) (t : TopicState) : Except SourceInfoError SourceInfo :=
  if t.headerEncoding = env.KafkaEncodingUnknown then .error (.invalidStatement ['h'])
  else if t.keyEncoding = env.KafkaEncodingUnknown then .error (.invalidStatement ['k'])
  else if t.valueEncoding = env.KafkaEncodingUnknown then .error (.invalidStatement ['v'])
  else if t.brokerName = [] then .error (.invalidStatement ['b'])
  else if t.topicName = [] then .error (.invalidStatement ['t'])
  else if 0 < t.colSelectors.length ∧ t.colSelectors.length ≠ o.colTypes.length then
    .error .wrongNumberColumnSelectors
  else
    match tableSequences with
    | [] => .error .panics
    | id :: _ =>
      .ok ⟨⟨id, schemaName, name, o.pkCols, o.colNames, o.colTypes, none, none, false⟩,
        ⟨t.brokerName, t.topicName, t.headerEncoding, t.keyEncoding, t.valueEncoding,
          t.colSelectors, t.propsMap⟩⟩

/-- The method `getSourceInfo` of the create-source command with schema name
`schemaName` and table sequences `tableSequences`. -/
def getSourceInfo (env : EncodingEnv) (ToSelector : Str → Str) (schemaName : Str)
    (tableSequences : List Nat) (ast : CreateSource) : Except SourceInfoError SourceInfo :=
  match readOptions 0 ⟨[], [], [], []⟩ ast.Options with
  | .error e => .error e
  | .ok o =>
    match readTopicInformation env ToSelector ⟨⟨0, []⟩, ⟨0, []⟩, ⟨0, []⟩, none, [], [], []⟩
        ast.TopicInformation with
    | .error e => .error e
    | .ok t => checkAndBuild env schemaName tableSequences ast.Name o t

/-- An encoding environment of the examples: `EncodingUnknown` is 0, the name `j` is the
encoding 1, every other name is unknown. -/
def demoEncodings : EncodingEnv :=
  ⟨fun name => if name = ['j'] then ⟨1, []⟩ else ⟨0, []⟩, 0, ⟨0, []⟩⟩

/-- An entry of the topic information with nothing set. -/
def emptyTopicOption : TopicInfoOption := ⟨[], [], [], none, none, [], []⟩

/-- A create-source statement of the examples with the columns `a`, `b`, the primary key
`a`, all encodings `j`, a broker, a topic and the given column selectors. -/
def demoCreateSource (selectors : List Str) : CreateSource :=
  ⟨['s'],
    [⟨some ⟨['a'], some ⟨.bigInt, 0, 0⟩⟩, []⟩, ⟨some ⟨['b'], some ⟨.varchar, 0, 0⟩⟩, []⟩,
      ⟨none, [['a']]⟩],
    [{ emptyTopicOption with HeaderEncoding := ['j'] },
     { emptyTopicOption with KeyEncoding := ['j'] },
     { emptyTopicOption with ValueEncoding := ['j'] },
     { emptyTopicOption with BrokerName := ['k'] },
     { emptyTopicOption with TopicName := ['t'] },
     { emptyTopicOption with ColSelectors := some selectors }]⟩

/-! ## The write-batch encoding in the words of the specification -/

/-- The encoding of a list of puts as the specification words it: for every put the key
length as `u32` LE, the key, the value length as `u32` LE, the value. -/
def specEncodePuts : List KVPair → Bytes
  | [] => []
  | p :: rest =>
    leBytes 4 p.Key.length ++ (p.Key ++ (leBytes 4 p.Value.length ++ (p.Value ++ specEncodePuts rest)))

/-- The encoding of a list of delete keys as the specification words it: for every key
its length as `u32` LE, then the key. -/
def specEncodeDeletes : List Bytes → Bytes
  | [] => []
  | k :: rest => leBytes 4 k.length ++ (k ++ specEncodeDeletes rest)

/-- The serialized write batch as the specification words it:
`num_puts u32 LE; (klen u32 LE, k, vlen u32 LE, v)*; num_deletes u32 LE; (klen u32 LE, k)*`. -/
def specEncodeWriteBatch (puts : List KVPair) (deletes : List Bytes) : Bytes :=
  leBytes 4 puts.length ++ (specEncodePuts puts
    ++ (leBytes 4 deletes.length ++ specEncodeDeletes deletes))

/-- Two puts and two deletes of the examples. -/
def demoPuts : List KVPair := [⟨[1, 2, 3], [4, 5]⟩, ⟨[], [6]⟩]

def demoDeletes : List Bytes := [[7, 8], [9]]

/-- A `WRITE` entry for shard 13 with one put and one delete, both keys with the shard
prefix. -/
def demoWriteEntry : Entry :=
  ⟨1, shardStateMachineCommandWrite
    :: specEncodeWriteBatch [⟨beBytes 8 13 ++ [1], [2]⟩] [beBytes 8 13 ++ [3]]⟩

/-! ## Vocabulary for the dedup cache and the ForwardDedup table -/

/-- Whether a key lies in the range that `loadDedupCache` scans: from the ForwardDedup
prefix of the shard up to, and not including, the prefix of the next table id. -/
def inDedupRange (ids : TableIDs) (shardID : Nat) (key : Bytes) : Bool :=
  !bytesLt key (EncodeTableKeyPrefix ids.ForwardDedupTableID shardID 16) &&
    bytesLt key (EncodeTableKeyPrefix (ids.ForwardDedupTableID + 1) shardID 16)

/-- No `WRITE` entry of the list puts or deletes a key in the ForwardDedup range of the
shard. -/
def WritesAvoidDedupTable (ids : TableIDs) (s : ShardOnDiskStateMachine)
    (entries : List Entry) : Prop :=
  ∀ e ∈ entries, e.Cmd.head? = some shardStateMachineCommandWrite →
    ∀ puts deletes, deserializeWriteBatch s e.Cmd 1 false = some (puts, deletes) →
      (∀ p ∈ puts, inDedupRange ids s.shardID p.Key = false) ∧
      ∀ k ∈ deletes, inDedupRange ids s.shardID k = false

/-- The store and the dedup cache agree: every row in the ForwardDedup range of the shard
is the row of an originator with an 8-byte value whose big-endian value is the cache entry
of that originator, and every originator of the cache has a row. -/
def DedupInv (ids : TableIDs) (shardID : Nat) (peb : Store) (cache : List (Bytes × Nat)) :
    Prop :=
  (∀ p ∈ peb, inDedupRange ids shardID p.1 = true →
    ∃ o, p.1 = EncodeTableKeyPrefix ids.ForwardDedupTableID shardID 16 ++ o ∧ o.length = 16 ∧
      p.2.length = 8 ∧ kvGet o cache = some (beVal p.2)) ∧
  (∀ o seq, kvGet o cache = some seq →
    ∃ v, kvGet (EncodeTableKeyPrefix ids.ForwardDedupTableID shardID 16 ++ o) peb = some v)

/-- A `WRITE` entry for shard 13 that puts a row for the originator `0x02 × 16` with the
value 7 directly into the ForwardDedup table (id 11) of the shard. -/
def demoDedupTableWrite : Entry :=
  ⟨1, shardStateMachineCommandWrite :: specEncodeWriteBatch
    [⟨beBytes 8 13 ++ beBytes 8 11 ++ List.replicate 16 2, beBytes 8 7⟩] []⟩

/-- The invariant of the write path for the dedup cache: the state machine is still the one
of the shard, and as long as the call has not failed the store that the batch built so far
would leave behind agrees with the dedup cache. -/
def WriteInv (ids : TableIDs) (s : ShardOnDiskStateMachine) (peb : Store) (w : WriteState) :
    Prop :=
  SameShard s w.sm ∧
  (w.outcome = .ok →
    DedupInv ids s.shardID (applyBatch peb w.batch) w.sm.dedupSequences)

/-- Two calls of `Update` of the examples: a forwarded put with duplicate detection from
the originator `0x01 × 16` with sequence 7, then the local write `demoWriteEntry`. -/
def demoDedupCalls : List (KVFaults × List Entry) :=
  [(noFaults, [⟨7, demoForwardCmd 1⟩]), (noFaults, [demoWriteEntry])]

/-- The Receiver key that the first call of `demoDedupCalls` writes. -/
def demoReceiverKey : Bytes :=
  beBytes 8 13 ++ beBytes 8 1 ++ beBytes 4 0 ++ beBytes 8 0 ++ [9] ++ beBytes 8 0

/-- The state machine after the calls `demoDedupCalls` on `demoShard`. -/
def demoDedupShard : ShardOnDiskStateMachine :=
  ⟨5, 13, [2, 5, 7], true, [(List.replicate 16 1, 7)], 1, 2, false⟩

/-- The store after the calls `demoDedupCalls` on `demoShard` and the empty store. -/
def demoDedupStore : Store :=
  [(beBytes 8 13 ++ beBytes 8 4, leBytes 8 1 ++ leBytes 8 1 ++ leBytes 4 2),
   (beBytes 8 13 ++ [1], [2]),
   (demoReceiverKey, [42, 43]),
   (beBytes 8 13 ++ beBytes 8 11 ++ List.replicate 16 1, beBytes 8 7)]

/-! ## Counting and failing in the execution-context cache -/

/-- The method `Range` of `sync.Map`: it calls `f` on the entries one after the other and
stops as soon as `f` returns `false`.  Go leaves the order open; here it is the order of
the list. -/
def mapRange {α σ : Type} (f : σ → Str → α → σ × Bool) : σ → List (Str × α) → σ
  | st, [] => st
  | st, (key, value) :: rest =>
    if (f st key value).2 then mapRange f (f st key value).1 rest else (f st key value).1

/-- The method `NumCachedExecCtxs`: the callback passed to `Range` increments the counter
and returns `false`. -/
def Engine.NumCachedExecCtxs (p : Engine) : Nat :=
  mapRange (fun (numEntries : Nat) _ (_ : ExecutionContext) => (numEntries + 1, false)) 0
    p.queryExecCtxCache

/-- An engine whose cache holds the context of the query `demoQuery 10 true`, left there by
an earlier page, with a remote DAG whose next `GetRows` returns an error. -/
def demoFailingEngine : Engine :=
  ⟨true, [(['5', '-', 'a', 'b'],
    ⟨['5', '-', 'a', 'b'], demoQuery 10 true, some ⟨demoRows 5, true⟩⟩)], 5, true⟩

/-- A create-source statement of the examples whose options are the column `a`, the
primary key `a`, the column `b` and the primary key `b`, in this order. -/
def demoInterleavedSource : CreateSource :=
  { demoCreateSource [] with
    Options := [⟨some ⟨['a'], some ⟨.bigInt, 0, 0⟩⟩, []⟩, ⟨none, [['a']]⟩,
      ⟨some ⟨['b'], some ⟨.varchar, 0, 0⟩⟩, []⟩, ⟨none, [['b']]⟩] }

/-! ## The planner's view of a schema (package `parplan`) -/

/-- The case-insensitive string of the SQL parser library (`model.CIStr`): the original
text `O` and its lower-case form `L`. -/
structure model.CIStr where
  O : Str
  L : Str
  deriving DecidableEq, Repr

/-- The constructor `model.NewCIStr` of the parser library: `L` is `strings.ToLower(O)`.
Letters outside ASCII are left as they are here. -/
def model.NewCIStr (s : Str) : model.CIStr := ⟨s, s.map Char.toLower⟩

/-- The states of a schema object in the parser library. -/
inductive model.SchemaState where
  | StateNone
  | StatePublic
  deriving DecidableEq, Repr

/-- The constant `mysql.PriKeyFlag` of the parser library, `1 << 1`. -/
def mysql.PriKeyFlag : Nat := 2

/-- The fields of `model.ColumnInfo` that `schemaToInfoSchema` sets.  The field type is
kept as the number that the conversion `common.ConvertPranaTypeToTiDBType`, a parameter
here, gives for the column type. -/
structure model.ColumnInfo where
  State : model.SchemaState
  Offset : Nat
  Name : model.CIStr
  FieldType : Nat
  ID : Int
  Flag : Nat
  deriving DecidableEq, Repr

structure model.IndexColumn where
  Name : model.CIStr
  Offset : Nat
  Length : Int
  deriving DecidableEq, Repr

/-- The fields of `model.IndexInfo`; the index type is always `model.IndexTypeBtree` and is
left out. -/
structure model.IndexInfo where
  ID : Int
  Name : model.CIStr
  Table : model.CIStr
  Columns : List model.IndexColumn
  State : model.SchemaState
  Comment : Str
  Unique : Bool
  Primary : Bool
  Invisible : Bool
  Global : Bool
  deriving DecidableEq, Repr

structure model.TableInfo where
  ID : Int
  Columns : List model.ColumnInfo
  Indices : List model.IndexInfo
  Name : model.CIStr
  PKIsHandle : Bool
  State : model.SchemaState
  deriving DecidableEq, Repr

structure model.DBInfo where
  ID : Int
  Name : model.CIStr
  Tables : List model.TableInfo
  deriving DecidableEq, Repr

structure schemaTables where
  dbInfo : model.DBInfo
  tables : List (Str × model.TableInfo)
  deriving DecidableEq, Repr

structure pranaInfoSchema where
  schemaMap : List (Str × schemaTables)
  deriving DecidableEq, Repr

/-- The conversion `int64(x)` of a `uint64`. -/
def toInt64 (x : Nat) : Int :=
  if x % 2 ^ 64 < 2 ^ 63 then (x % 2 ^ 64 : Nat) else ((x % 2 ^ 64 : Nat) : Int) - 2 ^ 64

/-- Lines 61-66 of `schemaToInfoSchema`: the flag of the column with index `columnIndex`.
The loop `for pkIndex := range tableInfo.PrimaryKeyCols` runs over the positions
`0, 1, ...` of the slice. -/
def columnFlag (PrimaryKeyCols : List Nat) (columnIndex : Nat) : Nat :=
  if (List.range PrimaryKeyCols.length).any (fun pkIndex => decide (columnIndex = pkIndex)) then
    0 ||| mysql.PriKeyFlag
  else 0

/-- The loop over the column types of a table (lines 49-69), from the column with index
`columnIndex` on; `none` stands for an index-out-of-range panic. -/
def infoColumns (ConvertPranaTypeToTiDBType : ColumnType → Nat) (tableInfo : TableInfo) :
    Nat → List ColumnType → Option (List model.ColumnInfo)
  | _, [] => some []
  | columnIndex, columnType :: rest =>
    let visible : Option Bool :=
      match tableInfo.ColsVisible with
      | none => some true
      | some vis => vis[columnIndex]?
    match visible with
    | none => none
    | some false => infoColumns ConvertPranaTypeToTiDBType tableInfo (columnIndex + 1) rest
    | some true =>
      match tableInfo.ColumnNames[columnIndex]? with
      | none => none
      | some name =>
        match infoColumns ConvertPranaTypeToTiDBType tableInfo (columnIndex + 1) rest with
        | none => none
        | some columns =>
          some (⟨.StatePublic, columnIndex, model.NewCIStr name,
            ConvertPranaTypeToTiDBType columnType, (columnIndex : Int) + 1,
            columnFlag tableInfo.PrimaryKeyCols columnIndex⟩ :: columns)

/-- The columns of an index: one for each listed column index. -/
def indexColumns (tableInfo : TableInfo) : List Nat → Option (List model.IndexColumn)
  | [] => some []
  | columnIndex :: rest =>
    match tableInfo.ColumnNames[columnIndex]?, indexColumns tableInfo rest with
    | some name, some cols => some (⟨model.NewCIStr name, columnIndex, -1⟩ :: cols)
    | _, _ => none

/-- The loop over the secondary indexes of a table (lines 102-127). -/
def secondaryIndexes (tableInfo : TableInfo) (tableName : model.CIStr) :
    List IndexInfo → Option (List model.IndexInfo)
  | [] => some []
  | indexInfo :: rest =>
    match indexColumns tableInfo indexInfo.IndexCols, secondaryIndexes tableInfo tableName rest with
    | some indexCols, some indexes =>
      some (⟨toInt64 indexInfo.ID,
        model.NewCIStr (tableInfo.Name ++ ['_', 'u'] ++ indexInfo.Name), tableName, indexCols,
        .StatePublic, [], false, false, false, false⟩ :: indexes)
    | _, _ => none

/-- The body of the loop over the tables of the schema (lines 49-137) for a table that is
not internal. -/
def tableToInfo (ConvertPranaTypeToTiDBType : ColumnType → Nat) (tableInfo : TableInfo) :
    Option model.TableInfo :=
  match infoColumns ConvertPranaTypeToTiDBType tableInfo 0 tableInfo.ColumnTypes with
  | none => none
  | some columns =>
    let tableName := model.NewCIStr tableInfo.Name
    let pkIndexes : Option (List model.IndexInfo) :=
      if 1 < tableInfo.PrimaryKeyCols.length then
        match indexColumns tableInfo tableInfo.PrimaryKeyCols with
        | none => none
        | some indexCols =>
          some [⟨toInt64 tableInfo.ID, model.NewCIStr (tableInfo.Name ++ ['_', 'p', 'k']),
            tableName, indexCols, .StatePublic, [], true, true, false, false⟩]
      else some []
    match pkIndexes with
    | none => none
    | some indexes =>
      match secondaryIndexes tableInfo tableName (tableInfo.IndexInfos.getD []) with
      | none => none
      | some more =>
        some ⟨toInt64 tableInfo.ID, columns, indexes ++ more, tableName,
          decide (tableInfo.PrimaryKeyCols.length = 1), .StatePublic⟩

/-- The loop over the tables of the schema: the list `tabInfos` and the map `tablesMap`
that it builds. -/
def infoTables (ConvertPranaTypeToTiDBType : ColumnType → Nat) :
    List model.TableInfo → List (Str × model.TableInfo) → List TableInfo →
      Option (List model.TableInfo × List (Str × model.TableInfo))
  | tabInfos, tablesMap, [] => some (tabInfos, tablesMap)
  | tabInfos, tablesMap, tableInfo :: rest =>
    if tableInfo.Internal then infoTables ConvertPranaTypeToTiDBType tabInfos tablesMap rest
    else
      match tableToInfo ConvertPranaTypeToTiDBType tableInfo with
      | none => none
      | some tab =>
        infoTables ConvertPranaTypeToTiDBType (tabInfos ++ [tab])
          (mapStore tableInfo.Name tab tablesMap) rest

/-- The function `schemaToInfoSchema` for a schema with the name `schemaName` whose
`GetAllTableInfos` gives the table infos `tableInfos` (in the order in which the loop over
the map meets them); `none` stands for an index-out-of-range panic. -/
def schemaToInfoSchema (ConvertPranaTypeToTiDBType : ColumnType → Nat) (schemaName : Str)
    (tableInfos : List TableInfo) : Option pranaInfoSchema :=
  match infoTables ConvertPranaTypeToTiDBType [] [] tableInfos with
  | none => none
  | some (tabInfos, tablesMap) =>
    some ⟨[(schemaName, ⟨⟨0, model.NewCIStr schemaName, tabInfos⟩, tablesMap⟩)]⟩

def pranaInfoSchema.SchemaByName (pis : pranaInfoSchema) (schema : model.CIStr) :
    Option model.DBInfo :=
  match mapLoad schema.L pis.schemaMap with
  | none => none
  | some tableNames => some tableNames.dbInfo

/-- The error `tidb.ErrTableNotExists` with its two arguments. -/
structure ErrTableNotExists where
  schema : model.CIStr
  table : model.CIStr
  deriving DecidableEq, Repr

def pranaInfoSchema.TableByName (pis : pranaInfoSchema) (schema table : model.CIStr) :
    Except ErrTableNotExists model.TableInfo :=
  match mapLoad schema.L pis.schemaMap with
  | some tbNames =>
    match mapLoad table.L tbNames.tables with
    | some t => .ok t
    | none => .error ⟨schema, table⟩
  | none => .error ⟨schema, table⟩

/-- A table of the examples with the columns `a` and `b` and the primary key `b`. -/
def demoTableInfo (name : Str) : TableInfo :=
  ⟨7, ['t', 'e', 's', 't'], name, [1], [['a'], ['b']], [⟨.bigInt, 0, 0⟩, ⟨.varchar, 0, 0⟩],
    none, none, false⟩

/-- A conversion of column types of the examples. -/
def demoConvert (t : ColumnType) : Nat := if t.Typ = .varchar then 15 else 8

/-! ## Phase 2 of the create-materialized-view command (package `command`) -/

/-- The calls that `onPhase2` makes into the push engine, the meta controller, the failure
injector and the cluster. -/
inductive Phase2Step where
  | WaitForSchedulers
  | RegisterMV
  | RegisterMaterializedView
  | CheckFail
  | RemoveToDeleteBatch
  deriving DecidableEq, Repr

/-- What the collaborators of `onPhase2`, which are not part of the sources at hand, do
when they are called: the first four return an error (a number here) or `nil`;
`RemoveToDeleteBatch` gets the batch of the command and the rows of the to-delete table and
returns the rows that it leaves and its error. -/
structure Phase2Env where
  WaitForSchedulers : Option Nat
  RegisterMV : Option Nat
  RegisterMaterializedView : Option Nat
  CheckFail : Option Nat
  RemoveToDeleteBatch : List Bytes → List Bytes → List Bytes × Option Nat

/-- The part of the world that `onPhase2` acts on: the rows of the to-delete table and
(bookkeeping, not present in the Go code) the calls made so far, oldest first. -/
structure MVWorld where
  toDelete : List Bytes
  calls : List Phase2Step
  deriving DecidableEq, Repr

/-- The method `onPhase2` of the create-MV command whose `toDeleteBatch` is
`toDeleteBatch`; the result is the world afterwards and the returned error. -/
def onPhase2 (env : Phase2Env) (toDeleteBatch : List Bytes) (w : MVWorld) :
    MVWorld × Option Nat :=
  let w1 : MVWorld := { w with calls := w.calls ++ [.WaitForSchedulers] }
  match env.WaitForSchedulers with
  | some err => (w1, some err)
  | none =>
    let w2 : MVWorld := { w1 with calls := w1.calls ++ [.RegisterMV] }
    match env.RegisterMV with
    | some err => (w2, some err)
    | none =>
      let w3 : MVWorld := { w2 with calls := w2.calls ++ [.RegisterMaterializedView] }
      match env.RegisterMaterializedView with
      | some err => (w3, some err)
      | none =>
        let w4 : MVWorld := { w3 with calls := w3.calls ++ [.CheckFail] }
        match env.CheckFail with
        | some err => (w4, some err)
        | none =>
          let r := env.RemoveToDeleteBatch toDeleteBatch w4.toDelete
          (⟨r.1, w4.calls ++ [.RemoveToDeleteBatch]⟩, r.2)

/-- The error that a step of phase 2 before the removal returns. -/
def Phase2Env.errorOf (env : Phase2Env) : Phase2Step → Option Nat
  | .WaitForSchedulers => env.WaitForSchedulers
  | .RegisterMV => env.RegisterMV
  | .RegisterMaterializedView => env.RegisterMaterializedView
  | .CheckFail => env.CheckFail
  | .RemoveToDeleteBatch => none

/-- The steps of phase 2 before the removal, in the order of the claim. -/
def phase2Checks : List Phase2Step :=
  [.WaitForSchedulers, .RegisterMV, .RegisterMaterializedView, .CheckFail]

/-- The first step of a list that returns an error, with the steps before it and the
error. -/
def firstFailure (env : Phase2Env) : List Phase2Step → Option (List Phase2Step × Phase2Step × Nat)
  | [] => none
  | step :: rest =>
    match env.errorOf step with
    | some err => some ([], step, err)
    | none => (firstFailure env rest).map (fun r => (step :: r.1, r.2))

/-- A removal that deletes the rows of the batch and succeeds. -/
def demoRemove (batch table : List Bytes) : List Bytes × Option Nat :=
  (table.filter (fun k => decide (k ∉ batch)), none)

/-! ## Failing calls and recovery: concrete inputs -/

/-- An engine on which every operation works except the commit of a batch. -/
def commitFails : KVFaults := ⟨fun _ => false, true, false, false⟩

/-- A store that holds only the LastLogIndexReceived row of shard 13 of the examples, with
the last log index 9, the receiver sequence 5 and the batch sequence 3. -/
def demoSnapshotStore : Store :=
  [(EncodeTableKeyPrefix demoIds.LastLogIndexReceivedTableID 13 16, encodeSequences 9 5 3)]

/-- A restore of the examples: it replaces the store by `demoSnapshotStore`. -/
def demoRestore (_ : Store) : Bool × Store := (true, demoSnapshotStore)

/-! ## The streaming aggregator (package `push/exec`) -/

/-- A row of package `common`, as the list of its column values (numbers here). -/
abbrev Row := List Int

/-- An entry of a rows batch: the positions of the previous and of the current row among
the rows of the batch, -1 for an absent row (`NewRowsEntry(pi, ci)`). -/
structure RowsEntry where
  prevIndex : Int
  currIndex : Int
  deriving DecidableEq, Repr

/-- Modelled from the spec: `exec.RowsBatch` is not part of the sources at hand.  By the
spec it is a vector of `(previous_row?, current_row?)` entries; `NewRowsBatch(rows,
entries)` pairs the rows with entries that point into them. -/
structure RowsBatch where
  rows : List Row
  entries : List RowsEntry
  deriving DecidableEq, Repr

/-- The row at a position of an entry; `none` for the position -1 (the Go `nil`). -/
def RowsBatch.rowAt (b : RowsBatch) (index : Int) : Option Row :=
  if index < 0 then none else b.rows[index.toNat]?

def RowsBatch.Len (b : RowsBatch) : Nat := b.entries.length

def RowsBatch.PreviousRow (b : RowsBatch) (i : Nat) : Option Row :=
  match b.entries[i]? with
  | none => none
  | some e => b.rowAt e.prevIndex

def RowsBatch.CurrentRow (b : RowsBatch) (i : Nat) : Option Row :=
  match b.entries[i]? with
  | none => none
  | some e => b.rowAt e.currIndex

/-- The write batch of the execution context: the shard and the puts added with `AddPut`,
oldest first. -/
structure WriteBatch where
  ShardID : Nat
  puts : List (Bytes × Bytes)
  deriving DecidableEq, Repr

/-- A forward write: the arguments of one call of `AddToForwardBatch`. -/
structure ForwardWrite where
  remoteShardID : Nat
  forwardKey : Bytes
  value : Bytes
  deriving DecidableEq, Repr

/-- The fields of the execution context of the push engine that the aggregator uses;
`forwardBatch` lists the calls of `AddToForwardBatch`, oldest first. -/
structure exec.ExecutionContext where
  WriteBatch : WriteBatch
  BatchSequence : Nat
  EnableDuplicateDetection : Bool
  forwardBatch : List ForwardWrite
  deriving DecidableEq, Repr

/-- What the aggregator uses from packages that are not part of the sources at hand.  The
aggregate state of package `aggfuncs` is the type `σ`; a result `none` stands for a
returned error.
* `NewAggState`, `IsChanged`: the constructor and the method of `aggfuncs.AggState`;
* `initAggStateWithRow`, `evaluateAggFunctions`, `mergeRow`: the loops of the aggregator
  over its aggregate functions, which only call into `aggfuncs` (`mergeRow` is the
  initialisation of a fresh state with a row followed by `mergeState`);
* `stateRow`: the row that `storeAggregateResults` reads out of a state (lines 307-331);
* `LocalGet`: the storage (`nil` is `some none`); `DecodeRow`, `EncodeRow`, `EncodeKeyCols`:
  the codecs of package `common`; `CalculateShard`: the sharder;
* `EncodeKeyForForwardAggregation`, `EncodePrevAndCurrentRow`: package `push/util`. -/
structure AggEnv (σ : Type) where
  NewAggState : Nat → σ
  IsChanged : σ → Bool
  initAggStateWithRow : Row → σ → Option σ
  evaluateAggFunctions : σ → Row → Bool → Option σ
  mergeRow : Row → σ → Bool → Option σ
  stateRow : σ → Option Row
  LocalGet : Bytes → Option (Option Bytes)
  DecodeRow : Bytes → List ColumnType → Option Row
  EncodeRow : Row → List ColumnType → Option Bytes
  EncodeKeyCols : Row → List Nat → List ColumnType → Bytes → Option Bytes
  CalculateShard : Bytes → Option Nat
  EncodeKeyForForwardAggregation : Bool → Nat → Nat → Nat → Nat → Bytes
  EncodePrevAndCurrentRow : Option Bytes → Option Bytes → Bytes

/-- The fields of `Aggregator`; `childColTypes` is `a.GetChildren()[0].ColTypes()`. -/
structure Aggregator where
  colTypes : List ColumnType
  keyCols : List Nat
  childColTypes : List ColumnType
  PartialAggTableInfo : TableInfo
  FullAggTableInfo : TableInfo
  groupByCols : List Nat
  deriving DecidableEq, Repr

structure aggStateHolder (σ : Type) where
  aggState : σ
  initialRowBytes : Option Bytes
  keyBytes : Bytes
  rowBytes : Option Bytes
  initialRow : Option Row
  row : Option Row

/-- The state holders of a batch.  In Go the map and the slice hold pointers to the same
holders; here the map gives the position of the holder in the slice. -/
structure stateHolders (σ : Type) where
  holdersMap : List (Bytes × Nat)
  holders : List (aggStateHolder σ)

/-- The list with `f` applied to the element at a position. -/
def modifyAt {α : Type} (f : α → α) : Nat → List α → List α
  | _, [] => []
  | 0, x :: xs => f x :: xs
  | n + 1, x :: xs => x :: modifyAt f n xs

/-- A change of the holder at a position, seen through the map and through the slice. -/
def stateHolders.modify {σ : Type} (hs : stateHolders σ) (i : Nat)
    (f : aggStateHolder σ → aggStateHolder σ) : stateHolders σ :=
  { hs with holders := modifyAt f i hs.holders }

/-- The method `createKeyFromPrevOrCurrRow`; without any row the encoder is handed `nil`,
which does not return normally. -/
def createKeyFromPrevOrCurrRow {σ : Type} (env : AggEnv σ) (prevRow currRow : Option Row)
    (shardID : Nat) (colTypes : List ColumnType) (keyCols : List Nat) (tableID : Nat) :
    Option Bytes :=
  let keyBytes := EncodeTableKeyPrefix tableID shardID 25
  let row := match currRow with
    | some r => some r
    | none => prevRow
  match row with
  | none => none
  | some r => env.EncodeKeyCols r keyCols colTypes keyBytes

/-- The method `loadAggregateState`: the position of the holder of the key and the holders
afterwards. -/
def loadAggregateState {σ : Type} (env : AggEnv σ) (a : Aggregator) (keyBytes : Bytes)
    (aggStateHolders : stateHolders σ) : Option (Nat × stateHolders σ) :=
  match kvGet keyBytes aggStateHolders.holdersMap with
  | some i => some (i, aggStateHolders)
  | none =>
    match env.LocalGet keyBytes with
    | none => none
    | some rowBytes =>
      let decoded : Option (Option Row) :=
        match rowBytes with
        | none => some none
        | some b =>
          match env.DecodeRow b a.PartialAggTableInfo.ColumnTypes with
          | none => none
          | some r => some (some r)
      match decoded with
      | none => none
      | some currRow =>
        let numCols := a.colTypes.length
        let aggState := env.NewAggState numCols
        let i := aggStateHolders.holders.length
        let added : stateHolders σ :=
          ⟨kvSet keyBytes i aggStateHolders.holdersMap,
            aggStateHolders.holders ++ [⟨aggState, none, keyBytes, none, none, none⟩]⟩
        match currRow with
        | none => some (i, added.modify i (fun h => { h with initialRowBytes := rowBytes }))
        | some r =>
          match env.initAggStateWithRow r aggState with
          | none => none
          | some st =>
            some (i, added.modify i (fun h =>
              { h with aggState := st, initialRow := some r, initialRowBytes := rowBytes }))

/-- An optional step on the aggregate state of the holder at a position: nothing happens
for an absent row. -/
def stateHolders.evalOn {σ : Type} (hs : stateHolders σ) (i : Nat) (row : Option Row)
    (f : σ → Row → Option σ) : Option (stateHolders σ) :=
  match row with
  | none => some hs
  | some r =>
    match hs.holders[i]? with
    | none => none
    | some h =>
      match f h.aggState r with
      | none => none
      | some st => some (hs.modify i (fun h1 => { h1 with aggState := st }))

/-- The method `calcPartialAggregations`. -/
def calcPartialAggregations {σ : Type} (env : AggEnv σ) (a : Aggregator)
    (prevRow currRow : Option Row) (aggStateHolders : stateHolders σ) (shardID : Nat) :
    Option (stateHolders σ) :=
  match createKeyFromPrevOrCurrRow env prevRow currRow shardID a.childColTypes a.groupByCols
      a.PartialAggTableInfo.ID with
  | none => none
  | some keyBytes =>
    match loadAggregateState env a keyBytes aggStateHolders with
    | none => none
    | some (i, hs) =>
      match hs.evalOn i prevRow (fun st r => env.evaluateAggFunctions st r true) with
      | none => none
      | some hs1 => hs1.evalOn i currRow (fun st r => env.evaluateAggFunctions st r false)

/-- The method `calcFullAggregation`. -/
def calcFullAggregation {σ : Type} (env : AggEnv σ) (a : Aggregator)
    (prevRow currRow : Option Row) (aggStateHolders : stateHolders σ) (shardID : Nat) :
    Option (stateHolders σ) :=
  match createKeyFromPrevOrCurrRow env prevRow currRow shardID a.colTypes a.keyCols
      a.FullAggTableInfo.ID with
  | none => none
  | some key =>
    match loadAggregateState env a key aggStateHolders with
    | none => none
    | some (i, hs) =>
      match hs.evalOn i prevRow (fun st r => env.mergeRow r st true) with
      | none => none
      | some hs1 => hs1.evalOn i currRow (fun st r => env.mergeRow r st false)

/-- The method `AddPut` of the write batch. -/
def WriteBatch.AddPut (wb : WriteBatch) (key value : Bytes) : WriteBatch :=
  { wb with puts := wb.puts ++ [(key, value)] }

/-- The method `AddToForwardBatch` of the execution context. -/
def exec.ExecutionContext.AddToForwardBatch (ctx : exec.ExecutionContext) (remoteShardID : Nat)
    (forwardKey value : Bytes) : exec.ExecutionContext :=
  { ctx with forwardBatch := ctx.forwardBatch ++ [⟨remoteShardID, forwardKey, value⟩] }

/-- The loop over the rows of the batch in `HandleRows` and `HandleRemoteRows`, for the
row numbers of a list; `step` is `calcPartialAggregations` or `calcFullAggregation`. -/
def calcRows {σ : Type}
    (step : Option Row → Option Row → stateHolders σ → Option (stateHolders σ))
    (rowsBatch : RowsBatch) : List Nat → stateHolders σ → Option (stateHolders σ)
  | [], holders => some holders
  | i :: rest, holders =>
    match step (rowsBatch.PreviousRow i) (rowsBatch.CurrentRow i) holders with
    | none => none
    | some holders1 => calcRows step rowsBatch rest holders1

/-- The loop of `storeAggregateResults` over the holders: a changed holder gets the row
read out of its state and the encoded row, which is put into the write batch under the
key of the holder. -/
def storeHolders {σ : Type} (env : AggEnv σ) (a : Aggregator) :
    List (aggStateHolder σ) → WriteBatch → Option (List (aggStateHolder σ) × WriteBatch)
  | [], writeBatch => some ([], writeBatch)
  | stateHolder :: rest, writeBatch =>
    if env.IsChanged stateHolder.aggState then
      match env.stateRow stateHolder.aggState with
      | none => none
      | some row =>
        match env.EncodeRow row a.PartialAggTableInfo.ColumnTypes with
        | none => none
        | some valueBuff =>
          match storeHolders env a rest (writeBatch.AddPut stateHolder.keyBytes valueBuff) with
          | none => none
          | some (stored, wb) =>
            some ({ stateHolder with row := some row, rowBytes := some valueBuff } :: stored, wb)
    else
      match storeHolders env a rest writeBatch with
      | none => none
      | some (stored, wb) => some (stateHolder :: stored, wb)

/-- The method `storeAggregateResults`. -/
def storeAggregateResults {σ : Type} (env : AggEnv σ) (a : Aggregator)
    (holders : stateHolders σ) (writeBatch : WriteBatch) :
    Option (stateHolders σ × WriteBatch) :=
  match storeHolders env a holders.holders writeBatch with
  | none => none
  | some (stored, wb) => some ({ holders with holders := stored }, wb)

/-- The forward write of `HandleRows` for the holder with index `i` (lines 96-108); `none`
when the sharder returns an error or the key is shorter than its 16-byte prefix. -/
def forwardWrite {σ : Type} (env : AggEnv σ) (a : Aggregator) (ctx : exec.ExecutionContext)
    (i : Nat) (stateHolder : aggStateHolder σ) : Option ForwardWrite :=
  if stateHolder.keyBytes.length < 16 then none
  else
    match env.CalculateShard (stateHolder.keyBytes.drop 16) with
    | none => none
    | some remoteShardID =>
      some ⟨remoteShardID,
        env.EncodeKeyForForwardAggregation ctx.EnableDuplicateDetection a.PartialAggTableInfo.ID
          ctx.WriteBatch.ShardID (dupSeq ctx.BatchSequence i) a.FullAggTableInfo.ID,
        env.EncodePrevAndCurrentRow stateHolder.initialRowBytes stateHolder.rowBytes⟩

/-- The loop of `HandleRows` over the holders (lines 94-110), from the holder with index
`i` on. -/
def forwardHolders {σ : Type} (env : AggEnv σ) (a : Aggregator) :
    exec.ExecutionContext → Nat → List (aggStateHolder σ) → Option exec.ExecutionContext
  | ctx, _, [] => some ctx
  | ctx, i, stateHolder :: rest =>
    if env.IsChanged stateHolder.aggState then
      match forwardWrite env a ctx i stateHolder with
      | none => none
      | some fw =>
        forwardHolders env a (ctx.AddToForwardBatch fw.remoteShardID fw.forwardKey fw.value)
          (i + 1) rest
    else forwardHolders env a ctx (i + 1) rest

/-- The holders that `HandleRows` has built when it has processed the rows of the batch
(lines 76-86). -/
def partialHolders {σ : Type} (env : AggEnv σ) (a : Aggregator) (rowsBatch : RowsBatch)
    (ctx : exec.ExecutionContext) : Option (stateHolders σ) :=
  calcRows (fun prevRow currentRow holders =>
      calcPartialAggregations env a prevRow currentRow holders ctx.WriteBatch.ShardID)
    rowsBatch (List.range rowsBatch.Len) ⟨[], []⟩

/-- The method `HandleRows` of the aggregator: the execution context afterwards, `none`
when it does not return normally. -/
def Aggregator.HandleRows {σ : Type} (env : AggEnv σ) (a : Aggregator) (rowsBatch : RowsBatch)
    (ctx : exec.ExecutionContext) : Option exec.ExecutionContext :=
  match partialHolders env a rowsBatch ctx with
  | none => none
  | some holders =>
    match storeAggregateResults env a holders ctx.WriteBatch with
    | none => none
    | some (stored, wb) => forwardHolders env a { ctx with WriteBatch := wb } 0 stored.holders

/-- The loop of `HandleRemoteRows` over the holders (lines 146-162): the result rows, the
entries and the counter `rc`. -/
def parentEntries {σ : Type} (env : AggEnv σ) :
    List (aggStateHolder σ) → List Row → List RowsEntry → Int → List Row × List RowsEntry × Int
  | [], resultRows, entries, rc => (resultRows, entries, rc)
  | stateHolder :: rest, resultRows, entries, rc =>
    if env.IsChanged stateHolder.aggState then
      let p : List Row × Int × Int :=
        match stateHolder.initialRow with
        | some prevRow => (resultRows ++ [prevRow], rc, rc + 1)
        | none => (resultRows, -1, rc)
      let c : List Row × Int × Int :=
        match stateHolder.row with
        | some currRow => (p.1 ++ [currRow], p.2.2, p.2.2 + 1)
        | none => (p.1, -1, p.2.2)
      parentEntries env rest c.1 (entries ++ [⟨p.2.1, c.2.1⟩]) c.2.2
    else parentEntries env rest resultRows entries rc

/-- The holders that `HandleRemoteRows` has built when it has processed the rows of the
batch (lines 122-132). -/
def fullHolders {σ : Type} (env : AggEnv σ) (a : Aggregator) (rowsBatch : RowsBatch)
    (ctx : exec.ExecutionContext) : Option (stateHolders σ) :=
  calcRows (fun prevRow currRow holders =>
      calcFullAggregation env a prevRow currRow holders ctx.WriteBatch.ShardID)
    rowsBatch (List.range rowsBatch.Len) ⟨[], []⟩

/-- Lines 119-162 of `HandleRemoteRows`: the holders after the results were stored, the
rows batch for the parent and the execution context. -/
def remoteRowsBatch {σ : Type} (env : AggEnv σ) (a : Aggregator) (rowsBatch : RowsBatch)
    (ctx : exec.ExecutionContext) :
    Option (stateHolders σ × RowsBatch × exec.ExecutionContext) :=
  match fullHolders env a rowsBatch ctx with
  | none => none
  | some holders =>
    match storeAggregateResults env a holders ctx.WriteBatch with
    | none => none
    | some (stored, wb) =>
      let r := parentEntries env stored.holders [] [] 0
      some (stored, ⟨r.1, r.2.1⟩, { ctx with WriteBatch := wb })

/-- The method `HandleRemoteRows`; the parent operator is the parameter `parent`. -/
def Aggregator.HandleRemoteRows {σ : Type} (env : AggEnv σ) (a : Aggregator)
    (parent : RowsBatch → exec.ExecutionContext → Option exec.ExecutionContext)
    (rowsBatch : RowsBatch) (ctx : exec.ExecutionContext) : Option exec.ExecutionContext :=
  match remoteRowsBatch env a rowsBatch ctx with
  | none => none
  | some (_, batch, ctx1) => parent batch ctx1

/-- The keys of a list in the order of their first occurrence. -/
def firstOccurrences : List Bytes → List Bytes
  | [] => []
  | k :: rest => k :: (firstOccurrences rest).filter (fun x => decide (x ≠ k))

/-- The group key of the row with number `i` of a batch for the partial aggregation. -/
def partialKey {σ : Type} (env : AggEnv σ) (a : Aggregator) (rowsBatch : RowsBatch)
    (shardID : Nat) (i : Nat) : Option Bytes :=
  createKeyFromPrevOrCurrRow env (rowsBatch.PreviousRow i) (rowsBatch.CurrentRow i) shardID
    a.childColTypes a.groupByCols a.PartialAggTableInfo.ID

/-- The group key of the row with number `i` of a batch for the full aggregation. -/
def fullKey {σ : Type} (env : AggEnv σ) (a : Aggregator) (rowsBatch : RowsBatch)
    (shardID : Nat) (i : Nat) : Option Bytes :=
  createKeyFromPrevOrCurrRow env (rowsBatch.PreviousRow i) (rowsBatch.CurrentRow i) shardID
    a.colTypes a.keyCols a.FullAggTableInfo.ID

/-- The forward writes of the changed holders of a list, each with its position among all
holders as index, from the position `i` on. -/
def changedForwards {σ : Type} (env : AggEnv σ) (a : Aggregator) (ctx : exec.ExecutionContext) :
    Nat → List (aggStateHolder σ) → List (Option ForwardWrite)
  | _, [] => []
  | i, h :: rest =>
    if env.IsChanged h.aggState then forwardWrite env a ctx i h :: changedForwards env a ctx (i + 1) rest
    else changedForwards env a ctx (i + 1) rest

/-- An aggregation of the examples: rows are `[group, value]`, the state is the sum of the
values and the changed flag, nothing is stored yet except the sum 10 for group 3. -/
def demoAggEnv : AggEnv (Int × Bool) where
  NewAggState := fun _ => (0, false)
  IsChanged := fun st => st.2
  initAggStateWithRow := fun r st => some ((r[0]?).getD 0, st.2)
  evaluateAggFunctions := fun st r q =>
    if (r[1]?).getD 0 = 0 then some st
    else some (if q then st.1 - (r[1]?).getD 0 else st.1 + (r[1]?).getD 0, true)
  mergeRow := fun r st q =>
    some (if q then st.1 - (r[0]?).getD 0 else st.1 + (r[0]?).getD 0, true)
  stateRow := fun st => some [st.1]
  LocalGet := fun k => if k.getLast? = some 3 then some (some [10]) else some none
  DecodeRow := fun b _ => some (b.map Int.ofNat)
  EncodeRow := fun r _ => some (r.map Int.toNat)
  EncodeKeyCols := fun r _ _ buf => some (buf ++ [((r[0]?).getD 0).toNat])
  CalculateShard := fun k => some (k.sum % 4)
  EncodeKeyForForwardAggregation := fun d pid sid q fid =>
    (if d then 1 else 0) :: (beBytes 8 pid ++ beBytes 8 sid ++ beBytes 8 q ++ beBytes 8 fid)
  EncodePrevAndCurrentRow := fun p c => p.getD [] ++ [255] ++ c.getD []

/-- The aggregator of the examples: partial table 20, full table 21. -/
def demoAggregator : Aggregator :=
  ⟨[⟨.bigInt, 0, 0⟩], [0], [⟨.bigInt, 0, 0⟩, ⟨.bigInt, 0, 0⟩],
    ⟨20, [], ['p'], [0], [['s']], [⟨.bigInt, 0, 0⟩], none, none, false⟩,
    ⟨21, [], ['f'], [0], [['s']], [⟨.bigInt, 0, 0⟩], none, none, false⟩, [0]⟩

/-- A batch of the examples: inserts for the groups 4, 5, 3 and 5; the row of group 4 has
the value 0 and changes nothing. -/
def demoRowsBatch : RowsBatch :=
  ⟨[[4, 0], [5, 1], [3, 2], [5, 7]], [⟨-1, 0⟩, ⟨-1, 1⟩, ⟨-1, 2⟩, ⟨-1, 3⟩]⟩

/-- The execution context of the examples: shard 13, batch sequence 2. -/
def demoPushCtx : exec.ExecutionContext := ⟨⟨13, []⟩, 2, true, []⟩

/-- The row that the storage holds under a key, decoded; `none` when there is none. -/
def storedRow {σ : Type} (env : AggEnv σ) (a : Aggregator) (key : Bytes) : Option Row :=
  match env.LocalGet key with
  | some (some b) => env.DecodeRow b a.PartialAggTableInfo.ColumnTypes
  | _ => none

/-- A holder as `loadAggregateState` creates it and the evaluation of rows leaves it: the
initial row is the row that the storage holds under the key of the holder, and no result
row has been stored yet. -/
def HolderLoaded {σ : Type} (env : AggEnv σ) (a : Aggregator) (h : aggStateHolder σ) : Prop :=
  h.initialRow = storedRow env a h.keyBytes ∧ h.row = none ∧ h.rowBytes = none

/-- The map and the slice of the state holders agree: the map sends a key to the position
of a holder with that key, and a key without entry has no holder. -/
def HoldersOk {σ : Type} (hs : stateHolders σ) : Prop :=
  (∀ k i, kvGet k hs.holdersMap = some i →
    ∃ h, hs.holders[i]? = some h ∧ h.keyBytes = k) ∧
  (∀ k, kvGet k hs.holdersMap = none → k ∉ hs.holders.map (fun h => h.keyBytes))

/-- The keys of the holders after a row with the key `k`: a new key goes to the end. -/
def addKey (keys : List Bytes) (k : Bytes) : List Bytes :=
  if k ∈ keys then keys else keys ++ [k]

/-- The position of the first occurrence of a key in a list (the length of the list part
before it). -/
def firstIndex (x : Bytes) : List Bytes → Nat
  | [] => 0
  | k :: rest => if k = x then 0 else firstIndex x rest + 1

/-- How `storeAggregateResults` leaves a holder `s` that it found as `h`, with the puts
`puts` in the write batch afterwards: a changed holder has got the row read out of its
state and the encoded row, which is among the puts under the key of the holder; an
unchanged holder is as before. -/
def StoredFrom {σ : Type} (env : AggEnv σ) (a : Aggregator) (puts : List (Bytes × Bytes))
    (h s : aggStateHolder σ) : Prop :=
  s.keyBytes = h.keyBytes ∧ s.aggState = h.aggState ∧ s.initialRow = h.initialRow ∧
  s.initialRowBytes = h.initialRowBytes ∧
  (env.IsChanged h.aggState = true →
    ∃ r v, env.stateRow h.aggState = some r ∧
      env.EncodeRow r a.PartialAggTableInfo.ColumnTypes = some v ∧
      s.row = some r ∧ s.rowBytes = some v ∧ (h.keyBytes, v) ∈ puts) ∧
  (env.IsChanged h.aggState = false → s.row = h.row ∧ s.rowBytes = h.rowBytes)

/-- The execution context of the examples after `HandleRows` on `demoRowsBatch`. -/
def demoPushCtxAfter : exec.ExecutionContext :=
  ⟨⟨13, [(beBytes 8 13 ++ beBytes 8 20 ++ [5], [8]), (beBytes 8 13 ++ beBytes 8 20 ++ [3], [12])]⟩,
    2, true,
    [⟨1, 1 :: (beBytes 8 20 ++ beBytes 8 13 ++ beBytes 8 (2 * 2 ^ 32 + 1) ++ beBytes 8 21), [255, 8]⟩,
     ⟨3, 1 :: (beBytes 8 20 ++ beBytes 8 13 ++ beBytes 8 (2 * 2 ^ 32 + 2) ++ beBytes 8 21),
       [10, 255, 12]⟩]⟩

/-- An entry of a rows batch with the rows `rows` stands for the pair of rows `prev` and
`curr`: its positions lead to these rows, a position is -1 exactly for an absent row, and
every other position is one of a row of the batch. -/
def EntryFor (rows : List Row) (e : RowsEntry) (prev curr : Option Row) : Prop :=
  (⟨rows, []⟩ : RowsBatch).rowAt e.prevIndex = prev ∧
  (⟨rows, []⟩ : RowsBatch).rowAt e.currIndex = curr ∧
  (e.prevIndex = -1 ∨ (0 ≤ e.prevIndex ∧ e.prevIndex < rows.length)) ∧
  (e.currIndex = -1 ∨ (0 ≤ e.currIndex ∧ e.currIndex < rows.length))

/-- A batch of partial results of the examples for the full aggregation: an insert for
group 5, an insert for group 3 (for which the storage holds the row 10) and an update for
group 5. -/
def demoRemoteBatch : RowsBatch := ⟨[[5], [3], [5]], [⟨-1, 0⟩, ⟨-1, 1⟩, ⟨0, 2⟩]⟩

/-- The state holders of the examples after `demoRemoteBatch` was processed and stored. -/
def demoStoredHolders : stateHolders (Int × Bool) :=
  ⟨[(beBytes 8 13 ++ beBytes 8 21 ++ [3], 1), (beBytes 8 13 ++ beBytes 8 21 ++ [5], 0)],
    [⟨(5, true), none, beBytes 8 13 ++ beBytes 8 21 ++ [5], some [5], none, some [5]⟩,
     ⟨(13, true), some [10], beBytes 8 13 ++ beBytes 8 21 ++ [3], some [13], some [10],
       some [13]⟩]⟩

/-- The rows batch that the parent gets for `demoRemoteBatch`. -/
def demoParentBatch : RowsBatch := ⟨[[5], [10], [13]], [⟨-1, 0⟩, ⟨1, 2⟩]⟩

/-- The execution context of the examples after `demoRemoteBatch` was stored. -/
def demoRemoteCtxAfter : exec.ExecutionContext :=
  ⟨⟨13, [(beBytes 8 13 ++ beBytes 8 21 ++ [5], [5]), (beBytes 8 13 ++ beBytes 8 21 ++ [3], [13])]⟩,
    2, true, []⟩

/-! ## Frame properties of the write path -/

/-- Invariants of a loop: what holds before the loop and is kept by every run of the body
that starts from an `ok` state holds after the loop. -/
theorem loopOk_induct {σ α : Type} (outcome : σ → Outcome) (body : σ → α → σ) (P : σ → Prop)
    (hstep : ∀ st x, outcome st = .ok → P st → P (body st x)) :
    ∀ (xs : List α) (st : σ), outcome st = .ok → P st → P (loopOk outcome body st xs) := by
  intro xs
  induction xs with
  | nil => intro st _ h; exact h
  | cons x xs ih =>
    intro st hok h
    simp only [loopOk]
    by_cases hr : outcome (body st x) = .ok
    · simp only [hr, if_true]
      exact ih _ hr (hstep st x hok h)
    · simp only [hr, if_false]
      exact hstep st x hok h

theorem SameShard.refl (s : ShardOnDiskStateMachine) : SameShard s s :=
  ⟨rfl, rfl, rfl, rfl, rfl⟩

theorem SameShard.trans {s s1 s2 : ShardOnDiskStateMachine} (h1 : SameShard s s1)
    (h2 : SameShard s1 s2) : SameShard s s2 := by
  obtain ⟨a1, a2, a3, a4, a5⟩ := h1
  obtain ⟨b1, b2, b3, b4, b5⟩ := h2
  exact ⟨b1.trans a1, b2.trans a2, b3.trans a3, b4.trans a4, b5.trans a5⟩

theorem checkDedup_frame (faults : KVFaults) (ids : TableIDs) (s : ShardOnDiskStateMachine)
    (key : Bytes) (batch : Batch) :
    SameShard s (checkDedup faults ids s key batch).sm ∧
    (checkDedup faults ids s key batch).sm.batchSequence = s.batchSequence ∧
    (checkDedup faults ids s key batch).sm.receiverSequence = s.receiverSequence ∧
    (checkDedup faults ids s key batch).outcome ≠ .fatal := by
  unfold checkDedup
  simp only []
  split_ifs <;> simp [SameShard]

theorem writeReceiverRow_frame (faults : KVFaults) (ids : TableIDs)
    (s : ShardOnDiskStateMachine) (batch : Batch) (stamped : List Bytes) (rc value : Bytes) :
    SameShard s (writeReceiverRow faults ids s batch stamped rc value).sm ∧
    (writeReceiverRow faults ids s batch stamped rc value).sm.batchSequence = s.batchSequence ∧
    (writeReceiverRow faults ids s batch stamped rc value).sm.dedupSequences
      = s.dedupSequences ∧
    (writeReceiverRow faults ids s batch stamped rc value).outcome ≠ .fatal := by
  unfold writeReceiverRow
  simp only []
  split_ifs <;> simp [SameShard]

theorem handlePut_frame (faults : KVFaults) (ids : TableIDs) (forward : Bool) (w : WriteState)
    (kv : KVPair) :
    SameShard w.sm (handlePut faults ids forward w kv).sm ∧
    (handlePut faults ids forward w kv).sm.batchSequence = w.sm.batchSequence := by
  have hc := checkDedup_frame faults ids w.sm ((kv.Key.drop 1).take 24) w.batch
  have hw1 := writeReceiverRow_frame faults ids
    (checkDedup faults ids w.sm ((kv.Key.drop 1).take 24) w.batch).sm
    (checkDedup faults ids w.sm ((kv.Key.drop 1).take 24) w.batch).batch w.stamped
    (kv.Key.drop 25) kv.Value
  have hw2 := writeReceiverRow_frame faults ids w.sm w.batch w.stamped (kv.Key.drop 25) kv.Value
  unfold handlePut
  simp only []
  split_ifs
  all_goals first
    | exact ⟨SameShard.refl _, rfl⟩
    | exact ⟨hc.1, hc.2.1⟩
    | exact ⟨hc.1.trans hw1.1, hw1.2.1.trans hc.2.1⟩
    | exact ⟨hw2.1, hw2.2.1⟩

theorem handleDelete_frame (faults : KVFaults) (w : WriteState) (k : Bytes) :
    (handleDelete faults w k).sm = w.sm ∧ (handleDelete faults w k).stamped = w.stamped := by
  unfold handleDelete
  split_ifs <;> simp

/-- The puts of one write batch leave the batch sequence alone. -/
theorem handlePuts_frame (faults : KVFaults) (ids : TableIDs) (forward : Bool)
    (puts : List KVPair) (w : WriteState) (hw : w.outcome = .ok) :
    SameShard w.sm (loopOk WriteState.outcome (handlePut faults ids forward) w puts).sm ∧
    (loopOk WriteState.outcome (handlePut faults ids forward) w puts).sm.batchSequence
      = w.sm.batchSequence := by
  refine loopOk_induct WriteState.outcome (handlePut faults ids forward)
    (fun r => SameShard w.sm r.sm ∧ r.sm.batchSequence = w.sm.batchSequence) ?_ puts w hw
    ⟨SameShard.refl _, rfl⟩
  intro st kv _ h
  have := handlePut_frame faults ids forward st kv
  exact ⟨h.1.trans this.1, this.2.trans h.2⟩

/-- The deletes of one write batch leave the state machine alone. -/
theorem handleDeletes_frame (faults : KVFaults) (deletes : List Bytes) (w : WriteState)
    (hw : w.outcome = .ok) :
    (loopOk WriteState.outcome (handleDelete faults) w deletes).sm = w.sm ∧
    (loopOk WriteState.outcome (handleDelete faults) w deletes).stamped = w.stamped := by
  refine loopOk_induct WriteState.outcome (handleDelete faults)
    (fun r => r.sm = w.sm ∧ r.stamped = w.stamped) ?_ deletes w hw ⟨rfl, rfl⟩
  intro st k _ h
  have := handleDelete_frame faults st k
  exact ⟨this.1.trans h.1, this.2.trans h.2⟩

theorem bumpBatchSequence_frame (s : ShardOnDiskStateMachine) :
    SameShard s (bumpBatchSequence s) ∧
    (bumpBatchSequence s).batchSequence = (s.batchSequence + 1) % 2 ^ 32 ∧
    (bumpBatchSequence s).receiverSequence = s.receiverSequence ∧
    (bumpBatchSequence s).dedupSequences = s.dedupSequences :=
  ⟨⟨rfl, rfl, rfl, rfl, rfl⟩, rfl, rfl, rfl⟩

theorem finishWrite_frame (faults : KVFaults) (forward : Bool) (deletes : List Bytes)
    (r : WriteState) :
    SameShard r.sm (finishWrite faults forward deletes r).sm ∧
    ((finishWrite faults forward deletes r).outcome = .ok →
      r.outcome = .ok ∧
      (finishWrite faults forward deletes r).sm = bumpBatchSequence r.sm ∧
      (finishWrite faults forward deletes r).stamped = r.stamped ∧
      (forward = true → deletes = [])) := by
  unfold finishWrite
  by_cases hr : r.outcome = .ok
  · rw [if_pos hr]
    by_cases hfd : forward = true ∧ deletes ≠ []
    · rw [if_pos hfd]
      exact ⟨(bumpBatchSequence_frame r.sm).1, fun h => by simp at h⟩
    · rw [if_neg hfd]
      have hd := handleDeletes_frame faults deletes
        ⟨.ok, bumpBatchSequence r.sm, r.batch, r.stamped⟩ rfl
      rw [hd.1, hd.2]
      refine ⟨(bumpBatchSequence_frame r.sm).1, fun _ => ⟨hr, rfl, rfl, fun hf => ?_⟩⟩
      by_contra hne
      exact hfd ⟨hf, hne⟩
  · rw [if_neg hr]
    exact ⟨SameShard.refl _, fun h => absurd h hr⟩

/-- One write batch keeps the shard and, when it succeeds, advances the batch sequence by
one. -/
theorem handleWrite_frame (faults : KVFaults) (ids : TableIDs) (w : WriteState) (bytes : Bytes)
    (forward : Bool) :
    SameShard w.sm (handleWrite faults ids w bytes forward).sm ∧
    ((handleWrite faults ids w bytes forward).outcome = .ok →
      (handleWrite faults ids w bytes forward).sm.batchSequence
        = (w.sm.batchSequence + 1) % 2 ^ 32) := by
  unfold handleWrite
  cases hdes : deserializeWriteBatch w.sm bytes 1 forward with
  | none => exact ⟨SameShard.refl _, fun h => by simp at h⟩
  | some pd =>
    obtain ⟨puts, deletes⟩ := pd
    have hp := handlePuts_frame faults ids forward puts { w with outcome := .ok } rfl
    have hf := finishWrite_frame faults forward deletes
      (loopOk WriteState.outcome (handlePut faults ids forward) { w with outcome := .ok } puts)
    refine ⟨hp.1.trans hf.1, fun h => ?_⟩
    obtain ⟨-, h2, -, -⟩ := hf.2 h
    show (finishWrite faults forward deletes _).sm.batchSequence = _
    rw [h2, (bumpBatchSequence_frame _).2.1, hp.2]

theorem handleEntry_frame (faults : KVFaults) (ids : TableIDs) (st : WriteState × Bool)
    (entry : Entry) :
    SameShard st.1.sm (handleEntry faults ids st entry).1.sm ∧
    ((handleEntry faults ids st entry).1.outcome = .ok →
      (handleEntry faults ids st entry).1.sm.batchSequence
        = (st.1.sm.batchSequence + 1) % 2 ^ 32) := by
  unfold handleEntry
  cases hc : entry.Cmd.head? with
  | none => exact ⟨SameShard.refl _, fun h => by simp at h⟩
  | some command =>
    simp only []
    have h1 := handleWrite_frame faults ids st.1 entry.Cmd true
    have h2 := handleWrite_frame faults ids st.1 entry.Cmd false
    split_ifs
    · exact h1
    · exact h1
    · exact h2
    · exact ⟨SameShard.refl _, fun h => by simp at h⟩

/-- The loop over the entries keeps the shard; when it succeeds the batch sequence has
advanced by the number of entries. -/
theorem updateEntries_frame (faults : KVFaults) (ids : TableIDs) (s : ShardOnDiskStateMachine)
    (entries : List Entry) :
    SameShard s (updateEntries faults ids s entries).1.sm ∧
    ((updateEntries faults ids s entries).1.outcome = .ok →
      (updateEntries faults ids s entries).1.sm.batchSequence % 2 ^ 32
        = (s.batchSequence + entries.length) % 2 ^ 32 ∧
      (s.batchSequence < 2 ^ 32 ∨ entries ≠ [] →
        (updateEntries faults ids s entries).1.sm.batchSequence < 2 ^ 32)) := by
  unfold updateEntries
  generalize hst : ((⟨.ok, s, [], []⟩, false) : WriteState × Bool) = st0
  have hs : st0.1.sm = s := by rw [← hst]
  have hok : st0.1.outcome = .ok := by rw [← hst]
  rw [← hs]
  clear hst hs
  induction entries generalizing st0 with
  | nil =>
    refine ⟨SameShard.refl _, fun _ => ⟨by simp [loopOk], fun h => ?_⟩⟩
    rcases h with h | h
    · exact h
    · exact absurd rfl h
  | cons e rest ih =>
    have he := handleEntry_frame faults ids st0 e
    simp only [loopOk]
    by_cases hr : (handleEntry faults ids st0 e).1.outcome = .ok
    · rw [if_pos hr]
      have := ih (handleEntry faults ids st0 e) hr
      refine ⟨he.1.trans this.1, fun h => ?_⟩
      obtain ⟨t1, t2⟩ := this.2 h
      have hb := he.2 hr
      have hlt : (handleEntry faults ids st0 e).1.sm.batchSequence < 2 ^ 32 := by
        rw [hb]; exact Nat.mod_lt _ (by norm_num)
      refine ⟨?_, fun _ => t2 (Or.inl hlt)⟩
      rw [t1, hb, List.length_cons]
      omega
    · rw [if_neg hr]
      exact ⟨he.1, fun h => absurd h hr⟩

/-! ## What a call of `Update` does -/

theorem writeSequences_some (faults : KVFaults) (ids : TableIDs) (batch batch2 : Batch)
    (i r b shardID : Nat) (h : writeSequences faults ids batch i r b shardID = some batch2) :
    batch2 = batch ++ [BatchOp.set
      (EncodeTableKeyPrefix ids.LastLogIndexReceivedTableID shardID 16) (encodeSequences i r b)] := by
  unfold writeSequences at h
  by_cases hf : faults.opFails batch.length = true
  · simp [hf] at h
  · simp only [hf] at h
    simp [encodeSequences, AppendUint64ToBufferLE, AppendUint32ToBufferLE] at h ⊢
    exact h.symm

/-- A call of `Update` that does not succeed commits nothing and signals nothing. -/
theorem Update_not_ok (faults : KVFaults) (ids : TableIDs) (s : ShardOnDiskStateMachine)
    (peb : Store) (entries : List Entry) (h : (Update faults ids s peb entries).outcome ≠ .ok) :
    (Update faults ids s peb entries).peb = peb ∧
    (Update faults ids s peb entries).signalled = false := by
  unfold Update at h ⊢
  rcases hu : updateEntries faults ids s entries with ⟨⟨o, s1, b, st⟩, hf⟩
  rw [hu] at h
  cases o
  · simp only [] at h ⊢
    cases hl : entries.getLast? with
    | none => exact ⟨rfl, rfl⟩
    | some last =>
      rw [hl] at h
      simp only [] at h ⊢
      by_cases h1 : faults.opFails b.length = true
      · rw [if_pos h1]; exact ⟨rfl, rfl⟩
      · rw [if_neg h1] at h ⊢
        cases hws : writeSequences faults ids (b ++ [BatchOp.set
            (EncodeTableKeyPrefix ids.LastLogIndexReceivedTableID s1.shardID 16) []])
            last.Index s1.receiverSequence s1.batchSequence s1.shardID with
        | none => exact ⟨rfl, rfl⟩
        | some b2 =>
          rw [hws] at h
          simp only [] at h ⊢
          by_cases h3 : faults.applyFails = true
          · rw [if_pos h3]; exact ⟨rfl, rfl⟩
          · rw [if_neg h3] at h; exact absurd rfl h
  · exact ⟨rfl, rfl⟩
  · exact ⟨rfl, rfl⟩

/-- A successful call of `Update`: the loop over the entries succeeded on a non-empty
list, the batch built by the loop was extended by the two writes of the
LastLogIndexReceived row and committed, and the listener was signalled iff a forward
write was seen and this replica is the processor. -/
theorem Update_ok (faults : KVFaults) (ids : TableIDs) (s : ShardOnDiskStateMachine)
    (peb : Store) (entries : List Entry) (h : (Update faults ids s peb entries).outcome = .ok) :
    (updateEntries faults ids s entries).1.outcome = .ok ∧
    (Update faults ids s peb entries).sm = (updateEntries faults ids s entries).1.sm ∧
    (Update faults ids s peb entries).stamped = (updateEntries faults ids s entries).1.stamped ∧
    (Update faults ids s peb entries).signalled
      = ((updateEntries faults ids s entries).2 && s.processor) ∧
    (Update faults ids s peb entries).peb = applyBatch peb (Update faults ids s peb entries).batch ∧
    ∃ last, entries.getLast? = some last ∧
      (Update faults ids s peb entries).batch = (updateEntries faults ids s entries).1.batch ++
        [BatchOp.set (EncodeTableKeyPrefix ids.LastLogIndexReceivedTableID s.shardID 16) [],
         BatchOp.set (EncodeTableKeyPrefix ids.LastLogIndexReceivedTableID s.shardID 16)
          (encodeSequences last.Index (updateEntries faults ids s entries).1.sm.receiverSequence
            (updateEntries faults ids s entries).1.sm.batchSequence)] := by
  have hfr := (updateEntries_frame faults ids s entries).1
  unfold Update at h ⊢
  rcases hu : updateEntries faults ids s entries with ⟨⟨o, s1, b, st⟩, hf⟩
  rw [hu] at h hfr
  simp only [] at hfr
  obtain ⟨hsid, hproc, -, -, -⟩ := hfr
  cases o
  · simp only [] at h ⊢
    cases hl : entries.getLast? with
    | none => rw [hl] at h; simp at h
    | some last =>
      rw [hl] at h
      simp only [] at h ⊢
      by_cases h1 : faults.opFails b.length = true
      · rw [if_pos h1] at h; simp at h
      · rw [if_neg h1] at h ⊢
        cases hws : writeSequences faults ids (b ++ [BatchOp.set
            (EncodeTableKeyPrefix ids.LastLogIndexReceivedTableID s1.shardID 16) []])
            last.Index s1.receiverSequence s1.batchSequence s1.shardID with
        | none => rw [hws] at h; simp at h
        | some b2 =>
          rw [hws] at h
          simp only [] at h ⊢
          by_cases h3 : faults.applyFails = true
          · rw [if_pos h3] at h; simp at h
          · rw [if_neg h3]
            have hb2 := writeSequences_some _ _ _ _ _ _ _ _ hws
            refine ⟨trivial, rfl, rfl, ?_, rfl, last, rfl, ?_⟩
            · cases hf <;> simp [maybeTriggerRemoteWriteOccurred, hproc]
            · simp only [hb2, hsid, List.append_assoc, List.singleton_append]
  · simp at h
  · simp at h

/-! ## Codecs and the store -/

theorem leBytes_length (n v : Nat) : (leBytes n v).length = n := by
  induction n generalizing v with
  | zero => rfl
  | succ n ih => simp [leBytes, ih]

theorem beBytes_length (n v : Nat) : (beBytes n v).length = n := by
  induction n generalizing v with
  | zero => rfl
  | succ n ih => simp [beBytes, ih]

theorem leVal_leBytes (n v : Nat) : leVal (leBytes n v) = v % 256 ^ n := by
  induction n generalizing v with
  | zero => simp [leBytes, leVal, Nat.mod_one]
  | succ n ih =>
    simp only [leBytes, leVal, ih]
    rw [pow_succ, Nat.mul_comm (256 ^ n) 256, Nat.mod_mul, Nat.add_comm]

theorem beVal_append_singleton (b : Bytes) (x : Nat) : beVal (b ++ [x]) = beVal b * 256 + x := by
  simp [beVal, List.foldl_append]

theorem beVal_beBytes (n v : Nat) : beVal (beBytes n v) = v % 256 ^ n := by
  induction n generalizing v with
  | zero => simp [beBytes, beVal, Nat.mod_one]
  | succ n ih =>
    simp only [beBytes, beVal_append_singleton, ih]
    rw [pow_succ, Nat.mul_comm (256 ^ n) 256, Nat.mod_mul]
    ring

theorem kvGet_kvSet_self {α : Type} (k : Bytes) (v : α) (m : List (Bytes × α)) :
    kvGet k (kvSet k v m) = some v := by
  simp [kvSet, kvGet]

theorem applyBatch_append (peb : Store) (b1 b2 : Batch) :
    applyBatch peb (b1 ++ b2) = applyBatch (applyBatch peb b1) b2 := by
  simp [applyBatch, List.foldl_append]

/-! ## Deserialization of forward writes -/

theorem readPuts_forward (s s0 : ShardOnDiskStateMachine) (buff : Bytes) (n : Nat) :
    ∀ offset, readPuts s buff true n offset
      = (readPuts s0 buff false n offset).map
          (fun r => (r.1.map (withReceiverSequence s.receiverSequence), r.2)) := by
  induction n with
  | zero => intro offset; simp [readPuts]
  | succ n ih =>
    intro offset
    simp only [readPuts]
    cases h1 : ReadUint32FromBufferLE buff offset with
    | none => simp
    | some r1 =>
      obtain ⟨kLen, offset1⟩ := r1
      simp only []
      by_cases hk : buff.length < offset1 + kLen
      · simp [hk]
      · simp only [hk, if_false]
        cases h2 : ReadUint32FromBufferLE buff (offset1 + kLen) with
        | none => simp
        | some r2 =>
          obtain ⟨vLen, offset2⟩ := r2
          simp only []
          by_cases hv : buff.length < offset2 + vLen
          · simp [hv]
          · simp only [hv, if_false]
            rw [ih (offset2 + vLen)]
            cases h3 : readPuts s0 buff false n (offset2 + vLen) with
            | none => simp
            | some r3 => simp [withReceiverSequence]

/-- A forward write is deserialized like a local write, except that the receiver
sequence is appended to every key. -/
theorem deserializeWriteBatch_forward (s s0 : ShardOnDiskStateMachine) (buff : Bytes)
    (offset : Nat) :
    deserializeWriteBatch s buff offset true
      = (deserializeWriteBatch s0 buff offset false).map
          (fun r => (r.1.map (withReceiverSequence s.receiverSequence), r.2)) := by
  unfold deserializeWriteBatch
  cases h1 : ReadUint32FromBufferLE buff offset with
  | none => simp
  | some r1 =>
    obtain ⟨numPuts, offset1⟩ := r1
    simp only []
    rw [readPuts_forward s s0 buff numPuts offset1]
    cases h2 : readPuts s0 buff false numPuts offset1 with
    | none => simp
    | some r2 =>
      obtain ⟨puts, offset2⟩ := r2
      simp only [Option.map_some']
      cases h3 : ReadUint32FromBufferLE buff offset2 with
      | none => simp
      | some r3 =>
        obtain ⟨numDeletes, offset3⟩ := r3
        simp only []
        cases h4 : readDeletes buff numDeletes offset3 with
        | none => simp
        | some deletes => simp

/-! ## Failing calls -/

/-- A loop fails when the body fails on one of the elements, whatever state it is run
from. -/
theorem loopOk_fails_of_mem {σ α : Type} (outcome : σ → Outcome) (body : σ → α → σ) (x : α)
    (hx : ∀ st, outcome (body st x) ≠ .ok) :
    ∀ (xs : List α) (st : σ), x ∈ xs → outcome (loopOk outcome body st xs) ≠ .ok := by
  intro xs
  induction xs with
  | nil => intro st h; simp at h
  | cons y ys ih =>
    intro st h
    simp only [loopOk]
    by_cases hr : outcome (body st y) = .ok
    · rw [if_pos hr]
      rcases List.mem_cons.mp h with h | h
      · exact absurd hr (h ▸ hx st)
      · exact ih _ h
    · rw [if_neg hr]
      exact hr

theorem checkDedup_no_faults (faults : KVFaults) (ids : TableIDs) (s : ShardOnDiskStateMachine)
    (key : Bytes) (batch : Batch) (hnf : ∀ n, faults.opFails n = false) :
    (checkDedup faults ids s key batch).outcome = .ok := by
  unfold checkDedup
  by_cases hd : (DoDedup s.shardID key s.dedupSequences).1 = true <;> simp [hd, hnf]

theorem writeReceiverRow_no_faults (faults : KVFaults) (ids : TableIDs)
    (s : ShardOnDiskStateMachine) (batch : Batch) (stamped : List Bytes) (rc value : Bytes)
    (hnf : ∀ n, faults.opFails n = false) :
    (writeReceiverRow faults ids s batch stamped rc value).outcome = .ok := by
  simp [writeReceiverRow, hnf]

theorem handlePut_no_err (faults : KVFaults) (ids : TableIDs) (forward : Bool) (w : WriteState)
    (kv : KVPair) (hnf : ∀ n, faults.opFails n = false) :
    (handlePut faults ids forward w kv).outcome ≠ .err := by
  unfold handlePut
  simp only [hnf, checkDedup_no_faults faults ids _ _ _ hnf]
  split_ifs <;> simp_all [writeReceiverRow_no_faults faults ids _ _ _ _ _ hnf]

theorem handleDelete_no_err (faults : KVFaults) (w : WriteState) (k : Bytes)
    (hnf : ∀ n, faults.opFails n = false) : (handleDelete faults w k).outcome ≠ .err := by
  unfold handleDelete
  simp only [hnf]
  split_ifs <;> simp_all

theorem finishWrite_no_err (faults : KVFaults) (forward : Bool) (deletes : List Bytes)
    (r : WriteState) (hnf : ∀ n, faults.opFails n = false) (hr : r.outcome ≠ .err) :
    (finishWrite faults forward deletes r).outcome ≠ .err := by
  unfold finishWrite
  split_ifs
  · simp
  · exact loopOk_induct WriteState.outcome (handleDelete faults) (fun r => r.outcome ≠ .err)
      (fun st k _ _ => handleDelete_no_err faults st k hnf) deletes _ rfl (by simp)
  · exact hr

theorem handleWrite_no_err (faults : KVFaults) (ids : TableIDs) (w : WriteState) (bytes : Bytes)
    (forward : Bool) (hnf : ∀ n, faults.opFails n = false) :
    (handleWrite faults ids w bytes forward).outcome ≠ .err := by
  unfold handleWrite
  cases hdes : deserializeWriteBatch w.sm bytes 1 forward with
  | none => simp
  | some pd =>
    obtain ⟨puts, deletes⟩ := pd
    refine finishWrite_no_err faults forward deletes _ hnf ?_
    exact loopOk_induct WriteState.outcome (handlePut faults ids forward)
      (fun r => r.outcome ≠ .err)
      (fun st kv _ _ => handlePut_no_err faults ids forward st kv hnf) puts _ rfl (by simp)

theorem handleEntry_no_err (faults : KVFaults) (ids : TableIDs) (st : WriteState × Bool)
    (entry : Entry) (hnf : ∀ n, faults.opFails n = false) :
    (handleEntry faults ids st entry).1.outcome ≠ .err := by
  have h1 := handleWrite_no_err faults ids st.1 entry.Cmd true hnf
  have h2 := handleWrite_no_err faults ids st.1 entry.Cmd false hnf
  unfold handleEntry
  cases hc : entry.Cmd.head? with
  | none => simp
  | some command =>
    simp only []
    split_ifs
    · exact h1
    · exact h1
    · exact h2
    · simp

theorem updateEntries_no_err (faults : KVFaults) (ids : TableIDs) (s : ShardOnDiskStateMachine)
    (entries : List Entry) (hnf : ∀ n, faults.opFails n = false) :
    (updateEntries faults ids s entries).1.outcome ≠ .err := by
  unfold updateEntries
  exact loopOk_induct (fun st : WriteState × Bool => st.1.outcome) (handleEntry faults ids)
    (fun st => st.1.outcome ≠ .err)
    (fun st e _ _ => handleEntry_no_err faults ids st e hnf) entries (⟨.ok, s, [], []⟩, false) rfl
    (by simp)

/-- A forward write whose batch has a delete does not end normally. -/
theorem handleWrite_forward_deletes (faults : KVFaults) (ids : TableIDs) (w : WriteState)
    (s0 : ShardOnDiskStateMachine) (bytes : Bytes) (puts : List KVPair) (deletes : List Bytes)
    (hdes : deserializeWriteBatch s0 bytes 1 false = some (puts, deletes)) (hdel : deletes ≠ []) :
    (handleWrite faults ids w bytes true).outcome ≠ .ok := by
  unfold handleWrite
  rw [deserializeWriteBatch_forward w.sm s0 bytes 1, hdes]
  simp only [Option.map_some']
  unfold finishWrite
  split_ifs with h1 h2
  · simp
  · exact absurd ⟨rfl, hdel⟩ h2
  · exact h1

theorem handleEntry_forward_deletes (faults : KVFaults) (ids : TableIDs) (st : WriteState × Bool)
    (s0 : ShardOnDiskStateMachine) (e : Entry) (puts : List KVPair) (deletes : List Bytes)
    (hcmd : e.Cmd.head? = some shardStateMachineCommandForwardWrite)
    (hdes : deserializeWriteBatch s0 e.Cmd 1 false = some (puts, deletes)) (hdel : deletes ≠ []) :
    (handleEntry faults ids st e).1.outcome ≠ .ok := by
  have h := handleWrite_forward_deletes faults ids st.1 s0 e.Cmd puts deletes hdes hdel
  unfold handleEntry
  rw [hcmd]
  simp only [if_true, if_neg h]
  exact h

/-- When the loop over the entries does not end normally, `Update` ends the same way. -/
theorem Update_outcome_of_loop (faults : KVFaults) (ids : TableIDs)
    (s : ShardOnDiskStateMachine) (peb : Store) (entries : List Entry)
    (h : (updateEntries faults ids s entries).1.outcome ≠ .ok) :
    (Update faults ids s peb entries).outcome = (updateEntries faults ids s entries).1.outcome := by
  unfold Update
  rcases hu : updateEntries faults ids s entries with ⟨⟨o, s1, b, st⟩, hf⟩
  rw [hu] at h
  cases o
  · exact absurd rfl h
  · rfl
  · rfl

/-- The `hasForward` flag after a successful loop: set iff some entry is a forward
write. -/
theorem updateEntries_hasForward (faults : KVFaults) (ids : TableIDs)
    (s : ShardOnDiskStateMachine) (entries : List Entry)
    (h : (updateEntries faults ids s entries).1.outcome = .ok) :
    (updateEntries faults ids s entries).2 = entries.any isForwardWrite := by
  unfold updateEntries at h ⊢
  generalize hst : ((⟨.ok, s, [], []⟩, false) : WriteState × Bool) = st0 at h ⊢
  have hgoal : ∀ (es : List Entry) (st : WriteState × Bool),
      (loopOk (fun st => st.1.outcome) (handleEntry faults ids) st es).1.outcome = .ok →
      (loopOk (fun st => st.1.outcome) (handleEntry faults ids) st es).2
        = (st.2 || es.any isForwardWrite) := by
    intro es
    induction es with
    | nil => intro st _; simp [loopOk]
    | cons e rest ih =>
      intro st hok
      simp only [loopOk] at hok ⊢
      by_cases hr : (handleEntry faults ids st e).1.outcome = .ok
      · rw [if_pos hr] at hok ⊢
        rw [ih _ hok, List.any_cons, ← Bool.or_assoc]
        congr 1
        unfold handleEntry at hr ⊢
        unfold isForwardWrite
        cases hc : e.Cmd.head? with
        | none => rw [hc] at hr; simp at hr
        | some command =>
          rw [hc] at hr
          simp only [] at hr ⊢
          by_cases h2 : command = shardStateMachineCommandForwardWrite
          · rw [if_pos h2] at hr ⊢
            by_cases h3 : (handleWrite faults ids st.1 e.Cmd true).outcome = .ok
            · rw [if_pos h3]; simp [h2]
            · rw [if_neg h3] at hr; exact absurd hr h3
          · rw [if_neg h2] at hr ⊢
            have hne : ¬ (some command = some shardStateMachineCommandForwardWrite) := by
              simpa using h2
            by_cases h3 : command = shardStateMachineCommandWrite
            · rw [if_pos h3]; simp [hne]
            · rw [if_neg h3] at hr; simp at hr
      · rw [if_neg hr] at hok
        exact absurd hok hr
  rw [hgoal entries st0 h, ← hst]
  simp

/-! ## The sequences row -/

theorem read_encodeSequences (i r b : Nat) :
    ReadUint64FromBufferLE (encodeSequences i r b) 0 = some (i % 2 ^ 64, 8) ∧
    ReadUint64FromBufferLE (encodeSequences i r b) 8 = some (r % 2 ^ 64, 16) ∧
    ReadUint32FromBufferLE (encodeSequences i r b) 16 = some (b % 2 ^ 32, 20) := by
  have hl : (encodeSequences i r b).length = 20 := by simp [encodeSequences, leBytes_length]
  refine ⟨?_, ?_, ?_⟩
  · unfold ReadUint64FromBufferLE
    rw [if_pos (by simp [hl])]
    simp only [List.drop_zero, encodeSequences, List.append_assoc]
    rw [List.take_left' (leBytes_length 8 i), leVal_leBytes]
    norm_num
  · unfold ReadUint64FromBufferLE
    rw [if_pos (by simp [hl])]
    simp only [encodeSequences, List.append_assoc]
    rw [List.drop_left' (leBytes_length 8 i), List.take_left' (leBytes_length 8 r), leVal_leBytes]
    norm_num
  · unfold ReadUint32FromBufferLE
    rw [if_pos (by simp [hl])]
    simp only [encodeSequences]
    rw [List.drop_left' (by simp [leBytes_length]), List.take_of_length_le (by simp [leBytes_length]),
      leVal_leBytes]
    norm_num

theorem handlePut_receiverSequence_lt (faults : KVFaults) (ids : TableIDs) (forward : Bool)
    (w : WriteState) (kv : KVPair) (h : w.sm.receiverSequence < 2 ^ 64) :
    (handlePut faults ids forward w kv).sm.receiverSequence < 2 ^ 64 := by
  have hc := (checkDedup_frame faults ids w.sm ((kv.Key.drop 1).take 24) w.batch).2.2.1
  have hw : ∀ s b st rc v,
      (writeReceiverRow faults ids s b st rc v).sm.receiverSequence < 2 ^ 64 := by
    intro s b st rc v
    unfold writeReceiverRow
    simp only []
    split_ifs <;> exact Nat.mod_lt _ (by norm_num)
  unfold handlePut
  simp only []
  split_ifs
  all_goals first
    | exact h
    | exact hw _ _ _ _ _
    | (show (checkDedup faults ids w.sm ((kv.Key.drop 1).take 24) w.batch).sm.receiverSequence
          < 2 ^ 64
       rw [hc]; exact h)

theorem handleWrite_receiverSequence_lt (faults : KVFaults) (ids : TableIDs) (w : WriteState)
    (bytes : Bytes) (forward : Bool) (h : w.sm.receiverSequence < 2 ^ 64) :
    (handleWrite faults ids w bytes forward).sm.receiverSequence < 2 ^ 64 := by
  unfold handleWrite
  cases hdes : deserializeWriteBatch w.sm bytes 1 forward with
  | none => exact h
  | some pd =>
    obtain ⟨puts, deletes⟩ := pd
    simp only []
    have hp := loopOk_induct WriteState.outcome (handlePut faults ids forward)
      (fun r => r.sm.receiverSequence < 2 ^ 64)
      (fun st kv _ hst => handlePut_receiverSequence_lt faults ids forward st kv hst) puts
      { w with outcome := .ok } rfl h
    unfold finishWrite
    split_ifs
    · exact hp
    · rw [(handleDeletes_frame faults deletes _ rfl).1]
      exact hp
    · exact hp

theorem updateEntries_receiverSequence_lt (faults : KVFaults) (ids : TableIDs)
    (s : ShardOnDiskStateMachine) (entries : List Entry) (h : s.receiverSequence < 2 ^ 64) :
    (updateEntries faults ids s entries).1.sm.receiverSequence < 2 ^ 64 := by
  unfold updateEntries
  refine loopOk_induct (fun st : WriteState × Bool => st.1.outcome) (handleEntry faults ids)
    (fun st => st.1.sm.receiverSequence < 2 ^ 64) ?_ entries (⟨.ok, s, [], []⟩, false) rfl h
  intro st e _ hst
  have h1 := handleWrite_receiverSequence_lt faults ids st.1 e.Cmd true hst
  have h2 := handleWrite_receiverSequence_lt faults ids st.1 e.Cmd false hst
  unfold handleEntry
  cases hc : e.Cmd.head? with
  | none => exact hst
  | some command =>
    simp only []
    split_ifs
    · exact h1
    · exact h1
    · exact h2
    · exact hst

theorem loadDedupCache_processor (faults : KVFaults) (ids : TableIDs)
    (s : ShardOnDiskStateMachine) (peb : Store) :
    (loadDedupCache faults ids s peb).2.processor = s.processor := by
  unfold loadDedupCache
  simp only []
  cases LocalScan faults peb (EncodeTableKeyPrefix ids.ForwardDedupTableID s.shardID 16)
      (EncodeTableKeyPrefix (ids.ForwardDedupTableID + 1) s.shardID 16) with
  | none => rfl
  | some pairs =>
    simp only []
    cases loadDedupPairs [] pairs with
    | none => rfl
    | some m => rfl

/-! ## One forwarded put -/

theorem kvDelete_cons {α : Type} (k kp : Bytes) (vp : α) (rest : List (Bytes × α)) :
    kvDelete k ((kp, vp) :: rest)
      = if kp = k then kvDelete k rest else (kp, vp) :: kvDelete k rest := by
  unfold kvDelete
  by_cases hk : kp = k
  · rw [if_pos hk, List.filter_cons_of_neg (by simp [hk])]
  · rw [if_neg hk, List.filter_cons_of_pos (by simp [hk])]

theorem kvGet_kvDelete_ne {α : Type} (k k1 : Bytes) (m : List (Bytes × α)) (h : k1 ≠ k) :
    kvGet k1 (kvDelete k m) = kvGet k1 m := by
  induction m with
  | nil => rfl
  | cons p rest ih =>
    obtain ⟨kp, vp⟩ := p
    rw [kvDelete_cons]
    by_cases hk : kp = k
    · have hne : kp ≠ k1 := fun hh => h (hh ▸ hk)
      rw [if_pos hk, ih]
      simp only [kvGet, if_neg hne]
    · rw [if_neg hk]
      by_cases hk1 : kp = k1
      · simp only [kvGet, if_pos hk1]
      · simp only [kvGet, if_neg hk1, ih]

theorem kvGet_kvSet_ne {α : Type} (k k1 : Bytes) (v : α) (m : List (Bytes × α)) (h : k1 ≠ k) :
    kvGet k1 (kvSet k v m) = kvGet k1 m := by
  have hne : k ≠ k1 := fun hh => h hh.symm
  simp [kvSet, kvGet, hne, kvGet_kvDelete_ne k k1 m h]

/-- The slices that `handleWrite` takes from a forwarded key. -/
theorem forwardedPut_slices (d : Nat) (o q rc value : Bytes) (rs0 : Nat)
    (ho : o.length = 16) (hq : q.length = 8) :
    ¬ (forwardedPut d o q rc value rs0).Key.length < 25 ∧
    (forwardedPut d o q rc value rs0).Key.head? = some d ∧
    ((forwardedPut d o q rc value rs0).Key.drop 1).take 24 = o ++ q ∧
    (forwardedPut d o q rc value rs0).Key.drop 25 = rc ++ beBytes 8 rs0 ∧
    (forwardedPut d o q rc value rs0).Value = value := by
  have hoq : (o ++ q).length = 24 := by simp [ho, hq]
  refine ⟨?_, ?_, ?_, ?_, rfl⟩
  · simp [forwardedPut, withReceiverSequence, AppendUint64ToBufferBE, ho, hq, beBytes_length]
    omega
  · simp [forwardedPut, withReceiverSequence, AppendUint64ToBufferBE]
  · simp only [forwardedPut, withReceiverSequence, AppendUint64ToBufferBE, List.cons_append,
      List.drop_succ_cons, List.drop_zero, List.append_assoc]
    rw [← List.append_assoc, List.take_left' hoq]
  · simp only [forwardedPut, withReceiverSequence, AppendUint64ToBufferBE, List.cons_append,
      List.drop_succ_cons, List.append_assoc]
    rw [← List.append_assoc, List.drop_left' hoq]

theorem DoDedup_seen (shardID : Nat) (o q : Bytes) (m : List (Bytes × Nat))
    (ho : o.length = 16) (hq : q.length = 8) (h : seenBefore m o (beVal q)) :
    DoDedup shardID (o ++ q) m = (true, m) := by
  obtain ⟨prev, hget, hle⟩ := h
  unfold DoDedup
  simp only [List.take_left' ho, List.drop_left' ho, List.take_of_length_le (le_of_eq hq), hget,
    if_pos hle]

theorem DoDedup_fresh (shardID : Nat) (o q : Bytes) (m : List (Bytes × Nat))
    (ho : o.length = 16) (hq : q.length = 8) (h : ¬ seenBefore m o (beVal q)) :
    DoDedup shardID (o ++ q) m = (false, kvSet o (beVal q) m) := by
  unfold DoDedup
  simp only [List.take_left' ho, List.drop_left' ho, List.take_of_length_le (le_of_eq hq)]
  cases hget : kvGet o m with
  | none => rfl
  | some prev =>
    have hlt : ¬ beVal q ≤ prev := fun hle => h ⟨prev, hget, hle⟩
    simp only [if_neg hlt]

/-- A forwarded put with duplicate detection whose sequence was seen is skipped:
nothing changes. -/
theorem handlePut_forward_seen (faults : KVFaults) (ids : TableIDs) (w : WriteState)
    (o q rc value : Bytes) (rs0 : Nat) (ho : o.length = 16) (hq : q.length = 8)
    (h : seenBefore w.sm.dedupSequences o (beVal q)) :
    handlePut faults ids true w (forwardedPut 1 o q rc value rs0) = { w with outcome := .ok } := by
  obtain ⟨h1, h2, h3, -, -⟩ := forwardedPut_slices 1 o q rc value rs0 ho hq
  unfold handlePut
  simp only [if_true, if_neg h1, h2, h3]
  unfold checkDedup
  simp only [DoDedup_seen w.sm.shardID o q _ ho hq h, if_true]
  simp

/-- A forwarded put with duplicate detection whose sequence is new: the cache entry of
the originator becomes the sequence, the ForwardDedup row is added to the batch, and the
Receiver row is written. -/
theorem handlePut_forward_fresh (faults : KVFaults) (ids : TableIDs) (w : WriteState)
    (o q rc value : Bytes) (rs0 : Nat) (ho : o.length = 16) (hq : q.length = 8)
    (h : ¬ seenBefore w.sm.dedupSequences o (beVal q)) :
    handlePut faults ids true w (forwardedPut 1 o q rc value rs0)
      = if faults.opFails w.batch.length then
          ⟨.err, { w.sm with dedupSequences := kvSet o (beVal q) w.sm.dedupSequences }, w.batch,
            w.stamped⟩
        else
          writeReceiverRow faults ids
            { w.sm with dedupSequences := kvSet o (beVal q) w.sm.dedupSequences }
            (w.batch ++ [.set (EncodeTableKeyPrefix ids.ForwardDedupTableID w.sm.shardID 24 ++ o) q])
            w.stamped (rc ++ beBytes 8 rs0) value := by
  obtain ⟨h1, h2, h3, h4, h5⟩ := forwardedPut_slices 1 o q rc value rs0 ho hq
  unfold handlePut
  simp only [if_true, if_neg h1, h2, h3, h4, h5]
  unfold checkDedup
  simp only [DoDedup_fresh w.sm.shardID o q _ ho hq h, List.take_left' ho, List.drop_left' ho]
  by_cases hf : faults.opFails w.batch.length = true
  · simp [hf]
  · simp [hf]

/-- A forwarded put without duplicate detection: the Receiver row is written, the cache
and the ForwardDedup table are not touched. -/
theorem handlePut_forward_plain (faults : KVFaults) (ids : TableIDs) (w : WriteState) (d : Nat)
    (o q rc value : Bytes) (rs0 : Nat) (ho : o.length = 16) (hq : q.length = 8) (hd : d ≠ 1) :
    handlePut faults ids true w (forwardedPut d o q rc value rs0)
      = writeReceiverRow faults ids w.sm w.batch w.stamped (rc ++ beBytes 8 rs0) value := by
  obtain ⟨h1, h2, h3, h4, h5⟩ := forwardedPut_slices d o q rc value rs0 ho hq
  have hd2 : ¬ (some d = some 1) := by simpa using hd
  unfold handlePut
  simp only [if_true, if_neg h1, h2, h4, h5, if_neg hd2]

/-- The Receiver row of an accepted put: the key carries, behind the remote consumer id,
the receiver sequence that `deserializeWriteBatch` appended. -/
theorem writeReceiverRow_eq (faults : KVFaults) (ids : TableIDs) (s : ShardOnDiskStateMachine)
    (batch : Batch) (stamped : List Bytes) (rc value : Bytes) (rs0 : Nat) :
    writeReceiverRow faults ids s batch stamped (rc ++ beBytes 8 rs0) value
      = if faults.opFails batch.length then
          ⟨.err, { s with receiverSequence := (s.receiverSequence + 1) % 2 ^ 64 }, batch, stamped⟩
        else
          ⟨.ok, { s with receiverSequence := (s.receiverSequence + 1) % 2 ^ 64 },
            batch ++ [.set (receiverKey ids s.shardID s.batchSequence s.receiverSequence rc ++
              beBytes 8 rs0) value],
            stamped ++ [receiverKey ids s.shardID s.batchSequence s.receiverSequence rc ++
              beBytes 8 rs0]⟩ := by
  unfold writeReceiverRow receiverKey
  simp only [AppendUint32ToBufferBE, AppendUint64ToBufferBE, List.append_assoc]

/-- A Receiver row that was written without error. -/
theorem writeReceiverRow_ok (faults : KVFaults) (ids : TableIDs) (s : ShardOnDiskStateMachine)
    (batch : Batch) (stamped : List Bytes) (rc value : Bytes)
    (h : (writeReceiverRow faults ids s batch stamped rc value).outcome = .ok) :
    writeReceiverRow faults ids s batch stamped rc value
      = ⟨.ok, { s with receiverSequence := (s.receiverSequence + 1) % 2 ^ 64 },
          batch ++ [.set (receiverKey ids s.shardID s.batchSequence s.receiverSequence rc) value],
          stamped ++ [receiverKey ids s.shardID s.batchSequence s.receiverSequence rc]⟩ := by
  unfold writeReceiverRow at h ⊢
  by_cases hf : faults.opFails batch.length = true
  · simp [hf] at h
  · simp [hf, receiverKey, AppendUint32ToBufferBE, AppendUint64ToBufferBE]

/-! ## The stamps of the Receiver keys -/

theorem EncodeTableKeyPrefix_length (tableID shardID capac : Nat) :
    (EncodeTableKeyPrefix tableID shardID capac).length = 16 := by
  simp [EncodeTableKeyPrefix, AppendUint64ToBufferBE, beBytes_length]

theorem stampPair_receiverKey (ids : TableIDs) (shardID b r : Nat) (rc : Bytes) :
    stampPair (receiverKey ids shardID b r rc) = modPair (b, r) := by
  have h16 := EncodeTableKeyPrefix_length ids.ReceiverTableID shardID 40
  have h20 : (EncodeTableKeyPrefix ids.ReceiverTableID shardID 40 ++ beBytes 4 b).length = 20 := by
    rw [List.length_append, h16, beBytes_length]
  unfold stampPair modPair receiverKey
  generalize EncodeTableKeyPrefix ids.ReceiverTableID shardID 40 = pre at h16 h20 ⊢
  have e1 : ((pre ++ beBytes 4 b ++ beBytes 8 r ++ rc).drop 16).take 4 = beBytes 4 b := by
    rw [List.append_assoc, List.append_assoc, List.drop_left' h16,
      List.take_left' (beBytes_length 4 b)]
  have e2 : ((pre ++ beBytes 4 b ++ beBytes 8 r ++ rc).drop 20).take 8 = beBytes 8 r := by
    rw [List.append_assoc, List.drop_left' h20, List.take_left' (beBytes_length 8 r)]
  rw [e1, e2, beVal_beBytes, beVal_beBytes]
  have p4 : 256 ^ 4 = 2 ^ 32 := by norm_num
  have p8 : 256 ^ 8 = 2 ^ 64 := by norm_num
  rw [p4, p8]

/-- A put that is processed without error either leaves the Receiver keys and the
receiver sequence alone or stamps one key with the current pair of sequences. -/
theorem handlePut_ok_cases (faults : KVFaults) (ids : TableIDs) (forward : Bool) (w : WriteState)
    (kv : KVPair) (hok : (handlePut faults ids forward w kv).outcome = .ok) :
    ((handlePut faults ids forward w kv).stamped = w.stamped ∧
      (handlePut faults ids forward w kv).sm.receiverSequence = w.sm.receiverSequence) ∨
    (∃ rc, (handlePut faults ids forward w kv).stamped
        = w.stamped ++ [receiverKey ids w.sm.shardID w.sm.batchSequence w.sm.receiverSequence rc] ∧
      (handlePut faults ids forward w kv).sm.receiverSequence
        = (w.sm.receiverSequence + 1) % 2 ^ 64) := by
  obtain ⟨⟨hc1, -⟩, hc2, hc3, -⟩ :=
    checkDedup_frame faults ids w.sm ((kv.Key.drop 1).take 24) w.batch
  unfold handlePut at hok ⊢
  simp only [] at hok ⊢
  by_cases hfw : forward = true
  · rw [if_pos hfw] at hok ⊢
    by_cases hlen : kv.Key.length < 25
    · rw [if_pos hlen] at hok; simp at hok
    · rw [if_neg hlen] at hok ⊢
      by_cases hd : kv.Key.head? = some 1
      · rw [if_pos hd] at hok ⊢
        by_cases hco : (checkDedup faults ids w.sm ((kv.Key.drop 1).take 24) w.batch).outcome ≠ .ok
        · rw [if_pos hco] at hok; exact absurd hok hco
        · rw [if_neg hco] at hok ⊢
          by_cases hig : (checkDedup faults ids w.sm ((kv.Key.drop 1).take 24) w.batch).ignore = true
          · rw [if_pos hig]
            exact Or.inl ⟨rfl, hc3⟩
          · rw [if_neg hig] at hok ⊢
            rw [writeReceiverRow_ok faults ids _ _ _ _ _ hok, hc1, hc2, hc3]
            exact Or.inr ⟨_, rfl, rfl⟩
      · rw [if_neg hd] at hok ⊢
        rw [writeReceiverRow_ok faults ids _ _ _ _ _ hok]
        exact Or.inr ⟨_, rfl, rfl⟩
  · rw [if_neg hfw] at hok ⊢
    split_ifs <;> exact Or.inl ⟨rfl, rfl⟩

theorem pairLt_of_le_of_lt {p1 p2 : Nat × Nat} (h1 : p1.1 ≤ p2.1) (h2 : p1.2 < p2.2) :
    pairLt p1 p2 := by
  rcases Nat.lt_or_ge p1.1 p2.1 with h | h
  · exact Or.inl h
  · exact Or.inr ⟨Nat.le_antisymm h1 h, h2⟩

theorem handlePut_stampInv (faults : KVFaults) (ids : TableIDs) (forward : Bool)
    (bs0 rs0 n : Nat) (w : WriteState) (kv : KVPair) (hinv : StampInv bs0 rs0 n w)
    (hok : (handlePut faults ids forward w kv).outcome = .ok) :
    StampInv bs0 rs0 n (handlePut faults ids forward w kv) := by
  obtain ⟨hb, hr, ps, hps, hpw, hbd⟩ := hinv
  have hbs := (handlePut_frame faults ids forward w kv).2
  rcases handlePut_ok_cases faults ids forward w kv hok with ⟨hst, hrs⟩ | ⟨rc, hst, hrs⟩
  · refine ⟨by rw [hbs, hb], by rw [hrs, hst, hr], ps, by rw [hst, hps], hpw, ?_⟩
    rw [hst]
    exact hbd
  · refine ⟨by rw [hbs, hb], ?_, ps ++ [(bs0 + n, rs0 + w.stamped.length)], ?_, ?_, ?_⟩
    · rw [hrs, hst, hr, List.length_append, List.length_singleton]
      omega
    · rw [hst, List.map_append, List.map_append, hps, List.map_singleton, List.map_singleton,
        stampPair_receiverKey, hb, hr]
      simp [modPair]
    · rw [List.pairwise_append]
      refine ⟨hpw, List.pairwise_singleton _ _, fun a ha b hb2 => ?_⟩
      rw [List.mem_singleton] at hb2
      subst hb2
      obtain ⟨-, h2, -, h4⟩ := hbd a ha
      exact pairLt_of_le_of_lt h2 h4
    · intro p hp
      rw [hst, List.length_append, List.length_singleton]
      rcases List.mem_append.mp hp with hp | hp
      · obtain ⟨h1, h2, h3, h4⟩ := hbd p hp
        exact ⟨h1, h2, h3, by omega⟩
      · rw [List.mem_singleton] at hp
        subst hp
        exact ⟨by simp, by simp, by simp, by simp⟩

theorem handleWrite_stampInv (faults : KVFaults) (ids : TableIDs) (bs0 rs0 n : Nat)
    (w : WriteState) (bytes : Bytes) (forward : Bool) (hinv : StampInv bs0 rs0 n w)
    (hok : (handleWrite faults ids w bytes forward).outcome = .ok) :
    StampInv bs0 rs0 (n + 1) (handleWrite faults ids w bytes forward) := by
  unfold handleWrite at hok ⊢
  cases hdes : deserializeWriteBatch w.sm bytes 1 forward with
  | none => rw [hdes] at hok; simp at hok
  | some pd =>
    obtain ⟨puts, deletes⟩ := pd
    rw [hdes] at hok
    simp only [] at hok ⊢
    obtain ⟨hpok, hsm, hst, -⟩ := (finishWrite_frame faults forward deletes _).2 hok
    have hp := loopOk_induct WriteState.outcome (handlePut faults ids forward)
      (fun r => r.outcome = .ok → StampInv bs0 rs0 n r)
      (fun st kv hst0 hP h => handlePut_stampInv faults ids forward bs0 rs0 n st kv (hP hst0) h)
      puts { w with outcome := .ok } rfl (fun _ => hinv) hpok
    obtain ⟨hb, hr, ps, hps, hpw, hbd⟩ := hp
    refine ⟨?_, ?_, ps, ?_, hpw, ?_⟩
    · rw [hsm, (bumpBatchSequence_frame _).2.1, hb]
      omega
    · rw [hsm, hst, (bumpBatchSequence_frame _).2.2.1, hr]
    · rw [hst, hps]
    · intro p hp
      rw [hst]
      obtain ⟨h1, h2, h3, h4⟩ := hbd p hp
      exact ⟨h1, by omega, h3, h4⟩

theorem handleEntry_stampInv (faults : KVFaults) (ids : TableIDs) (bs0 rs0 n : Nat)
    (st : WriteState × Bool) (e : Entry) (hinv : StampInv bs0 rs0 n st.1)
    (hok : (handleEntry faults ids st e).1.outcome = .ok) :
    StampInv bs0 rs0 (n + 1) (handleEntry faults ids st e).1 := by
  have h1 := handleWrite_stampInv faults ids bs0 rs0 n st.1 e.Cmd true hinv
  have h2 := handleWrite_stampInv faults ids bs0 rs0 n st.1 e.Cmd false hinv
  unfold handleEntry at hok ⊢
  cases hc : e.Cmd.head? with
  | none => rw [hc] at hok; simp at hok
  | some command =>
    rw [hc] at hok
    simp only [] at hok ⊢
    by_cases hf : command = shardStateMachineCommandForwardWrite
    · rw [if_pos hf] at hok ⊢
      by_cases hw : (handleWrite faults ids st.1 e.Cmd true).outcome = .ok
      · rw [if_pos hw]; exact h1 hw
      · rw [if_neg hw] at hok; exact absurd hok hw
    · rw [if_neg hf] at hok ⊢
      by_cases hl : command = shardStateMachineCommandWrite
      · rw [if_pos hl] at hok ⊢; exact h2 hok
      · rw [if_neg hl] at hok; simp at hok

theorem loop_stampInv (faults : KVFaults) (ids : TableIDs) (bs0 rs0 : Nat) (entries : List Entry) :
    ∀ (n : Nat) (st : WriteState × Bool), StampInv bs0 rs0 n st.1 →
      (loopOk (fun st : WriteState × Bool => st.1.outcome) (handleEntry faults ids) st
        entries).1.outcome = .ok →
      StampInv bs0 rs0 (n + entries.length)
        (loopOk (fun st : WriteState × Bool => st.1.outcome) (handleEntry faults ids) st entries).1 := by
  induction entries with
  | nil => intro n st hinv _; exact hinv
  | cons e rest ih =>
    intro n st hinv hok
    simp only [loopOk] at hok ⊢
    by_cases hr : (handleEntry faults ids st e).1.outcome = .ok
    · rw [if_pos hr] at hok ⊢
      have := ih (n + 1) _ (handleEntry_stampInv faults ids bs0 rs0 n st e hinv hr) hok
      rw [List.length_cons, Nat.add_comm rest.length 1, ← Nat.add_assoc]
      exact this
    · rw [if_neg hr] at hok
      exact absurd hok hr

/-- The stamps of one successful call of `Update` whose counters do not wrap. -/
theorem Update_stamps (faults : KVFaults) (ids : TableIDs) (s : ShardOnDiskStateMachine)
    (peb : Store) (entries : List Entry) (h : (Update faults ids s peb entries).outcome = .ok)
    (hbs : s.batchSequence + entries.length < 2 ^ 32)
    (hrs : s.receiverSequence + (Update faults ids s peb entries).stamped.length < 2 ^ 64) :
    (Update faults ids s peb entries).sm.batchSequence = s.batchSequence + entries.length ∧
    (Update faults ids s peb entries).sm.receiverSequence
      = s.receiverSequence + (Update faults ids s peb entries).stamped.length ∧
    ((Update faults ids s peb entries).stamped.map stampPair).Pairwise pairLt ∧
    ∀ k ∈ (Update faults ids s peb entries).stamped,
      s.batchSequence ≤ (stampPair k).1 ∧
      (stampPair k).1 ≤ s.batchSequence + entries.length ∧
      s.receiverSequence ≤ (stampPair k).2 ∧
      (stampPair k).2 < s.receiverSequence + (Update faults ids s peb entries).stamped.length := by
  obtain ⟨hok, hsm, hst, -, -, -⟩ := Update_ok faults ids s peb entries h
  have h0 : StampInv s.batchSequence s.receiverSequence 0
      ((⟨.ok, s, [], []⟩, false) : WriteState × Bool).1 := by
    refine ⟨?_, ?_, [], rfl, List.Pairwise.nil, fun p hp => by simp at hp⟩
    · show s.batchSequence = (s.batchSequence + 0) % 2 ^ 32
      rw [Nat.add_zero, Nat.mod_eq_of_lt (by omega)]
    · show s.receiverSequence = (s.receiverSequence + 0) % 2 ^ 64
      rw [Nat.add_zero, Nat.mod_eq_of_lt (by omega)]
  have hinv := loop_stampInv faults ids s.batchSequence s.receiverSequence entries 0 _ h0 hok
  rw [Nat.zero_add] at hinv
  change StampInv _ _ _ (updateEntries faults ids s entries).1 at hinv
  obtain ⟨hb, hr, ps, hps, hpw, hbd⟩ := hinv
  rw [← hsm] at hb hr
  rw [← hst] at hr hps hbd
  have hid : ps.map modPair = ps := by
    conv_rhs => rw [← List.map_id ps]
    refine List.map_congr_left (fun p hp => ?_)
    obtain ⟨-, h2, -, h4⟩ := hbd p hp
    unfold modPair
    rw [Nat.mod_eq_of_lt (by omega), Nat.mod_eq_of_lt (by omega)]
    rfl
  rw [hid] at hps
  refine ⟨?_, ?_, ?_, ?_⟩
  · rw [hb]; exact Nat.mod_eq_of_lt hbs
  · rw [hr]; exact Nat.mod_eq_of_lt hrs
  · rw [hps]; exact hpw
  · intro k hk
    have : stampPair k ∈ ps := by
      rw [← hps]
      exact List.mem_map_of_mem _ hk
    exact hbd _ this

theorem dedup_fresh_cache (faults : KVFaults) (ids : TableIDs) (w : WriteState)
    (o q rc value : Bytes) (rs0 : Nat) (ho : o.length = 16) (hq : q.length = 8)
    (h : ¬ seenBefore w.sm.dedupSequences o (beVal q)) :
    (handlePut faults ids true w (forwardedPut 1 o q rc value rs0)).sm.dedupSequences
      = kvSet o (beVal q) w.sm.dedupSequences := by
  rw [handlePut_forward_fresh faults ids w o q rc value rs0 ho hq h]
  split_ifs
  · rfl
  · exact (writeReceiverRow_frame faults ids _ _ _ _ _).2.2.1

theorem pairLt_irrefl (p : Nat × Nat) : ¬ pairLt p p := by
  intro h
  rcases h with h | ⟨-, h⟩ <;> exact Nat.lt_irrefl _ h

/-- The stamps of a sequence of successful calls whose counters do not wrap: strictly
increasing, and not below the counters at the start. -/
theorem runUpdates_stamps (ids : TableIDs) (calls : List (KVFaults × List Entry)) :
    ∀ (s : ShardOnDiskStateMachine) (peb : Store) (r : ShardOnDiskStateMachine × Store × List Bytes),
      runUpdates ids s peb calls = some r →
      s.batchSequence + (calls.map (fun c => c.2.length)).sum < 2 ^ 32 →
      s.receiverSequence + r.2.2.length < 2 ^ 64 →
      (r.2.2.map stampPair).Pairwise pairLt ∧
      ∀ k ∈ r.2.2, s.batchSequence ≤ (stampPair k).1 ∧ s.receiverSequence ≤ (stampPair k).2 := by
  induction calls with
  | nil =>
    intro s peb r hrun _ _
    simp only [runUpdates, Option.some.injEq] at hrun
    subst hrun
    exact ⟨List.Pairwise.nil, fun k hk => by simp at hk⟩
  | cons call rest ih =>
    intro s peb r hrun hbs hrs
    simp only [runUpdates] at hrun
    by_cases hok : (Update call.1 ids s peb call.2).outcome = .ok
    · rw [if_pos hok] at hrun
      cases hrest : runUpdates ids (Update call.1 ids s peb call.2).sm
          (Update call.1 ids s peb call.2).peb rest with
      | none => rw [hrest] at hrun; simp at hrun
      | some r2 =>
        obtain ⟨s2, peb2, keys2⟩ := r2
        rw [hrest] at hrun
        simp only [Option.some.injEq] at hrun
        subst hrun
        simp only [List.map_cons, List.sum_cons, List.length_append] at hbs hrs
        obtain ⟨u1, u2, u3, u4⟩ := Update_stamps call.1 ids s peb call.2 hok (by omega) (by omega)
        obtain ⟨i1, i2⟩ := ih _ _ _ hrest (by rw [u1]; omega) (by rw [u2]; simp only []; omega)
        simp only [List.map_append] at i2 ⊢
        refine ⟨List.pairwise_append.mpr ⟨u3, i1, fun a ha b hb => ?_⟩, fun k hk => ?_⟩
        · obtain ⟨ka, hka, rfl⟩ := List.mem_map.mp ha
          obtain ⟨kb, hkb, rfl⟩ := List.mem_map.mp hb
          obtain ⟨-, a2, -, a4⟩ := u4 ka hka
          obtain ⟨b1, b2⟩ := i2 kb hkb
          exact pairLt_of_le_of_lt (by omega) (by omega)
        · rcases List.mem_append.mp hk with hk | hk
          · obtain ⟨a1, -, a3, -⟩ := u4 k hk
            exact ⟨a1, a3⟩
          · obtain ⟨b1, b2⟩ := i2 k hk
            exact ⟨by omega, by omega⟩
    · rw [if_neg hok] at hrun
      simp at hrun

/-! ## Replay of a forward write -/

theorem DoDedup_mono (shardID : Nat) (key : Bytes) (m : List (Bytes × Nat)) (o : Bytes) (x : Nat)
    (h : seenBefore m o x) : seenBefore (DoDedup shardID key m).2 o x := by
  obtain ⟨prev, hget, hle⟩ := h
  unfold DoDedup
  simp only []
  by_cases ho : o = key.take 16
  · subst ho
    rw [hget]
    simp only []
    by_cases hs : beVal ((key.drop 16).take 8) ≤ prev
    · rw [if_pos hs]; exact ⟨prev, hget, hle⟩
    · rw [if_neg hs]
      exact ⟨_, kvGet_kvSet_self _ _ _, by omega⟩
  · cases hk : kvGet (key.take 16) m with
    | none => exact ⟨prev, by simp only []; rw [kvGet_kvSet_ne _ _ _ _ ho, hget], hle⟩
    | some p2 =>
      simp only []
      split_ifs
      · exact ⟨prev, hget, hle⟩
      · exact ⟨prev, by rw [kvGet_kvSet_ne _ _ _ _ ho, hget], hle⟩

theorem handlePut_seen_mono (faults : KVFaults) (ids : TableIDs) (forward : Bool) (w : WriteState)
    (kv : KVPair) (o : Bytes) (x : Nat) (h : seenBefore w.sm.dedupSequences o x) :
    seenBefore (handlePut faults ids forward w kv).sm.dedupSequences o x := by
  have hd := DoDedup_mono w.sm.shardID ((kv.Key.drop 1).take 24) w.sm.dedupSequences o x h
  have hc : seenBefore (checkDedup faults ids w.sm ((kv.Key.drop 1).take 24) w.batch).sm.dedupSequences
      o x := by
    unfold checkDedup
    simp only []
    split_ifs <;> exact hd
  have hw : ∀ s b st rc v, (writeReceiverRow faults ids s b st rc v).sm.dedupSequences
      = s.dedupSequences := fun s b st rc v => (writeReceiverRow_frame faults ids s b st rc v).2.2.1
  unfold handlePut
  simp only []
  split_ifs
  all_goals first
    | exact h
    | exact hc
    | (rw [hw]; exact hc)
    | (rw [hw]; exact h)

/-- After a loop over forwarded puts with duplicate detection that ended normally, every
one of the puts is recorded in the dedup cache. -/
theorem handlePuts_all_seen (faults : KVFaults) (ids : TableIDs) (rs0 : Nat) (puts : List KVPair)
    (hputs : ∀ kv ∈ puts, DedupKey kv.Key) :
    ∀ (w : WriteState),
      (loopOk WriteState.outcome (handlePut faults ids true) w
        (puts.map (withReceiverSequence rs0))).outcome = .ok →
      ∀ o q rc value, o.length = 16 → q.length = 8 →
        (⟨1 :: (o ++ q ++ rc), value⟩ : KVPair) ∈ puts →
        seenBefore (loopOk WriteState.outcome (handlePut faults ids true) w
          (puts.map (withReceiverSequence rs0))).sm.dedupSequences o (beVal q) := by
  induction puts with
  | nil => intro w _ o q rc value _ _ hmem; simp at hmem
  | cons kv rest ih =>
    intro w hok o q rc value ho hq hmem
    simp only [List.map_cons, loopOk] at hok ⊢
    by_cases hr : (handlePut faults ids true w (withReceiverSequence rs0 kv)).outcome = .ok
    · rw [if_pos hr] at hok ⊢
      rcases List.mem_cons.mp hmem with hm | hm
      · have hkv : withReceiverSequence rs0 kv = forwardedPut 1 o q rc value rs0 := by
          rw [← hm]; rfl
        have hseen : seenBefore
            (handlePut faults ids true w (withReceiverSequence rs0 kv)).sm.dedupSequences
            o (beVal q) := by
          rw [hkv]
          by_cases hs : seenBefore w.sm.dedupSequences o (beVal q)
          · rw [handlePut_forward_seen faults ids w o q rc value rs0 ho hq hs]
            exact hs
          · exact ⟨_, ((dedup_fresh_cache faults ids w o q rc value rs0 ho hq hs)) ▸
              kvGet_kvSet_self _ _ _, Nat.le_refl _⟩
        exact loopOk_induct WriteState.outcome (handlePut faults ids true)
          (fun r => seenBefore r.sm.dedupSequences o (beVal q))
          (fun st kv2 _ hst => handlePut_seen_mono faults ids true st kv2 o (beVal q) hst)
          _ _ hr hseen
      · exact ih (fun kv2 h2 => hputs kv2 (List.mem_cons_of_mem _ h2)) _ hok o q rc value ho hq hm
    · rw [if_neg hr] at hok
      exact absurd hok hr

/-- A loop over forwarded puts with duplicate detection that are all recorded in the
dedup cache changes nothing. -/
theorem handlePuts_all_skipped (faults : KVFaults) (ids : TableIDs) (rs0 : Nat)
    (puts : List KVPair) (w : WriteState) (hw : w.outcome = .ok)
    (hputs : ∀ kv ∈ puts, ∃ o q rc, o.length = 16 ∧ q.length = 8 ∧
      kv.Key = 1 :: (o ++ q ++ rc) ∧ seenBefore w.sm.dedupSequences o (beVal q)) :
    loopOk WriteState.outcome (handlePut faults ids true) w (puts.map (withReceiverSequence rs0))
      = w := by
  induction puts with
  | nil => rfl
  | cons kv rest ih =>
    obtain ⟨o, q, rc, ho, hq, hkey, hseen⟩ := hputs kv (List.mem_cons_self _ _)
    have hkv : withReceiverSequence rs0 kv = forwardedPut 1 o q rc kv.Value rs0 := by
      unfold forwardedPut
      rw [← hkey]
    have hstep : handlePut faults ids true w (withReceiverSequence rs0 kv) = w := by
      rw [hkv, handlePut_forward_seen faults ids w o q rc kv.Value rs0 ho hq hseen]
      cases w
      simp only [] at hw
      subst hw
      rfl
    simp only [List.map_cons, loopOk, hstep, hw, if_true]
    exact ih (fun kv2 h2 => hputs kv2 (List.mem_cons_of_mem _ h2))

theorem tablePrefixes_disjoint (t1 t2 shardID c1 c2 : Nat) (h1 : t1 < 2 ^ 64)
    (h2 : t2 < 2 ^ 64) (hne : t1 ≠ t2) :
    (EncodeTableKeyPrefix t1 shardID c1).isPrefixOf (EncodeTableKeyPrefix t2 shardID c2) = false := by
  rw [Bool.eq_false_iff]
  intro hp
  have hpre := List.isPrefixOf_iff_prefix.mp hp
  have heq := hpre.eq_of_length (by
    rw [EncodeTableKeyPrefix_length, EncodeTableKeyPrefix_length])
  unfold EncodeTableKeyPrefix AppendUint64ToBufferBE at heq
  have hb := List.append_cancel_left heq
  have hv := congrArg beVal hb
  rw [beVal_beBytes, beVal_beBytes] at hv
  have p8 : 256 ^ 8 = 2 ^ 64 := by norm_num
  rw [p8, Nat.mod_eq_of_lt h1, Nat.mod_eq_of_lt h2] at hv
  exact hne hv

/-- Writing under a key outside a table leaves the rows of the table as they are. -/
theorem tableRows_kvSet_other (tableID shardID : Nat) (k v : Bytes) (peb : Store)
    (hk : (EncodeTableKeyPrefix tableID shardID 16).isPrefixOf k = false) :
    tableRows tableID shardID (kvSet k v peb) = tableRows tableID shardID peb := by
  unfold tableRows kvSet kvDelete
  rw [List.filter_cons_of_neg (by simp [hk]), List.filter_filter]
  refine List.filter_congr (fun p _ => ?_)
  by_cases hp : (EncodeTableKeyPrefix tableID shardID 16).isPrefixOf p.1 = true
  · have hne : p.1 ≠ k := by
      intro heq
      rw [heq, hk] at hp
      exact Bool.false_ne_true hp
    simp [hp, hne]
  · simp [hp]

/-- A forward write that ends normally: the loop over its puts ended normally, there are
no deletes, and the batch sequence was incremented. -/
theorem handleWrite_forward_ok (faults : KVFaults) (ids : TableIDs) (w : WriteState)
    (s0 : ShardOnDiskStateMachine) (cmd : Bytes) (puts : List KVPair) (deletes : List Bytes)
    (hdes : deserializeWriteBatch s0 cmd 1 false = some (puts, deletes))
    (hok : (handleWrite faults ids w cmd true).outcome = .ok) :
    (loopOk WriteState.outcome (handlePut faults ids true) { w with outcome := .ok }
      (puts.map (withReceiverSequence w.sm.receiverSequence))).outcome = .ok ∧
    handleWrite faults ids w cmd true
      = ⟨.ok, bumpBatchSequence (loopOk WriteState.outcome (handlePut faults ids true)
            { w with outcome := .ok } (puts.map (withReceiverSequence w.sm.receiverSequence))).sm,
          (loopOk WriteState.outcome (handlePut faults ids true)
            { w with outcome := .ok } (puts.map (withReceiverSequence w.sm.receiverSequence))).batch,
          (loopOk WriteState.outcome (handlePut faults ids true)
            { w with outcome := .ok }
            (puts.map (withReceiverSequence w.sm.receiverSequence))).stamped⟩ := by
  unfold handleWrite at hok ⊢
  rw [deserializeWriteBatch_forward w.sm s0 cmd 1, hdes] at hok ⊢
  simp only [Option.map_some'] at hok ⊢
  obtain ⟨hl, -, -, hdel⟩ := (finishWrite_frame faults true deletes _).2 hok
  have hd := hdel rfl
  subst hd
  refine ⟨hl, ?_⟩
  unfold finishWrite
  rw [if_pos hl, if_neg (by simp)]
  rfl

theorem updateEntries_single_forward (faults : KVFaults) (ids : TableIDs)
    (s : ShardOnDiskStateMachine) (i : Nat) (cmd : Bytes)
    (hcmd : cmd.head? = some shardStateMachineCommandForwardWrite) :
    (updateEntries faults ids s [⟨i, cmd⟩]).1 = handleWrite faults ids ⟨.ok, s, [], []⟩ cmd true := by
  unfold updateEntries
  simp only [loopOk]
  have he : (handleEntry faults ids (⟨.ok, s, [], []⟩, false) ⟨i, cmd⟩).1
      = handleWrite faults ids ⟨.ok, s, [], []⟩ cmd true := by
    unfold handleEntry
    simp only [hcmd, if_true]
    split_ifs <;> rfl
  split_ifs <;> exact he

/-- The store after a successful call of `Update` with one forward write whose puts were
all skipped: only the LastLogIndexReceived row was written. -/
theorem Update_forward_all_skipped (faults : KVFaults) (ids : TableIDs)
    (s s0 : ShardOnDiskStateMachine) (peb : Store) (i : Nat) (cmd : Bytes) (puts : List KVPair)
    (deletes : List Bytes)
    (hcmd : cmd.head? = some shardStateMachineCommandForwardWrite)
    (hdes : deserializeWriteBatch s0 cmd 1 false = some (puts, deletes))
    (hputs : ∀ kv ∈ puts, ∃ o q rc, o.length = 16 ∧ q.length = 8 ∧
      kv.Key = 1 :: (o ++ q ++ rc) ∧ seenBefore s.dedupSequences o (beVal q))
    (h : (Update faults ids s peb [⟨i, cmd⟩]).outcome = .ok) :
    (Update faults ids s peb [⟨i, cmd⟩]).sm = bumpBatchSequence s ∧
    (Update faults ids s peb [⟨i, cmd⟩]).stamped = [] ∧
    ∃ v1 v2, (Update faults ids s peb [⟨i, cmd⟩]).peb
      = kvSet (EncodeTableKeyPrefix ids.LastLogIndexReceivedTableID s.shardID 16) v2
          (kvSet (EncodeTableKeyPrefix ids.LastLogIndexReceivedTableID s.shardID 16) v1 peb) := by
  obtain ⟨hok, hsm, hst, -, hpeb, last, -, hbatch⟩ := Update_ok faults ids s peb [⟨i, cmd⟩] h
  rw [updateEntries_single_forward faults ids s i cmd hcmd] at hok hsm hst hbatch
  obtain ⟨-, hw⟩ := handleWrite_forward_ok faults ids ⟨.ok, s, [], []⟩ s0 cmd puts deletes hdes hok
  have hskip := handlePuts_all_skipped faults ids s.receiverSequence puts ⟨.ok, s, [], []⟩ rfl hputs
  simp only [] at hw
  rw [hskip] at hw
  rw [hw] at hsm hst hbatch
  refine ⟨hsm, hst, [], encodeSequences last.Index s.receiverSequence
    (bumpBatchSequence s).batchSequence, ?_⟩
  rw [hpeb, hbatch]
  simp only [List.nil_append, applyBatch, List.foldl_cons, List.foldl_nil, BatchOp.apply]
  rfl

/-! ## The claims -/

/-- C1, as stated, fails: a call of `Update` with two (empty) `WRITE` entries succeeds and
moves the batch sequence from 0 to 2, not to 1. -/
theorem batchSequence_two_entries :
    (Update noFaults demoIds demoShard [] [⟨7, emptyWriteCmd⟩, ⟨8, emptyWriteCmd⟩]).outcome = .ok ∧
    (Update noFaults demoIds demoShard [] [⟨7, emptyWriteCmd⟩, ⟨8, emptyWriteCmd⟩]).sm.batchSequence
      = 2 ∧
    (demoShard.batchSequence + 1) % 2 ^ 32 = 1 := by
  decide

/-- C1, amended: for every shard state and every list of log entries on which `Update`
succeeds, the batch sequence afterwards is the batch sequence before plus the number of
entries of the call (mod 2^32): it advances once per log entry. -/
theorem batchSequence_advances_per_entry (faults : KVFaults) (ids : TableIDs)
    (s : ShardOnDiskStateMachine) (peb : Store) (entries : List Entry)
    (h : (Update faults ids s peb entries).outcome = .ok) :
    (Update faults ids s peb entries).sm.batchSequence
      = (s.batchSequence + entries.length) % 2 ^ 32 := by
  obtain ⟨hok, hsm, -, -, -, last, hlast, -⟩ := Update_ok faults ids s peb entries h
  obtain ⟨h1, h2⟩ := (updateEntries_frame faults ids s entries).2 hok
  have hne : entries ≠ [] := by
    intro he
    rw [he] at hlast
    simp at hlast
  rw [hsm, ← h1, Nat.mod_eq_of_lt (h2 (Or.inr hne))]

theorem batchSequence_advances_per_entry_witness :
    (Update noFaults demoIds demoShard [] [⟨7, emptyWriteCmd⟩, ⟨8, emptyWriteCmd⟩]).sm.batchSequence
      = (demoShard.batchSequence + 2) % 2 ^ 32 :=
  batchSequence_advances_per_entry noFaults demoIds demoShard []
    [⟨7, emptyWriteCmd⟩, ⟨8, emptyWriteCmd⟩] (by decide)

/-- C6: after a successful `Update` (which needs a non-empty list of entries) the
LastLogIndexReceived row of the shard holds the 20 bytes `index of the last entry (u64 LE),
receiver sequence (u64 LE), batch sequence (u32 LE)` of the state machine as the call
leaves it, and `loadSequences` on the resulting store returns exactly these three
values. -/
theorem sequences_row_after_update (faults faults2 : KVFaults) (ids : TableIDs)
    (s : ShardOnDiskStateMachine) (peb : Store) (entries : List Entry)
    (h : (Update faults ids s peb entries).outcome = .ok)
    (hidx : ∀ e ∈ entries, e.Index < 2 ^ 64) (hrs : s.receiverSequence < 2 ^ 64)
    (hget : faults2.getFails = false) :
    ∃ last, entries.getLast? = some last ∧
      kvGet (EncodeTableKeyPrefix ids.LastLogIndexReceivedTableID s.shardID 16)
          (Update faults ids s peb entries).peb
        = some (encodeSequences last.Index (Update faults ids s peb entries).sm.receiverSequence
            (Update faults ids s peb entries).sm.batchSequence) ∧
      (encodeSequences last.Index (Update faults ids s peb entries).sm.receiverSequence
            (Update faults ids s peb entries).sm.batchSequence).length = 20 ∧
      loadSequences faults2 ids (Update faults ids s peb entries).peb s.shardID
        = (.ok, last.Index, (Update faults ids s peb entries).sm.receiverSequence,
            (Update faults ids s peb entries).sm.batchSequence) := by
  obtain ⟨hok, hsm, -, -, hpeb, last, hlast, hbatch⟩ := Update_ok faults ids s peb entries h
  have hne : entries ≠ [] := by
    intro he
    rw [he] at hlast
    simp at hlast
  have hb := ((updateEntries_frame faults ids s entries).2 hok).2 (Or.inr hne)
  have hr := updateEntries_receiverSequence_lt faults ids s entries hrs
  have hi : last.Index < 2 ^ 64 := hidx last (List.mem_of_getLast?_eq_some hlast)
  have hkv : kvGet (EncodeTableKeyPrefix ids.LastLogIndexReceivedTableID s.shardID 16)
      (Update faults ids s peb entries).peb
        = some (encodeSequences last.Index (Update faults ids s peb entries).sm.receiverSequence
            (Update faults ids s peb entries).sm.batchSequence) := by
    rw [hpeb, hbatch, applyBatch_append, hsm]
    simp only [applyBatch, List.foldl_cons, List.foldl_nil, BatchOp.apply]
    exact kvGet_kvSet_self _ _ _
  refine ⟨last, hlast, hkv, by simp [encodeSequences, leBytes_length], ?_⟩
  unfold loadSequences
  simp only [hget, hkv]
  obtain ⟨r1, r2, r3⟩ := read_encodeSequences last.Index
    (Update faults ids s peb entries).sm.receiverSequence
    (Update faults ids s peb entries).sm.batchSequence
  rw [r1, r2, r3, hsm, Nat.mod_eq_of_lt hi, Nat.mod_eq_of_lt hr, Nat.mod_eq_of_lt hb]
  simp

theorem sequences_row_after_update_witness :
    ∃ last, [(⟨7, demoForwardCmd 1⟩ : Entry), ⟨8, emptyWriteCmd⟩].getLast? = some last ∧
      kvGet (EncodeTableKeyPrefix demoIds.LastLogIndexReceivedTableID demoShard.shardID 16)
          (Update noFaults demoIds demoShard [] [⟨7, demoForwardCmd 1⟩, ⟨8, emptyWriteCmd⟩]).peb
        = some (encodeSequences last.Index
            (Update noFaults demoIds demoShard [] [⟨7, demoForwardCmd 1⟩, ⟨8, emptyWriteCmd⟩]).sm.receiverSequence
            (Update noFaults demoIds demoShard [] [⟨7, demoForwardCmd 1⟩, ⟨8, emptyWriteCmd⟩]).sm.batchSequence) ∧
      (encodeSequences last.Index
            (Update noFaults demoIds demoShard [] [⟨7, demoForwardCmd 1⟩, ⟨8, emptyWriteCmd⟩]).sm.receiverSequence
            (Update noFaults demoIds demoShard [] [⟨7, demoForwardCmd 1⟩, ⟨8, emptyWriteCmd⟩]).sm.batchSequence).length
          = 20 ∧
      loadSequences noFaults demoIds
          (Update noFaults demoIds demoShard [] [⟨7, demoForwardCmd 1⟩, ⟨8, emptyWriteCmd⟩]).peb
          demoShard.shardID
        = (.ok, last.Index,
            (Update noFaults demoIds demoShard [] [⟨7, demoForwardCmd 1⟩, ⟨8, emptyWriteCmd⟩]).sm.receiverSequence,
            (Update noFaults demoIds demoShard [] [⟨7, demoForwardCmd 1⟩, ⟨8, emptyWriteCmd⟩]).sm.batchSequence) :=
  sequences_row_after_update noFaults noFaults demoIds demoShard []
    [⟨7, demoForwardCmd 1⟩, ⟨8, emptyWriteCmd⟩] (by decide) (by decide) (by decide) rfl

/-- C8: for a non-empty list of pairwise distinct node ids and any shard id,
`calcProcessingNode` answers `true` for the node id at position `shardID mod len` and
`false` for every other node id, so exactly one member of the list is the processor. -/
theorem calcProcessingNode_exactly_one (nodeIDs : List Int) (shardID : Nat)
    (hne : nodeIDs ≠ []) (hnd : nodeIDs.Nodup) :
    ∃ leader, nodeIDs[shardID % nodeIDs.length]? = some leader ∧
      (∀ nodeID, calcProcessingNode nodeIDs shardID nodeID = some (decide (nodeID = leader))) ∧
      nodeIDs.filter (fun n => decide (calcProcessingNode nodeIDs shardID n = some true))
        = [leader] := by
  have hpos : 0 < nodeIDs.length := List.length_pos.mpr hne
  have hlt : shardID % nodeIDs.length < nodeIDs.length := Nat.mod_lt _ hpos
  refine ⟨nodeIDs[shardID % nodeIDs.length], List.getElem?_eq_getElem hlt, ?_, ?_⟩
  · intro nodeID
    simp [calcProcessingNode, List.getElem?_eq_getElem hlt]
  · have hmem : nodeIDs[shardID % nodeIDs.length] ∈ nodeIDs := List.getElem_mem hlt
    have hf : (fun n => decide (calcProcessingNode nodeIDs shardID n = some true))
        = (fun n => n == nodeIDs[shardID % nodeIDs.length]) := by
      funext n
      by_cases hn : n = nodeIDs[shardID % nodeIDs.length] <;>
        simp [calcProcessingNode, List.getElem?_eq_getElem hlt, hn]
    rw [hf, List.filter_beq, List.count_eq_one_of_mem hnd hmem]
    rfl

theorem calcProcessingNode_exactly_one_witness :
    ∃ leader, ([2, 5, 7] : List Int)[13 % ([2, 5, 7] : List Int).length]? = some leader ∧
      (∀ nodeID, calcProcessingNode [2, 5, 7] 13 nodeID = some (decide (nodeID = leader))) ∧
      ([2, 5, 7] : List Int).filter
          (fun n => decide (calcProcessingNode [2, 5, 7] 13 n = some true)) = [leader] :=
  calcProcessingNode_exactly_one [2, 5, 7] 13 (by decide) (by decide)

/-- C9: `Update` signals `RemoteWriteOccurred` exactly when it succeeds, this replica is
the processor and some entry of the call carries the `FORWARD_WRITE` command byte;
`RecoverFromSnapshot` signals exactly when it succeeds and this replica is the processor.
So a replica that is not the processor never signals. -/
theorem remoteWriteOccurred_signal (faults : KVFaults) (ids : TableIDs)
    (restore : Store → Bool × Store) (s : ShardOnDiskStateMachine) (peb : Store)
    (entries : List Entry) :
    (Update faults ids s peb entries).signalled
      = (decide ((Update faults ids s peb entries).outcome = .ok) && s.processor &&
          entries.any isForwardWrite) ∧
    (RecoverFromSnapshot faults ids restore s peb).signalled
      = (decide ((RecoverFromSnapshot faults ids restore s peb).outcome = .ok) && s.processor) := by
  constructor
  · by_cases h : (Update faults ids s peb entries).outcome = .ok
    · obtain ⟨hok, -, -, hsig, -, -⟩ := Update_ok faults ids s peb entries h
      rw [hsig, updateEntries_hasForward faults ids s entries hok]
      simp [h, Bool.and_comm]
    · rw [(Update_not_ok faults ids s peb entries h).2]
      simp [h]
  · unfold RecoverFromSnapshot
    have hp := loadDedupCache_processor faults ids { s with dedupSequences := [] } (restore peb).2
    simp only [] at hp ⊢
    split_ifs with h1 h2
    · simp [maybeTriggerRemoteWriteOccurred, hp]
    · simp [h2]
    · simp

/-- C10: when a call of `Update` contains a `FORWARD_WRITE` entry whose serialized write
batch has at least one delete, the call does not succeed, the store is left exactly as it
was (nothing of the call is committed) and no signal is sent; unless a batch operation
returned an error first, the call ends in a panic. -/
theorem forward_write_with_deletes_rejected (faults : KVFaults) (ids : TableIDs)
    (s : ShardOnDiskStateMachine) (peb : Store) (entries : List Entry) (e : Entry)
    (puts : List KVPair) (deletes : List Bytes) (he : e ∈ entries)
    (hcmd : e.Cmd.head? = some shardStateMachineCommandForwardWrite)
    (hdes : deserializeWriteBatch s e.Cmd 1 false = some (puts, deletes)) (hdel : deletes ≠ []) :
    (Update faults ids s peb entries).outcome ≠ .ok ∧
    (Update faults ids s peb entries).peb = peb ∧
    (Update faults ids s peb entries).signalled = false ∧
    ((∀ n, faults.opFails n = false) → (Update faults ids s peb entries).outcome = .fatal) := by
  have hloop : (updateEntries faults ids s entries).1.outcome ≠ .ok := by
    unfold updateEntries
    exact loopOk_fails_of_mem (fun st : WriteState × Bool => st.1.outcome) (handleEntry faults ids) e
      (fun st => handleEntry_forward_deletes faults ids st s e puts deletes hcmd hdes hdel)
      entries _ he
  have hout := Update_outcome_of_loop faults ids s peb entries hloop
  have hnot : (Update faults ids s peb entries).outcome ≠ .ok := by rw [hout]; exact hloop
  refine ⟨hnot, (Update_not_ok faults ids s peb entries hnot).1,
    (Update_not_ok faults ids s peb entries hnot).2, fun hnf => ?_⟩
  rw [hout]
  have hne := updateEntries_no_err faults ids s entries hnf
  cases ho : (updateEntries faults ids s entries).1.outcome with
  | ok => exact absurd ho hloop
  | err => exact absurd ho hne
  | fatal => rfl

theorem forward_write_with_deletes_rejected_witness :
    (Update noFaults demoIds demoShard [] [⟨7, demoForwardCmd 1⟩, ⟨8, demoForwardDeleteCmd⟩]).outcome
      ≠ .ok ∧
    (Update noFaults demoIds demoShard [] [⟨7, demoForwardCmd 1⟩, ⟨8, demoForwardDeleteCmd⟩]).peb
      = [] ∧
    (Update noFaults demoIds demoShard [] [⟨7, demoForwardCmd 1⟩, ⟨8, demoForwardDeleteCmd⟩]).signalled
      = false ∧
    ((∀ n, noFaults.opFails n = false) →
      (Update noFaults demoIds demoShard [] [⟨7, demoForwardCmd 1⟩, ⟨8, demoForwardDeleteCmd⟩]).outcome
        = .fatal) :=
  forward_write_with_deletes_rejected noFaults demoIds demoShard []
    [⟨7, demoForwardCmd 1⟩, ⟨8, demoForwardDeleteCmd⟩] ⟨8, demoForwardDeleteCmd⟩
    [⟨demoForwardKey 1, [42, 43]⟩] [[5]] (by decide) (by decide) (by decide) (by decide)

/-- C3: a forwarded put with duplicate detection, originator `o` and sequence `q` is
skipped (the loop goes on with the state, the batch and the written Receiver keys
untouched) if and only if the dedup cache holds an entry for `o` that is at least `q`.
Otherwise the cache entry of `o` becomes `q`, which is larger than the entry it replaces,
the entries of all other originators stay, and a put that is processed without error
writes one Receiver row. -/
theorem dedup_skip_iff_seen (faults : KVFaults) (ids : TableIDs) (w : WriteState)
    (o q rc value : Bytes) (rs0 : Nat) (ho : o.length = 16) (hq : q.length = 8) :
    (seenBefore w.sm.dedupSequences o (beVal q) ↔
      handlePut faults ids true w (forwardedPut 1 o q rc value rs0) = { w with outcome := .ok }) ∧
    (¬ seenBefore w.sm.dedupSequences o (beVal q) →
      kvGet o (handlePut faults ids true w (forwardedPut 1 o q rc value rs0)).sm.dedupSequences
        = some (beVal q) ∧
      (∀ prev, kvGet o w.sm.dedupSequences = some prev → prev < beVal q) ∧
      (∀ o1, o1 ≠ o →
        kvGet o1 (handlePut faults ids true w (forwardedPut 1 o q rc value rs0)).sm.dedupSequences
          = kvGet o1 w.sm.dedupSequences) ∧
      ((handlePut faults ids true w (forwardedPut 1 o q rc value rs0)).outcome = .ok →
        ∃ rkey,
          (handlePut faults ids true w (forwardedPut 1 o q rc value rs0)).stamped
            = w.stamped ++ [rkey] ∧
          BatchOp.set rkey value
            ∈ (handlePut faults ids true w (forwardedPut 1 o q rc value rs0)).batch)) := by
  have hfresh : ¬ seenBefore w.sm.dedupSequences o (beVal q) →
      (handlePut faults ids true w (forwardedPut 1 o q rc value rs0)).sm.dedupSequences
        = kvSet o (beVal q) w.sm.dedupSequences ∧
      ((handlePut faults ids true w (forwardedPut 1 o q rc value rs0)).outcome = .ok →
        ∃ rkey,
          (handlePut faults ids true w (forwardedPut 1 o q rc value rs0)).stamped
            = w.stamped ++ [rkey] ∧
          BatchOp.set rkey value
            ∈ (handlePut faults ids true w (forwardedPut 1 o q rc value rs0)).batch) := by
    intro hns
    rw [handlePut_forward_fresh faults ids w o q rc value rs0 ho hq hns, writeReceiverRow_eq]
    by_cases hf1 : faults.opFails w.batch.length = true
    · rw [if_pos hf1]
      exact ⟨rfl, fun h => by simp at h⟩
    · rw [if_neg hf1]
      split_ifs with hf2
      · exact ⟨rfl, fun h => by simp at h⟩
      · exact ⟨rfl, fun _ => ⟨_, rfl, by simp⟩⟩
  refine ⟨⟨fun hs => handlePut_forward_seen faults ids w o q rc value rs0 ho hq hs, fun heq => ?_⟩,
    fun hns => ⟨?_, ?_, ?_, (hfresh hns).2⟩⟩
  · by_contra hns
    obtain ⟨-, h2⟩ := hfresh hns
    rw [heq] at h2
    obtain ⟨rkey, hst, -⟩ := h2 rfl
    have := congrArg List.length hst
    simp at this
  · rw [(hfresh hns).1]
    exact kvGet_kvSet_self _ _ _
  · intro prev hget
    by_contra hle
    exact hns ⟨prev, hget, Nat.le_of_not_lt hle⟩
  · intro o1 hne
    rw [(hfresh hns).1]
    exact kvGet_kvSet_ne _ _ _ _ hne

theorem dedup_skip_iff_seen_witness :
    (seenBefore demoShard.dedupSequences demoOriginator (beVal [0, 0, 0, 0, 0, 0, 0, 7]) ↔
      handlePut noFaults demoIds true ⟨.ok, demoShard, [], []⟩
          (forwardedPut 1 demoOriginator [0, 0, 0, 0, 0, 0, 0, 7] [9] [42, 43] 0)
        = { (⟨.ok, demoShard, [], []⟩ : WriteState) with outcome := .ok }) ∧
    (¬ seenBefore demoShard.dedupSequences demoOriginator (beVal [0, 0, 0, 0, 0, 0, 0, 7]) →
      kvGet demoOriginator (handlePut noFaults demoIds true ⟨.ok, demoShard, [], []⟩
          (forwardedPut 1 demoOriginator [0, 0, 0, 0, 0, 0, 0, 7] [9] [42, 43] 0)).sm.dedupSequences
        = some (beVal [0, 0, 0, 0, 0, 0, 0, 7]) ∧
      (∀ prev, kvGet demoOriginator demoShard.dedupSequences = some prev →
        prev < beVal [0, 0, 0, 0, 0, 0, 0, 7]) ∧
      (∀ o1, o1 ≠ demoOriginator →
        kvGet o1 (handlePut noFaults demoIds true ⟨.ok, demoShard, [], []⟩
          (forwardedPut 1 demoOriginator [0, 0, 0, 0, 0, 0, 0, 7] [9] [42, 43] 0)).sm.dedupSequences
          = kvGet o1 demoShard.dedupSequences) ∧
      ((handlePut noFaults demoIds true ⟨.ok, demoShard, [], []⟩
          (forwardedPut 1 demoOriginator [0, 0, 0, 0, 0, 0, 0, 7] [9] [42, 43] 0)).outcome = .ok →
        ∃ rkey,
          (handlePut noFaults demoIds true ⟨.ok, demoShard, [], []⟩
            (forwardedPut 1 demoOriginator [0, 0, 0, 0, 0, 0, 0, 7] [9] [42, 43] 0)).stamped
            = [] ++ [rkey] ∧
          BatchOp.set rkey [42, 43]
            ∈ (handlePut noFaults demoIds true ⟨.ok, demoShard, [], []⟩
              (forwardedPut 1 demoOriginator [0, 0, 0, 0, 0, 0, 0, 7] [9] [42, 43] 0)).batch)) :=
  dedup_skip_iff_seen noFaults demoIds ⟨.ok, demoShard, [], []⟩ demoOriginator
    [0, 0, 0, 0, 0, 0, 0, 7] [9] [42, 43] 0 (by decide) (by decide)

/-- C4, the code at a concrete input: the forwarded put with key
`1 | 0x01 × 16 | seq 7 | rc = [9]` and value `[42, 43]`, applied to shard 13 with batch
sequence 3 and receiver sequence 258, is written under the Receiver prefix, batch
sequence 3, receiver sequence 258, the byte 9 and then eight more bytes (the receiver
sequence 258 that `deserializeWriteBatch` appended to the forwarded key); no row is
written under the key that ends with the remote consumer id. -/
theorem receiverKey_has_trailing_sequence :
    (Update noFaults demoIds demoShardLater [] [⟨7, demoForwardCmd 1⟩]).outcome = .ok ∧
    (Update noFaults demoIds demoShardLater [] [⟨7, demoForwardCmd 1⟩]).stamped
      = [receiverKey demoIds 13 3 258 [9] ++ [0, 0, 0, 0, 0, 0, 1, 2]] ∧
    BatchOp.set (receiverKey demoIds 13 3 258 [9] ++ [0, 0, 0, 0, 0, 0, 1, 2]) [42, 43]
      ∈ (Update noFaults demoIds demoShardLater [] [⟨7, demoForwardCmd 1⟩]).batch ∧
    BatchOp.set (receiverKey demoIds 13 3 258 [9]) [42, 43]
      ∉ (Update noFaults demoIds demoShardLater [] [⟨7, demoForwardCmd 1⟩]).batch ∧
    kvGet (receiverKey demoIds 13 3 258 [9])
      (Update noFaults demoIds demoShardLater [] [⟨7, demoForwardCmd 1⟩]).peb = none := by
  decide

/-- C5, as stated, fails: a forwarded put whose duplicate-detection byte is 0 is applied
(the call succeeds, one Receiver row is written, the receiver sequence goes from 0 to 1),
but the batch holds no row under the ForwardDedup prefix of the shard. -/
theorem no_dedup_row_without_dedup_byte :
    (Update noFaults demoIds demoShard [] [⟨7, demoForwardCmd 0⟩]).outcome = .ok ∧
    (Update noFaults demoIds demoShard [] [⟨7, demoForwardCmd 0⟩]).stamped.length = 1 ∧
    (Update noFaults demoIds demoShard [] [⟨7, demoForwardCmd 0⟩]).sm.receiverSequence = 1 ∧
    (Update noFaults demoIds demoShard [] [⟨7, demoForwardCmd 0⟩]).batch.filter
      (fun op => (EncodeTableKeyPrefix demoIds.ForwardDedupTableID 13 24).isPrefixOf op.key) = [] := by
  decide

/-- C5, amended: a forwarded put that is not skipped and is processed without error
advances the receiver sequence by one (mod 2^64) and adds its Receiver row to the batch;
when its duplicate-detection byte is set, the same batch gets, before the Receiver row,
the ForwardDedup row whose key is the ForwardDedup prefix of the shard followed by the
16-byte originator id and whose value is the 8-byte sequence; when the byte is not set,
the Receiver row is all that is added. -/
theorem accepted_put_rows (faults : KVFaults) (ids : TableIDs) (w : WriteState) (d : Nat)
    (o q rc value : Bytes) (rs0 : Nat) (ho : o.length = 16) (hq : q.length = 8)
    (hacc : d = 1 → ¬ seenBefore w.sm.dedupSequences o (beVal q))
    (hok : (handlePut faults ids true w (forwardedPut d o q rc value rs0)).outcome = .ok) :
    (handlePut faults ids true w (forwardedPut d o q rc value rs0)).sm.receiverSequence
      = (w.sm.receiverSequence + 1) % 2 ^ 64 ∧
    (d = 1 → ∃ tail,
      (handlePut faults ids true w (forwardedPut d o q rc value rs0)).batch = w.batch ++
        [.set (EncodeTableKeyPrefix ids.ForwardDedupTableID w.sm.shardID 24 ++ o) q,
         .set (EncodeTableKeyPrefix ids.ReceiverTableID w.sm.shardID 40 ++ tail) value]) ∧
    (d ≠ 1 → ∃ tail,
      (handlePut faults ids true w (forwardedPut d o q rc value rs0)).batch = w.batch ++
        [.set (EncodeTableKeyPrefix ids.ReceiverTableID w.sm.shardID 40 ++ tail) value]) := by
  by_cases hd : d = 1
  · subst hd
    have hns := hacc rfl
    rw [handlePut_forward_fresh faults ids w o q rc value rs0 ho hq hns] at hok ⊢
    by_cases hf1 : faults.opFails w.batch.length = true
    · rw [if_pos hf1] at hok; simp at hok
    · rw [if_neg hf1] at hok ⊢
      rw [writeReceiverRow_ok faults ids _ _ _ _ _ hok]
      refine ⟨rfl, fun _ => ⟨beBytes 4 w.sm.batchSequence ++ beBytes 8 w.sm.receiverSequence ++
          (rc ++ beBytes 8 rs0), ?_⟩, fun h => absurd rfl h⟩
      simp [receiverKey]
  · rw [handlePut_forward_plain faults ids w d o q rc value rs0 ho hq hd] at hok ⊢
    rw [writeReceiverRow_ok faults ids _ _ _ _ _ hok]
    refine ⟨rfl, fun h => absurd h hd, fun _ => ⟨beBytes 4 w.sm.batchSequence ++
        beBytes 8 w.sm.receiverSequence ++ (rc ++ beBytes 8 rs0), ?_⟩⟩
    simp [receiverKey]

theorem accepted_put_rows_witness :
    (handlePut noFaults demoIds true ⟨.ok, demoShard, [], []⟩
        (forwardedPut 0 demoOriginator [0, 0, 0, 0, 0, 0, 0, 7] [9] [42, 43] 0)).sm.receiverSequence
      = (demoShard.receiverSequence + 1) % 2 ^ 64 ∧
    ((0 : Nat) = 1 → ∃ tail,
      (handlePut noFaults demoIds true ⟨.ok, demoShard, [], []⟩
        (forwardedPut 0 demoOriginator [0, 0, 0, 0, 0, 0, 0, 7] [9] [42, 43] 0)).batch = [] ++
        [.set (EncodeTableKeyPrefix demoIds.ForwardDedupTableID demoShard.shardID 24 ++
            demoOriginator) [0, 0, 0, 0, 0, 0, 0, 7],
         .set (EncodeTableKeyPrefix demoIds.ReceiverTableID demoShard.shardID 40 ++ tail)
            [42, 43]]) ∧
    ((0 : Nat) ≠ 1 → ∃ tail,
      (handlePut noFaults demoIds true ⟨.ok, demoShard, [], []⟩
        (forwardedPut 0 demoOriginator [0, 0, 0, 0, 0, 0, 0, 7] [9] [42, 43] 0)).batch = [] ++
        [.set (EncodeTableKeyPrefix demoIds.ReceiverTableID demoShard.shardID 40 ++ tail)
            [42, 43]]) :=
  accepted_put_rows noFaults demoIds ⟨.ok, demoShard, [], []⟩ 0 demoOriginator
    [0, 0, 0, 0, 0, 0, 0, 7] [9] [42, 43] 0 (by decide) (by decide)
    (fun h => absurd h (by decide)) (by decide)

/-- C7: across a sequence of successful calls of `Update` on one shard during which the
`u32` batch sequence and the `u64` receiver sequence do not wrap, every Receiver key
written later carries a pair `(batch_seq, receiver_seq)` that is strictly greater, in
lexicographic order, than the pair of every Receiver key written earlier; in particular
the pairs are pairwise distinct. -/
theorem receiver_stamps_increasing (ids : TableIDs) (s : ShardOnDiskStateMachine) (peb : Store)
    (calls : List (KVFaults × List Entry))
    (hrun : (runUpdates ids s peb calls).isSome = true)
    (hbs : s.batchSequence + (calls.map (fun c => c.2.length)).sum < 2 ^ 32)
    (hrs : s.receiverSequence + (runKeys ids s peb calls).length < 2 ^ 64) :
    (runKeys ids s peb calls).Pairwise (fun k1 k2 => pairLt (stampPair k1) (stampPair k2)) ∧
    ((runKeys ids s peb calls).map stampPair).Nodup := by
  unfold runKeys at hrs ⊢
  cases hr : runUpdates ids s peb calls with
  | none => rw [hr] at hrun; simp at hrun
  | some r =>
    rw [hr] at hrs
    simp only [] at hrs ⊢
    obtain ⟨hpw, -⟩ := runUpdates_stamps ids calls s peb r hr hbs hrs
    refine ⟨List.pairwise_map.mp hpw, ?_⟩
    have hne : ∀ a b : Nat × Nat, pairLt a b → a ≠ b := by
      intro a b hab heq
      subst heq
      exact pairLt_irrefl a hab
    exact List.Pairwise.imp (hne _ _) hpw

theorem receiver_stamps_increasing_witness :
    (runKeys demoIds demoShard []
        [(noFaults, [⟨7, demoForwardCmd 0⟩]),
         (noFaults, [⟨8, demoForwardCmd 0⟩, ⟨9, demoForwardCmd 1⟩])]).length = 3 ∧
    (runKeys demoIds demoShard []
        [(noFaults, [⟨7, demoForwardCmd 0⟩]),
         (noFaults, [⟨8, demoForwardCmd 0⟩, ⟨9, demoForwardCmd 1⟩])]).Pairwise
      (fun k1 k2 => pairLt (stampPair k1) (stampPair k2)) ∧
    ((runKeys demoIds demoShard []
        [(noFaults, [⟨7, demoForwardCmd 0⟩]),
         (noFaults, [⟨8, demoForwardCmd 0⟩, ⟨9, demoForwardCmd 1⟩])]).map stampPair).Nodup :=
  ⟨by decide, receiver_stamps_increasing demoIds demoShard []
    [(noFaults, [⟨7, demoForwardCmd 0⟩]),
     (noFaults, [⟨8, demoForwardCmd 0⟩, ⟨9, demoForwardCmd 1⟩])] (by decide) (by decide) (by decide)⟩

/-- C2: a `FORWARD_WRITE` entry all of whose puts carry a well-formed key with duplicate
detection enabled is applied by a successful `Update` and then applied again, with the
same payload, by a second successful `Update`.  After the second call the rows of the
Receiver table, the rows of the ForwardDedup table and the receiver sequence are exactly
what they were after the first call, and the second call wrote no Receiver key. -/
theorem forward_write_replay_noop (faults1 faults2 : KVFaults) (ids : TableIDs)
    (s : ShardOnDiskStateMachine) (peb : Store) (i1 i2 : Nat) (cmd : Bytes)
    (puts : List KVPair) (deletes : List Bytes) (hids : ids.Distinct)
    (hcmd : cmd.head? = some shardStateMachineCommandForwardWrite)
    (hdes : deserializeWriteBatch s cmd 1 false = some (puts, deletes))
    (hputs : ∀ kv ∈ puts, DedupKey kv.Key)
    (h1 : (Update faults1 ids s peb [⟨i1, cmd⟩]).outcome = .ok)
    (h2 : (Update faults2 ids (Update faults1 ids s peb [⟨i1, cmd⟩]).sm
      (Update faults1 ids s peb [⟨i1, cmd⟩]).peb [⟨i2, cmd⟩]).outcome = .ok) :
    tableRows ids.ReceiverTableID s.shardID
        (Update faults2 ids (Update faults1 ids s peb [⟨i1, cmd⟩]).sm
          (Update faults1 ids s peb [⟨i1, cmd⟩]).peb [⟨i2, cmd⟩]).peb
      = tableRows ids.ReceiverTableID s.shardID (Update faults1 ids s peb [⟨i1, cmd⟩]).peb ∧
    tableRows ids.ForwardDedupTableID s.shardID
        (Update faults2 ids (Update faults1 ids s peb [⟨i1, cmd⟩]).sm
          (Update faults1 ids s peb [⟨i1, cmd⟩]).peb [⟨i2, cmd⟩]).peb
      = tableRows ids.ForwardDedupTableID s.shardID (Update faults1 ids s peb [⟨i1, cmd⟩]).peb ∧
    (Update faults2 ids (Update faults1 ids s peb [⟨i1, cmd⟩]).sm
        (Update faults1 ids s peb [⟨i1, cmd⟩]).peb [⟨i2, cmd⟩]).sm.receiverSequence
      = (Update faults1 ids s peb [⟨i1, cmd⟩]).sm.receiverSequence ∧
    (Update faults2 ids (Update faults1 ids s peb [⟨i1, cmd⟩]).sm
        (Update faults1 ids s peb [⟨i1, cmd⟩]).peb [⟨i2, cmd⟩]).stamped = [] := by
  obtain ⟨hr, hf, hl, hrf, hrl, hfl⟩ := hids
  -- the first call records every put in the dedup cache
  obtain ⟨hok1, hsm1, -, -, -, -⟩ := Update_ok faults1 ids s peb [⟨i1, cmd⟩] h1
  have hshard : (Update faults1 ids s peb [⟨i1, cmd⟩]).sm.shardID = s.shardID := by
    rw [hsm1]; exact (updateEntries_frame faults1 ids s [⟨i1, cmd⟩]).1.1
  rw [updateEntries_single_forward faults1 ids s i1 cmd hcmd] at hok1 hsm1
  obtain ⟨hl1, hw1⟩ := handleWrite_forward_ok faults1 ids ⟨.ok, s, [], []⟩ s cmd puts deletes
    hdes hok1
  have hcache : (Update faults1 ids s peb [⟨i1, cmd⟩]).sm.dedupSequences
      = (loopOk WriteState.outcome (handlePut faults1 ids true) ⟨.ok, s, [], []⟩
          (puts.map (withReceiverSequence s.receiverSequence))).sm.dedupSequences := by
    rw [hsm1, hw1]
    rfl
  have hseen : ∀ kv ∈ puts, ∃ o q rc, o.length = 16 ∧ q.length = 8 ∧
      kv.Key = 1 :: (o ++ q ++ rc) ∧
      seenBefore (Update faults1 ids s peb [⟨i1, cmd⟩]).sm.dedupSequences o (beVal q) := by
    intro kv hkv
    obtain ⟨o, q, rc, ho, hq, hkey⟩ := hputs kv hkv
    refine ⟨o, q, rc, ho, hq, hkey, ?_⟩
    rw [hcache]
    refine handlePuts_all_seen faults1 ids s.receiverSequence puts hputs ⟨.ok, s, [], []⟩ hl1
      o q rc kv.Value ho hq ?_
    rw [← hkey]
    exact hkv
  -- hence the second call skips every put
  obtain ⟨hsm2, hst2, v1, v2, hpeb2⟩ := Update_forward_all_skipped faults2 ids
    (Update faults1 ids s peb [⟨i1, cmd⟩]).sm s (Update faults1 ids s peb [⟨i1, cmd⟩]).peb i2 cmd
    puts deletes hcmd hdes hseen h2
  rw [hpeb2, hshard]
  refine ⟨?_, ?_, by rw [hsm2]; rfl, hst2⟩
  · rw [tableRows_kvSet_other _ _ _ _ _
        (tablePrefixes_disjoint _ _ _ _ _ hr hl hrl),
      tableRows_kvSet_other _ _ _ _ _ (tablePrefixes_disjoint _ _ _ _ _ hr hl hrl)]
  · rw [tableRows_kvSet_other _ _ _ _ _
        (tablePrefixes_disjoint _ _ _ _ _ hf hl hfl),
      tableRows_kvSet_other _ _ _ _ _ (tablePrefixes_disjoint _ _ _ _ _ hf hl hfl)]

theorem forward_write_replay_noop_witness :
    tableRows demoIds.ReceiverTableID demoShard.shardID
        (Update noFaults demoIds (Update noFaults demoIds demoShard [] [⟨7, demoForwardCmd 1⟩]).sm
          (Update noFaults demoIds demoShard [] [⟨7, demoForwardCmd 1⟩]).peb
          [⟨8, demoForwardCmd 1⟩]).peb
      = tableRows demoIds.ReceiverTableID demoShard.shardID
          (Update noFaults demoIds demoShard [] [⟨7, demoForwardCmd 1⟩]).peb ∧
    tableRows demoIds.ForwardDedupTableID demoShard.shardID
        (Update noFaults demoIds (Update noFaults demoIds demoShard [] [⟨7, demoForwardCmd 1⟩]).sm
          (Update noFaults demoIds demoShard [] [⟨7, demoForwardCmd 1⟩]).peb
          [⟨8, demoForwardCmd 1⟩]).peb
      = tableRows demoIds.ForwardDedupTableID demoShard.shardID
          (Update noFaults demoIds demoShard [] [⟨7, demoForwardCmd 1⟩]).peb ∧
    (Update noFaults demoIds (Update noFaults demoIds demoShard [] [⟨7, demoForwardCmd 1⟩]).sm
        (Update noFaults demoIds demoShard [] [⟨7, demoForwardCmd 1⟩]).peb
        [⟨8, demoForwardCmd 1⟩]).sm.receiverSequence
      = (Update noFaults demoIds demoShard [] [⟨7, demoForwardCmd 1⟩]).sm.receiverSequence ∧
    (Update noFaults demoIds (Update noFaults demoIds demoShard [] [⟨7, demoForwardCmd 1⟩]).sm
        (Update noFaults demoIds demoShard [] [⟨7, demoForwardCmd 1⟩]).peb
        [⟨8, demoForwardCmd 1⟩]).stamped = [] :=
  forward_write_replay_noop noFaults noFaults demoIds demoShard [] 7 8 (demoForwardCmd 1)
    [⟨demoForwardKey 1, [42, 43]⟩] [] (by unfold TableIDs.Distinct; decide) (by decide) (by decide)
    (fun kv hkv => by
      rw [List.mem_singleton] at hkv
      subst hkv
      exact ⟨demoOriginator, [0, 0, 0, 0, 0, 0, 0, 7], [9], rfl, rfl, rfl⟩)
    (by decide) (by decide)

/-- C12: a QUERY lookup whose payload decodes to a `QueryExecutionInfo` never ends as a
failed lookup; when the remote pull query returns the error `e` the reply is the byte 0
followed by the bytes of the message of `e`, when it returns rows the reply is the byte 1
followed by the serialized rows; a PING lookup returns the empty (`nil`) reply. -/
theorem lookup_reply {σ ι ρ : Type} (Deserialize : Bytes → Option ι)
    (ExecuteRemotePullQuery : σ → ι → σ × RemoteQueryResult ρ) (Serialize : ρ → Bytes)
    (st : σ) (payload : Bytes) (queryInfo : ι) (hdec : Deserialize payload = some queryInfo) :
    (Lookup Deserialize ExecuteRemotePullQuery Serialize st
        (shardStateMachineLookupQuery :: payload)).2 ≠ .failure ∧
    (∀ st1 e, ExecuteRemotePullQuery st queryInfo = (st1, .error e) →
      Lookup Deserialize ExecuteRemotePullQuery Serialize st
          (shardStateMachineLookupQuery :: payload) = (st1, .reply (some (0 :: e)))) ∧
    (∀ st1 rows, ExecuteRemotePullQuery st queryInfo = (st1, .rows rows) →
      Lookup Deserialize ExecuteRemotePullQuery Serialize st
          (shardStateMachineLookupQuery :: payload)
        = (st1, .reply (some (1 :: Serialize rows)))) ∧
    Lookup Deserialize ExecuteRemotePullQuery Serialize st
        (shardStateMachineLookupPing :: payload) = (st, .reply none) := by
  have hq : shardStateMachineLookupQuery ≠ shardStateMachineLookupPing := by decide
  refine ⟨?_, ?_, ?_, ?_⟩
  · simp only [Lookup, if_neg hq, if_true, hdec]
    rcases ExecuteRemotePullQuery st queryInfo with ⟨st1, r⟩
    cases r <;> simp
  · intro st1 e he
    simp only [Lookup, if_neg hq, if_true, hdec, he]
  · intro st1 rows he
    simp only [Lookup, if_neg hq, if_true, hdec, he]
  · simp only [Lookup, if_true]

theorem lookup_reply_witness :
    (Lookup (fun b : Bytes => some b) demoRemoteQuery (fun r : Bytes => r) 0
        (shardStateMachineLookupQuery :: [7])).2 ≠ .failure ∧
    (∀ st1 e, demoRemoteQuery 0 [7] = (st1, .error e) →
      Lookup (fun b : Bytes => some b) demoRemoteQuery (fun r : Bytes => r) 0
          (shardStateMachineLookupQuery :: [7]) = (st1, .reply (some (0 :: e)))) ∧
    (∀ st1 rows, demoRemoteQuery 0 [7] = (st1, .rows rows) →
      Lookup (fun b : Bytes => some b) demoRemoteQuery (fun r : Bytes => r) 0
          (shardStateMachineLookupQuery :: [7])
        = (st1, .reply (some (1 :: (fun r : Bytes => r) rows)))) ∧
    Lookup (fun b : Bytes => some b) demoRemoteQuery (fun r : Bytes => r) 0
        (shardStateMachineLookupPing :: [7]) = (0, .reply none) :=
  lookup_reply (fun b : Bytes => some b) demoRemoteQuery (fun r : Bytes => r) 0 [7] [7] rfl
theorem dupSeq_eq (b i : Nat) (hb : b < 2 ^ 32) (hi : i < 2 ^ 32) :
    dupSeq b i = b * 2 ^ 32 + i := by
  unfold dupSeq
  have h1 : b * 2 ^ 32 < 2 ^ 64 := by omega
  rw [Nat.mod_eq_of_lt hb, Nat.shiftLeft_eq, Nat.mod_eq_of_lt h1,
    Nat.mod_eq_of_lt (by omega : i < 2 ^ 64), Nat.mul_comm, ← Nat.mul_add_lt_is_or hi]

/-- C15: for a `u32` batch sequence `b` and a holder index `i` below 2^32 the dedup
sequence of the partial aggregator is `b * 2^32 + i`; on such pairs it is strictly
increasing in the lexicographic order of `(b, i)` and injective. -/
theorem dupSeq_lexicographic (b i b2 i2 : Nat) (hb : b < 2 ^ 32) (hi : i < 2 ^ 32)
    (hb2 : b2 < 2 ^ 32) (hi2 : i2 < 2 ^ 32) :
    dupSeq b i = b * 2 ^ 32 + i ∧
    (pairLt (b, i) (b2, i2) → dupSeq b i < dupSeq b2 i2) ∧
    (dupSeq b i = dupSeq b2 i2 → b = b2 ∧ i = i2) := by
  rw [dupSeq_eq b i hb hi, dupSeq_eq b2 i2 hb2 hi2]
  refine ⟨rfl, ?_, ?_⟩
  · intro h
    rcases h with h | ⟨h1, h2⟩
    · simp only [] at h
      omega
    · simp only [] at h1 h2
      omega
  · intro h
    omega

theorem dupSeq_lexicographic_witness :
    dupSeq 3 7 = 3 * 2 ^ 32 + 7 ∧
    (pairLt (3, 7) (4, 0) → dupSeq 3 7 < dupSeq 4 0) ∧
    (dupSeq 3 7 = dupSeq 4 0 → 3 = 4 ∧ 7 = 0) :=
  dupSeq_lexicographic 3 7 4 0 (by decide) (by decide) (by decide) (by decide)

/-! ## The pull engine -/

theorem mapLoad_mapDelete_self {α : Type} (key : Str) (m : List (Str × α)) :
    mapLoad key (mapDelete key m) = none := by
  induction m with
  | nil => rfl
  | cons e rest ih =>
    obtain ⟨k, v⟩ := e
    unfold mapDelete at ih ⊢
    by_cases hk : k = key
    · rw [List.filter_cons_of_neg (by simp [hk])]
      exact ih
    · rw [List.filter_cons_of_pos (by simp [hk])]
      simp only [mapLoad, if_neg hk]
      exact ih

theorem mapLoad_mapStore_self {α : Type} (key : Str) (v : α) (m : List (Str × α)) :
    mapLoad key (mapStore key v m) = some v := by
  simp [mapStore, mapLoad]

theorem getRows_rows (s : ExecutionContext) (rest : List Nat) (limit : Nat)
    (hcq : s.CurrentQuery = some ⟨rest, false⟩) :
    getRowsFromCurrentQuery s limit
      = if rest.length < limit then ({ s with CurrentQuery := none }, .rows rest)
        else ({ s with CurrentQuery := some ⟨rest.drop limit, false⟩ }, .rows (rest.take limit)) := by
  unfold getRowsFromCurrentQuery
  rw [hcq]
  simp only [PullExecutor.GetRows, Bool.false_eq_true, if_false, List.length_take]
  by_cases h : rest.length < limit
  · rw [if_pos (by omega), if_pos h, List.take_of_length_le (by omega)]
  · rw [if_neg (by omega), if_neg h]

/-- A call for a query that is not in the cache and whose remote DAG yields `rows`. -/
theorem ExecuteRemotePullQuery_new (b : QueryExecutionInfo → Option PullExecutor) (p : Engine)
    (qi : QueryExecutionInfo) (rows : List Nat)
    (hgate : qi.SystemQuery = true ∨ p.available = true) (hid : qi.ExecutionID ≠ [])
    (hload : mapLoad qi.ExecutionID p.queryExecCtxCache = none)
    (hdag : b qi = some ⟨rows, false⟩) :
    ExecuteRemotePullQuery b p qi
      = if rows.length < qi.Limit then
          ({ p with queryExecCtxCache := mapDelete qi.ExecutionID p.queryExecCtxCache }, .rows rows)
        else
          ({ p with queryExecCtxCache := (mapStore qi.ExecutionID
              ⟨qi.ExecutionID, qi, some ⟨rows.drop qi.Limit, false⟩⟩ p.queryExecCtxCache) },
            .rows (rows.take qi.Limit)) := by
  have hg : ¬ (qi.SystemQuery = false ∧ p.available = false) := by
    rintro ⟨h1, h2⟩
    rcases hgate with h | h
    · rw [h] at h1; exact Bool.noConfusion h1
    · rw [h] at h2; exact Bool.noConfusion h2
  unfold ExecuteRemotePullQuery
  rw [if_neg hg, if_neg hid, hload]
  simp only [hdag]
  unfold fetchAndCache
  rw [getRows_rows _ rows qi.Limit rfl]
  by_cases h : rows.length < qi.Limit
  · simp [h, seenByCache]
  · simp [h, seenByCache]

/-- A call for a query whose context is in the cache with `rest` still to deliver. -/
theorem ExecuteRemotePullQuery_cached (b : QueryExecutionInfo → Option PullExecutor)
    (p : Engine) (qi : QueryExecutionInfo) (s : ExecutionContext) (rest : List Nat)
    (hgate : qi.SystemQuery = true ∨ p.available = true) (hid : qi.ExecutionID ≠ [])
    (hload : mapLoad qi.ExecutionID p.queryExecCtxCache = some s)
    (hq : s.QueryInfo.Query = qi.Query) (hcq : s.CurrentQuery = some ⟨rest, false⟩) :
    ExecuteRemotePullQuery b p qi
      = if rest.length < qi.Limit then
          ({ p with queryExecCtxCache := (mapDelete qi.ExecutionID
              (mapStore qi.ExecutionID { s with CurrentQuery := none } p.queryExecCtxCache)) },
            .rows rest)
        else
          ({ p with queryExecCtxCache := (mapStore qi.ExecutionID
              { s with CurrentQuery := some ⟨rest.drop qi.Limit, false⟩ } p.queryExecCtxCache) },
            .rows (rest.take qi.Limit)) := by
  have hg : ¬ (qi.SystemQuery = false ∧ p.available = false) := by
    rintro ⟨h1, h2⟩
    rcases hgate with h | h
    · rw [h] at h1; exact Bool.noConfusion h1
    · rw [h] at h2; exact Bool.noConfusion h2
  unfold ExecuteRemotePullQuery
  rw [if_neg hg, if_neg hid, hload]
  simp only [hq, ne_eq, not_true_eq_false, if_false]
  unfold fetchAndCache
  rw [getRows_rows _ rest qi.Limit hcq]
  by_cases h : rest.length < qi.Limit
  · simp [h, seenByCache]
  · simp [h, seenByCache]

/-- The pages of a query whose context is in the cache. -/
theorem remotePages_cached (b : QueryExecutionInfo → Option PullExecutor)
    (qi : QueryExecutionInfo) (hid : qi.ExecutionID ≠ []) (hL : 1 ≤ qi.Limit) :
    ∀ (fuel : Nat) (rest : List Nat) (p : Engine) (s : ExecutionContext),
      (qi.SystemQuery = true ∨ p.available = true) →
      mapLoad qi.ExecutionID p.queryExecCtxCache = some s →
      s.QueryInfo.Query = qi.Query → s.CurrentQuery = some ⟨rest, false⟩ →
      rest.length / qi.Limit < fuel →
      (remotePages b qi fuel p).map (fun x => (x.1.length, x.2))
          = List.replicate (rest.length / qi.Limit) (qi.Limit, true) ++
              [(rest.length % qi.Limit, false)] ∧
      ((remotePages b qi fuel p).map (fun x => x.1)).flatten = rest := by
  intro fuel
  induction fuel with
  | zero => intro rest p s _ _ _ _ hf; exact absurd hf (Nat.not_lt_zero _)
  | succ fuel ih =>
    intro rest p s hgate hload hq hcq hf
    simp only [remotePages]
    rw [ExecuteRemotePullQuery_cached b p qi s rest hgate hid hload hq hcq]
    by_cases h : rest.length < qi.Limit
    · rw [if_pos h]
      simp only [if_pos h, List.map_cons, List.map_nil, List.flatten_cons, List.flatten_nil,
        List.append_nil, mapLoad_mapDelete_self, Option.isSome_none]
      rw [Nat.div_eq_of_lt h, Nat.mod_eq_of_lt h]
      refine ⟨?_, ?_⟩ <;> first | rfl | trivial
    · rw [if_neg h]
      have hlen : (rest.take qi.Limit).length = qi.Limit := by
        rw [List.length_take]; omega
      simp only [hlen, Nat.lt_irrefl, if_false, List.map_cons, List.flatten_cons,
        mapLoad_mapStore_self, Option.isSome_some]
      have hsplit : rest.length = qi.Limit + (rest.drop qi.Limit).length := by
        rw [List.length_drop]; omega
      have hdiv : rest.length / qi.Limit = (rest.drop qi.Limit).length / qi.Limit + 1 := by
        rw [hsplit, Nat.add_div_left _ (by omega)]
      have hmod : rest.length % qi.Limit = (rest.drop qi.Limit).length % qi.Limit := by
        conv_lhs => rw [hsplit]
        exact Nat.add_mod_left _ _
      obtain ⟨i1, i2⟩ := ih (rest.drop qi.Limit)
        { p with queryExecCtxCache := (mapStore qi.ExecutionID
            { s with CurrentQuery := some ⟨rest.drop qi.Limit, false⟩ } p.queryExecCtxCache) }
        { s with CurrentQuery := some ⟨rest.drop qi.Limit, false⟩ } hgate
        (mapLoad_mapStore_self _ _ _) hq rfl (by omega)
      rw [i1, i2, hdiv, hmod, List.replicate_succ, List.take_append_drop]
      exact ⟨rfl, rfl⟩

theorem fetchAndCache_not_gate (p : Engine) (qi : QueryExecutionInfo) (s : ExecutionContext)
    (newExecution : Bool) : (fetchAndCache p qi s newExecution).2 ≠ .error .notAvailable := by
  unfold fetchAndCache getRowsFromCurrentQuery
  cases newExecution <;> cases s.CurrentQuery with
  | none => simp
  | some cq =>
    simp only []
    cases cq.GetRows qi.Limit with
    | none => simp
    | some r =>
      obtain ⟨rows, cq1⟩ := r
      simp only []
      split_ifs <;> simp
theorem strIndex_take (c : Char) (k : Str) (i : Nat) (h : strIndex c k = some i) :
    k.take i = k.takeWhile (fun x => decide (x ≠ c)) := by
  induction k generalizing i with
  | nil => simp [strIndex] at h
  | cons x rest ih =>
    simp only [strIndex] at h
    by_cases hx : x = c
    · rw [if_pos hx] at h
      simp only [Option.some.injEq] at h
      subst h
      simp [List.takeWhile, hx]
    · rw [if_neg hx] at h
      cases hr : strIndex c rest with
      | none => rw [hr] at h; simp at h
      | some j =>
        rw [hr] at h
        simp only [Option.map_some', Option.some.injEq] at h
        subst h
        simp [List.takeWhile, hx, ih j hr]

theorem strIndex_of_mem (c : Char) (k : Str) (h : c ∈ k) : ∃ i, strIndex c k = some i := by
  induction k with
  | nil => simp at h
  | cons x rest ih =>
    simp only [strIndex]
    by_cases hx : x = c
    · exact ⟨0, by rw [if_pos hx]⟩
    · rw [if_neg hx]
      rcases List.mem_cons.mp h with h | h
      · exact absurd h.symm hx
      · obtain ⟨j, hj⟩ := ih h
        exact ⟨j + 1, by rw [hj]; rfl⟩

theorem idsOfNode_eq (sNodeID : Str) (cache : List (Str × ExecutionContext))
    (h : ∀ e ∈ cache, '-' ∈ e.1) :
    idsOfNode sNodeID cache
      = some ((cache.filter (fun e => decide (nodePart e.1 = sNodeID))).map (fun e => e.1)) := by
  induction cache with
  | nil => rfl
  | cons e rest ih =>
    obtain ⟨k, v⟩ := e
    obtain ⟨i, hi⟩ := strIndex_of_mem '-' k (h (k, v) (List.mem_cons_self _ _))
    simp only [idsOfNode, hi, ih (fun e he => h e (List.mem_cons_of_mem _ he))]
    rw [strIndex_take '-' k i hi]
    by_cases hn : nodePart k = sNodeID
    · have hn2 : k.takeWhile (fun x => decide (x ≠ '-')) = sNodeID := hn
      rw [if_pos hn2, List.filter_cons_of_pos (by simpa using hn)]
      rfl
    · have hn2 : ¬ k.takeWhile (fun x => decide (x ≠ '-')) = sNodeID := hn
      rw [if_neg hn2, List.filter_cons_of_neg (by simpa using hn)]

theorem foldl_mapDelete (ids : List Str) :
    ∀ cache : List (Str × ExecutionContext),
      ids.foldl (fun cache ctxID => mapDelete ctxID cache) cache
        = cache.filter (fun e => decide (e.1 ∉ ids)) := by
  induction ids with
  | nil => intro cache; simp
  | cons id rest ih =>
    intro cache
    rw [List.foldl_cons, ih, mapDelete, List.filter_filter]
    refine List.filter_congr (fun e _ => ?_)
    by_cases h1 : e.1 = id <;> by_cases h2 : e.1 ∈ rest <;> simp [h1, h2]

theorem demoRows_length (n : Nat) : (demoRows n).length = n := List.length_range n

/-- C16, as stated, fails: after `SetAvailable`, a `Stop` of an engine that was never
started returns at once and leaves the engine available, so no `SetAvailable` has
happened since the last `Stop` and still a query that is not a system query is served. -/
theorem stop_unstarted_keeps_available :
    ((NewPullEngine 1).SetAvailable.Stop).available = true ∧
    (ExecuteRemotePullQuery (demoDag 25) ((NewPullEngine 1).SetAvailable.Stop)
      (demoQuery 10 false)).2 = .rows (demoRows 10) := by
  decide

/-- C16, amended: on an engine whose `available` flag is not set, `ExecuteRemotePullQuery`
returns the not-available error for every query that is not a system query and leaves the
engine, its cache included, as it is; a system query is never answered with the
not-available error.  The flag is not set after construction and after a `Stop` of a
started engine, `Start` does not change it, and a `Stop` of an engine that is not started
changes nothing. -/
theorem availability_gate (b : QueryExecutionInfo → Option PullExecutor) (p : Engine)
    (qi : QueryExecutionInfo) (nodeID : Int) (hav : p.available = false) :
    (qi.SystemQuery = false → ExecuteRemotePullQuery b p qi = (p, .error .notAvailable)) ∧
    (qi.SystemQuery = true → (ExecuteRemotePullQuery b p qi).2 ≠ .error .notAvailable) ∧
    (NewPullEngine nodeID).available = false ∧
    (∀ p1 : Engine, p1.started = true → p1.Stop.available = false) ∧
    (∀ p1 : Engine, p1.started = false → p1.Stop = p1) ∧
    (∀ p1 : Engine, p1.Start.available = p1.available) := by
  refine ⟨fun hs => ?_, fun hs => ?_, rfl, fun p1 h1 => ?_, fun p1 h1 => ?_, fun p1 => ?_⟩
  · unfold ExecuteRemotePullQuery
    rw [if_pos ⟨hs, hav⟩]
  · unfold ExecuteRemotePullQuery
    rw [if_neg (by simp [hs])]
    by_cases hid : qi.ExecutionID = []
    · rw [if_pos hid]; simp
    · rw [if_neg hid]
      cases mapLoad qi.ExecutionID p.queryExecCtxCache with
      | none =>
        simp only []
        cases b qi with
        | none => simp
        | some dag => exact fetchAndCache_not_gate _ _ _ _
      | some s =>
        simp only []
        split_ifs
        · simp
        · exact fetchAndCache_not_gate _ _ _ _
  · simp [Engine.Stop, h1]
  · simp [Engine.Stop, h1]
  · unfold Engine.Start
    split_ifs <;> rfl

theorem availability_gate_witness :
    ((demoQuery 10 false).SystemQuery = false →
      ExecuteRemotePullQuery (demoDag 25) (NewPullEngine 1) (demoQuery 10 false)
        = (NewPullEngine 1, .error .notAvailable)) ∧
    ((demoQuery 10 false).SystemQuery = true →
      (ExecuteRemotePullQuery (demoDag 25) (NewPullEngine 1) (demoQuery 10 false)).2
        ≠ .error .notAvailable) ∧
    (NewPullEngine 1).available = false ∧
    (∀ p1 : Engine, p1.started = true → p1.Stop.available = false) ∧
    (∀ p1 : Engine, p1.started = false → p1.Stop = p1) ∧
    (∀ p1 : Engine, p1.Start.available = p1.available) :=
  availability_gate (demoDag 25) (NewPullEngine 1) (demoQuery 10 false) 1 rfl

/-- C17: a remote query whose remote DAG yields `N` rows, asked for page by page with the
same query info and a page limit `L ≥ 1`, returns `N / L` pages of exactly `L` rows, after
each of which the cache holds an entry for the execution id, and then one last page with
`N mod L < L` rows, after which the cache holds no entry for the id; the pages are the
rows of the DAG in order.  `N / L + 1` calls are enough. -/
theorem remote_query_pagination (b : QueryExecutionInfo → Option PullExecutor) (p : Engine)
    (qi : QueryExecutionInfo) (rows : List Nat) (fuel : Nat)
    (hgate : qi.SystemQuery = true ∨ p.available = true) (hid : qi.ExecutionID ≠ [])
    (hL : 1 ≤ qi.Limit) (hload : mapLoad qi.ExecutionID p.queryExecCtxCache = none)
    (hdag : b qi = some ⟨rows, false⟩) (hfuel : rows.length / qi.Limit < fuel) :
    (remotePages b qi fuel p).map (fun x => (x.1.length, x.2))
        = List.replicate (rows.length / qi.Limit) (qi.Limit, true) ++
            [(rows.length % qi.Limit, false)] ∧
    ((remotePages b qi fuel p).map (fun x => x.1)).flatten = rows ∧
    rows.length % qi.Limit < qi.Limit := by
  rw [← and_assoc]
  refine ⟨?_, Nat.mod_lt _ hL⟩
  cases fuel with
  | zero => exact absurd hfuel (Nat.not_lt_zero _)
  | succ fuel =>
    simp only [remotePages]
    rw [ExecuteRemotePullQuery_new b p qi rows hgate hid hload hdag]
    by_cases h : rows.length < qi.Limit
    · rw [if_pos h]
      simp only [if_pos h, List.map_cons, List.map_nil, List.flatten_cons, List.flatten_nil,
        List.append_nil, mapLoad_mapDelete_self, Option.isSome_none]
      rw [Nat.div_eq_of_lt h, Nat.mod_eq_of_lt h]
      refine ⟨?_, ?_⟩ <;> first | rfl | trivial
    · rw [if_neg h]
      have hlen : (rows.take qi.Limit).length = qi.Limit := by
        rw [List.length_take]; omega
      simp only [hlen, Nat.lt_irrefl, if_false, List.map_cons, List.flatten_cons,
        mapLoad_mapStore_self, Option.isSome_some]
      have hsplit : rows.length = qi.Limit + (rows.drop qi.Limit).length := by
        rw [List.length_drop]; omega
      have hdiv : rows.length / qi.Limit = (rows.drop qi.Limit).length / qi.Limit + 1 := by
        rw [hsplit, Nat.add_div_left _ (by omega)]
      have hmod : rows.length % qi.Limit = (rows.drop qi.Limit).length % qi.Limit := by
        conv_lhs => rw [hsplit]
        exact Nat.add_mod_left _ _
      have hfuel2 : (rows.drop qi.Limit).length / qi.Limit < fuel := by
        rw [hdiv] at hfuel
        exact Nat.lt_of_succ_lt_succ hfuel
      obtain ⟨i1, i2⟩ := remotePages_cached b qi hid hL fuel (rows.drop qi.Limit)
        { p with queryExecCtxCache := (mapStore qi.ExecutionID
            ⟨qi.ExecutionID, qi, some ⟨rows.drop qi.Limit, false⟩⟩ p.queryExecCtxCache) }
        ⟨qi.ExecutionID, qi, some ⟨rows.drop qi.Limit, false⟩⟩ hgate
        (mapLoad_mapStore_self _ _ _) rfl rfl hfuel2
      rw [i1, i2, hdiv, hmod, List.replicate_succ, List.take_append_drop]
      exact ⟨rfl, rfl⟩

theorem remote_query_pagination_witness :
    (remotePages (demoDag 2500) (demoQuery 1000 false) 3 (NewPullEngine 1).SetAvailable).map
        (fun x => (x.1.length, x.2))
      = [(1000, true), (1000, true), (500, false)] := by
  have h := (remote_query_pagination (demoDag 2500) (NewPullEngine 1).SetAvailable
    (demoQuery 1000 false) (demoRows 2500) 3 (Or.inr rfl) (by decide) (by decide) rfl rfl
    (by rw [demoRows_length]; decide)).1
  rw [demoRows_length] at h
  exact h

/-- C18: when every key of the execution-context cache contains a `-`, `NodeLeft(n)`
returns normally, removes exactly the entries whose text before the first `-` is the
decimal representation of `n`, and leaves all other entries and the rest of the engine as
they are. -/
theorem nodeLeft_removes_node (p : Engine) (n : Int)
    (hkeys : ∀ e ∈ p.queryExecCtxCache, '-' ∈ e.1) :
    p.NodeLeft n = some { p with queryExecCtxCache :=
      (p.queryExecCtxCache.filter (fun e => decide (nodePart e.1 ≠ fmtInt n))) } := by
  unfold Engine.NodeLeft clearExecCtxsForNode
  rw [idsOfNode_eq (fmtInt n) p.queryExecCtxCache hkeys]
  simp only [foldl_mapDelete]
  congr 2
  refine List.filter_congr (fun e he => ?_)
  by_cases hn : nodePart e.1 = fmtInt n
  · have hmem : e.1 ∈ (p.queryExecCtxCache.filter
        (fun e => decide (nodePart e.1 = fmtInt n))).map (fun e => e.1) :=
      List.mem_map.mpr ⟨e, List.mem_filter.mpr ⟨he, by simpa using hn⟩, rfl⟩
    simp [hn, hmem]
  · have hmem : e.1 ∉ (p.queryExecCtxCache.filter
        (fun e => decide (nodePart e.1 = fmtInt n))).map (fun e => e.1) := by
      intro hm
      obtain ⟨e2, he2, heq⟩ := List.mem_map.mp hm
      have := (List.mem_filter.mp he2).2
      simp only [decide_eq_true_eq] at this
      rw [heq] at this
      exact hn this
    simp [hn, hmem]

theorem nodeLeft_removes_node_witness :
    (⟨true, demoCache, 1, true⟩ : Engine).NodeLeft 5
      = some ⟨true, [(['1', '5', '-', 'c'], ⟨['1', '5', '-', 'c'], demoQuery 10 false, none⟩)],
          1, true⟩ := by
  have h := nodeLeft_removes_node ⟨true, demoCache, 1, true⟩ 5 (by decide)
  rw [h]
  decide

/-! ## The SQL streaming endpoint -/

theorem transcodeRows_length (rd : RowReader) (types : List ColumnType) :
    ∀ (rows : List Nat) (prows : List (List ColValue)),
      transcodeRows rd types rows = .ok prows → prows.length = rows.length := by
  intro rows
  induction rows with
  | nil =>
    intro prows h
    simp only [transcodeRows, Except.ok.injEq] at h
    rw [← h]
    rfl
  | cons row rest ih =>
    intro prows h
    simp only [transcodeRows] at h
    cases h1 : transcodeRow rd row 0 types with
    | error o => rw [h1] at h; simp at h
    | ok vs =>
      rw [h1] at h
      simp only [] at h
      cases h2 : transcodeRows rd types rest with
      | error o => rw [h2] at h; simp at h
      | ok ps =>
        rw [h2] at h
        simp only [Except.ok.injEq] at h
        rw [← h, List.length_cons, List.length_cons, ih ps h2]

theorem transcodeRows_ok (rd : RowReader) (types : List ColumnType) (rows : List Nat)
    (h : ∀ row ∈ rows, ∃ vs, transcodeRow rd row 0 types = .ok vs) :
    ∃ prows, transcodeRows rd types rows = .ok prows := by
  induction rows with
  | nil => exact ⟨[], rfl⟩
  | cons row rest ih =>
    obtain ⟨vs, hvs⟩ := h row (List.mem_cons_self _ _)
    obtain ⟨ps, hps⟩ := ih (fun r hr => h r (List.mem_cons_of_mem _ hr))
    exact ⟨vs :: ps, by simp only [transcodeRows, hvs, hps]⟩

/-- The pages sent for the rows that are left, when nothing fails. -/
theorem sendPages_ok (rd : RowReader) (sendFails : Nat → Bool) (types : List ColumnType)
    (pageSize : Nat) (hsend : ∀ n, sendFails n = false) (hP : 1 ≤ pageSize) :
    ∀ (fuel : Nat) (rest : List Nat) (sent : List Response),
      (∀ row ∈ rest, ∃ vs, transcodeRow rd row 0 types = .ok vs) →
      rest.length / pageSize < fuel →
      (sendPages rd sendFails types pageSize fuel ⟨rest, false⟩ sent).outcome = some .ok ∧
      ∃ pages, (sendPages rd sendFails types pageSize fuel ⟨rest, false⟩ sent).sent = sent ++ pages ∧
        pages.map pageShape
          = List.replicate (rest.length / pageSize) (some (pageSize, pageSize)) ++
              [some (rest.length % pageSize, rest.length % pageSize)] := by
  intro fuel
  induction fuel with
  | zero => intro rest sent _ hf; exact absurd hf (Nat.not_lt_zero _)
  | succ fuel ih =>
    intro rest sent hrows hf
    obtain ⟨prows, hpr⟩ := transcodeRows_ok rd types (rest.take pageSize)
      (fun r hr => hrows r (List.mem_of_mem_take hr))
    have hplen := transcodeRows_length rd types _ _ hpr
    simp only [sendPages, PullExecutor.GetRows, Bool.false_eq_true, if_false, hpr, hsend,
      List.length_take]
    by_cases h : rest.length < pageSize
    · have hmin : min pageSize rest.length = rest.length := by omega
      rw [hmin, if_pos h]
      refine ⟨rfl, [.page rest.length prows], rfl, ?_⟩
      rw [Nat.div_eq_of_lt h, Nat.mod_eq_of_lt h]
      simp only [List.map_cons, List.map_nil, pageShape, hplen, List.length_take, hmin,
        List.replicate_zero, List.nil_append]
    · have hmin : min pageSize rest.length = pageSize := by omega
      rw [hmin, if_neg (Nat.lt_irrefl _)]
      have hsplit : rest.length = pageSize + (rest.drop pageSize).length := by
        rw [List.length_drop]; omega
      have hdiv : rest.length / pageSize = (rest.drop pageSize).length / pageSize + 1 := by
        rw [hsplit, Nat.add_div_left _ (by omega)]
      have hmod : rest.length % pageSize = (rest.drop pageSize).length % pageSize := by
        conv_lhs => rw [hsplit]
        exact Nat.add_mod_left _ _
      have hf2 : (rest.drop pageSize).length / pageSize < fuel := by
        rw [hdiv] at hf
        exact Nat.lt_of_succ_lt_succ hf
      obtain ⟨i1, pages, i2, i3⟩ := ih (rest.drop pageSize) (sent ++ [.page pageSize prows])
        (fun r hr => hrows r (List.mem_of_mem_drop hr)) hf2
      refine ⟨i1, .page pageSize prows :: pages, ?_, ?_⟩
      · rw [i2, List.append_assoc]
        rfl
      · rw [List.map_cons, i3, hdiv, hmod, List.replicate_succ]
        simp only [pageShape, hplen, List.length_take, hmin, List.cons_append]

/-- C19: when the statement was executed, its executor yields `N` rows, every row can be
transcoded and no `Send` fails, `ExecuteSQLStatement` with page size `P ≥ 1` returns
normally after sending one `Columns` message, then `N / P` pages of exactly `P` rows and
then one last page with `N mod P` rows, and nothing else; the `Count` of every page is
the number of its rows.  `N / P + 1` rounds of the loop are enough. -/
theorem sql_statement_pages (rd : RowReader) (sendFails : Nat → Bool) (errorSequence : Int)
    (executor : SQLExecutor) (rows : List Nat) (pageSize fuel : Nat)
    (hdag : executor.dag = ⟨rows, false⟩)
    (hnames : executor.ColTypes.length ≤ executor.ColNames.length)
    (hrows : ∀ row ∈ rows, ∃ vs, transcodeRow rd row 0 executor.ColTypes = .ok vs)
    (hsend : ∀ n, sendFails n = false) (hP : 1 ≤ pageSize)
    (hfuel : rows.length / pageSize < fuel) :
    (ExecuteSQLStatement rd sendFails errorSequence (.executor executor) pageSize fuel).2.outcome
      = some .ok ∧
    ∃ cols pages,
      (ExecuteSQLStatement rd sendFails errorSequence (.executor executor) pageSize fuel).2.sent
        = .columns cols :: pages ∧
      pages.map pageShape
        = List.replicate (rows.length / pageSize) (some (pageSize, pageSize)) ++
            [some (rows.length % pageSize, rows.length % pageSize)] := by
  have hcols : ∀ (names : List Str) (types : List ColumnType), types.length ≤ names.length →
      ∃ cols, buildColumns names types = some cols := by
    intro names types
    induction types generalizing names with
    | nil => intro _; exact ⟨[], by cases names <;> rfl⟩
    | cons t ts ih =>
      intro hl
      cases names with
      | nil => simp at hl
      | cons n ns =>
        obtain ⟨cs, hcs⟩ := ih ns (by simpa using hl)
        simp only [buildColumns, hcs]
        exact ⟨_, rfl⟩
  obtain ⟨cols, hc⟩ := hcols _ _ hnames
  obtain ⟨h1, pages, h2, h3⟩ := sendPages_ok rd sendFails executor.ColTypes pageSize hsend hP
    fuel rows [.columns cols] hrows hfuel
  simp only [ExecuteSQLStatement, hc, hsend, Bool.false_eq_true, if_false, hdag]
  exact ⟨h1, cols, pages, by rw [h2]; rfl, h3⟩

theorem sql_statement_pages_witness :
    (ExecuteSQLStatement demoReader (fun _ => false) 0 (.executor (demoExecutor 5)) 2 3).2.outcome
      = some .ok ∧
    ∃ cols pages,
      (ExecuteSQLStatement demoReader (fun _ => false) 0 (.executor (demoExecutor 5)) 2 3).2.sent
        = .columns cols :: pages ∧
      pages.map pageShape
        = List.replicate ((demoRows 5).length / 2) (some (2, 2)) ++
            [some ((demoRows 5).length % 2, (demoRows 5).length % 2)] :=
  sql_statement_pages demoReader (fun _ => false) 0 (demoExecutor 5) (demoRows 5) 2 3 rfl
    (by decide) (fun row _ => ⟨[.intValue row], rfl⟩) (fun _ => rfl) (by decide) (by decide)

/-! ## The create-source command -/

/-- The first loop of `getSourceInfo` appends one column type for each option that is a
column definition. -/
theorem readOptions_colTypes_length (opts : List TableOption) :
    ∀ (i : Nat) (st o : OptionsState), readOptions i st opts = .ok o →
      o.colTypes.length
        = st.colTypes.length + (opts.filter (fun x => x.Column.isSome)).length := by
  induction opts with
  | nil =>
    intro i st o h
    simp only [readOptions, Except.ok.injEq] at h
    subst h
    simp
  | cons x rest ih =>
    intro i st o h
    cases hc : x.Column with
    | some col =>
      cases ht : col.ToColumnType with
      | none => simp [readOptions, hc, ht] at h
      | some colType =>
        simp only [readOptions, hc, ht] at h
        have := ih _ _ _ h
        simp only [List.length_append, List.length_singleton] at this
        rw [this, List.filter_cons_of_pos (by simp [hc])]
        simp only [List.length_cons]
        omega
    | none =>
      simp only [readOptions, hc] at h
      by_cases hp : 0 < x.PrimaryKey.length
      · rw [if_pos hp] at h
        cases hr : resolvePrimaryKey st.colIndex st.pkCols x.PrimaryKey with
        | none => simp [hr] at h
        | some pk =>
          simp only [hr] at h
          have := ih _ _ _ h
          rw [this, List.filter_cons_of_neg (by simp [hc])]
      · rw [if_neg hp] at h
        simp at h

/-- C20: when the columns of a create-source statement are valid (the first loop of
`getSourceInfo` ends without an error) and the statement supplies header, key and value
encodings, a broker name and a topic name (the second loop ends without an error and none
of the five is left at its unknown or empty value), `getSourceInfo` fails with the
WrongNumberColumnSelectors error exactly when the number of column selectors is not zero
and differs from the number of columns that the statement defines. -/
theorem wrong_number_column_selectors (env : EncodingEnv) (ToSelector : Str → Str)
    (schemaName : Str) (tableSequences : List Nat) (ast : CreateSource)
    (o : OptionsState) (t : TopicState)
    (hcols : readOptions 0 ⟨[], [], [], []⟩ ast.Options = .ok o)
    (htopic : readTopicInformation env ToSelector
      ⟨⟨0, []⟩, ⟨0, []⟩, ⟨0, []⟩, none, [], [], []⟩ ast.TopicInformation = .ok t)
    (hheader : t.headerEncoding ≠ env.KafkaEncodingUnknown)
    (hkey : t.keyEncoding ≠ env.KafkaEncodingUnknown)
    (hvalue : t.valueEncoding ≠ env.KafkaEncodingUnknown)
    (hbroker : t.brokerName ≠ [])
    (hname : t.topicName ≠ []) :
    getSourceInfo env ToSelector schemaName tableSequences ast
        = .error .wrongNumberColumnSelectors
      ↔ (0 < t.colSelectors.length
          ∧ t.colSelectors.length
              ≠ (ast.Options.filter (fun x => x.Column.isSome)).length) := by
  have hlen := readOptions_colTypes_length ast.Options 0 _ o hcols
  simp only [List.length_nil, Nat.zero_add] at hlen
  simp only [getSourceInfo, hcols, htopic, checkAndBuild, if_neg hheader, if_neg hkey,
    if_neg hvalue, if_neg hbroker, if_neg hname, hlen]
  by_cases hw : 0 < t.colSelectors.length
      ∧ t.colSelectors.length ≠ (ast.Options.filter (fun x => x.Column.isSome)).length
  · rw [if_pos hw]
    exact ⟨fun _ => hw, fun _ => rfl⟩
  · rw [if_neg hw]
    constructor
    · intro h
      cases tableSequences with
      | nil => simp at h
      | cons id rest => simp at h
    · intro h
      exact absurd h hw

/-- The statement of the examples with one column selector for two columns is refused
with the WrongNumberColumnSelectors error. -/
theorem wrong_number_column_selectors_witness :
    getSourceInfo demoEncodings id ['x'] [100] (demoCreateSource [['v']])
        = .error .wrongNumberColumnSelectors
      ↔ (0 < [['v']].length
          ∧ [['v']].length
              ≠ ((demoCreateSource [['v']]).Options.filter (fun x => x.Column.isSome)).length) :=
  wrong_number_column_selectors demoEncodings id ['x'] [100] (demoCreateSource [['v']])
    ⟨[['a'], ['b']], [⟨.bigInt, 0, 0⟩, ⟨.varchar, 0, 0⟩], [(['b'], 1), (['a'], 0)], [0]⟩
    ⟨⟨1, []⟩, ⟨1, []⟩, ⟨1, []⟩, none, [['v']], ['k'], ['t']⟩
    rfl rfl (by decide) (by decide) (by decide) (by decide) (by decide)

/-! ## Reading back a serialized write batch -/

theorem slice_at (pre k rest : Bytes) :
    ((pre ++ (k ++ rest)).drop pre.length).take k.length = k := by
  rw [List.drop_left]
  exact List.take_left _ _

theorem ReadUint32FromBufferLE_at (pre rest : Bytes) (n : Nat) (hn : n < 2 ^ 32) :
    ReadUint32FromBufferLE (pre ++ (leBytes 4 n ++ rest)) pre.length
      = some (n, pre.length + 4) := by
  have h4 : (leBytes 4 n).length = 4 := leBytes_length 4 n
  have hs := slice_at pre (leBytes 4 n) rest
  rw [h4] at hs
  have hle : pre.length + 4 ≤ (pre ++ (leBytes 4 n ++ rest)).length := by
    simp only [List.length_append, h4]
    omega
  unfold ReadUint32FromBufferLE
  rw [if_pos hle, hs, leVal_leBytes]
  have : n % 256 ^ 4 = n := Nat.mod_eq_of_lt (by norm_num at hn ⊢; exact hn)
  rw [this]

/-- The first loop of `deserializeWriteBatch` reads back the encoded puts, wherever they
start in the buffer. -/
theorem readPuts_specEncodePuts (s : ShardOnDiskStateMachine) (puts : List KVPair) :
    ∀ (pre rest : Bytes),
      (∀ p ∈ puts, p.Key.length < 2 ^ 32 ∧ p.Value.length < 2 ^ 32) →
      readPuts s (pre ++ (specEncodePuts puts ++ rest)) false puts.length pre.length
        = some (puts, pre.length + (specEncodePuts puts).length) := by
  induction puts with
  | nil =>
    intro pre rest _
    simp [readPuts, specEncodePuts]
  | cons p ps ih =>
    intro pre rest hlen
    obtain ⟨hk, hv⟩ := hlen p (List.mem_cons_self _ _)
    have hps : ∀ q ∈ ps, q.Key.length < 2 ^ 32 ∧ q.Value.length < 2 ^ 32 :=
      fun q hq => hlen q (List.mem_cons_of_mem _ hq)
    have h4k : (leBytes 4 p.Key.length).length = 4 := leBytes_length 4 _
    have h4v : (leBytes 4 p.Value.length).length = 4 := leBytes_length 4 _
    -- the buffer, cut at each of the positions that the loop body visits
    have e1 : pre ++ (specEncodePuts (p :: ps) ++ rest)
        = pre ++ (leBytes 4 p.Key.length
            ++ (p.Key ++ (leBytes 4 p.Value.length ++ (p.Value ++ (specEncodePuts ps ++ rest))))) := by
      simp only [specEncodePuts, List.append_assoc]
    have e2 : pre ++ (specEncodePuts (p :: ps) ++ rest)
        = (pre ++ leBytes 4 p.Key.length)
            ++ (p.Key ++ (leBytes 4 p.Value.length ++ (p.Value ++ (specEncodePuts ps ++ rest)))) := by
      simp only [specEncodePuts, List.append_assoc]
    have e3 : pre ++ (specEncodePuts (p :: ps) ++ rest)
        = (pre ++ (leBytes 4 p.Key.length ++ p.Key))
            ++ (leBytes 4 p.Value.length ++ (p.Value ++ (specEncodePuts ps ++ rest))) := by
      simp only [specEncodePuts, List.append_assoc]
    have e4 : pre ++ (specEncodePuts (p :: ps) ++ rest)
        = (pre ++ (leBytes 4 p.Key.length ++ (p.Key ++ leBytes 4 p.Value.length)))
            ++ (p.Value ++ (specEncodePuts ps ++ rest)) := by
      simp only [specEncodePuts, List.append_assoc]
    have e5 : pre ++ (specEncodePuts (p :: ps) ++ rest)
        = (pre ++ (leBytes 4 p.Key.length ++ (p.Key ++ (leBytes 4 p.Value.length ++ p.Value))))
            ++ (specEncodePuts ps ++ rest) := by
      simp only [specEncodePuts, List.append_assoc]
    have l2 : (pre ++ leBytes 4 p.Key.length).length = pre.length + 4 := by
      simp only [List.length_append, h4k]
    have l3 : (pre ++ (leBytes 4 p.Key.length ++ p.Key)).length
        = pre.length + 4 + p.Key.length := by
      simp only [List.length_append, h4k]; omega
    have l4 : (pre ++ (leBytes 4 p.Key.length ++ (p.Key ++ leBytes 4 p.Value.length))).length
        = pre.length + 4 + p.Key.length + 4 := by
      simp only [List.length_append, h4k, h4v]; omega
    have l5 : (pre ++ (leBytes 4 p.Key.length
          ++ (p.Key ++ (leBytes 4 p.Value.length ++ p.Value)))).length
        = pre.length + 4 + p.Key.length + 4 + p.Value.length := by
      simp only [List.length_append, h4k, h4v]; omega
    have r1 : ReadUint32FromBufferLE (pre ++ (specEncodePuts (p :: ps) ++ rest)) pre.length
        = some (p.Key.length, pre.length + 4) := by
      rw [e1]; exact ReadUint32FromBufferLE_at _ _ _ hk
    have r2 : ReadUint32FromBufferLE (pre ++ (specEncodePuts (p :: ps) ++ rest))
          (pre.length + 4 + p.Key.length)
        = some (p.Value.length, pre.length + 4 + p.Key.length + 4) := by
      rw [e3, ← l3]; exact ReadUint32FromBufferLE_at _ _ _ hv
    have k1 : ((pre ++ (specEncodePuts (p :: ps) ++ rest)).drop (pre.length + 4)).take p.Key.length
        = p.Key := by
      rw [e2, ← l2]; exact slice_at _ _ _
    have v1 : ((pre ++ (specEncodePuts (p :: ps) ++ rest)).drop
          (pre.length + 4 + p.Key.length + 4)).take p.Value.length = p.Value := by
      rw [e4, ← l4]; exact slice_at _ _ _
    have b1 : ¬ (pre ++ (specEncodePuts (p :: ps) ++ rest)).length
        < pre.length + 4 + p.Key.length := by
      rw [e3, List.length_append, l3]; omega
    have b2 : ¬ (pre ++ (specEncodePuts (p :: ps) ++ rest)).length
        < pre.length + 4 + p.Key.length + 4 + p.Value.length := by
      rw [e5, List.length_append, l5]; omega
    have hrec : readPuts s (pre ++ (specEncodePuts (p :: ps) ++ rest)) false ps.length
          (pre.length + 4 + p.Key.length + 4 + p.Value.length)
        = some (ps, pre.length + 4 + p.Key.length + 4 + p.Value.length
            + (specEncodePuts ps).length) := by
      rw [e5, ← l5]; exact ih _ _ hps
    have hl : (specEncodePuts (p :: ps)).length
        = 4 + p.Key.length + 4 + p.Value.length + (specEncodePuts ps).length := by
      simp only [specEncodePuts, List.length_append, h4k, h4v]; omega
    simp only [List.length_cons, readPuts, r1, if_neg b1, r2, if_neg b2, hrec, k1, v1, hl]
    simp only [Bool.false_eq_true, if_false, Option.some.injEq, Prod.mk.injEq, true_and]
    omega

/-- The second loop of `deserializeWriteBatch` reads back the encoded delete keys,
wherever they start in the buffer. -/
theorem readDeletes_specEncodeDeletes (deletes : List Bytes) :
    ∀ (pre rest : Bytes), (∀ k ∈ deletes, k.length < 2 ^ 32) →
      readDeletes (pre ++ (specEncodeDeletes deletes ++ rest)) deletes.length pre.length
        = some deletes := by
  induction deletes with
  | nil =>
    intro pre rest _
    simp [readDeletes]
  | cons k ks ih =>
    intro pre rest hlen
    have hk := hlen k (List.mem_cons_self _ _)
    have hks : ∀ q ∈ ks, q.length < 2 ^ 32 := fun q hq => hlen q (List.mem_cons_of_mem _ hq)
    have h4k : (leBytes 4 k.length).length = 4 := leBytes_length 4 _
    have e1 : pre ++ (specEncodeDeletes (k :: ks) ++ rest)
        = pre ++ (leBytes 4 k.length ++ (k ++ (specEncodeDeletes ks ++ rest))) := by
      simp only [specEncodeDeletes, List.append_assoc]
    have e2 : pre ++ (specEncodeDeletes (k :: ks) ++ rest)
        = (pre ++ leBytes 4 k.length) ++ (k ++ (specEncodeDeletes ks ++ rest)) := by
      simp only [specEncodeDeletes, List.append_assoc]
    have e3 : pre ++ (specEncodeDeletes (k :: ks) ++ rest)
        = (pre ++ (leBytes 4 k.length ++ k)) ++ (specEncodeDeletes ks ++ rest) := by
      simp only [specEncodeDeletes, List.append_assoc]
    have l2 : (pre ++ leBytes 4 k.length).length = pre.length + 4 := by
      simp only [List.length_append, h4k]
    have l3 : (pre ++ (leBytes 4 k.length ++ k)).length = pre.length + 4 + k.length := by
      simp only [List.length_append, h4k]; omega
    have r1 : ReadUint32FromBufferLE (pre ++ (specEncodeDeletes (k :: ks) ++ rest)) pre.length
        = some (k.length, pre.length + 4) := by
      rw [e1]; exact ReadUint32FromBufferLE_at _ _ _ hk
    have k1 : ((pre ++ (specEncodeDeletes (k :: ks) ++ rest)).drop (pre.length + 4)).take k.length
        = k := by
      rw [e2, ← l2]; exact slice_at _ _ _
    have b1 : ¬ (pre ++ (specEncodeDeletes (k :: ks) ++ rest)).length
        < pre.length + 4 + k.length := by
      rw [e3, List.length_append, l3]; omega
    have hrec : readDeletes (pre ++ (specEncodeDeletes (k :: ks) ++ rest)) ks.length
          (pre.length + 4 + k.length) = some ks := by
      rw [e3, ← l3]; exact ih _ _ hks
    simp only [List.length_cons, readDeletes, r1, if_neg b1, hrec, k1]

/-- Reading back a write batch that follows a prefix `pre` of the command. -/
theorem deserializeWriteBatch_specEncode (s : ShardOnDiskStateMachine) (pre : Bytes)
    (puts : List KVPair) (deletes : List Bytes)
    (hnp : puts.length < 2 ^ 32) (hnd : deletes.length < 2 ^ 32)
    (hp : ∀ p ∈ puts, p.Key.length < 2 ^ 32 ∧ p.Value.length < 2 ^ 32)
    (hd : ∀ k ∈ deletes, k.length < 2 ^ 32) :
    deserializeWriteBatch s (pre ++ specEncodeWriteBatch puts deletes) pre.length false
      = some (puts, deletes) := by
  have h4p : (leBytes 4 puts.length).length = 4 := leBytes_length 4 _
  have h4d : (leBytes 4 deletes.length).length = 4 := leBytes_length 4 _
  have e2 : pre ++ specEncodeWriteBatch puts deletes
      = (pre ++ leBytes 4 puts.length)
          ++ (specEncodePuts puts ++ (leBytes 4 deletes.length ++ specEncodeDeletes deletes)) := by
    simp only [specEncodeWriteBatch, List.append_assoc]
  have e3 : pre ++ specEncodeWriteBatch puts deletes
      = (pre ++ (leBytes 4 puts.length ++ specEncodePuts puts))
          ++ (leBytes 4 deletes.length ++ (specEncodeDeletes deletes ++ [])) := by
    simp only [specEncodeWriteBatch, List.append_assoc, List.append_nil]
  have e4 : pre ++ specEncodeWriteBatch puts deletes
      = (pre ++ (leBytes 4 puts.length ++ (specEncodePuts puts ++ leBytes 4 deletes.length)))
          ++ (specEncodeDeletes deletes ++ []) := by
    simp only [specEncodeWriteBatch, List.append_assoc, List.append_nil]
  have l2 : (pre ++ leBytes 4 puts.length).length = pre.length + 4 := by
    simp only [List.length_append, h4p]
  have l3 : (pre ++ (leBytes 4 puts.length ++ specEncodePuts puts)).length
      = pre.length + 4 + (specEncodePuts puts).length := by
    simp only [List.length_append, h4p]; omega
  have l4 : (pre ++ (leBytes 4 puts.length
        ++ (specEncodePuts puts ++ leBytes 4 deletes.length))).length
      = pre.length + 4 + (specEncodePuts puts).length + 4 := by
    simp only [List.length_append, h4p, h4d]; omega
  have r1 : ReadUint32FromBufferLE (pre ++ specEncodeWriteBatch puts deletes) pre.length
      = some (puts.length, pre.length + 4) := by
    unfold specEncodeWriteBatch
    exact ReadUint32FromBufferLE_at _ _ _ hnp
  have r2 : readPuts s (pre ++ specEncodeWriteBatch puts deletes) false puts.length
        (pre.length + 4)
      = some (puts, pre.length + 4 + (specEncodePuts puts).length) := by
    rw [e2, ← l2]; exact readPuts_specEncodePuts s puts _ _ hp
  have r3 : ReadUint32FromBufferLE (pre ++ specEncodeWriteBatch puts deletes)
        (pre.length + 4 + (specEncodePuts puts).length)
      = some (deletes.length, pre.length + 4 + (specEncodePuts puts).length + 4) := by
    rw [e3, ← l3]; exact ReadUint32FromBufferLE_at _ _ _ hnd
  have r4 : readDeletes (pre ++ specEncodeWriteBatch puts deletes) deletes.length
        (pre.length + 4 + (specEncodePuts puts).length + 4) = some deletes := by
    rw [e4, ← l4]; exact readDeletes_specEncodeDeletes deletes _ _ hd
  simp only [deserializeWriteBatch, r1, r2, r3, r4]

/-- C13: for all puts and delete keys whose counts and byte lengths are below 2^32,
`deserializeWriteBatch` with `forward = false`, applied at offset 1 to a command byte
followed by the encoding `num_puts u32 LE; (klen u32 LE, k, vlen u32 LE, v)*;
num_deletes u32 LE; (klen u32 LE, k)*`, returns exactly those puts and those delete keys in
the same order. -/
theorem deserialize_serialize_roundtrip (s : ShardOnDiskStateMachine) (cmd : Nat)
    (puts : List KVPair) (deletes : List Bytes)
    (hnp : puts.length < 2 ^ 32) (hnd : deletes.length < 2 ^ 32)
    (hp : ∀ p ∈ puts, p.Key.length < 2 ^ 32 ∧ p.Value.length < 2 ^ 32)
    (hd : ∀ k ∈ deletes, k.length < 2 ^ 32) :
    deserializeWriteBatch s (cmd :: specEncodeWriteBatch puts deletes) 1 false
      = some (puts, deletes) :=
  deserializeWriteBatch_specEncode s [cmd] puts deletes hnp hnd hp hd

/-- The two puts and two deletes of the examples are read back from their encoding. -/
theorem deserialize_serialize_roundtrip_witness :
    deserializeWriteBatch demoShard
        (shardStateMachineCommandWrite :: specEncodeWriteBatch demoPuts demoDeletes) 1 false
      = some (demoPuts, demoDeletes) :=
  deserialize_serialize_roundtrip demoShard shardStateMachineCommandWrite demoPuts demoDeletes
    (by decide) (by decide) (by decide) (by decide)

/-! ## Prefix containment -/

/-- Invariants of a loop, with the body run on elements of the list only. -/
theorem loopOk_induct_mem {σ α : Type} (outcome : σ → Outcome) (body : σ → α → σ)
    (P : σ → Prop) :
    ∀ (xs : List α), (∀ st x, x ∈ xs → outcome st = .ok → P st → P (body st x)) →
      ∀ (st : σ), outcome st = .ok → P st → P (loopOk outcome body st xs) := by
  intro xs
  induction xs with
  | nil => intro _ st _ h; exact h
  | cons x xs ih =>
    intro hstep st hok h
    simp only [loopOk]
    have hx := hstep st x (List.mem_cons_self _ _) hok h
    by_cases hr : outcome (body st x) = .ok
    · simp only [hr, if_true]
      exact ih (fun st y hy => hstep st y (List.mem_cons_of_mem _ hy)) _ hr hx
    · simp only [hr, if_false]
      exact hx

/-- A loop fails when the body fails on one of the elements from every state that has a
property which the body keeps. -/
theorem loopOk_fails_of_mem_inv {σ α : Type} (outcome : σ → Outcome) (body : σ → α → σ)
    (P : σ → Prop) (x : α) (hP : ∀ st y, P st → P (body st y))
    (hx : ∀ st, P st → outcome (body st x) ≠ .ok) :
    ∀ (xs : List α) (st : σ), P st → x ∈ xs → outcome (loopOk outcome body st xs) ≠ .ok := by
  intro xs
  induction xs with
  | nil => intro st _ h; simp at h
  | cons y ys ih =>
    intro st hst h
    simp only [loopOk]
    by_cases hr : outcome (body st y) = .ok
    · rw [if_pos hr]
      rcases List.mem_cons.mp h with h | h
      · exact absurd hr (h ▸ hx st hst)
      · exact ih _ (hP st y hst) h
    · rw [if_neg hr]
      exact hr

theorem IsBytes.take {b : Bytes} (h : IsBytes b) (n : Nat) : IsBytes (b.take n) :=
  fun x hx => h x (List.mem_of_mem_take hx)

theorem IsBytes.drop {b : Bytes} (h : IsBytes b) (n : Nat) : IsBytes (b.drop n) :=
  fun x hx => h x (List.mem_of_mem_drop hx)

/-- A string of bytes is the big-endian encoding of its value. -/
theorem beBytes_beVal (b : Bytes) (h : IsBytes b) : beBytes b.length (beVal b) = b := by
  induction b using List.reverseRecOn with
  | nil => rfl
  | append_singleton l a ih =>
    have ha : a < 256 := h a (by simp)
    have hl : IsBytes l := fun x hx => h x (by simp [hx])
    rw [List.length_append, List.length_singleton, beVal_append_singleton]
    simp only [beBytes]
    have h1 : (beVal l * 256 + a) / 256 = beVal l := by omega
    have h2 : (beVal l * 256 + a) % 256 = a := by omega
    rw [h1, h2, ih hl]

theorem EncodeTableKeyPrefix_take (tableID shardID capac : Nat) (rest : Bytes) :
    (EncodeTableKeyPrefix tableID shardID capac ++ rest).take 8 = beBytes 8 shardID := by
  have h8 : (beBytes 8 shardID).length = 8 := beBytes_length 8 shardID
  simp only [EncodeTableKeyPrefix, AppendUint64ToBufferBE, List.nil_append, List.append_assoc]
  rw [List.take_append_of_le_length (by omega), List.take_of_length_le (by omega)]

/-- Outside test mode a key of bytes that passes `checkKey` begins with the shard id as 8
big-endian bytes. -/
theorem checkKey_take (s : ShardOnDiskStateMachine) (key : Bytes) (ht : s.TestServer = false)
    (hb : IsBytes key) (h : checkKey s key = true) : key.take 8 = beBytes 8 s.shardID := by
  unfold checkKey ReadUint64FromBufferBE at h
  simp only [ht, Bool.false_eq_true, if_false, Nat.zero_add, List.drop_zero] at h
  by_cases hl : 8 ≤ key.length
  · rw [if_pos hl] at h
    simp only [decide_eq_true_eq] at h
    have hlen : (key.take 8).length = 8 := by rw [List.length_take]; omega
    have hbv := beBytes_beVal (key.take 8) (hb.take 8)
    rw [hlen] at hbv
    rw [h]; exact hbv.symm
  · rw [if_neg hl] at h
    simp at h

theorem readPuts_isBytes (s : ShardOnDiskStateMachine) (buff : Bytes) (hb : IsBytes buff)
    (n : Nat) : ∀ (offset : Nat) (puts : List KVPair) (offset1 : Nat),
      readPuts s buff false n offset = some (puts, offset1) → ∀ p ∈ puts, IsBytes p.Key := by
  induction n with
  | zero =>
    intro offset puts offset1 h p hp
    simp only [readPuts, Option.some.injEq, Prod.mk.injEq] at h
    rw [← h.1] at hp
    simp at hp
  | succ n ih =>
    intro offset puts offset1 h p hp
    simp only [readPuts] at h
    cases h1 : ReadUint32FromBufferLE buff offset with
    | none => simp [h1] at h
    | some r1 =>
      obtain ⟨kLen, o1⟩ := r1
      simp only [h1] at h
      by_cases hk : buff.length < o1 + kLen
      · simp [hk] at h
      · simp only [hk, if_false] at h
        cases h2 : ReadUint32FromBufferLE buff (o1 + kLen) with
        | none => simp [h2] at h
        | some r2 =>
          obtain ⟨vLen, o2⟩ := r2
          simp only [h2] at h
          by_cases hv : buff.length < o2 + vLen
          · simp [hv] at h
          · simp only [hv, if_false] at h
            cases h3 : readPuts s buff false n (o2 + vLen) with
            | none => simp [h3] at h
            | some r3 =>
              obtain ⟨ps, o3⟩ := r3
              simp only [h3, Bool.false_eq_true, if_false, Option.some.injEq,
                Prod.mk.injEq] at h
              rw [← h.1] at hp
              rcases List.mem_cons.mp hp with hp | hp
              · rw [hp]
                exact (hb.drop o1).take kLen
              · exact ih _ _ _ h3 p hp

theorem readDeletes_isBytes (buff : Bytes) (hb : IsBytes buff) (n : Nat) :
    ∀ (offset : Nat) (deletes : List Bytes),
      readDeletes buff n offset = some deletes → ∀ k ∈ deletes, IsBytes k := by
  induction n with
  | zero =>
    intro offset deletes h k hk
    simp only [readDeletes, Option.some.injEq] at h
    rw [← h] at hk
    simp at hk
  | succ n ih =>
    intro offset deletes h k hk
    simp only [readDeletes] at h
    cases h1 : ReadUint32FromBufferLE buff offset with
    | none => simp [h1] at h
    | some r1 =>
      obtain ⟨kLen, o1⟩ := r1
      simp only [h1] at h
      by_cases hl : buff.length < o1 + kLen
      · simp [hl] at h
      · simp only [hl, if_false] at h
        cases h3 : readDeletes buff n (o1 + kLen) with
        | none => simp [h3] at h
        | some ds =>
          simp only [h3, Option.some.injEq] at h
          rw [← h] at hk
          rcases List.mem_cons.mp hk with hk | hk
          · rw [hk]
            exact (hb.drop o1).take kLen
          · exact ih _ _ h3 k hk

/-- The keys of a deserialized local write are slices of the command. -/
theorem deserializeWriteBatch_isBytes (s : ShardOnDiskStateMachine) (buff : Bytes)
    (hb : IsBytes buff) (offset : Nat) (puts : List KVPair) (deletes : List Bytes)
    (h : deserializeWriteBatch s buff offset false = some (puts, deletes)) :
    (∀ p ∈ puts, IsBytes p.Key) ∧ ∀ k ∈ deletes, IsBytes k := by
  unfold deserializeWriteBatch at h
  cases h1 : ReadUint32FromBufferLE buff offset with
  | none => simp [h1] at h
  | some r1 =>
    obtain ⟨numPuts, o1⟩ := r1
    simp only [h1] at h
    cases h2 : readPuts s buff false numPuts o1 with
    | none => simp [h2] at h
    | some r2 =>
      obtain ⟨ps, o2⟩ := r2
      simp only [h2] at h
      cases h3 : ReadUint32FromBufferLE buff o2 with
      | none => simp [h3] at h
      | some r3 =>
        obtain ⟨numDeletes, o3⟩ := r3
        simp only [h3] at h
        cases h4 : readDeletes buff numDeletes o3 with
        | none => simp [h4] at h
        | some ds =>
          simp only [h4, Option.some.injEq, Prod.mk.injEq] at h
          rw [← h.1, ← h.2]
          exact ⟨readPuts_isBytes s buff hb numPuts o1 ps o2 h2,
            readDeletes_isBytes buff hb numDeletes o3 ds h4⟩

/-- A local write is deserialized in the same way by every state machine. -/
theorem deserializeWriteBatch_local (s s0 : ShardOnDiskStateMachine) (buff : Bytes)
    (offset : Nat) :
    deserializeWriteBatch s buff offset false = deserializeWriteBatch s0 buff offset false := by
  have h : ∀ n o, readPuts s buff false n o = readPuts s0 buff false n o := by
    intro n
    induction n with
    | zero => intro o; simp [readPuts]
    | succ n ih =>
      intro o
      simp only [readPuts, ih, Bool.false_eq_true, if_false]
  unfold deserializeWriteBatch
  simp only [h]

/-- The keys of a batch begin with the shard id of `s`, and the state machine is still the
one of that shard. -/
theorem handlePut_shardKeys (faults : KVFaults) (ids : TableIDs) (forward : Bool)
    (s : ShardOnDiskStateMachine) (w : WriteState) (kv : KVPair)
    (ht : s.TestServer = false) (hs : SameShard s w.sm)
    (hkv : forward = false → IsBytes kv.Key)
    (hw : ∀ op ∈ w.batch, op.key.take 8 = beBytes 8 s.shardID) :
    ∀ op ∈ (handlePut faults ids forward w kv).batch, op.key.take 8 = beBytes 8 s.shardID := by
  have hsid : w.sm.shardID = s.shardID := hs.1
  have htw : w.sm.TestServer = false := hs.2.2.1.trans ht
  have hcd : ∀ key, ∀ op ∈ (checkDedup faults ids w.sm key w.batch).batch,
      op.key.take 8 = beBytes 8 s.shardID := by
    intro key op hop
    unfold checkDedup at hop
    simp only [] at hop
    split_ifs at hop
    · exact hw op hop
    · exact hw op hop
    · rcases List.mem_append.mp hop with h | h
      · exact hw op h
      · simp only [List.mem_singleton] at h
        rw [h, BatchOp.key, hsid]
        exact EncodeTableKeyPrefix_take _ _ _ _
  have hwr : ∀ (s1 : ShardOnDiskStateMachine) (b : Batch) rc v, s1.shardID = s.shardID →
      (∀ op ∈ b, op.key.take 8 = beBytes 8 s.shardID) →
      ∀ op ∈ (writeReceiverRow faults ids s1 b w.stamped rc v).batch,
        op.key.take 8 = beBytes 8 s.shardID := by
    intro s1 b rc v h1 hb op hop
    unfold writeReceiverRow at hop
    simp only [] at hop
    split_ifs at hop
    · exact hb op hop
    · rcases List.mem_append.mp hop with h | h
      · exact hb op h
      · simp only [List.mem_singleton] at h
        rw [h, BatchOp.key, h1]
        simp only [AppendUint32ToBufferBE, AppendUint64ToBufferBE, List.append_assoc]
        exact EncodeTableKeyPrefix_take _ _ _ _
  have hcs := (checkDedup_frame faults ids w.sm ((kv.Key.drop 1).take 24) w.batch).1.1
  cases forward with
  | true =>
    unfold handlePut
    simp only [if_true]
    split_ifs
    · exact hw
    · exact hcd _
    · exact hcd _
    · exact hwr _ _ _ _ (hcs.trans hsid) (hcd _)
    · exact hwr _ _ _ _ hsid hw
  | false =>
    unfold handlePut
    simp only [Bool.false_eq_true, if_false]
    by_cases hck : checkKey w.sm kv.Key = true
    · rw [if_pos hck]
      split_ifs
      · exact hw
      · intro op hop
        rcases List.mem_append.mp hop with h | h
        · exact hw op h
        · simp only [List.mem_singleton] at h
          rw [h, BatchOp.key, ← hsid]
          exact checkKey_take w.sm kv.Key htw (hkv rfl) hck
    · rw [if_neg hck]
      exact hw

theorem handleDelete_shardKeys (faults : KVFaults) (s : ShardOnDiskStateMachine) (w : WriteState)
    (k : Bytes) (ht : s.TestServer = false) (hs : SameShard s w.sm) (hk : IsBytes k)
    (hw : ∀ op ∈ w.batch, op.key.take 8 = beBytes 8 s.shardID) :
    ∀ op ∈ (handleDelete faults w k).batch, op.key.take 8 = beBytes 8 s.shardID := by
  have hsid : w.sm.shardID = s.shardID := hs.1
  have htw : w.sm.TestServer = false := hs.2.2.1.trans ht
  unfold handleDelete
  by_cases hck : checkKey w.sm k = true
  · rw [if_pos hck]
    split_ifs
    · exact hw
    · intro op hop
      rcases List.mem_append.mp hop with h | h
      · exact hw op h
      · simp only [List.mem_singleton] at h
        rw [h, BatchOp.key, ← hsid]
        exact checkKey_take w.sm k htw hk hck
  · rw [if_neg hck]
    exact hw

theorem handleWrite_shardKeys (faults : KVFaults) (ids : TableIDs) (forward : Bool)
    (s : ShardOnDiskStateMachine) (w : WriteState) (bytes : Bytes)
    (ht : s.TestServer = false) (hb : IsBytes bytes) (hs : SameShard s w.sm)
    (hw : ∀ op ∈ w.batch, op.key.take 8 = beBytes 8 s.shardID) :
    ∀ op ∈ (handleWrite faults ids w bytes forward).batch,
      op.key.take 8 = beBytes 8 s.shardID := by
  unfold handleWrite
  cases hdes : deserializeWriteBatch w.sm bytes 1 forward with
  | none => exact hw
  | some pd =>
    obtain ⟨puts, deletes⟩ := pd
    simp only []
    have hkeys : forward = false →
        (∀ p ∈ puts, IsBytes p.Key) ∧ ∀ k ∈ deletes, IsBytes k := by
      intro hf
      rw [hf] at hdes
      exact deserializeWriteBatch_isBytes w.sm bytes hb 1 puts deletes hdes
    have hputs := loopOk_induct_mem WriteState.outcome (handlePut faults ids forward)
      (fun r => SameShard s r.sm ∧ ∀ op ∈ r.batch, op.key.take 8 = beBytes 8 s.shardID) puts
      (fun st kv hkv _ h =>
        ⟨h.1.trans (handlePut_frame faults ids forward st kv).1,
          handlePut_shardKeys faults ids forward s st kv ht h.1 (fun hf => (hkeys hf).1 kv hkv) h.2⟩)
      { w with outcome := .ok } rfl ⟨hs, hw⟩
    generalize loopOk WriteState.outcome (handlePut faults ids forward)
      { w with outcome := .ok } puts = r at hputs ⊢
    unfold finishWrite
    by_cases hr : r.outcome = .ok
    · rw [if_pos hr]
      by_cases hfd : forward = true ∧ deletes ≠ []
      · rw [if_pos hfd]
        exact hputs.2
      · rw [if_neg hfd]
        have hdel : forward = false ∨ deletes = [] := by
          by_cases hf : forward = true
          · right
            by_contra hne
            exact hfd ⟨hf, hne⟩
          · left
            simpa using hf
        refine (loopOk_induct_mem WriteState.outcome (handleDelete faults)
          (fun r => SameShard s r.sm ∧ ∀ op ∈ r.batch, op.key.take 8 = beBytes 8 s.shardID)
          deletes ?_ ⟨.ok, bumpBatchSequence r.sm, r.batch, r.stamped⟩ rfl
          ⟨hputs.1.trans (bumpBatchSequence_frame _).1, hputs.2⟩).2
        intro st k hk _ h
        have hkb : IsBytes k := by
          rcases hdel with hf | hnil
          · exact (hkeys hf).2 k hk
          · rw [hnil] at hk
            simp at hk
        refine ⟨?_, handleDelete_shardKeys faults s st k ht h.1 hkb h.2⟩
        rw [(handleDelete_frame faults st k).1]
        exact h.1
    · rw [if_neg hr]
      exact hputs.2

theorem handleEntry_shardKeys (faults : KVFaults) (ids : TableIDs) (s : ShardOnDiskStateMachine)
    (st : WriteState × Bool) (entry : Entry) (ht : s.TestServer = false)
    (hb : IsBytes entry.Cmd) (hs : SameShard s st.1.sm)
    (hw : ∀ op ∈ st.1.batch, op.key.take 8 = beBytes 8 s.shardID) :
    ∀ op ∈ (handleEntry faults ids st entry).1.batch, op.key.take 8 = beBytes 8 s.shardID := by
  have h1 := handleWrite_shardKeys faults ids true s st.1 entry.Cmd ht hb hs hw
  have h2 := handleWrite_shardKeys faults ids false s st.1 entry.Cmd ht hb hs hw
  unfold handleEntry
  cases hc : entry.Cmd.head? with
  | none => exact hw
  | some command =>
    simp only []
    split_ifs
    · exact h1
    · exact h1
    · exact h2
    · exact hw

/-- Outside test mode every key in the batch that the loop over the entries builds begins
with the shard id. -/
theorem updateEntries_shardKeys (faults : KVFaults) (ids : TableIDs) (s : ShardOnDiskStateMachine)
    (entries : List Entry) (ht : s.TestServer = false) (hb : ∀ e ∈ entries, IsBytes e.Cmd) :
    ∀ op ∈ (updateEntries faults ids s entries).1.batch,
      op.key.take 8 = beBytes 8 s.shardID := by
  unfold updateEntries
  refine (loopOk_induct_mem (fun st : WriteState × Bool => st.1.outcome)
    (handleEntry faults ids)
    (fun st => SameShard s st.1.sm ∧ ∀ op ∈ st.1.batch, op.key.take 8 = beBytes 8 s.shardID)
    entries ?_ (⟨.ok, s, [], []⟩, false) rfl ⟨SameShard.refl s, fun op hop => ?_⟩).2
  · intro st e he _ h
    exact ⟨h.1.trans (handleEntry_frame faults ids st e).1,
      handleEntry_shardKeys faults ids s st e ht (hb e he) h.1 h.2⟩
  · simp at hop

/-- Outside test mode a local write with a key that does not begin with the shard id does
not end normally. -/
theorem handleWrite_bad_key (faults : KVFaults) (ids : TableIDs) (s : ShardOnDiskStateMachine)
    (w : WriteState) (bytes : Bytes) (puts : List KVPair) (deletes : List Bytes) (k : Bytes)
    (ht : s.TestServer = false) (hb : IsBytes bytes) (hs : SameShard s w.sm)
    (hdes : deserializeWriteBatch s bytes 1 false = some (puts, deletes))
    (hk : k ∈ puts.map KVPair.Key ∨ k ∈ deletes) (hbad : k.take 8 ≠ beBytes 8 s.shardID) :
    (handleWrite faults ids w bytes false).outcome ≠ .ok := by
  have hkeys := deserializeWriteBatch_isBytes s bytes hb 1 puts deletes hdes
  have hck : ∀ st : WriteState, SameShard s st.sm → checkKey st.sm k = false := by
    intro st hst
    by_contra hne
    have htrue : checkKey st.sm k = true := by simpa using hne
    have hkb : IsBytes k := by
      rcases hk with hk | hk
      · obtain ⟨p, hp, rfl⟩ := List.mem_map.mp hk
        exact hkeys.1 p hp
      · exact hkeys.2 k hk
    have := checkKey_take st.sm k (hst.2.2.1.trans ht) hkb htrue
    rw [hst.1] at this
    exact hbad this
  unfold handleWrite
  rw [deserializeWriteBatch_local w.sm s, hdes]
  simp only []
  have hframe := handlePuts_frame faults ids false puts { w with outcome := .ok } rfl
  have hfail : k ∈ puts.map KVPair.Key →
      (loopOk WriteState.outcome (handlePut faults ids false)
        { w with outcome := .ok } puts).outcome ≠ .ok := by
    intro hk1
    obtain ⟨p, hp, hpk⟩ := List.mem_map.mp hk1
    refine loopOk_fails_of_mem_inv WriteState.outcome (handlePut faults ids false)
      (fun r => SameShard s r.sm) p
      (fun st y h => h.trans (handlePut_frame faults ids false st y).1) ?_ puts
      { w with outcome := .ok } hs hp
    intro st hst
    unfold handlePut
    simp only [Bool.false_eq_true, if_false, hpk, hck st hst]
    simp
  generalize loopOk WriteState.outcome (handlePut faults ids false)
    { w with outcome := .ok } puts = r at hframe hfail ⊢
  unfold finishWrite
  by_cases hr : r.outcome = .ok
  · rw [if_pos hr, if_neg (by simp)]
    rcases hk with hk | hk
    · exact absurd hr (hfail hk)
    · refine loopOk_fails_of_mem_inv WriteState.outcome (handleDelete faults)
        (fun r => SameShard s r.sm) k ?_ ?_ deletes
        ⟨.ok, bumpBatchSequence r.sm, r.batch, r.stamped⟩
        ((hs.trans hframe.1).trans (bumpBatchSequence_frame _).1) hk
      · intro st y h
        rw [(handleDelete_frame faults st y).1]
        exact h
      · intro st hst
        unfold handleDelete
        simp only [hck st hst]
        simp
  · rw [if_neg hr]
    exact hr

/-- C11: outside test mode, for commands made of bytes: when `Update` succeeds, the key of
every operation of the committed batch (the puts and deletes of `WRITE` entries, the
Receiver and ForwardDedup rows and the LastLogIndexReceived row) begins with the shard id
encoded as 8 big-endian bytes; and a `WRITE` entry that contains a put key or a delete key
whose first 8 bytes differ from the encoded shard id makes `Update` end without success
and without a change of the store. -/
theorem committed_keys_begin_with_shard_id (faults : KVFaults) (ids : TableIDs)
    (s : ShardOnDiskStateMachine) (peb : Store) (entries : List Entry)
    (ht : s.TestServer = false) (hb : ∀ e ∈ entries, IsBytes e.Cmd) :
    ((Update faults ids s peb entries).outcome = .ok →
      (Update faults ids s peb entries).peb
          = applyBatch peb (Update faults ids s peb entries).batch ∧
        ∀ op ∈ (Update faults ids s peb entries).batch,
          op.key.take 8 = beBytes 8 s.shardID) ∧
    (∀ e ∈ entries, ∀ (puts : List KVPair) (deletes k : _),
      e.Cmd.head? = some shardStateMachineCommandWrite →
      deserializeWriteBatch s e.Cmd 1 false = some (puts, deletes) →
      (k ∈ puts.map KVPair.Key ∨ k ∈ deletes) → k.take 8 ≠ beBytes 8 s.shardID →
      (Update faults ids s peb entries).outcome ≠ .ok ∧
        (Update faults ids s peb entries).peb = peb) := by
  constructor
  · intro hok
    obtain ⟨-, -, -, -, hpeb, last, -, hbatch⟩ := Update_ok faults ids s peb entries hok
    refine ⟨hpeb, fun op hop => ?_⟩
    rw [hbatch] at hop
    rcases List.mem_append.mp hop with h | h
    · exact updateEntries_shardKeys faults ids s entries ht hb op h
    · have h8 := EncodeTableKeyPrefix_take ids.LastLogIndexReceivedTableID s.shardID 16 []
      rw [List.append_nil] at h8
      simp only [List.mem_cons, List.mem_singleton, List.not_mem_nil, or_false] at h
      rcases h with h | h <;> rw [h] <;> exact h8
  · intro e he puts deletes k hcmd hdes hk hbad
    have hloop : (updateEntries faults ids s entries).1.outcome ≠ .ok := by
      unfold updateEntries
      refine loopOk_fails_of_mem_inv (fun st : WriteState × Bool => st.1.outcome)
        (handleEntry faults ids) (fun st => SameShard s st.1.sm) e
        (fun st y h => h.trans (handleEntry_frame faults ids st y).1) ?_ entries
        (⟨.ok, s, [], []⟩, false) (SameShard.refl s) he
      intro st hst
      have hw := handleWrite_bad_key faults ids s st.1 e.Cmd puts deletes k ht (hb e he) hst
        hdes hk hbad
      unfold handleEntry
      rw [hcmd]
      simp only [shardStateMachineCommandWrite, shardStateMachineCommandForwardWrite]
      exact hw
    have hne : (Update faults ids s peb entries).outcome ≠ .ok := fun hok =>
      hloop (Update_ok faults ids s peb entries hok).1
    exact ⟨hne, (Update_not_ok faults ids s peb entries hne).1⟩

/-- The write entry of the examples is applied by shard 13, outside test mode, and all
keys of the committed batch begin with the encoded shard id. -/
theorem committed_keys_begin_with_shard_id_witness :
    demoShard.TestServer = false ∧
    (Update noFaults demoIds demoShard [] [demoWriteEntry]).outcome = .ok ∧
    (Update noFaults demoIds demoShard [] [demoWriteEntry]).batch.length = 4 ∧
    ∀ op ∈ (Update noFaults demoIds demoShard [] [demoWriteEntry]).batch,
      op.key.take 8 = beBytes 8 demoShard.shardID :=
  ⟨rfl, by decide, by decide,
    ((committed_keys_begin_with_shard_id noFaults demoIds demoShard [] [demoWriteEntry] rfl
      (fun e he => by
        rw [List.mem_singleton] at he
        subst he
        unfold IsBytes
        decide)).1 (by decide)).2⟩

/-! ## The key order and the ForwardDedup range -/

theorem bytesLt_nil_right (a : Bytes) : bytesLt a [] = false := by
  cases a <;> rfl

theorem bytesLt_append_left (p a b : Bytes) : bytesLt (p ++ a) (p ++ b) = bytesLt a b := by
  induction p with
  | nil => rfl
  | cons x p ih => simp [bytesLt, ih]

/-- The order of keys that begin with big-endian numbers of the same width is the order of
the numbers, then of the rest. -/
theorem bytesLt_beBytes (n : Nat) : ∀ (a b : Nat) (x y : Bytes), a < 256 ^ n → b < 256 ^ n →
    bytesLt (beBytes n a ++ x) (beBytes n b ++ y)
      = (decide (a < b) || (decide (a = b) && bytesLt x y)) := by
  induction n with
  | zero =>
    intro a b x y ha hb
    have ha0 : a = 0 := by simpa using ha
    have hb0 : b = 0 := by simpa using hb
    subst ha0 hb0
    simp [beBytes]
  | succ n ih =>
    intro a b x y ha hb
    have ha1 : a / 256 < 256 ^ n := by
      rw [pow_succ] at ha
      exact Nat.div_lt_of_lt_mul (by rw [Nat.mul_comm]; exact ha)
    have hb1 : b / 256 < 256 ^ n := by
      rw [pow_succ] at hb
      exact Nat.div_lt_of_lt_mul (by rw [Nat.mul_comm]; exact hb)
    simp only [beBytes, List.append_assoc, List.singleton_append]
    rw [ih _ _ _ _ ha1 hb1]
    simp only [bytesLt]
    rcases Nat.lt_trichotomy (a / 256) (b / 256) with h | h | h
    · have hab : a < b := by omega
      simp [h, hab]
    · rcases Nat.lt_trichotomy (a % 256) (b % 256) with h2 | h2 | h2
      · have hab : a < b := by omega
        simp [h, h2, hab]
      · have hab : a = b := by omega
        simp [h, h2, hab]
      · have hab : ¬ a < b := by omega
        have hne : ¬ a = b := by omega
        have h3 : ¬ a % 256 < b % 256 := by omega
        have h4 : ¬ a % 256 = b % 256 := by omega
        simp [h, h3, h4, hab, hne]
    · have hab : ¬ a < b := by omega
      have hne : ¬ a = b := by omega
      have h3 : ¬ a / 256 < b / 256 := by omega
      have h4 : ¬ a / 256 = b / 256 := by omega
      simp [h3, h4, hab, hne]

theorem EncodeTableKeyPrefix_eq (tableID shardID capac : Nat) :
    EncodeTableKeyPrefix tableID shardID capac = beBytes 8 shardID ++ beBytes 8 tableID := by
  simp [EncodeTableKeyPrefix, AppendUint64ToBufferBE]

/-- The order of a key that begins with a table prefix of the shard relative to a table
prefix of the shard. -/
theorem bytesLt_tablePrefix (t1 t2 shardID c1 c2 : Nat) (rest : Bytes) (h1 : t1 < 2 ^ 64)
    (h2 : t2 < 2 ^ 64) :
    bytesLt (EncodeTableKeyPrefix t1 shardID c1 ++ rest) (EncodeTableKeyPrefix t2 shardID c2)
      = decide (t1 < t2) := by
  have p8 : (256 : Nat) ^ 8 = 2 ^ 64 := by norm_num
  rw [EncodeTableKeyPrefix_eq, EncodeTableKeyPrefix_eq, List.append_assoc, bytesLt_append_left]
  have := bytesLt_beBytes 8 t1 t2 rest [] (by rw [p8]; exact h1) (by rw [p8]; exact h2)
  rw [List.append_nil] at this
  rw [this, bytesLt_nil_right]
  simp

/-- The row of an originator lies in the range that `loadDedupCache` scans. -/
theorem inDedupRange_dedupKey (ids : TableIDs) (shardID capac : Nat) (o : Bytes)
    (hfd : ids.ForwardDedupTableID + 1 < 2 ^ 64) :
    inDedupRange ids shardID (EncodeTableKeyPrefix ids.ForwardDedupTableID shardID capac ++ o)
      = true := by
  unfold inDedupRange
  rw [bytesLt_tablePrefix _ _ _ _ _ _ (by omega) (by omega),
    bytesLt_tablePrefix _ _ _ _ _ _ (by omega) hfd]
  simp

/-- The rows of another table lie outside the range that `loadDedupCache` scans. -/
theorem inDedupRange_otherTable (ids : TableIDs) (t shardID capac : Nat) (rest : Bytes)
    (hfd : ids.ForwardDedupTableID + 1 < 2 ^ 64) (ht : t < 2 ^ 64)
    (hne : t ≠ ids.ForwardDedupTableID) :
    inDedupRange ids shardID (EncodeTableKeyPrefix t shardID capac ++ rest) = false := by
  unfold inDedupRange
  rw [bytesLt_tablePrefix _ _ _ _ _ _ ht (by omega), bytesLt_tablePrefix _ _ _ _ _ _ ht hfd]
  by_cases h : t < ids.ForwardDedupTableID
  · simp [h]
  · have h2 : ¬ t < ids.ForwardDedupTableID + 1 := by omega
    simp [h, h2]

/-! ## The store and the dedup cache agree -/

theorem mem_kvDelete {α : Type} (k : Bytes) (m : List (Bytes × α)) (p : Bytes × α) :
    p ∈ kvDelete k m ↔ p ∈ m ∧ p.1 ≠ k := by
  unfold kvDelete
  simp [List.mem_filter]

theorem kvGet_mem {α : Type} (k : Bytes) (v : α) (m : List (Bytes × α))
    (h : kvGet k m = some v) : (k, v) ∈ m := by
  induction m with
  | nil => simp [kvGet] at h
  | cons p rest ih =>
    obtain ⟨kp, vp⟩ := p
    simp only [kvGet] at h
    by_cases hk : kp = k
    · rw [if_pos hk] at h
      simp only [Option.some.injEq] at h
      rw [hk, h]
      exact List.mem_cons_self _ _
    · rw [if_neg hk] at h
      exact List.mem_cons_of_mem _ (ih h)

theorem DedupInv_set_outside (ids : TableIDs) (shardID : Nat) (peb : Store)
    (cache : List (Bytes × Nat)) (k v : Bytes) (hfd : ids.ForwardDedupTableID + 1 < 2 ^ 64)
    (hk : inDedupRange ids shardID k = false) (h : DedupInv ids shardID peb cache) :
    DedupInv ids shardID (kvSet k v peb) cache := by
  refine ⟨fun p hp hr => ?_, fun o seq ho => ?_⟩
  · rcases List.mem_cons.mp hp with hp | hp
    · rw [hp] at hr
      rw [hk] at hr
      exact absurd hr (by simp)
    · exact h.1 p ((mem_kvDelete k peb p).mp hp).1 hr
  · obtain ⟨v1, hv1⟩ := h.2 o seq ho
    refine ⟨v1, ?_⟩
    rw [kvGet_kvSet_ne _ _ _ _ (fun heq => ?_)]
    · exact hv1
    · have := inDedupRange_dedupKey ids shardID 16 o hfd
      rw [heq, hk] at this
      exact absurd this (by simp)

theorem DedupInv_delete_outside (ids : TableIDs) (shardID : Nat) (peb : Store)
    (cache : List (Bytes × Nat)) (k : Bytes) (hfd : ids.ForwardDedupTableID + 1 < 2 ^ 64)
    (hk : inDedupRange ids shardID k = false) (h : DedupInv ids shardID peb cache) :
    DedupInv ids shardID (kvDelete k peb) cache := by
  refine ⟨fun p hp hr => h.1 p ((mem_kvDelete k peb p).mp hp).1 hr, fun o seq ho => ?_⟩
  obtain ⟨v1, hv1⟩ := h.2 o seq ho
  refine ⟨v1, ?_⟩
  rw [kvGet_kvDelete_ne _ _ _ (fun heq => ?_)]
  · exact hv1
  · have := inDedupRange_dedupKey ids shardID 16 o hfd
    rw [heq, hk] at this
    exact absurd this (by simp)

theorem DedupInv_set_dedup (ids : TableIDs) (shardID : Nat) (peb : Store)
    (cache : List (Bytes × Nat)) (o v : Bytes) (ho : o.length = 16) (hv : v.length = 8)
    (h : DedupInv ids shardID peb cache) :
    DedupInv ids shardID
      (kvSet (EncodeTableKeyPrefix ids.ForwardDedupTableID shardID 16 ++ o) v peb)
      (kvSet o (beVal v) cache) := by
  refine ⟨fun p hp hr => ?_, fun o1 seq ho1 => ?_⟩
  · rcases List.mem_cons.mp hp with hp | hp
    · rw [hp]
      exact ⟨o, rfl, ho, hv, kvGet_kvSet_self _ _ _⟩
    · obtain ⟨hmem, hne⟩ := (mem_kvDelete _ peb p).mp hp
      obtain ⟨o1, h1, h2, h3, h4⟩ := h.1 p hmem hr
      refine ⟨o1, h1, h2, h3, ?_⟩
      rw [kvGet_kvSet_ne _ _ _ _ (fun heq => ?_)]
      · exact h4
      · rw [h1, heq] at hne
        exact hne rfl
  · by_cases heq : o1 = o
    · rw [heq]
      exact ⟨v, kvGet_kvSet_self _ _ _⟩
    · rw [kvGet_kvSet_ne _ _ _ _ heq] at ho1
      obtain ⟨v1, hv1⟩ := h.2 o1 seq ho1
      refine ⟨v1, ?_⟩
      rw [kvGet_kvSet_ne _ _ _ _ (fun h2 => heq (List.append_cancel_left h2))]
      exact hv1

theorem applyBatch_snoc (peb : Store) (batch : Batch) (op : BatchOp) :
    applyBatch peb (batch ++ [op]) = op.apply (applyBatch peb batch) := by
  simp [applyBatch, List.foldl_append]

theorem DoDedup_ignore (shardID : Nat) (key : Bytes) (m : List (Bytes × Nat))
    (h : (DoDedup shardID key m).1 = true) : (DoDedup shardID key m).2 = m := by
  unfold DoDedup at h ⊢
  simp only [] at h ⊢
  cases hg : kvGet (key.take 16) m with
  | none => simp [hg] at h
  | some prev =>
    simp only [hg] at h ⊢
    by_cases hle : beVal ((key.drop 16).take 8) ≤ prev
    · rw [if_pos hle]
    · rw [if_neg hle] at h
      simp at h

theorem DoDedup_accept (shardID : Nat) (key : Bytes) (m : List (Bytes × Nat))
    (h : ¬ (DoDedup shardID key m).1 = true) :
    (DoDedup shardID key m).2 = kvSet (key.take 16) (beVal ((key.drop 16).take 8)) m := by
  unfold DoDedup at h ⊢
  simp only [] at h ⊢
  cases hg : kvGet (key.take 16) m with
  | none => rfl
  | some prev =>
    simp only [hg] at h ⊢
    by_cases hle : beVal ((key.drop 16).take 8) ≤ prev
    · rw [if_pos hle] at h
      simp at h
    · rw [if_neg hle]

theorem checkDedup_inv (faults : KVFaults) (ids : TableIDs) (shardID : Nat) (peb : Store)
    (s1 : ShardOnDiskStateMachine) (key : Bytes) (batch : Batch) (hs : s1.shardID = shardID)
    (hkey : key.length = 24)
    (h : DedupInv ids shardID (applyBatch peb batch) s1.dedupSequences)
    (hok : (checkDedup faults ids s1 key batch).outcome = .ok) :
    DedupInv ids shardID (applyBatch peb (checkDedup faults ids s1 key batch).batch)
      (checkDedup faults ids s1 key batch).sm.dedupSequences := by
  unfold checkDedup at hok ⊢
  simp only [] at hok ⊢
  by_cases hd : (DoDedup s1.shardID key s1.dedupSequences).1 = true
  · rw [if_pos hd]
    simp only []
    rw [DoDedup_ignore _ _ _ hd]
    exact h
  · rw [if_neg hd] at hok ⊢
    by_cases hf : faults.opFails batch.length = true
    · rw [if_pos hf] at hok
      simp at hok
    · rw [if_neg hf]
      simp only []
      rw [applyBatch_snoc, DoDedup_accept _ _ _ hd, hs]
      have h8 : (key.drop 16).length = 8 := by rw [List.length_drop, hkey]
      have h16 : (key.take 16).length = 16 := by simp [List.length_take, hkey]
      rw [List.take_of_length_le (le_of_eq h8)]
      exact DedupInv_set_dedup ids shardID _ _ (key.take 16) (key.drop 16) h16 h8 h

theorem writeReceiverRow_inv (faults : KVFaults) (ids : TableIDs) (shardID : Nat) (peb : Store)
    (s1 : ShardOnDiskStateMachine) (batch : Batch) (stamped : List Bytes) (rc value : Bytes)
    (hids : ids.Distinct) (hfd : ids.ForwardDedupTableID + 1 < 2 ^ 64)
    (hs : s1.shardID = shardID)
    (h : DedupInv ids shardID (applyBatch peb batch) s1.dedupSequences)
    (hok : (writeReceiverRow faults ids s1 batch stamped rc value).outcome = .ok) :
    DedupInv ids shardID
      (applyBatch peb (writeReceiverRow faults ids s1 batch stamped rc value).batch)
      (writeReceiverRow faults ids s1 batch stamped rc value).sm.dedupSequences := by
  unfold writeReceiverRow at hok ⊢
  simp only [] at hok ⊢
  by_cases hf : faults.opFails batch.length = true
  · rw [if_pos hf] at hok
    simp at hok
  · rw [if_neg hf]
    simp only []
    rw [applyBatch_snoc, hs]
    simp only [AppendUint32ToBufferBE, AppendUint64ToBufferBE, List.append_assoc]
    exact DedupInv_set_outside ids shardID _ _ _ _ hfd
      (inDedupRange_otherTable ids _ shardID 40 _ hfd hids.1 hids.2.2.2.1) h

theorem handlePut_inv (faults : KVFaults) (ids : TableIDs) (forward : Bool)
    (s : ShardOnDiskStateMachine) (peb : Store) (w : WriteState) (kv : KVPair)
    (hids : ids.Distinct) (hfd : ids.ForwardDedupTableID + 1 < 2 ^ 64)
    (hkv : forward = false → inDedupRange ids s.shardID kv.Key = false)
    (hw : WriteInv ids s peb w) (hwok : w.outcome = .ok) :
    WriteInv ids s peb (handlePut faults ids forward w kv) := by
  refine ⟨hw.1.trans (handlePut_frame faults ids forward w kv).1, fun hok => ?_⟩
  have hinv := hw.2 hwok
  have hsid : w.sm.shardID = s.shardID := hw.1.1
  cases forward with
  | true =>
    unfold handlePut at hok ⊢
    simp only [if_true] at hok ⊢
    by_cases hlen : kv.Key.length < 25
    · rw [if_pos hlen] at hok
      simp at hok
    · rw [if_neg hlen] at hok ⊢
      have hk24 : ((kv.Key.drop 1).take 24).length = 24 := by
        rw [List.length_take, List.length_drop]; omega
      have hcf := checkDedup_frame faults ids w.sm ((kv.Key.drop 1).take 24) w.batch
      by_cases hd : kv.Key.head? = some 1
      · rw [if_pos hd] at hok ⊢
        by_cases hc : (checkDedup faults ids w.sm ((kv.Key.drop 1).take 24) w.batch).outcome
            = .ok
        · have hci := checkDedup_inv faults ids s.shardID peb w.sm _ w.batch hsid hk24 hinv hc
          rw [if_neg (fun hn => hn hc)] at hok ⊢
          by_cases hig : (checkDedup faults ids w.sm ((kv.Key.drop 1).take 24) w.batch).ignore
              = true
          · rw [if_pos hig]
            exact hci
          · rw [if_neg hig] at hok ⊢
            exact writeReceiverRow_inv faults ids s.shardID peb _ _ _ _ _ hids hfd
              (hcf.1.1.trans hsid) hci hok
        · rw [if_pos hc] at hok
          exact absurd hok hc
      · rw [if_neg hd] at hok ⊢
        exact writeReceiverRow_inv faults ids s.shardID peb _ _ _ _ _ hids hfd hsid hinv hok
  | false =>
    unfold handlePut at hok ⊢
    simp only [Bool.false_eq_true, if_false] at hok ⊢
    by_cases hck : checkKey w.sm kv.Key = true
    · rw [if_pos hck] at hok ⊢
      by_cases hf : faults.opFails w.batch.length = true
      · rw [if_pos hf] at hok
        simp at hok
      · rw [if_neg hf]
        simp only []
        rw [applyBatch_snoc]
        exact DedupInv_set_outside ids s.shardID _ _ _ _ hfd (hkv rfl) hinv
    · rw [if_neg hck] at hok
      simp at hok

theorem handleDelete_inv (faults : KVFaults) (ids : TableIDs) (s : ShardOnDiskStateMachine)
    (peb : Store) (w : WriteState) (k : Bytes) (hfd : ids.ForwardDedupTableID + 1 < 2 ^ 64)
    (hk : inDedupRange ids s.shardID k = false)
    (hw : WriteInv ids s peb w) (hwok : w.outcome = .ok) :
    WriteInv ids s peb (handleDelete faults w k) := by
  refine ⟨by rw [(handleDelete_frame faults w k).1]; exact hw.1, fun hok => ?_⟩
  have hinv := hw.2 hwok
  unfold handleDelete at hok ⊢
  by_cases hck : checkKey w.sm k = true
  · rw [if_pos hck] at hok ⊢
    by_cases hf : faults.opFails w.batch.length = true
    · rw [if_pos hf] at hok
      simp at hok
    · rw [if_neg hf]
      simp only []
      rw [applyBatch_snoc]
      exact DedupInv_delete_outside ids s.shardID _ _ _ hfd hk hinv
  · rw [if_neg hck] at hok
    simp at hok

theorem handleWrite_inv (faults : KVFaults) (ids : TableIDs) (forward : Bool)
    (s : ShardOnDiskStateMachine) (peb : Store) (w : WriteState) (bytes : Bytes)
    (hids : ids.Distinct) (hfd : ids.ForwardDedupTableID + 1 < 2 ^ 64)
    (hwr : forward = false → ∀ puts deletes,
      deserializeWriteBatch s bytes 1 false = some (puts, deletes) →
        (∀ p ∈ puts, inDedupRange ids s.shardID p.Key = false) ∧
        ∀ k ∈ deletes, inDedupRange ids s.shardID k = false)
    (hw : WriteInv ids s peb w) (hwok : w.outcome = .ok) :
    WriteInv ids s peb (handleWrite faults ids w bytes forward) := by
  unfold handleWrite
  cases hdes : deserializeWriteBatch w.sm bytes 1 forward with
  | none => exact ⟨hw.1, fun h => by simp at h⟩
  | some pd =>
    obtain ⟨puts, deletes⟩ := pd
    simp only []
    have hkeys : forward = false →
        (∀ p ∈ puts, inDedupRange ids s.shardID p.Key = false) ∧
        ∀ k ∈ deletes, inDedupRange ids s.shardID k = false := by
      intro hf
      rw [hf, deserializeWriteBatch_local w.sm s] at hdes
      exact hwr hf puts deletes hdes
    have hputs := loopOk_induct_mem WriteState.outcome (handlePut faults ids forward)
      (WriteInv ids s peb) puts
      (fun st kv hkv hst h =>
        handlePut_inv faults ids forward s peb st kv hids hfd (fun hf => (hkeys hf).1 kv hkv)
          h hst)
      { w with outcome := .ok } rfl ⟨hw.1, fun _ => hw.2 hwok⟩
    generalize loopOk WriteState.outcome (handlePut faults ids forward)
      { w with outcome := .ok } puts = r at hputs ⊢
    unfold finishWrite
    by_cases hr : r.outcome = .ok
    · rw [if_pos hr]
      have hsb : SameShard s (bumpBatchSequence r.sm) :=
        hputs.1.trans (bumpBatchSequence_frame _).1
      by_cases hfd2 : forward = true ∧ deletes ≠ []
      · rw [if_pos hfd2]
        exact ⟨hsb, fun h => by simp at h⟩
      · rw [if_neg hfd2]
        have hdel : forward = false ∨ deletes = [] := by
          by_cases hf : forward = true
          · right
            by_contra hne
            exact hfd2 ⟨hf, hne⟩
          · left
            simpa using hf
        refine loopOk_induct_mem WriteState.outcome (handleDelete faults)
          (WriteInv ids s peb) deletes ?_ ⟨.ok, bumpBatchSequence r.sm, r.batch, r.stamped⟩ rfl
          ⟨hsb, fun _ => hputs.2 hr⟩
        intro st k hk hst h
        have hkr : inDedupRange ids s.shardID k = false := by
          rcases hdel with hf | hnil
          · exact (hkeys hf).2 k hk
          · rw [hnil] at hk
            simp at hk
        exact handleDelete_inv faults ids s peb st k hfd hkr h hst
    · rw [if_neg hr]
      exact hputs

theorem handleEntry_inv (faults : KVFaults) (ids : TableIDs) (s : ShardOnDiskStateMachine)
    (peb : Store) (st : WriteState × Bool) (entry : Entry)
    (hids : ids.Distinct) (hfd : ids.ForwardDedupTableID + 1 < 2 ^ 64)
    (hwr : entry.Cmd.head? = some shardStateMachineCommandWrite → ∀ puts deletes,
      deserializeWriteBatch s entry.Cmd 1 false = some (puts, deletes) →
        (∀ p ∈ puts, inDedupRange ids s.shardID p.Key = false) ∧
        ∀ k ∈ deletes, inDedupRange ids s.shardID k = false)
    (hw : WriteInv ids s peb st.1) (hwok : st.1.outcome = .ok) :
    WriteInv ids s peb (handleEntry faults ids st entry).1 := by
  have h1 := handleWrite_inv faults ids true s peb st.1 entry.Cmd hids hfd
    (fun hf => by simp at hf) hw hwok
  unfold handleEntry
  cases hc : entry.Cmd.head? with
  | none => exact ⟨hw.1, fun h => by simp at h⟩
  | some command =>
    simp only []
    by_cases hfw : command = shardStateMachineCommandForwardWrite
    · rw [if_pos hfw]
      split_ifs
      · exact h1
      · exact h1
    · rw [if_neg hfw]
      by_cases hcw : command = shardStateMachineCommandWrite
      · rw [if_pos hcw]
        rw [hc, hcw] at hwr
        exact handleWrite_inv faults ids false s peb st.1 entry.Cmd hids hfd
          (fun _ => hwr rfl) hw hwok
      · rw [if_neg hcw]
        exact ⟨hw.1, fun h => by simp at h⟩

/-- A call of `Update` that succeeds on a store that agrees with the dedup cache leaves a
store that agrees with the dedup cache. -/
theorem Update_inv (faults : KVFaults) (ids : TableIDs) (s : ShardOnDiskStateMachine)
    (peb : Store) (entries : List Entry) (hids : ids.Distinct)
    (hfd : ids.ForwardDedupTableID + 1 < 2 ^ 64) (hwr : WritesAvoidDedupTable ids s entries)
    (hinv : DedupInv ids s.shardID peb s.dedupSequences)
    (hok : (Update faults ids s peb entries).outcome = .ok) :
    SameShard s (Update faults ids s peb entries).sm ∧
    DedupInv ids s.shardID (Update faults ids s peb entries).peb
      (Update faults ids s peb entries).sm.dedupSequences := by
  obtain ⟨hlok, hsm, -, -, hpeb, last, -, hbatch⟩ := Update_ok faults ids s peb entries hok
  have hloop : WriteInv ids s peb (updateEntries faults ids s entries).1 := by
    unfold updateEntries
    exact loopOk_induct_mem (fun st : WriteState × Bool => st.1.outcome)
      (handleEntry faults ids) (fun st => WriteInv ids s peb st.1) entries
      (fun st e he hst h => handleEntry_inv faults ids s peb st e hids hfd (hwr e he) h hst)
      (⟨.ok, s, [], []⟩, false) rfl ⟨SameShard.refl s, fun _ => hinv⟩
  rw [hpeb, hbatch, hsm, applyBatch_append]
  refine ⟨hloop.1, ?_⟩
  have hout : inDedupRange ids s.shardID
      (EncodeTableKeyPrefix ids.LastLogIndexReceivedTableID s.shardID 16) = false := by
    have := inDedupRange_otherTable ids ids.LastLogIndexReceivedTableID s.shardID 16 [] hfd
      hids.2.2.1 (fun h => hids.2.2.2.2.2 h.symm)
    rw [List.append_nil] at this
    exact this
  have h0 := hloop.2 hlok
  have h1 := DedupInv_set_outside ids s.shardID _ _ _ [] hfd hout h0
  exact DedupInv_set_outside ids s.shardID _ _ _ _ hfd hout h1

theorem WritesAvoidDedupTable_sameShard (ids : TableIDs) (s s1 : ShardOnDiskStateMachine)
    (entries : List Entry) (hs : SameShard s s1) (h : WritesAvoidDedupTable ids s entries) :
    WritesAvoidDedupTable ids s1 entries := by
  intro e he hc puts deletes hdes
  rw [deserializeWriteBatch_local s1 s] at hdes
  rw [hs.1]
  exact h e he hc puts deletes hdes

/-- A sequence of successful calls of `Update` keeps the store and the dedup cache in
agreement. -/
theorem runUpdates_inv (ids : TableIDs) (hids : ids.Distinct)
    (hfd : ids.ForwardDedupTableID + 1 < 2 ^ 64) (calls : List (KVFaults × List Entry)) :
    ∀ (s : ShardOnDiskStateMachine) (peb : Store) (s2 : ShardOnDiskStateMachine) (peb2 : Store)
      (keys : List Bytes),
      (∀ call ∈ calls, WritesAvoidDedupTable ids s call.2) →
      DedupInv ids s.shardID peb s.dedupSequences →
      runUpdates ids s peb calls = some (s2, peb2, keys) →
      SameShard s s2 ∧ DedupInv ids s.shardID peb2 s2.dedupSequences := by
  induction calls with
  | nil =>
    intro s peb s2 peb2 keys _ hinv hrun
    simp only [runUpdates, Option.some.injEq, Prod.mk.injEq] at hrun
    rw [← hrun.1, ← hrun.2.1]
    exact ⟨SameShard.refl s, hinv⟩
  | cons call rest ih =>
    intro s peb s2 peb2 keys hwr hinv hrun
    simp only [runUpdates] at hrun
    by_cases hok : (Update call.1 ids s peb call.2).outcome = .ok
    · rw [if_pos hok] at hrun
      obtain ⟨hs1, hinv1⟩ := Update_inv call.1 ids s peb call.2 hids hfd
        (hwr call (List.mem_cons_self _ _)) hinv hok
      cases hr : runUpdates ids (Update call.1 ids s peb call.2).sm
          (Update call.1 ids s peb call.2).peb rest with
      | none => simp [hr] at hrun
      | some r =>
        obtain ⟨s3, peb3, keys3⟩ := r
        simp only [hr, Option.some.injEq, Prod.mk.injEq] at hrun
        rw [← hs1.1] at hinv1
        have := ih _ _ s3 peb3 keys3
          (fun c hc => WritesAvoidDedupTable_sameShard ids s _ c.2 hs1
            (hwr c (List.mem_cons_of_mem _ hc))) hinv1 hr
        rw [hs1.1, hrun.1, hrun.2.1] at this
        exact ⟨hs1.trans this.1, this.2⟩
    · rw [if_neg hok] at hrun
      simp at hrun

/-! ## Rebuilding the dedup cache -/

theorem mem_insertByKey (p x : Bytes × Bytes) (l : List (Bytes × Bytes)) :
    x ∈ insertByKey p l ↔ x = p ∨ x ∈ l := by
  induction l with
  | nil => simp [insertByKey]
  | cons q rest ih =>
    simp only [insertByKey]
    by_cases h : bytesLt q.1 p.1 = true
    · rw [if_pos h]
      simp only [List.mem_cons, ih]
      tauto
    · rw [if_neg h]
      simp only [List.mem_cons]

theorem mem_foldr_insertByKey (x : Bytes × Bytes) (l : List (Bytes × Bytes)) :
    x ∈ l.foldr insertByKey [] ↔ x ∈ l := by
  induction l with
  | nil => simp
  | cons q rest ih => simp only [List.foldr_cons, mem_insertByKey, ih, List.mem_cons]

/-- The pairs that the scan of `loadDedupCache` returns are the rows of the store in the
ForwardDedup range of the shard. -/
theorem LocalScan_mem (faults : KVFaults) (ids : TableIDs) (shardID : Nat) (peb : Store)
    (hscan : faults.scanFails = false) :
    ∃ pairs, LocalScan faults peb (EncodeTableKeyPrefix ids.ForwardDedupTableID shardID 16)
        (EncodeTableKeyPrefix (ids.ForwardDedupTableID + 1) shardID 16) = some pairs ∧
      ∀ kv, kv ∈ pairs ↔ ((kv.Key, kv.Value) ∈ peb ∧ inDedupRange ids shardID kv.Key = true) := by
  unfold LocalScan
  rw [hscan]
  simp only [Bool.false_eq_true, if_false]
  refine ⟨_, rfl, fun kv => ?_⟩
  simp only [List.mem_map, mem_foldr_insertByKey, List.mem_filter, inDedupRange]
  constructor
  · rintro ⟨p, ⟨hp, hr⟩, rfl⟩
    exact ⟨hp, hr⟩
  · rintro ⟨hp, hr⟩
    exact ⟨(kv.Key, kv.Value), ⟨hp, hr⟩, rfl⟩

/-- The loop of `loadDedupCache` over rows that agree with a cache ends normally with a
map that is part of the cache and has an entry for the originator of every row. -/
theorem loadDedupPairs_spec (pfx : Bytes) (hpfx : pfx.length = 16) (cache : List (Bytes × Nat))
    (pairs : List KVPair) :
    ∀ (m0 : List (Bytes × Nat)),
      (∀ kv ∈ pairs, ∃ o, kv.Key = pfx ++ o ∧ o.length = 16 ∧ kv.Value.length = 8 ∧
        kvGet o cache = some (beVal kv.Value)) →
      (∀ o seq, kvGet o m0 = some seq → kvGet o cache = some seq) →
      ∃ m, loadDedupPairs m0 pairs = some m ∧
        (∀ o seq, kvGet o m = some seq → kvGet o cache = some seq) ∧
        (∀ o, ((kvGet o m0).isSome = true ∨ ∃ kv ∈ pairs, kv.Key = pfx ++ o) →
          (kvGet o m).isSome = true) := by
  induction pairs with
  | nil =>
    intro m0 _ hm0
    refine ⟨m0, rfl, hm0, fun o h => ?_⟩
    rcases h with h | ⟨kv, hkv, _⟩
    · exact h
    · simp at hkv
  | cons kv rest ih =>
    intro m0 hrows hm0
    obtain ⟨o, hkey, ho, hval, hc⟩ := hrows kv (List.mem_cons_self _ _)
    have hlen : ¬ kv.Key.length < 32 := by
      rw [hkey, List.length_append, hpfx, ho]
      omega
    have hoid : (kv.Key.drop 16).take 16 = o := by
      rw [hkey, List.drop_left' hpfx, List.take_of_length_le (le_of_eq ho)]
    have hread : ReadUint64FromBufferBE kv.Value 0 = some (beVal kv.Value, 8) := by
      unfold ReadUint64FromBufferBE
      rw [if_pos (by omega), List.drop_zero, List.take_of_length_le (le_of_eq hval)]
    have hm1 : ∀ o1 seq, kvGet o1 (kvSet o (beVal kv.Value) m0) = some seq →
        kvGet o1 cache = some seq := by
      intro o1 seq h
      by_cases heq : o1 = o
      · rw [heq, kvGet_kvSet_self] at h
        rw [heq, hc, h]
      · rw [kvGet_kvSet_ne _ _ _ _ heq] at h
        exact hm0 o1 seq h
    obtain ⟨m, hm, hsub, hall⟩ := ih (kvSet o (beVal kv.Value) m0)
      (fun kv1 h1 => hrows kv1 (List.mem_cons_of_mem _ h1)) hm1
    refine ⟨m, ?_, hsub, fun o1 h => ?_⟩
    · simp only [loadDedupPairs, if_neg hlen, hread, hoid]
      exact hm
    · apply hall o1
      by_cases heq : o1 = o
      · left
        rw [heq, kvGet_kvSet_self]
        rfl
      · rcases h with h | ⟨kv1, hkv1, hk1⟩
        · left
          rw [kvGet_kvSet_ne _ _ _ _ heq]
          exact h
        · rcases List.mem_cons.mp hkv1 with h2 | h2
          · exfalso
            rw [h2, hkey] at hk1
            exact heq (List.append_cancel_left hk1).symm
          · right
            exact ⟨kv1, h2, hk1⟩

/-- On a store that agrees with the dedup cache, `loadDedupCache` rebuilds a map with the
same originators and the same sequences as the cache. -/
theorem loadDedupCache_of_inv (faults : KVFaults) (ids : TableIDs)
    (s : ShardOnDiskStateMachine) (peb : Store) (cache : List (Bytes × Nat))
    (hfd : ids.ForwardDedupTableID + 1 < 2 ^ 64) (hscan : faults.scanFails = false)
    (hinv : DedupInv ids s.shardID peb cache) :
    ∃ m, loadDedupCache faults ids s peb = (.ok, { s with dedupSequences := m }) ∧
      ∀ o, kvGet o m = kvGet o cache := by
  obtain ⟨pairs, hpairs, hmem⟩ := LocalScan_mem faults ids s.shardID peb hscan
  obtain ⟨m, hm, hsub, hall⟩ := loadDedupPairs_spec
    (EncodeTableKeyPrefix ids.ForwardDedupTableID s.shardID 16)
    (EncodeTableKeyPrefix_length _ _ _) cache pairs []
    (fun kv hkv => hinv.1 (kv.Key, kv.Value) ((hmem kv).mp hkv).1 ((hmem kv).mp hkv).2)
    (fun o seq h => by simp [kvGet] at h)
  refine ⟨m, ?_, fun o => ?_⟩
  · unfold loadDedupCache
    simp only [hpairs, hm]
  · cases hc : kvGet o cache with
    | none =>
      cases hg : kvGet o m with
      | none => rfl
      | some seq =>
        have := hsub o seq hg
        rw [hc] at this
        exact absurd this (by simp)
    | some seq =>
      obtain ⟨v, hv⟩ := hinv.2 o seq hc
      have hin : (⟨EncodeTableKeyPrefix ids.ForwardDedupTableID s.shardID 16 ++ o, v⟩ : KVPair)
          ∈ pairs :=
        (hmem _).mpr ⟨kvGet_mem _ _ _ hv, inDedupRange_dedupKey ids s.shardID 16 o hfd⟩
      have hsome := hall o (Or.inr ⟨_, hin, rfl⟩)
      cases hg : kvGet o m with
      | none => rw [hg] at hsome; simp at hsome
      | some seq1 =>
        have := hsub o seq1 hg
        rw [hc] at this
        exact this.symm

/-- A local write straight into the ForwardDedup table: the call succeeds, the dedup cache
stays empty, and `loadDedupCache` rebuilds a map with an entry for the originator
`0x02 × 16`. -/
theorem dedup_row_written_by_local_write :
    (runUpdates demoIds demoShard [] [(noFaults, [demoDedupTableWrite])]).map
        (fun r => (r.1.dedupSequences, (loadDedupCache noFaults demoIds r.1 r.2.1).1,
          (loadDedupCache noFaults demoIds r.1 r.2.1).2.dedupSequences))
      = some ([], Outcome.ok, [(List.replicate 16 2, 7)]) := by
  decide

/-- C14 (amended): with distinct reserved table ids, starting from an empty store and an
empty dedup cache, after every sequence of successful calls of `Update` in which no
`WRITE` entry puts or deletes a key in the ForwardDedup range of the shard,
`loadDedupCache` (with a scan that does not fail) ends normally and rebuilds a map with the
same originators and the same sequences as the in-memory dedup cache. -/
theorem dedup_cache_rebuilt (faults : KVFaults) (ids : TableIDs) (s : ShardOnDiskStateMachine)
    (calls : List (KVFaults × List Entry)) (s2 : ShardOnDiskStateMachine) (peb2 : Store)
    (keys : List Bytes) (hids : ids.Distinct) (hfd : ids.ForwardDedupTableID + 1 < 2 ^ 64)
    (hcache : s.dedupSequences = [])
    (hwr : ∀ call ∈ calls, WritesAvoidDedupTable ids s call.2)
    (hrun : runUpdates ids s [] calls = some (s2, peb2, keys))
    (hscan : faults.scanFails = false) :
    ∃ m, loadDedupCache faults ids s2 peb2 = (.ok, { s2 with dedupSequences := m }) ∧
      ∀ o, kvGet o m = kvGet o s2.dedupSequences := by
  have h0 : DedupInv ids s.shardID [] s.dedupSequences := by
    rw [hcache]
    exact ⟨fun p hp => by simp at hp, fun o seq h => by simp [kvGet] at h⟩
  obtain ⟨hs2, hinv⟩ := runUpdates_inv ids hids hfd calls s [] s2 peb2 keys hwr h0 hrun
  rw [← hs2.1] at hinv
  exact loadDedupCache_of_inv faults ids s2 peb2 s2.dedupSequences hfd hscan hinv

/-- The two calls of the examples: a forwarded put that is recorded in the cache and in
the ForwardDedup table, then a local write outside that table. -/
theorem dedup_cache_rebuilt_witness :
    runUpdates demoIds demoShard [] demoDedupCalls
        = some (demoDedupShard, demoDedupStore, [demoReceiverKey]) ∧
    ∃ m, loadDedupCache noFaults demoIds demoDedupShard demoDedupStore
        = (.ok, { demoDedupShard with dedupSequences := m }) ∧
      ∀ o, kvGet o m = kvGet o demoDedupShard.dedupSequences :=
  ⟨by decide,
    dedup_cache_rebuilt noFaults demoIds demoShard demoDedupCalls demoDedupShard demoDedupStore
      [demoReceiverKey] (by unfold TableIDs.Distinct; decide) (by decide) rfl
      (by
        intro call hcall e he hc puts deletes hdes
        simp only [demoDedupCalls, List.mem_cons, List.mem_singleton, List.not_mem_nil,
          or_false] at hcall
        rcases hcall with hcall | hcall
        · subst hcall
          simp only [List.mem_singleton] at he
          subst he
          exact absurd hc (by decide)
        · subst hcall
          simp only [List.mem_singleton] at he
          subst he
          have hd : deserializeWriteBatch demoShard demoWriteEntry.Cmd 1 false
              = some ([⟨beBytes 8 13 ++ [1], [2]⟩], [beBytes 8 13 ++ [3]]) := by decide
          rw [hd] at hdes
          simp only [Option.some.injEq, Prod.mk.injEq] at hdes
          rw [← hdes.1, ← hdes.2]
          decide)
      (by decide) rfl⟩

/-! ## Counting and failing in the execution-context cache -/

/-- The counter of `NumCachedExecCtxs` stops at the first entry. -/
theorem NumCachedExecCtxs_eq (p : Engine) :
    p.NumCachedExecCtxs = if p.queryExecCtxCache = [] then 0 else 1 := by
  unfold Engine.NumCachedExecCtxs
  cases p.queryExecCtxCache with
  | nil => rfl
  | cons e rest =>
    obtain ⟨k, v⟩ := e
    simp [mapRange]

/-- C27: on a cache with three entries `NumCachedExecCtxs` returns 1: the callback that it
passes to `Range` returns `false`, which ends the iteration after the first entry. -/
theorem numCachedExecCtxs_of_three_entries :
    demoCache.length = 3 ∧
    (⟨true, demoCache, 5, true⟩ : Engine).NumCachedExecCtxs = 1 := by
  decide

/-- C26: a call for a cached execution id whose remote DAG fails returns the error and
leaves the entry of the id in the cache, with its current query cleared. -/
theorem failed_fetch_leaves_cleared_context :
    ExecuteRemotePullQuery (demoDag 25) demoFailingEngine (demoQuery 10 true)
      = (⟨true, [(['5', '-', 'a', 'b'], ⟨['5', '-', 'a', 'b'], demoQuery 10 true, none⟩)],
          5, true⟩, .error .getRowsFailed) ∧
    (ExecuteRemotePullQuery (demoDag 25)
      (ExecuteRemotePullQuery (demoDag 25) demoFailingEngine (demoQuery 10 true)).1
      (demoQuery 10 true)).2 = .panics := by
  decide

/-- C30: for the options column `a`, primary key `a`, column `b`, primary key `b`,
`getSourceInfo` succeeds with the column names `a`, `b` and the primary-key columns 0 and
2: the second entry is the position of the column `b` among the options, which is no index
into the column names. -/
theorem primaryKeyCols_are_option_positions :
    (match getSourceInfo demoEncodings id ['x'] [100] demoInterleavedSource with
      | .ok info => some (info.TableInfo.ColumnNames, info.TableInfo.PrimaryKeyCols)
      | .error _ => none) = some ([['a'], ['b']], [0, 2]) := by
  rfl

/-! ## The planner's view of a schema -/

/-- The flag loop of `schemaToInfoSchema` compares the column index with the positions of
the primary-key list, so the flag is set exactly for the first `len(PrimaryKeyCols)`
columns. -/
theorem columnFlag_eq (PrimaryKeyCols : List Nat) (columnIndex : Nat) :
    columnFlag PrimaryKeyCols columnIndex
      = if columnIndex < PrimaryKeyCols.length then mysql.PriKeyFlag else 0 := by
  unfold columnFlag
  have h : (List.range PrimaryKeyCols.length).any (fun pkIndex => decide (columnIndex = pkIndex))
      = decide (columnIndex < PrimaryKeyCols.length) := by
    rw [Bool.eq_iff_iff]
    simp [List.any_eq_true]
  rw [h]
  by_cases hlt : columnIndex < PrimaryKeyCols.length
  · simp [hlt]
  · simp [hlt]

/-- C28: for a table with the columns `a` (index 0) and `b` (index 1) whose
`PrimaryKeyCols` is `[1]`, the info schema gives the primary-key flag to the column `a` and
not to the column `b`. -/
theorem primary_key_flag_on_wrong_column :
    (schemaToInfoSchema demoConvert ['t', 'e', 's', 't'] [demoTableInfo ['o', 'r', 'd']]).map
        (fun pis =>
          match pis.TableByName (model.NewCIStr ['t', 'e', 's', 't'])
              (model.NewCIStr ['o', 'r', 'd']) with
          | .ok t => t.Columns.map (fun c => (c.Name.O, c.Offset, c.Flag))
          | .error _ => [])
      = some [(['a'], 0, mysql.PriKeyFlag), (['b'], 1, 0)] := by
  decide

/-- C29: the info schema built for the schema `test` with the table `Ord` has no table
under the name that `TableByName` looks up, the lower-case form `ord`: the call with the
names of the schema and of the table returns the table-not-exists error. -/
theorem tableByName_misses_mixed_case_name :
    (schemaToInfoSchema demoConvert ['t', 'e', 's', 't'] [demoTableInfo ['O', 'r', 'd']]).map
        (fun pis =>
          (pis.schemaMap.map (fun e => (e.1, e.2.tables.map (fun t => t.1))),
            match pis.TableByName (model.NewCIStr ['t', 'e', 's', 't'])
              (model.NewCIStr ['O', 'r', 'd']) with
            | .ok _ => none
            | .error e => some e))
      = some ([(['t', 'e', 's', 't'], [['O', 'r', 'd']])],
          some ⟨⟨['t', 'e', 's', 't'], ['t', 'e', 's', 't']⟩, ⟨['O', 'r', 'd'], ['o', 'r', 'd']⟩⟩) := by
  decide

/-! ## Phase 2 of the create-materialized-view command -/

/-- C23: `onPhase2` waits for the schedulers, registers the MV in the push engine,
registers it in the in-memory catalog and checks the failpoint `create_mv_2`, in this
order.  When one of the four returns an error, `onPhase2` has called nothing after it,
returns that error and leaves the rows of the to-delete table in place; only when all four
have succeeded does it call `RemoveToDeleteBatch`, whose result it returns. -/
theorem toDelete_removed_after_all_steps (env : Phase2Env) (toDeleteBatch : List Bytes)
    (w : MVWorld) :
    match firstFailure env phase2Checks with
    | some (done, step, err) =>
      onPhase2 env toDeleteBatch w = (⟨w.toDelete, w.calls ++ done ++ [step]⟩, some err) ∧
      Phase2Step.RemoveToDeleteBatch ∉ done ++ [step]
    | none =>
      onPhase2 env toDeleteBatch w
        = (⟨(env.RemoveToDeleteBatch toDeleteBatch w.toDelete).1,
            w.calls ++ phase2Checks ++ [.RemoveToDeleteBatch]⟩,
          (env.RemoveToDeleteBatch toDeleteBatch w.toDelete).2) := by
  unfold phase2Checks firstFailure firstFailure firstFailure firstFailure firstFailure onPhase2
  simp only [Phase2Env.errorOf]
  cases h1 : env.WaitForSchedulers with
  | some e1 => simp
  | none =>
    cases h2 : env.RegisterMV with
    | some e2 => simp
    | none =>
      cases h3 : env.RegisterMaterializedView with
      | some e3 => simp
      | none =>
        cases h4 : env.CheckFail with
        | some e4 => simp
        | none => simp

/-! ## Failing calls and recovery -/

/-- A forwarded put whose commit fails: `Update` returns the error and commits nothing,
but the receiver sequence, the batch sequence and the dedup cache have moved on; the retry
of the same entry then skips the put as a duplicate and writes no Receiver row, while the
first attempt would have written one. -/
theorem failed_commit_keeps_memory_changes :
    (Update commitFails demoIds demoShard [] [⟨7, demoForwardCmd 1⟩]).outcome = .err ∧
    (Update commitFails demoIds demoShard [] [⟨7, demoForwardCmd 1⟩]).peb = [] ∧
    (demoShard.receiverSequence, demoShard.batchSequence, demoShard.dedupSequences)
      = (0, 0, []) ∧
    ((Update commitFails demoIds demoShard [] [⟨7, demoForwardCmd 1⟩]).sm.receiverSequence,
      (Update commitFails demoIds demoShard [] [⟨7, demoForwardCmd 1⟩]).sm.batchSequence,
      (Update commitFails demoIds demoShard [] [⟨7, demoForwardCmd 1⟩]).sm.dedupSequences)
      = (1, 1, [(List.replicate 16 1, 7)]) ∧
    (Update noFaults demoIds
      (Update commitFails demoIds demoShard [] [⟨7, demoForwardCmd 1⟩]).sm [] 
      [⟨7, demoForwardCmd 1⟩]).stamped = [] ∧
    (Update noFaults demoIds demoShard [] [⟨7, demoForwardCmd 1⟩]).stamped.length = 1 := by
  decide

/-- C24 (amended): a call of `Update` that does not succeed commits nothing and does not
signal the shard listener, and the state machine stays the one of the shard; its in-memory
receiver sequence, batch sequence and dedup cache are not restored but are those that the
loop over the entries left behind, and when the failure comes after that loop the batch
sequence has advanced by the number of entries. -/
theorem failed_update_commits_nothing (faults : KVFaults) (ids : TableIDs)
    (s : ShardOnDiskStateMachine) (peb : Store) (entries : List Entry)
    (h : (Update faults ids s peb entries).outcome ≠ .ok) :
    (Update faults ids s peb entries).peb = peb ∧
    (Update faults ids s peb entries).signalled = false ∧
    SameShard s (Update faults ids s peb entries).sm ∧
    (Update faults ids s peb entries).sm = (updateEntries faults ids s entries).1.sm ∧
    ((updateEntries faults ids s entries).1.outcome = .ok →
      (Update faults ids s peb entries).sm.batchSequence % 2 ^ 32
        = (s.batchSequence + entries.length) % 2 ^ 32) := by
  have hsm : (Update faults ids s peb entries).sm = (updateEntries faults ids s entries).1.sm := by
    unfold Update
    rcases hu : updateEntries faults ids s entries with ⟨⟨o, s1, b, st⟩, hf⟩
    cases o
    · simp only []
      cases hl : entries.getLast? with
      | none => rfl
      | some last =>
        simp only []
        by_cases h1 : faults.opFails b.length = true
        · rw [if_pos h1]
        · rw [if_neg h1]
          cases hws : writeSequences faults ids (b ++ [BatchOp.set
              (EncodeTableKeyPrefix ids.LastLogIndexReceivedTableID s1.shardID 16) []])
              last.Index s1.receiverSequence s1.batchSequence s1.shardID with
          | none => rfl
          | some b2 =>
            simp only []
            by_cases h3 : faults.applyFails = true
            · rw [if_pos h3]
            · rw [if_neg h3]
    · rfl
    · rfl
  have hfr := updateEntries_frame faults ids s entries
  refine ⟨(Update_not_ok faults ids s peb entries h).1,
    (Update_not_ok faults ids s peb entries h).2, ?_, hsm, fun hok => ?_⟩
  · rw [hsm]
    exact hfr.1
  · rw [hsm]
    exact (hfr.2 hok).1

/-- The failing commit of the examples: one entry, and the batch sequence has gone from 0
to 1. -/
theorem failed_update_commits_nothing_witness :
    (Update commitFails demoIds demoShard [] [⟨7, demoForwardCmd 1⟩]).outcome ≠ .ok ∧
    (Update commitFails demoIds demoShard [] [⟨7, demoForwardCmd 1⟩]).peb = [] ∧
    (Update commitFails demoIds demoShard [] [⟨7, demoForwardCmd 1⟩]).signalled = false ∧
    SameShard demoShard (Update commitFails demoIds demoShard [] [⟨7, demoForwardCmd 1⟩]).sm ∧
    (Update commitFails demoIds demoShard [] [⟨7, demoForwardCmd 1⟩]).sm
      = (updateEntries commitFails demoIds demoShard [⟨7, demoForwardCmd 1⟩]).1.sm ∧
    ((updateEntries commitFails demoIds demoShard [⟨7, demoForwardCmd 1⟩]).1.outcome = .ok →
      (Update commitFails demoIds demoShard [] [⟨7, demoForwardCmd 1⟩]).sm.batchSequence % 2 ^ 32
        = (demoShard.batchSequence + [(⟨7, demoForwardCmd 1⟩ : Entry)].length) % 2 ^ 32) :=
  ⟨by decide,
    failed_update_commits_nothing commitFails demoIds demoShard [] [⟨7, demoForwardCmd 1⟩]
      (by decide)⟩

/-- C25: `RecoverFromSnapshot` on a shard with receiver sequence 0 and batch sequence 0,
with a snapshot whose LastLogIndexReceived row holds the receiver sequence 5 and the batch
sequence 3, succeeds and leaves the in-memory sequences at 0 and 0; `Open` on the same
store loads 5 and 3. -/
theorem recover_keeps_stale_sequences :
    (RecoverFromSnapshot noFaults demoIds demoRestore demoShard []).outcome = .ok ∧
    (RecoverFromSnapshot noFaults demoIds demoRestore demoShard []).peb = demoSnapshotStore ∧
    loadSequences noFaults demoIds demoSnapshotStore 13 = (.ok, 9, 5, 3) ∧
    ((RecoverFromSnapshot noFaults demoIds demoRestore demoShard []).sm.receiverSequence,
      (RecoverFromSnapshot noFaults demoIds demoRestore demoShard []).sm.batchSequence)
      = (0, 0) ∧
    ((Open noFaults demoIds demoShard demoSnapshotStore).2.1.receiverSequence,
      (Open noFaults demoIds demoShard demoSnapshotStore).2.1.batchSequence) = (5, 3) := by
  decide

/-! ## The state holders of the aggregator -/

theorem map_modifyAt {α β : Type} (f : α → α) (g : α → β) (hg : ∀ x, g (f x) = g x) :
    ∀ (i : Nat) (l : List α), (modifyAt f i l).map g = l.map g := by
  intro i l
  induction l generalizing i with
  | nil => cases i <;> rfl
  | cons x xs ih =>
    cases i with
    | zero => simp [modifyAt, hg]
    | succ n => simp [modifyAt, ih]

theorem getElem?_modifyAt {α : Type} (f : α → α) :
    ∀ (i j : Nat) (l : List α),
      (modifyAt f i l)[j]? = if j = i then (l[j]?).map f else l[j]? := by
  intro i j l
  induction l generalizing i j with
  | nil => cases i <;> simp [modifyAt]
  | cons x xs ih =>
    cases i with
    | zero =>
      cases j with
      | zero => simp [modifyAt]
      | succ m => simp [modifyAt]
    | succ n =>
      cases j with
      | zero => simp [modifyAt]
      | succ m => simp [modifyAt, ih]

theorem forall_mem_modifyAt {α : Type} (f : α → α) (P : α → Prop) (hf : ∀ x, P x → P (f x)) :
    ∀ (i : Nat) (l : List α), (∀ x ∈ l, P x) → ∀ x ∈ modifyAt f i l, P x := by
  intro i l
  induction l generalizing i with
  | nil => intro _ x hx; cases i <;> simp [modifyAt] at hx
  | cons y ys ih =>
    intro h x hx
    cases i with
    | zero =>
      simp only [modifyAt, List.mem_cons] at hx
      rcases hx with hx | hx
      · rw [hx]; exact hf y (h y (List.mem_cons_self _ _))
      · exact h x (List.mem_cons_of_mem _ hx)
    | succ n =>
      simp only [modifyAt, List.mem_cons] at hx
      rcases hx with hx | hx
      · rw [hx]; exact h y (List.mem_cons_self _ _)
      · exact ih n (fun z hz => h z (List.mem_cons_of_mem _ hz)) x hx

/-- A change of a holder that keeps its key keeps the agreement of map and slice. -/
theorem HoldersOk_modify {σ : Type} (hs : stateHolders σ) (i : Nat)
    (f : aggStateHolder σ → aggStateHolder σ) (hf : ∀ h, (f h).keyBytes = h.keyBytes)
    (hok : HoldersOk hs) : HoldersOk (hs.modify i f) := by
  refine ⟨fun k j hk => ?_, fun k hk => ?_⟩
  · obtain ⟨h, hh, hkey⟩ := hok.1 k j hk
    show ∃ h, (modifyAt f i hs.holders)[j]? = some h ∧ h.keyBytes = k
    rw [getElem?_modifyAt]
    by_cases hji : j = i
    · rw [if_pos hji, hh]
      exact ⟨f h, rfl, (hf h).trans hkey⟩
    · rw [if_neg hji]
      exact ⟨h, hh, hkey⟩
  · show k ∉ (modifyAt f i hs.holders).map (fun h => h.keyBytes)
    rw [map_modifyAt f (fun h => h.keyBytes) hf]
    exact hok.2 k hk

theorem keys_modify {σ : Type} (hs : stateHolders σ) (i : Nat)
    (f : aggStateHolder σ → aggStateHolder σ) (hf : ∀ h, (f h).keyBytes = h.keyBytes) :
    (hs.modify i f).holders.map (fun h => h.keyBytes) = hs.holders.map (fun h => h.keyBytes) :=
  map_modifyAt f (fun h => h.keyBytes) hf i hs.holders

theorem modifyAt_length_append {α : Type} (f : α → α) (x : α) :
    ∀ l : List α, modifyAt f l.length (l ++ [x]) = l ++ [f x] := by
  intro l
  induction l with
  | nil => rfl
  | cons y ys ih => simp [modifyAt, ih]

/-- A holder for a key without holder, added at the end, keeps the agreement of map and
slice. -/
theorem HoldersOk_append {σ : Type} (hs : stateHolders σ) (k : Bytes) (h : aggStateHolder σ)
    (hk : h.keyBytes = k) (hok : HoldersOk hs) :
    HoldersOk (⟨kvSet k hs.holders.length hs.holdersMap, hs.holders ++ [h]⟩ : stateHolders σ) := by
  refine ⟨fun k1 j hk1 => ?_, fun k1 hk1 => ?_⟩
  · by_cases heq : k1 = k
    · rw [heq, kvGet_kvSet_self] at hk1
      simp only [Option.some.injEq] at hk1
      rw [← hk1, heq]
      refine ⟨h, ?_, hk⟩
      show (hs.holders ++ [h])[hs.holders.length]? = some h
      simp
    · rw [kvGet_kvSet_ne _ _ _ _ heq] at hk1
      obtain ⟨hh, hj, hkey⟩ := hok.1 k1 j hk1
      refine ⟨hh, ?_, hkey⟩
      have hlt : j < hs.holders.length := by
        by_contra hge
        rw [List.getElem?_eq_none (by omega)] at hj
        exact absurd hj (by simp)
      show (hs.holders ++ [h])[j]? = some hh
      rw [List.getElem?_append_left hlt]
      exact hj
  · by_cases heq : k1 = k
    · rw [heq, kvGet_kvSet_self] at hk1
      exact absurd hk1 (by simp)
    · rw [kvGet_kvSet_ne _ _ _ _ heq] at hk1
      have := hok.2 k1 hk1
      show k1 ∉ (hs.holders ++ [h]).map (fun h => h.keyBytes)
      simp only [List.map_append, List.map_cons, List.map_nil, List.mem_append,
        List.mem_singleton, hk]
      rintro (hm | hm)
      · exact this hm
      · exact heq hm

/-- What `loadAggregateState` does to the holders: the holder of a key that has one is
found, a new key gets a holder at the end, loaded from the storage. -/
theorem loadAggregateState_spec {σ : Type} (env : AggEnv σ) (a : Aggregator) (k : Bytes)
    (hs hs1 : stateHolders σ) (i : Nat) (hok : HoldersOk hs)
    (hld : ∀ h ∈ hs.holders, HolderLoaded env a h)
    (h : loadAggregateState env a k hs = some (i, hs1)) :
    HoldersOk hs1 ∧ (∀ h ∈ hs1.holders, HolderLoaded env a h) ∧
    hs1.holders.map (fun h => h.keyBytes) = addKey (hs.holders.map (fun h => h.keyBytes)) k := by
  unfold loadAggregateState at h
  cases hget : kvGet k hs.holdersMap with
  | some j =>
    simp only [hget, Option.some.injEq, Prod.mk.injEq] at h
    rw [← h.2]
    refine ⟨hok, hld, ?_⟩
    obtain ⟨hh, hj, hkey⟩ := hok.1 k j hget
    have hmem : k ∈ hs.holders.map (fun h => h.keyBytes) := by
      rw [List.mem_map]
      exact ⟨hh, List.getElem?_mem hj, hkey⟩
    simp only [addKey, if_pos hmem]
  | none =>
    have hnot := hok.2 k hget
    simp only [hget, stateHolders.modify, modifyAt_length_append] at h
    have hfin : ∀ h1 : aggStateHolder σ, h1.keyBytes = k → HolderLoaded env a h1 →
        hs1 = ⟨kvSet k hs.holders.length hs.holdersMap, hs.holders ++ [h1]⟩ →
        HoldersOk hs1 ∧ (∀ h ∈ hs1.holders, HolderLoaded env a h) ∧
        hs1.holders.map (fun h => h.keyBytes)
          = addKey (hs.holders.map (fun h => h.keyBytes)) k := by
      intro h1 hk1 hl1 heq
      rw [heq]
      refine ⟨HoldersOk_append hs k h1 hk1 hok, fun h2 hm => ?_, ?_⟩
      · rcases List.mem_append.mp hm with hm | hm
        · exact hld h2 hm
        · rw [List.mem_singleton] at hm
          rw [hm]
          exact hl1
      · simp only [addKey, if_neg hnot, List.map_append, List.map_cons, List.map_nil, hk1]
    cases hlg : env.LocalGet k with
    | none => simp [hlg] at h
    | some rowBytes =>
      cases rowBytes with
      | none =>
        simp only [hlg, Option.some.injEq, Prod.mk.injEq] at h
        exact hfin _ rfl ⟨by simp [storedRow, hlg], rfl, rfl⟩ h.2.symm
      | some b =>
        simp only [hlg] at h
        cases hdec : env.DecodeRow b a.PartialAggTableInfo.ColumnTypes with
        | none => simp [hdec] at h
        | some r =>
          simp only [hdec] at h
          cases hinit : env.initAggStateWithRow r (env.NewAggState a.colTypes.length) with
          | none => simp [hinit] at h
          | some st =>
            simp only [hinit, Option.some.injEq, Prod.mk.injEq] at h
            exact hfin _ rfl ⟨by simp [storedRow, hlg, hdec], rfl, rfl⟩ h.2.symm

/-- The evaluation of a row on the holder at a position changes only aggregate states. -/
theorem evalOn_spec {σ : Type} (env : AggEnv σ) (a : Aggregator) (hs hs1 : stateHolders σ)
    (i : Nat) (row : Option Row) (f : σ → Row → Option σ) (hok : HoldersOk hs)
    (hld : ∀ h ∈ hs.holders, HolderLoaded env a h) (h : hs.evalOn i row f = some hs1) :
    HoldersOk hs1 ∧ (∀ h ∈ hs1.holders, HolderLoaded env a h) ∧
    hs1.holders.map (fun h => h.keyBytes) = hs.holders.map (fun h => h.keyBytes) := by
  unfold stateHolders.evalOn at h
  cases row with
  | none =>
    simp only [Option.some.injEq] at h
    rw [← h]
    exact ⟨hok, hld, rfl⟩
  | some r =>
    simp only [] at h
    cases hget : hs.holders[i]? with
    | none => simp [hget] at h
    | some hh =>
      simp only [hget] at h
      cases hf : f hh.aggState r with
      | none => simp [hf] at h
      | some st =>
        simp only [hf, Option.some.injEq] at h
        rw [← h]
        refine ⟨HoldersOk_modify hs i _ (fun _ => rfl) hok, ?_, keys_modify hs i _ (fun _ => rfl)⟩
        exact forall_mem_modifyAt (fun h1 : aggStateHolder σ => { h1 with aggState := st })
          (HolderLoaded env a) (fun x hx => hx) i hs.holders hld

/-- One row of the batch: a row with a new key adds a holder at the end, a row with a key
that has a holder adds none. -/
theorem calcPartialAggregations_spec {σ : Type} (env : AggEnv σ) (a : Aggregator)
    (prevRow currRow : Option Row) (hs hs1 : stateHolders σ) (shardID : Nat)
    (hok : HoldersOk hs) (hld : ∀ h ∈ hs.holders, HolderLoaded env a h)
    (h : calcPartialAggregations env a prevRow currRow hs shardID = some hs1) :
    ∃ k, createKeyFromPrevOrCurrRow env prevRow currRow shardID a.childColTypes a.groupByCols
        a.PartialAggTableInfo.ID = some k ∧
      HoldersOk hs1 ∧ (∀ h ∈ hs1.holders, HolderLoaded env a h) ∧
      hs1.holders.map (fun h => h.keyBytes) = addKey (hs.holders.map (fun h => h.keyBytes)) k := by
  unfold calcPartialAggregations at h
  cases hk : createKeyFromPrevOrCurrRow env prevRow currRow shardID a.childColTypes
      a.groupByCols a.PartialAggTableInfo.ID with
  | none => simp [hk] at h
  | some k =>
    simp only [hk] at h
    cases hl : loadAggregateState env a k hs with
    | none => simp [hl] at h
    | some r =>
      obtain ⟨i, hs2⟩ := r
      simp only [hl] at h
      obtain ⟨o2, l2, k2⟩ := loadAggregateState_spec env a k hs hs2 i hok hld hl
      cases he : hs2.evalOn i prevRow (fun st r => env.evaluateAggFunctions st r true) with
      | none => simp [he] at h
      | some hs3 =>
        simp only [he] at h
        obtain ⟨o3, l3, k3⟩ := evalOn_spec env a hs2 hs3 i prevRow _ o2 l2 he
        obtain ⟨o4, l4, k4⟩ := evalOn_spec env a hs3 hs1 i currRow _ o3 l3 h
        exact ⟨k, rfl, o4, l4, by rw [k4, k3, k2]⟩

theorem calcFullAggregation_spec {σ : Type} (env : AggEnv σ) (a : Aggregator)
    (prevRow currRow : Option Row) (hs hs1 : stateHolders σ) (shardID : Nat)
    (hok : HoldersOk hs) (hld : ∀ h ∈ hs.holders, HolderLoaded env a h)
    (h : calcFullAggregation env a prevRow currRow hs shardID = some hs1) :
    ∃ k, createKeyFromPrevOrCurrRow env prevRow currRow shardID a.colTypes a.keyCols
        a.FullAggTableInfo.ID = some k ∧
      HoldersOk hs1 ∧ (∀ h ∈ hs1.holders, HolderLoaded env a h) ∧
      hs1.holders.map (fun h => h.keyBytes) = addKey (hs.holders.map (fun h => h.keyBytes)) k := by
  unfold calcFullAggregation at h
  cases hk : createKeyFromPrevOrCurrRow env prevRow currRow shardID a.colTypes a.keyCols
      a.FullAggTableInfo.ID with
  | none => simp [hk] at h
  | some k =>
    simp only [hk] at h
    cases hl : loadAggregateState env a k hs with
    | none => simp [hl] at h
    | some r =>
      obtain ⟨i, hs2⟩ := r
      simp only [hl] at h
      obtain ⟨o2, l2, k2⟩ := loadAggregateState_spec env a k hs hs2 i hok hld hl
      cases he : hs2.evalOn i prevRow (fun st r => env.mergeRow r st true) with
      | none => simp [he] at h
      | some hs3 =>
        simp only [he] at h
        obtain ⟨o3, l3, k3⟩ := evalOn_spec env a hs2 hs3 i prevRow _ o2 l2 he
        obtain ⟨o4, l4, k4⟩ := evalOn_spec env a hs3 hs1 i currRow _ o3 l3 h
        exact ⟨k, rfl, o4, l4, by rw [k4, k3, k2]⟩

/-- The loop over the rows of a batch: every row has a key, and the keys of the holders
are the keys of the holders before the loop followed by the new keys, each where it was
first met. -/
theorem calcRows_spec {σ : Type} (env : AggEnv σ) (a : Aggregator) (rowsBatch : RowsBatch)
    (step : Option Row → Option Row → stateHolders σ → Option (stateHolders σ))
    (keyOf : Nat → Option Bytes)
    (hstep : ∀ i hs hs1, HoldersOk hs → (∀ h ∈ hs.holders, HolderLoaded env a h) →
      step (rowsBatch.PreviousRow i) (rowsBatch.CurrentRow i) hs = some hs1 →
      ∃ k, keyOf i = some k ∧ HoldersOk hs1 ∧ (∀ h ∈ hs1.holders, HolderLoaded env a h) ∧
        hs1.holders.map (fun h => h.keyBytes)
          = addKey (hs.holders.map (fun h => h.keyBytes)) k) :
    ∀ (idx : List Nat) (hs hs1 : stateHolders σ), HoldersOk hs →
      (∀ h ∈ hs.holders, HolderLoaded env a h) →
      calcRows step rowsBatch idx hs = some hs1 →
      ∃ keys : List Bytes, idx.map keyOf = keys.map some ∧ HoldersOk hs1 ∧
        (∀ h ∈ hs1.holders, HolderLoaded env a h) ∧
        hs1.holders.map (fun h => h.keyBytes)
          = keys.foldl addKey (hs.holders.map (fun h => h.keyBytes)) := by
  intro idx
  induction idx with
  | nil =>
    intro hs hs1 hok hld h
    simp only [calcRows, Option.some.injEq] at h
    rw [← h]
    exact ⟨[], rfl, hok, hld, rfl⟩
  | cons i rest ih =>
    intro hs hs1 hok hld h
    simp only [calcRows] at h
    cases hs2 : step (rowsBatch.PreviousRow i) (rowsBatch.CurrentRow i) hs with
    | none => simp [hs2] at h
    | some mid =>
      simp only [hs2] at h
      obtain ⟨k, hk, o2, l2, k2⟩ := hstep i hs mid hok hld hs2
      obtain ⟨keys, hkeys, o3, l3, k3⟩ := ih mid hs1 o2 l2 h
      refine ⟨k :: keys, ?_, o3, l3, ?_⟩
      · simp only [List.map_cons, hk, hkeys]
      · rw [k3, k2]
        rfl

/-! ## Keys in the order of their first occurrence -/

theorem firstOccurrences_subset (ks : List Bytes) : ∀ x ∈ firstOccurrences ks, x ∈ ks := by
  induction ks with
  | nil => intro x hx; simp [firstOccurrences] at hx
  | cons k rest ih =>
    intro x hx
    simp only [firstOccurrences, List.mem_cons, List.mem_filter] at hx
    rcases hx with hx | hx
    · rw [hx]; exact List.mem_cons_self _ _
    · exact List.mem_cons_of_mem _ (ih x hx.1)

theorem mem_firstOccurrences (ks : List Bytes) (x : Bytes) :
    x ∈ firstOccurrences ks ↔ x ∈ ks := by
  constructor
  · exact firstOccurrences_subset ks x
  · induction ks with
    | nil => intro hx; simp at hx
    | cons k rest ih =>
      intro hx
      simp only [firstOccurrences, List.mem_cons, List.mem_filter]
      by_cases heq : x = k
      · left; exact heq
      · right
        rcases List.mem_cons.mp hx with hx | hx
        · exact absurd hx heq
        · exact ⟨ih hx, by simpa using heq⟩

theorem firstOccurrences_nodup (ks : List Bytes) : (firstOccurrences ks).Nodup := by
  induction ks with
  | nil => simp [firstOccurrences]
  | cons k rest ih =>
    simp only [firstOccurrences, List.nodup_cons, List.mem_filter]
    refine ⟨fun h => ?_, ih.filter _⟩
    simp at h

/-- Adding the keys of a list one by one, each new key at the end, gives the keys in the
order of their first occurrence. -/
theorem foldl_addKey (ks : List Bytes) :
    ∀ acc : List Bytes,
      ks.foldl addKey acc = acc ++ (firstOccurrences ks).filter (fun x => decide (x ∉ acc)) := by
  induction ks with
  | nil => intro acc; simp [firstOccurrences]
  | cons k rest ih =>
    intro acc
    simp only [List.foldl_cons, ih, firstOccurrences]
    by_cases hk : k ∈ acc
    · have h1 : addKey acc k = acc := by simp [addKey, hk]
      rw [h1, List.filter_cons_of_neg (by simpa using hk), List.filter_filter]
      congr 1
      refine List.filter_congr (fun x _ => ?_)
      by_cases hx : x ∈ acc
      · simp [hx]
      · have hne : x ≠ k := fun h => hx (h ▸ hk)
        simp [hx, hne]
    · have h1 : addKey acc k = acc ++ [k] := by simp [addKey, hk]
      rw [h1, List.filter_cons_of_pos (by simpa using hk), List.filter_filter,
        List.append_assoc, List.singleton_append]
      congr 2
      refine List.filter_congr (fun x _ => ?_)
      by_cases hx : x ∈ acc
      · simp [hx]
      · by_cases hne : x = k
        · simp [hne]
        · simp [hx, hne]

theorem foldl_addKey_nil (ks : List Bytes) : ks.foldl addKey [] = firstOccurrences ks := by
  rw [foldl_addKey]
  simp

/-- The order of first occurrence: a key that comes earlier in `firstOccurrences` has its
first occurrence earlier in the list. -/
theorem firstOccurrences_sorted (ks : List Bytes) :
    (firstOccurrences ks).Pairwise (fun x y => firstIndex x ks < firstIndex y ks) := by
  induction ks with
  | nil => simp [firstOccurrences]
  | cons k rest ih =>
    simp only [firstOccurrences, List.pairwise_cons, List.mem_filter]
    constructor
    · intro y hy
      have hne : y ≠ k := by simpa using hy.2
      simp only [firstIndex, if_true, if_neg (fun h : k = y => hne h.symm)]
      exact Nat.succ_pos _
    · refine (ih.filter _).imp_of_mem ?_
      intro x y hx hy hlt
      have hxk : x ≠ k := by simpa using (List.mem_filter.mp hx).2
      have hyk : y ≠ k := by simpa using (List.mem_filter.mp hy).2
      simp only [firstIndex, if_neg (fun h : k = x => hxk h.symm),
        if_neg (fun h : k = y => hyk h.symm)]
      exact Nat.succ_lt_succ hlt

/-! ## Storing the results and forwarding them -/

theorem storeHolders_spec {σ : Type} (env : AggEnv σ) (a : Aggregator)
    (hs : List (aggStateHolder σ)) :
    ∀ (wb wb1 : WriteBatch) (stored : List (aggStateHolder σ)),
      storeHolders env a hs wb = some (stored, wb1) →
      wb1.ShardID = wb.ShardID ∧ (∃ added, wb1.puts = wb.puts ++ added) ∧
      List.Forall₂ (StoredFrom env a wb1.puts) hs stored := by
  induction hs with
  | nil =>
    intro wb wb1 stored h
    simp only [storeHolders, Option.some.injEq, Prod.mk.injEq] at h
    rw [← h.1, ← h.2]
    exact ⟨rfl, ⟨[], by simp⟩, List.Forall₂.nil⟩
  | cons x rest ih =>
    intro wb wb1 stored h
    simp only [storeHolders] at h
    by_cases hc : env.IsChanged x.aggState = true
    · rw [if_pos hc] at h
      cases hr : env.stateRow x.aggState with
      | none => simp [hr] at h
      | some row =>
        simp only [hr] at h
        cases hv : env.EncodeRow row a.PartialAggTableInfo.ColumnTypes with
        | none => simp [hv] at h
        | some v =>
          simp only [hv] at h
          cases hrec : storeHolders env a rest (wb.AddPut x.keyBytes v) with
          | none => simp [hrec] at h
          | some r =>
            obtain ⟨stored1, wb2⟩ := r
            simp only [hrec, Option.some.injEq, Prod.mk.injEq] at h
            obtain ⟨hsid, ⟨added, hadd⟩, hall⟩ := ih _ _ _ hrec
            rw [← h.1, ← h.2]
            have hputs : wb2.puts = wb.puts ++ ((x.keyBytes, v) :: added) := by
              rw [hadd]
              simp [WriteBatch.AddPut]
            refine ⟨hsid, ⟨_, hputs⟩, List.Forall₂.cons ?_ hall⟩
            refine ⟨rfl, rfl, rfl, rfl, fun _ => ⟨row, v, hr, hv, rfl, rfl, ?_⟩, fun hf => ?_⟩
            · rw [hputs]
              simp
            · rw [hc] at hf
              exact absurd hf (by simp)
    · rw [if_neg hc] at h
      cases hrec : storeHolders env a rest wb with
      | none => simp [hrec] at h
      | some r =>
        obtain ⟨stored1, wb2⟩ := r
        simp only [hrec, Option.some.injEq, Prod.mk.injEq] at h
        obtain ⟨hsid, hadd, hall⟩ := ih _ _ _ hrec
        rw [← h.1, ← h.2]
        refine ⟨hsid, hadd, List.Forall₂.cons ?_ hall⟩
        exact ⟨rfl, rfl, rfl, rfl, fun ht => absurd ht hc, fun _ => ⟨rfl, rfl⟩⟩

theorem StoredFrom_map {σ β : Type} (env : AggEnv σ) (a : Aggregator)
    (puts : List (Bytes × Bytes)) (g : aggStateHolder σ → β)
    (hg : ∀ h s, StoredFrom env a puts h s → g s = g h) :
    ∀ (hs stored : List (aggStateHolder σ)), List.Forall₂ (StoredFrom env a puts) hs stored →
      stored.map g = hs.map g := by
  intro hs stored h
  induction h with
  | nil => rfl
  | cons hx _ ih => simp only [List.map_cons, hg _ _ hx, ih]

/-- The loop over the holders in `HandleRows` adds the forward writes of the changed
holders, in the order of the holders, each with the position of its holder as index. -/
theorem forwardHolders_spec {σ : Type} (env : AggEnv σ) (a : Aggregator)
    (hs : List (aggStateHolder σ)) :
    ∀ (ctx ctx1 : exec.ExecutionContext) (i : Nat),
      forwardHolders env a ctx i hs = some ctx1 →
      ∃ fws : List ForwardWrite,
        ctx1 = { ctx with forwardBatch := ctx.forwardBatch ++ fws } ∧
        ((hs.enumFrom i).filter (fun p => env.IsChanged p.2.aggState)).map
            (fun p => forwardWrite env a ctx p.1 p.2) = fws.map some := by
  induction hs with
  | nil =>
    intro ctx ctx1 i h
    simp only [forwardHolders, Option.some.injEq] at h
    exact ⟨[], by rw [← h]; simp, rfl⟩
  | cons x rest ih =>
    intro ctx ctx1 i h
    simp only [forwardHolders] at h
    by_cases hc : env.IsChanged x.aggState = true
    · rw [if_pos hc] at h
      cases hfw : forwardWrite env a ctx i x with
      | none => simp [hfw] at h
      | some fw =>
        simp only [hfw] at h
        obtain ⟨fws, hctx, hmap⟩ := ih _ _ _ h
        refine ⟨fw :: fws, ?_, ?_⟩
        · rw [hctx]
          simp [exec.ExecutionContext.AddToForwardBatch]
        · rw [List.enumFrom_cons, List.filter_cons_of_pos (by simpa using hc)]
          simp only [List.map_cons, hfw]
          congr 1
    · rw [if_neg hc] at h
      obtain ⟨fws, hctx, hmap⟩ := ih _ _ _ h
      refine ⟨fws, hctx, ?_⟩
      rw [List.enumFrom_cons, List.filter_cons_of_neg (by simpa using hc)]
      exact hmap

/-- The holders that the loop over the rows of a batch builds for the partial
aggregation. -/
theorem partialHolders_spec {σ : Type} (env : AggEnv σ) (a : Aggregator) (rowsBatch : RowsBatch)
    (ctx : exec.ExecutionContext) (holders : stateHolders σ)
    (h : partialHolders env a rowsBatch ctx = some holders) :
    ∃ keys : List Bytes,
      (List.range rowsBatch.Len).map (partialKey env a rowsBatch ctx.WriteBatch.ShardID)
        = keys.map some ∧
      (∀ x ∈ holders.holders, HolderLoaded env a x) ∧
      holders.holders.map (fun x => x.keyBytes) = firstOccurrences keys := by
  unfold partialHolders at h
  obtain ⟨keys, hkeys, -, hld, hk⟩ := calcRows_spec env a rowsBatch _
    (partialKey env a rowsBatch ctx.WriteBatch.ShardID)
    (fun i hs hs1 hok hl hstep =>
      calcPartialAggregations_spec env a _ _ hs hs1 ctx.WriteBatch.ShardID hok hl hstep)
    (List.range rowsBatch.Len) ⟨[], []⟩ holders
    ⟨fun k i hk => by simp [kvGet] at hk, fun k _ => by simp⟩ (fun x hx => by simp at hx) h
  refine ⟨keys, hkeys, hld, ?_⟩
  rw [hk]
  exact foldl_addKey_nil keys

/-- C21: when `HandleRows` returns normally, every row of the batch has a group key, the
state holders are one per distinct key in the order in which the keys first occur in the
batch, and the forward batch has got, after what it held before, the forward writes of the
holders whose aggregate state is changed, one each and none for another holder, in the
order of the holders, each with the position of its holder among all holders as the
holder index of its dedup sequence. -/
theorem one_holder_per_key_and_forward_writes {σ : Type} (env : AggEnv σ) (a : Aggregator)
    (rowsBatch : RowsBatch) (ctx ctx1 : exec.ExecutionContext)
    (h : a.HandleRows env rowsBatch ctx = some ctx1) :
    ∃ (keys : List Bytes) (holders stored : stateHolders σ) (fws : List ForwardWrite),
      (List.range rowsBatch.Len).map (partialKey env a rowsBatch ctx.WriteBatch.ShardID)
        = keys.map some ∧
      partialHolders env a rowsBatch ctx = some holders ∧
      holders.holders.map (fun x => x.keyBytes) = firstOccurrences keys ∧
      (holders.holders.map (fun x => x.keyBytes)).Nodup ∧
      (∀ k, k ∈ holders.holders.map (fun x => x.keyBytes) ↔ k ∈ keys) ∧
      (holders.holders.map (fun x => x.keyBytes)).Pairwise
        (fun x y => firstIndex x keys < firstIndex y keys) ∧
      storeAggregateResults env a holders ctx.WriteBatch = some (stored, ctx1.WriteBatch) ∧
      stored.holders.map (fun x => (x.keyBytes, x.aggState))
        = holders.holders.map (fun x => (x.keyBytes, x.aggState)) ∧
      ((stored.holders.enumFrom 0).filter (fun p => env.IsChanged p.2.aggState)).map
          (fun p => forwardWrite env a ctx p.1 p.2) = fws.map some ∧
      ctx1.forwardBatch = ctx.forwardBatch ++ fws := by
  unfold Aggregator.HandleRows at h
  cases hp : partialHolders env a rowsBatch ctx with
  | none => simp [hp] at h
  | some holders =>
    simp only [hp] at h
    obtain ⟨keys, hkeys, -, hfo⟩ := partialHolders_spec env a rowsBatch ctx holders hp
    unfold storeAggregateResults at h ⊢
    cases hst : storeHolders env a holders.holders ctx.WriteBatch with
    | none => simp [hst] at h
    | some r =>
      obtain ⟨stored, wb⟩ := r
      simp only [hst] at h
      obtain ⟨hsid, -, hall⟩ := storeHolders_spec env a holders.holders _ _ _ hst
      obtain ⟨fws, hctx, hmap⟩ := forwardHolders_spec env a stored _ _ 0 h
      have hwb : ctx1.WriteBatch = wb := by rw [hctx]
      have hfw : ∀ (i : Nat) (x : aggStateHolder σ),
          forwardWrite env a { ctx with WriteBatch := wb } i x = forwardWrite env a ctx i x := by
        intro i x
        simp only [forwardWrite, hsid]
      refine ⟨keys, holders, { holders with holders := stored }, fws, hkeys, rfl, hfo, ?_, ?_, ?_,
        ?_, ?_, ?_, ?_⟩
      · rw [hfo]; exact firstOccurrences_nodup keys
      · intro k; rw [hfo]; exact mem_firstOccurrences keys k
      · rw [hfo]; exact firstOccurrences_sorted keys
      · rw [hwb]
        simp only [hst]
      · exact StoredFrom_map env a wb.puts (fun x => (x.keyBytes, x.aggState))
          (fun x s hs => by
            show (s.keyBytes, s.aggState) = (x.keyBytes, x.aggState)
            rw [hs.1, hs.2.1]) _ _ hall
      · rw [← hmap]
        exact List.map_congr_left (fun p _ => (hfw p.1 p.2).symm)
      · rw [hctx]

/-- The batch of the examples: four rows for the groups 4, 5, 3 and 5 give three holders,
the first of them unchanged, and the forward writes of the second and the third holder
carry the holder indexes 1 and 2. -/
theorem one_holder_per_key_and_forward_writes_witness :
    demoAggregator.HandleRows demoAggEnv demoRowsBatch demoPushCtx = some demoPushCtxAfter ∧
    ∃ (keys : List Bytes) (holders stored : stateHolders (Int × Bool))
        (fws : List ForwardWrite),
      (List.range demoRowsBatch.Len).map
          (partialKey demoAggEnv demoAggregator demoRowsBatch demoPushCtx.WriteBatch.ShardID)
        = keys.map some ∧
      partialHolders demoAggEnv demoAggregator demoRowsBatch demoPushCtx = some holders ∧
      holders.holders.map (fun x => x.keyBytes) = firstOccurrences keys ∧
      (holders.holders.map (fun x => x.keyBytes)).Nodup ∧
      (∀ k, k ∈ holders.holders.map (fun x => x.keyBytes) ↔ k ∈ keys) ∧
      (holders.holders.map (fun x => x.keyBytes)).Pairwise
        (fun x y => firstIndex x keys < firstIndex y keys) ∧
      storeAggregateResults demoAggEnv demoAggregator holders demoPushCtx.WriteBatch
        = some (stored, demoPushCtxAfter.WriteBatch) ∧
      stored.holders.map (fun x => (x.keyBytes, x.aggState))
        = holders.holders.map (fun x => (x.keyBytes, x.aggState)) ∧
      ((stored.holders.enumFrom 0).filter (fun p => demoAggEnv.IsChanged p.2.aggState)).map
          (fun p => forwardWrite demoAggEnv demoAggregator demoPushCtx p.1 p.2)
        = fws.map some ∧
      demoPushCtxAfter.forwardBatch = demoPushCtx.forwardBatch ++ fws :=
  ⟨by decide,
    one_holder_per_key_and_forward_writes demoAggEnv demoAggregator demoRowsBatch demoPushCtx
      demoPushCtxAfter (by decide)⟩

/-! ## The rows batch for the parent of the full aggregation -/

theorem rowAt_append (rows more : List Row) (index : Int)
    (h : 0 ≤ index ∧ index < rows.length) :
    (⟨rows ++ more, []⟩ : RowsBatch).rowAt index = (⟨rows, []⟩ : RowsBatch).rowAt index := by
  have hlt : index.toNat < rows.length := by omega
  simp only [RowsBatch.rowAt, if_neg (not_lt.mpr h.1)]
  exact List.getElem?_append_left hlt

theorem EntryFor_append (rows more : List Row) (e : RowsEntry) (prev curr : Option Row)
    (h : EntryFor rows e prev curr) : EntryFor (rows ++ more) e prev curr := by
  obtain ⟨h1, h2, h3, h4⟩ := h
  have hlen : ((rows ++ more).length : Int) = rows.length + more.length := by
    simp
  refine ⟨?_, ?_, ?_, ?_⟩
  · rcases h3 with h3 | h3
    · rw [← h1, h3]; rfl
    · rw [rowAt_append rows more _ h3]; exact h1
  · rcases h4 with h4 | h4
    · rw [← h2, h4]; rfl
    · rw [rowAt_append rows more _ h4]; exact h2
  · rcases h3 with h3 | h3
    · left; exact h3
    · right; omega
  · rcases h4 with h4 | h4
    · left; exact h4
    · right; omega

theorem rowAt_length (rows more : List Row) (r : Row) :
    (⟨rows ++ r :: more, []⟩ : RowsBatch).rowAt (rows.length : Int) = some r := by
  have h0 : ¬ (rows.length : Int) < 0 := by omega
  simp only [RowsBatch.rowAt, if_neg h0, Int.toNat_ofNat]
  rw [List.getElem?_append_right (le_refl _), Nat.sub_self]
  simp

/-- The loop of `HandleRemoteRows` over the holders: the entries that it adds stand, one
after the other, for the initial row and the stored row of the changed holders. -/
theorem parentEntries_spec {σ : Type} (env : AggEnv σ) (hs : List (aggStateHolder σ)) :
    ∀ (rows : List Row) (entries : List RowsEntry),
      ∃ (newRows : List Row) (newEntries : List RowsEntry),
        parentEntries env hs rows entries rows.length
          = (rows ++ newRows, entries ++ newEntries, ((rows ++ newRows).length : Int)) ∧
        List.Forall₂ (fun e x => EntryFor (rows ++ newRows) e x.initialRow x.row) newEntries
          (hs.filter (fun x => env.IsChanged x.aggState)) := by
  induction hs with
  | nil =>
    intro rows entries
    exact ⟨[], [], by simp [parentEntries], by simp⟩
  | cons x rest ih =>
    intro rows entries
    by_cases hc : env.IsChanged x.aggState = true
    · rw [List.filter_cons_of_pos (by simpa using hc)]
      simp only [parentEntries, if_pos hc]
      cases hi : x.initialRow with
      | none =>
        cases hr : x.row with
        | none =>
          simp only []
          obtain ⟨nr, ne, heq, hall⟩ := ih rows (entries ++ [⟨-1, -1⟩])
          refine ⟨nr, ⟨-1, -1⟩ :: ne, ?_, List.Forall₂.cons ?_ hall⟩
          · rw [heq]; simp
          · show EntryFor _ _ x.initialRow x.row
            rw [hi, hr]
            exact ⟨rfl, rfl, Or.inl rfl, Or.inl rfl⟩
        | some cr =>
          simp only []
          have hcast : ((rows.length : Int) + 1) = ((rows ++ [cr]).length : Int) := by simp
          rw [hcast]
          obtain ⟨nr, ne, heq, hall⟩ := ih (rows ++ [cr]) (entries ++ [⟨-1, rows.length⟩])
          refine ⟨cr :: nr, ⟨-1, rows.length⟩ :: ne, ?_, List.Forall₂.cons ?_ ?_⟩
          · rw [heq]; simp
          · show EntryFor _ _ x.initialRow x.row
            rw [hi, hr]
            refine ⟨rfl, rowAt_length rows nr cr, Or.inl rfl, Or.inr ?_⟩
            simp only [List.length_append, List.length_cons]
            omega
          · simpa using hall
      | some pr =>
        cases hr : x.row with
        | none =>
          simp only []
          have hcast : ((rows.length : Int) + 1) = ((rows ++ [pr]).length : Int) := by simp
          rw [hcast]
          obtain ⟨nr, ne, heq, hall⟩ := ih (rows ++ [pr]) (entries ++ [⟨rows.length, -1⟩])
          refine ⟨pr :: nr, ⟨rows.length, -1⟩ :: ne, ?_, List.Forall₂.cons ?_ ?_⟩
          · rw [heq]; simp
          · show EntryFor _ _ x.initialRow x.row
            rw [hi, hr]
            refine ⟨rowAt_length rows nr pr, rfl, Or.inr ?_, Or.inl rfl⟩
            simp only [List.length_append, List.length_cons]
            omega
          · simpa using hall
        | some cr =>
          simp only []
          have hcast : ((rows.length : Int) + 1 + 1) = ((rows ++ [pr] ++ [cr]).length : Int) := by
            simp
            omega
          rw [hcast]
          obtain ⟨nr, ne, heq, hall⟩ := ih (rows ++ [pr] ++ [cr])
            (entries ++ [⟨rows.length, (rows.length : Int) + 1⟩])
          refine ⟨pr :: cr :: nr, ⟨rows.length, (rows.length : Int) + 1⟩ :: ne, ?_,
            List.Forall₂.cons ?_ ?_⟩
          · rw [heq]; simp
          · show EntryFor _ _ x.initialRow x.row
            rw [hi, hr]
            refine ⟨rowAt_length rows (cr :: nr) pr, ?_, Or.inr ?_, Or.inr ?_⟩
            · have := rowAt_length (rows ++ [pr]) nr cr
              simpa using this
            · simp only [List.length_append, List.length_cons]
              omega
            · simp only [List.length_append, List.length_cons]
              omega
          · simpa using hall
    · rw [List.filter_cons_of_neg (by simpa using hc)]
      simp only [parentEntries, if_neg hc]
      exact ih rows entries

theorem fullHolders_spec {σ : Type} (env : AggEnv σ) (a : Aggregator) (rowsBatch : RowsBatch)
    (ctx : exec.ExecutionContext) (holders : stateHolders σ)
    (h : fullHolders env a rowsBatch ctx = some holders) :
    ∃ keys : List Bytes,
      (List.range rowsBatch.Len).map (fullKey env a rowsBatch ctx.WriteBatch.ShardID)
        = keys.map some ∧
      (∀ x ∈ holders.holders, HolderLoaded env a x) ∧
      holders.holders.map (fun x => x.keyBytes) = firstOccurrences keys := by
  unfold fullHolders at h
  obtain ⟨keys, hkeys, -, hld, hk⟩ := calcRows_spec env a rowsBatch _
    (fullKey env a rowsBatch ctx.WriteBatch.ShardID)
    (fun i hs hs1 hok hl hstep =>
      calcFullAggregation_spec env a _ _ hs hs1 ctx.WriteBatch.ShardID hok hl hstep)
    (List.range rowsBatch.Len) ⟨[], []⟩ holders
    ⟨fun k i hk => by simp [kvGet] at hk, fun k _ => by simp⟩ (fun x hx => by simp at hx) h
  refine ⟨keys, hkeys, hld, ?_⟩
  rw [hk]
  exact foldl_addKey_nil keys

theorem forall₂_mem_right {α β : Type} (R : α → β → Prop) :
    ∀ (l1 : List α) (l2 : List β), List.Forall₂ R l1 l2 → ∀ y ∈ l2, ∃ x ∈ l1, R x y := by
  intro l1 l2 h
  induction h with
  | nil => intro y hy; simp at hy
  | cons hxy _ ih =>
    intro y hy
    rcases List.mem_cons.mp hy with hy | hy
    · rw [hy]; exact ⟨_, List.mem_cons_self _ _, hxy⟩
    · obtain ⟨x, hx, hr⟩ := ih y hy
      exact ⟨x, List.mem_cons_of_mem _ hx, hr⟩

theorem forall₂_mem_left {α β : Type} (R : α → β → Prop) :
    ∀ (l1 : List α) (l2 : List β), List.Forall₂ R l1 l2 → ∀ x ∈ l1, ∃ y ∈ l2, R x y := by
  intro l1 l2 h
  induction h with
  | nil => intro x hx; simp at hx
  | cons hxy _ ih =>
    intro x hx
    rcases List.mem_cons.mp hx with hx | hx
    · rw [hx]; exact ⟨_, List.mem_cons_self _ _, hxy⟩
    · obtain ⟨y, hy, hr⟩ := ih x hx
      exact ⟨y, List.mem_cons_of_mem _ hy, hr⟩

/-- C22: when `HandleRemoteRows` has processed a batch and stored the results without
error, the state holders are one per distinct group key; the initial row of every holder
is the row that the storage held under its key (absent when there was none); every changed
holder has the row read out of its state, which was put into the write batch under the
key; the rows batch for the parent has one entry for each changed holder, in the order of
the holders, which stands for the initial row and the stored row of the holder; the
current row of every entry is present, and every position of an entry other than -1 is
the position of a row of the batch.  That batch is what the parent operator gets. -/
theorem remote_rows_batch_entries {σ : Type} (env : AggEnv σ) (a : Aggregator)
    (rowsBatch batch : RowsBatch) (ctx ctx1 : exec.ExecutionContext) (stored : stateHolders σ)
    (h : remoteRowsBatch env a rowsBatch ctx = some (stored, batch, ctx1)) :
    ∃ keys : List Bytes,
      (List.range rowsBatch.Len).map (fullKey env a rowsBatch ctx.WriteBatch.ShardID)
        = keys.map some ∧
      stored.holders.map (fun x => x.keyBytes) = firstOccurrences keys ∧
      (∀ x ∈ stored.holders,
        x.initialRow = storedRow env a x.keyBytes ∧
        (env.IsChanged x.aggState = true →
          ∃ r v, env.stateRow x.aggState = some r ∧
            env.EncodeRow r a.PartialAggTableInfo.ColumnTypes = some v ∧
            x.row = some r ∧ (x.keyBytes, v) ∈ ctx1.WriteBatch.puts)) ∧
      List.Forall₂ (fun e x => EntryFor batch.rows e x.initialRow x.row) batch.entries
        (stored.holders.filter (fun x => env.IsChanged x.aggState)) ∧
      (∀ e ∈ batch.entries,
        (0 ≤ e.currIndex ∧ e.currIndex < batch.rows.length) ∧
        (e.prevIndex = -1 ∨ (0 ≤ e.prevIndex ∧ e.prevIndex < batch.rows.length)) ∧
        batch.rowAt e.currIndex ≠ none) ∧
      (∀ parent, a.HandleRemoteRows env parent rowsBatch ctx = parent batch ctx1) := by
  have hparent : ∀ parent, a.HandleRemoteRows env parent rowsBatch ctx = parent batch ctx1 := by
    intro parent
    simp only [Aggregator.HandleRemoteRows, h]
  unfold remoteRowsBatch at h
  cases hp : fullHolders env a rowsBatch ctx with
  | none => simp [hp] at h
  | some holders =>
    simp only [hp] at h
    obtain ⟨keys, hkeys, hld, hfo⟩ := fullHolders_spec env a rowsBatch ctx holders hp
    unfold storeAggregateResults at h
    cases hst : storeHolders env a holders.holders ctx.WriteBatch with
    | none => simp [hst] at h
    | some r =>
      obtain ⟨st, wb⟩ := r
      simp only [hst, Option.some.injEq, Prod.mk.injEq] at h
      obtain ⟨hstored, hbatch, hctx⟩ := h
      obtain ⟨-, -, hall⟩ := storeHolders_spec env a holders.holders _ _ _ hst
      obtain ⟨nr, ne, hpe, hent⟩ := parentEntries_spec env st [] []
      have hlen0 : ((([] : List Row).length : Nat) : Int) = 0 := rfl
      rw [hlen0] at hpe
      have hrows : batch.rows = nr := by rw [← hbatch, hpe]; simp
      have hentries : batch.entries = ne := by rw [← hbatch, hpe]; simp
      have hholders : stored.holders = st := by rw [← hstored]
      have hputs : ctx1.WriteBatch.puts = wb.puts := by rw [← hctx]
      have hfacts : ∀ x ∈ st,
          x.initialRow = storedRow env a x.keyBytes ∧
          (env.IsChanged x.aggState = true →
            ∃ r v, env.stateRow x.aggState = some r ∧
              env.EncodeRow r a.PartialAggTableInfo.ColumnTypes = some v ∧
              x.row = some r ∧ (x.keyBytes, v) ∈ wb.puts) := by
        intro x hx
        obtain ⟨y, hy, hs⟩ := forall₂_mem_right _ _ _ hall x hx
        obtain ⟨s1, s2, s3, -, s5, -⟩ := hs
        refine ⟨?_, fun hc => ?_⟩
        · rw [s3, s1]; exact (hld y hy).1
        · rw [s2] at hc
          obtain ⟨r, v, h1, h2, h3, -, h5⟩ := s5 hc
          exact ⟨r, v, by rw [s2]; exact h1, h2, h3, by rw [s1]; exact h5⟩
      have hent2 : List.Forall₂ (fun e x => EntryFor batch.rows e x.initialRow x.row)
          batch.entries (stored.holders.filter (fun x => env.IsChanged x.aggState)) := by
        rw [hrows, hentries, hholders]
        simpa using hent
      refine ⟨keys, hkeys, ?_, ?_, hent2, ?_, hparent⟩
      · rw [hholders, ← hfo]
        exact StoredFrom_map env a wb.puts (fun x => x.keyBytes) (fun x s hs => hs.1) _ _ hall
      · rw [hholders, hputs]
        exact hfacts
      · intro e he
        obtain ⟨x, hx, e1, e2, e3, e4⟩ := forall₂_mem_left _ _ _ hent2 e he
        rw [hholders] at hx
        obtain ⟨hxm, hxc⟩ := List.mem_filter.mp hx
        obtain ⟨r, v, -, -, hrow, -⟩ := (hfacts x hxm).2 hxc
        have hcur : batch.rowAt e.currIndex = some r := by
          rw [← hrow, ← e2]
          rfl
        have hne : e.currIndex ≠ -1 := by
          intro hm
          rw [hm] at hcur
          simp [RowsBatch.rowAt] at hcur
        refine ⟨?_, e3, by rw [hcur]; simp⟩
        rcases e4 with e4 | e4
        · exact absurd e4 hne
        · exact e4

/-- The batch of the examples: the groups 5 and 3 change; the entry of group 5 has no
previous row, the entry of group 3 has the stored row 10 as previous row and the new row
13 as current row. -/
theorem remote_rows_batch_entries_witness :
    ∃ keys : List Bytes,
      (List.range demoRemoteBatch.Len).map
          (fullKey demoAggEnv demoAggregator demoRemoteBatch demoPushCtx.WriteBatch.ShardID)
        = keys.map some ∧
      demoStoredHolders.holders.map (fun x => x.keyBytes) = firstOccurrences keys ∧
      (∀ x ∈ demoStoredHolders.holders,
        x.initialRow = storedRow demoAggEnv demoAggregator x.keyBytes ∧
        (demoAggEnv.IsChanged x.aggState = true →
          ∃ r v, demoAggEnv.stateRow x.aggState = some r ∧
            demoAggEnv.EncodeRow r demoAggregator.PartialAggTableInfo.ColumnTypes = some v ∧
            x.row = some r ∧ (x.keyBytes, v) ∈ demoRemoteCtxAfter.WriteBatch.puts)) ∧
      List.Forall₂ (fun e x => EntryFor demoParentBatch.rows e x.initialRow x.row)
        demoParentBatch.entries
        (demoStoredHolders.holders.filter (fun x => demoAggEnv.IsChanged x.aggState)) ∧
      (∀ e ∈ demoParentBatch.entries,
        (0 ≤ e.currIndex ∧ e.currIndex < demoParentBatch.rows.length) ∧
        (e.prevIndex = -1 ∨ (0 ≤ e.prevIndex ∧ e.prevIndex < demoParentBatch.rows.length)) ∧
        demoParentBatch.rowAt e.currIndex ≠ none) ∧
      (∀ parent, demoAggregator.HandleRemoteRows demoAggEnv parent demoRemoteBatch demoPushCtx
        = parent demoParentBatch demoRemoteCtxAfter) :=
  remote_rows_batch_entries demoAggEnv demoAggregator demoRemoteBatch demoParentBatch demoPushCtx
    demoRemoteCtxAfter demoStoredHolders rfl

/-! ## Lookups in the planner's view of a schema -/

theorem mapLoad_mapStore_ne {α : Type} (key key1 : Str) (v : α) (m : List (Str × α))
    (h : key1 ≠ key) : mapLoad key1 (mapStore key v m) = mapLoad key1 m := by
  have hne : ¬ key = key1 := fun hh => h hh.symm
  simp only [mapStore, mapLoad, if_neg hne]
  induction m with
  | nil => rfl
  | cons e rest ih =>
    obtain ⟨k, x⟩ := e
    unfold mapDelete at ih ⊢
    by_cases hk : k = key
    · rw [List.filter_cons_of_neg (by simp [hk]), ih]
      have hk1 : ¬ k = key1 := fun hh => h (hh.symm.trans hk)
      simp only [mapLoad, if_neg hk1]
    · rw [List.filter_cons_of_pos (by simp [hk])]
      simp only [mapLoad, ih]

/-- The loop over the tables leaves the entry of a name alone that no table of the list has
which is not internal. -/
theorem infoTables_other (conv : ColumnType → Nat) (name : Str) (ts : List TableInfo) :
    ∀ (tabInfos tabInfos1 : List model.TableInfo) (tablesMap tablesMap1 : List (Str × model.TableInfo)),
      infoTables conv tabInfos tablesMap ts = some (tabInfos1, tablesMap1) →
      (∀ t ∈ ts, t.Internal = false → t.Name ≠ name) →
      mapLoad name tablesMap1 = mapLoad name tablesMap := by
  induction ts with
  | nil =>
    intro ti ti1 tm tm1 h _
    simp only [infoTables, Option.some.injEq, Prod.mk.injEq] at h
    rw [h.2]
  | cons t rest ih =>
    intro ti ti1 tm tm1 h hne
    simp only [infoTables] at h
    by_cases hint : t.Internal = true
    · rw [if_pos hint] at h
      exact ih _ _ _ _ h (fun t1 h1 => hne t1 (List.mem_cons_of_mem _ h1))
    · rw [if_neg hint] at h
      cases htab : tableToInfo conv t with
      | none => simp [htab] at h
      | some tab =>
        simp only [htab] at h
        rw [ih _ _ _ _ h (fun t1 h1 => hne t1 (List.mem_cons_of_mem _ h1))]
        exact mapLoad_mapStore_ne _ _ _ _
          (fun hh => hne t (List.mem_cons_self _ _) (by simpa using hint) hh.symm)

/-- The loop over the tables stores the info built for a table that is not internal under
the name of the table, when no other such table has the same name. -/
theorem infoTables_stored (conv : ColumnType → Nat) (t : TableInfo) (ts : List TableInfo) :
    ∀ (tabInfos tabInfos1 : List model.TableInfo) (tablesMap tablesMap1 : List (Str × model.TableInfo)),
      infoTables conv tabInfos tablesMap ts = some (tabInfos1, tablesMap1) →
      t ∈ ts → t.Internal = false →
      (∀ t1 ∈ ts, t1.Internal = false → t1.Name = t.Name → t1 = t) →
      ∃ tab, tableToInfo conv t = some tab ∧ mapLoad t.Name tablesMap1 = some tab := by
  induction ts with
  | nil => intro _ _ _ _ _ hmem; simp at hmem
  | cons x rest ih =>
    intro ti ti1 tm tm1 h hmem hint huniq
    simp only [infoTables] at h
    have huniq1 : ∀ t1 ∈ rest, t1.Internal = false → t1.Name = t.Name → t1 = t :=
      fun t1 h1 => huniq t1 (List.mem_cons_of_mem _ h1)
    by_cases hrest : t ∈ rest
    · by_cases hx : x.Internal = true
      · rw [if_pos hx] at h
        exact ih _ _ _ _ h hrest hint huniq1
      · rw [if_neg hx] at h
        cases htab : tableToInfo conv x with
        | none => simp [htab] at h
        | some tab =>
          simp only [htab] at h
          exact ih _ _ _ _ h hrest hint huniq1
    · have hxt : x = t := by
        rcases List.mem_cons.mp hmem with hm | hm
        · exact hm.symm
        · exact absurd hm hrest
      rw [hxt, if_neg (by simp [hint])] at h
      cases htab : tableToInfo conv t with
      | none => simp [htab] at h
      | some tab =>
        simp only [htab] at h
        refine ⟨tab, rfl, ?_⟩
        rw [infoTables_other conv t.Name rest _ _ _ _ h
          (fun t1 h1 hi hn => hrest (huniq1 t1 h1 hi hn ▸ h1))]
        exact mapLoad_mapStore_self _ _ _

/-- For names that are their own lower-case form, `TableByName` returns the info built for
a table of the schema that is not internal and shares its name with no other such
table. -/
theorem TableByName_lower_case (conv : ColumnType → Nat) (schemaName : Str)
    (tableInfos : List TableInfo) (pis : pranaInfoSchema) (t : TableInfo)
    (h : schemaToInfoSchema conv schemaName tableInfos = some pis)
    (hmem : t ∈ tableInfos) (hint : t.Internal = false)
    (huniq : ∀ t1 ∈ tableInfos, t1.Internal = false → t1.Name = t.Name → t1 = t)
    (hschema : schemaName.map Char.toLower = schemaName)
    (htable : t.Name.map Char.toLower = t.Name) :
    ∃ tab, tableToInfo conv t = some tab ∧
      pis.TableByName (model.NewCIStr schemaName) (model.NewCIStr t.Name) = .ok tab := by
  unfold schemaToInfoSchema at h
  cases hl : infoTables conv [] [] tableInfos with
  | none => simp [hl] at h
  | some r =>
    obtain ⟨tabInfos, tablesMap⟩ := r
    simp only [hl, Option.some.injEq] at h
    obtain ⟨tab, htab, hload⟩ := infoTables_stored conv t tableInfos _ _ _ _ hl hmem hint huniq
    refine ⟨tab, htab, ?_⟩
    rw [← h]
    simp only [pranaInfoSchema.TableByName, model.NewCIStr, hschema, htable, mapLoad, if_true,
      hload]

/-- What `Open` leaves in memory: the sequences that `loadSequences` reads from the
LastLogIndexReceived row of the shard. -/
theorem Open_loads_sequences (faults : KVFaults) (ids : TableIDs) (s : ShardOnDiskStateMachine)
    (peb : Store) (h : (Open faults ids s peb).1 = .ok) :
    (loadSequences faults ids peb s.shardID).1 = .ok ∧
    (Open faults ids s peb).2.1.receiverSequence
      = (loadSequences faults ids peb s.shardID).2.2.1 ∧
    (Open faults ids s peb).2.1.batchSequence
      = (loadSequences faults ids peb s.shardID).2.2.2 := by
  have hsid : (loadDedupCache faults ids s peb).2.shardID = s.shardID := by
    unfold loadDedupCache
    simp only []
    cases LocalScan faults peb (EncodeTableKeyPrefix ids.ForwardDedupTableID s.shardID 16)
        (EncodeTableKeyPrefix (ids.ForwardDedupTableID + 1) s.shardID 16) with
    | none => rfl
    | some pairs =>
      simp only []
      cases loadDedupPairs [] pairs <;> rfl
  unfold Open at h ⊢
  simp only [] at h ⊢
  by_cases hc : (loadDedupCache faults ids s peb).1 = .ok
  · rw [if_pos hc] at h ⊢
    rw [hsid] at h ⊢
    by_cases hq : (loadSequences faults ids peb s.shardID).1 = .ok
    · rw [if_pos hq]
      exact ⟨hq, rfl, rfl⟩
    · rw [if_neg hq] at h
      exact absurd h hq
  · rw [if_neg hc] at h
    exact absurd h hc

end Pranadb
